import Mathlib

/-!
# Chinese chess engine core: board, move generator, evaluator, search

A shallow embedding of the namespace variant of the engine
(`src/include/*.hpp`, `src/src/*.cpp`).

Conventions of the embedding.

* `int32_t` coordinates and scores are `Int`.  Coordinates produced by the
  move generator stay within `0..13`, and the evaluation is a sum of at most
  90 table entries of magnitude at most `10070`, so no 32-bit wrap-around can
  occur (`board_calc_score_range` below proves the bound that matters).
* `std::array` and C array look-ups with an index outside the array are
  undefined behaviour in the source; here every such look-up returns `none`
  and the enclosing computation is in the `Option` monad.
* `std::vector::emplace_back` is `pm ++ [m]`; `std::deque` history is a list
  whose last element is `history.back()`.
* Functions taking `ChessBoard&` return the new board; functions taking
  `const ChessBoard&` return only their result.
* The unbounded `for (;;)` scans of rook and cannon carry a step budget; a
  scan that runs out of budget yields `none`.
-/

namespace cnchess

/-! ## constants.hpp -/

def BOARD_ROW_LEN : Int := 14
def BOARD_COL_LEN : Int := 13
def BOARD_ACTUAL_ROW_LEN : Int := 10
def BOARD_ACTUAL_COL_LEN : Int := 9
def BOARD_ACTUAL_ROW_BEGIN : Int := 2
def BOARD_ACTUAL_COL_BEGIN : Int := 2

def BOARD_RIVER_UP : Int := BOARD_ACTUAL_ROW_BEGIN + 4
def BOARD_RIVER_DOWN : Int := BOARD_ACTUAL_ROW_BEGIN + 5

def BOARD_9_PALACE_UP_TOP : Int := BOARD_ACTUAL_ROW_BEGIN
def BOARD_9_PALACE_UP_BOTTOM : Int := BOARD_ACTUAL_ROW_BEGIN + 2
def BOARD_9_PALACE_UP_LEFT : Int := BOARD_ACTUAL_COL_BEGIN + 3
def BOARD_9_PALACE_UP_RIGHT : Int := BOARD_ACTUAL_COL_BEGIN + 5

def BOARD_9_PALACE_DOWN_TOP : Int := BOARD_ACTUAL_ROW_BEGIN + 7
def BOARD_9_PALACE_DOWN_BOTTOM : Int := BOARD_ACTUAL_ROW_BEGIN + 9
def BOARD_9_PALACE_DOWN_LEFT : Int := BOARD_ACTUAL_COL_BEGIN + 3
def BOARD_9_PALACE_DOWN_RIGHT : Int := BOARD_ACTUAL_COL_BEGIN + 5

/-- The value of `std::numeric_limits<int32_t>::min()`. -/
def INT32_MIN : Int := -2147483648

/-- The value of `std::numeric_limits<int32_t>::max()`. -/
def INT32_MAX : Int := 2147483647

/-! ## piece.hpp -/

/-- Piece side (`enum PieceSide`). -/
inductive PieceSide where
  | PS_UP
  | PS_DOWN
  | PS_EXTRA
  deriving DecidableEq, Repr

/-- Piece type (`enum PieceType`). -/
inductive PieceType where
  | PT_PAWN
  | PT_CANNON
  | PT_ROOK
  | PT_KNIGHT
  | PT_BISHOP
  | PT_ADVISOR
  | PT_GENERAL
  | PT_EMPTY
  | PT_OUT
  deriving DecidableEq, Repr

/-- Piece identity (`enum Piece`), in declaration order; the trailing counter
`PIECE_TOTAL_LEN` is never stored on a board and is left out. -/
inductive Piece where
  | P_UP
  | P_UC
  | P_UR
  | P_UN
  | P_UB
  | P_UA
  | P_UG
  | P_DP
  | P_DC
  | P_DR
  | P_DN
  | P_DB
  | P_DA
  | P_DG
  | P_EE
  | P_EO
  deriving DecidableEq, Repr

open PieceSide PieceType Piece

/-- The integer value of a `Piece` enumerator, used as a table index. -/
def Piece.toNat : Piece → Nat
  | P_UP => 0
  | P_UC => 1
  | P_UR => 2
  | P_UN => 3
  | P_UB => 4
  | P_UA => 5
  | P_UG => 6
  | P_DP => 7
  | P_DC => 8
  | P_DR => 9
  | P_DN => 10
  | P_DB => 11
  | P_DA => 12
  | P_DG => 13
  | P_EE => 14
  | P_EO => 15

/-- The starting layout `CHESS_BOARD_DEFAULT_TEMPLATE`, row by row. -/
def CHESS_BOARD_DEFAULT_TEMPLATE : List (List Piece) :=
  [ [ P_EO, P_EO, P_EO, P_EO, P_EO, P_EO, P_EO, P_EO, P_EO, P_EO, P_EO, P_EO, P_EO ],
    [ P_EO, P_EO, P_EO, P_EO, P_EO, P_EO, P_EO, P_EO, P_EO, P_EO, P_EO, P_EO, P_EO ],
    [ P_EO, P_EO, P_UR, P_UN, P_UB, P_UA, P_UG, P_UA, P_UB, P_UN, P_UR, P_EO, P_EO ],
    [ P_EO, P_EO, P_EE, P_EE, P_EE, P_EE, P_EE, P_EE, P_EE, P_EE, P_EE, P_EO, P_EO ],
    [ P_EO, P_EO, P_EE, P_UC, P_EE, P_EE, P_EE, P_EE, P_EE, P_UC, P_EE, P_EO, P_EO ],
    [ P_EO, P_EO, P_UP, P_EE, P_UP, P_EE, P_UP, P_EE, P_UP, P_EE, P_UP, P_EO, P_EO ],
    [ P_EO, P_EO, P_EE, P_EE, P_EE, P_EE, P_EE, P_EE, P_EE, P_EE, P_EE, P_EO, P_EO ],
    [ P_EO, P_EO, P_EE, P_EE, P_EE, P_EE, P_EE, P_EE, P_EE, P_EE, P_EE, P_EO, P_EO ],
    [ P_EO, P_EO, P_DP, P_EE, P_DP, P_EE, P_DP, P_EE, P_DP, P_EE, P_DP, P_EO, P_EO ],
    [ P_EO, P_EO, P_EE, P_DC, P_EE, P_EE, P_EE, P_EE, P_EE, P_DC, P_EE, P_EO, P_EO ],
    [ P_EO, P_EO, P_EE, P_EE, P_EE, P_EE, P_EE, P_EE, P_EE, P_EE, P_EE, P_EO, P_EO ],
    [ P_EO, P_EO, P_DR, P_DN, P_DB, P_DA, P_DG, P_DA, P_DB, P_DN, P_DR, P_EO, P_EO ],
    [ P_EO, P_EO, P_EO, P_EO, P_EO, P_EO, P_EO, P_EO, P_EO, P_EO, P_EO, P_EO, P_EO ],
    [ P_EO, P_EO, P_EO, P_EO, P_EO, P_EO, P_EO, P_EO, P_EO, P_EO, P_EO, P_EO, P_EO ] ]

/-- Look-up in `pieceSideMapping` (16 entries, one per piece identity). -/
def piece_get_side : Piece → PieceSide
  | P_UP => PS_UP
  | P_UC => PS_UP
  | P_UR => PS_UP
  | P_UN => PS_UP
  | P_UB => PS_UP
  | P_UA => PS_UP
  | P_UG => PS_UP
  | P_DP => PS_DOWN
  | P_DC => PS_DOWN
  | P_DR => PS_DOWN
  | P_DN => PS_DOWN
  | P_DB => PS_DOWN
  | P_DA => PS_DOWN
  | P_DG => PS_DOWN
  | P_EE => PS_EXTRA
  | P_EO => PS_EXTRA

/-- Look-up in `pieceTypeMapping` (16 entries, one per piece identity). -/
def piece_get_type : Piece → PieceType
  | P_UP => PT_PAWN
  | P_UC => PT_CANNON
  | P_UR => PT_ROOK
  | P_UN => PT_KNIGHT
  | P_UB => PT_BISHOP
  | P_UA => PT_ADVISOR
  | P_UG => PT_GENERAL
  | P_DP => PT_PAWN
  | P_DC => PT_CANNON
  | P_DR => PT_ROOK
  | P_DN => PT_KNIGHT
  | P_DB => PT_BISHOP
  | P_DA => PT_ADVISOR
  | P_DG => PT_GENERAL
  | P_EE => PT_EMPTY
  | P_EO => PT_OUT

/-- Look-up in `pieceSideReverseMapping`. -/
def piece_side_get_reverse : PieceSide → PieceSide
  | PS_UP => PS_DOWN
  | PS_DOWN => PS_UP
  | PS_EXTRA => PS_EXTRA

/-- The table `pieceValueMapping`: 14 entries, none for empty and
out-of-board. -/
def pieceValueMapping : List Int :=
  [ -20, -50, -100, -50, -10, -10, -10000,
    20, 50, 100, 50, 10, 10, 10000 ]

/-- The table `piecePosValueMapping`: 14 tables of 10 rows and 9 columns. -/
def piecePosValueMapping : List (List (List Int)) :=
  [ /- Upper pawn. -/
    [ [   0,   0,   0,   0,   0,   0,   0,   0,   0 ],
      [   0,   0,   0,   0,   0,   0,   0,   0,   0 ],
      [   0,   0,   0,   0,   0,   0,   0,   0,   0 ],
      [   2,   0,   2,   0,  -6,   0,   2,   0,   2 ],
      [  -3,   0,  -4,   0,  -7,   0,  -4,   0,  -3 ],
      [ -10, -18, -22, -35, -40, -35, -22, -18, -10 ],
      [ -20, -27, -30, -40, -42, -40, -30, -27, -20 ],
      [ -20, -30, -45, -55, -55, -55, -45, -30, -20 ],
      [ -20, -30, -50, -65, -70, -65, -50, -30, -20 ],
      [   0,   0,   0,  -2,  -4,  -2,   0,   0,   0 ] ],
    /- Upper cannon. -/
    [ [  0,  0, -1, -3, -3, -3, -1,  0,  0 ],
      [  0, -1, -2, -2, -2, -2, -2, -1,  0 ],
      [ -1,  0, -4, -3, -5, -3, -4,  0, -1 ],
      [  0,  0,  0,  0,  0,  0,  0,  0,  0 ],
      [  1,  0, -3,  0, -4,  0, -3,  0,  1 ],
      [  0,  0,  0,  0, -4,  0,  0,  0,  0 ],
      [  0, -3, -3, -2, -4, -2, -3, -3,  0 ],
      [ -1, -1,  0,  5,  4,  5,  0, -1, -1 ],
      [ -2, -2,  0,  4,  7,  4,  0, -2, -2 ],
      [ -4, -4,  0,  5,  6,  5,  0, -4, -4 ] ],
    /- Upper rook. -/
    [ [  6,  -6,  -4, -12,   0, -12,  -4,  -6,  6 ],
      [ -5,  -8,  -6, -12,   0, -12,  -6,  -8, -5 ],
      [  2,  -8,  -4, -12, -12, -12,  -4,  -8,  2 ],
      [ -4,  -9,  -4, -12, -14, -12,  -4,  -9, -4 ],
      [ -8, -12, -12, -14, -15, -14, -12, -12, -8 ],
      [ -8, -11, -11, -14, -15, -14, -11, -11, -8 ],
      [ -6, -13, -13, -16, -16, -16, -13, -13, -6 ],
      [ -6,  -8,  -7, -14, -16, -14,  -7,  -8, -6 ],
      [ -6, -12,  -9, -16, -33, -16,  -9, -12, -6 ],
      [ -6,  -8,  -7, -13, -14, -13,  -7,  -8, -6 ] ],
    /- Upper knight. -/
    [ [  0,   3,  -2,   0,  -2,   0,  -2,   3,  0 ],
      [  3,  -2,  -4,  -5,  10,  -5,  -4,  -2,  3 ],
      [ -5,  -4,  -6,  -7,  -4,  -7,  -6,  -4, -5 ],
      [ -4,  -6, -10,  -7, -10,  -7, -10,  -6, -4 ],
      [ -2, -10, -13, -14, -15, -14, -13, -10, -2 ],
      [ -2, -12, -11, -15, -16, -15, -11, -12, -2 ],
      [ -5, -20, -12, -19, -12, -19, -12, -20, -5 ],
      [ -4, -10, -11, -15, -11, -15, -11, -10, -4 ],
      [ -2,  -8, -15,  -9,  -6,  -9, -15,  -8, -2 ],
      [ -2,  -2,  -2,  -8,  -2,  -8,  -2,  -2, -2 ] ],
    /- Upper bishop. -/
    [ [ 0, 0, 0, 0,  0, 0, 0, 0, 0 ],
      [ 0, 0, 0, 0,  0, 0, 0, 0, 0 ],
      [ 2, 0, 0, 0, -3, 0, 0, 0, 2 ],
      [ 0, 0, 0, 0,  0, 0, 0, 0, 0 ],
      [ 0, 0, 0, 0,  0, 0, 0, 0, 0 ],
      [ 0, 0, 0, 0,  0, 0, 0, 0, 0 ],
      [ 0, 0, 0, 0,  0, 0, 0, 0, 0 ],
      [ 0, 0, 0, 0,  0, 0, 0, 0, 0 ],
      [ 0, 0, 0, 0,  0, 0, 0, 0, 0 ],
      [ 0, 0, 0, 0,  0, 0, 0, 0, 0 ] ],
    /- Upper advisor. -/
    [ [ 0, 0, 0, 0,  0, 0, 0, 0, 0 ],
      [ 0, 0, 0, 0, -3, 0, 0, 0, 0 ],
      [ 0, 0, 0, 0,  0, 0, 0, 0, 0 ],
      [ 0, 0, 0, 0,  0, 0, 0, 0, 0 ],
      [ 0, 0, 0, 0,  0, 0, 0, 0, 0 ],
      [ 0, 0, 0, 0,  0, 0, 0, 0, 0 ],
      [ 0, 0, 0, 0,  0, 0, 0, 0, 0 ],
      [ 0, 0, 0, 0,  0, 0, 0, 0, 0 ],
      [ 0, 0, 0, 0,  0, 0, 0, 0, 0 ],
      [ 0, 0, 0, 0,  0, 0, 0, 0, 0 ] ],
    /- Upper general. -/
    [ [ 0, 0, 0, -1, -5, -1, 0, 0, 0 ],
      [ 0, 0, 0,  8,  8,  8, 0, 0, 0 ],
      [ 0, 0, 0,  9,  9,  9, 0, 0, 0 ],
      [ 0, 0, 0,  0,  0,  0, 0, 0, 0 ],
      [ 0, 0, 0,  0,  0,  0, 0, 0, 0 ],
      [ 0, 0, 0,  0,  0,  0, 0, 0, 0 ],
      [ 0, 0, 0,  0,  0,  0, 0, 0, 0 ],
      [ 0, 0, 0,  0,  0,  0, 0, 0, 0 ],
      [ 0, 0, 0,  0,  0,  0, 0, 0, 0 ],
      [ 0, 0, 0,  0,  0,  0, 0, 0, 0 ] ],
    /- Down pawn. -/
    [ [  0,  0,  0,  2,  4,  2,  0,  0,  0 ],
      [ 20, 30, 50, 65, 70, 65, 50, 30, 20 ],
      [ 20, 30, 45, 55, 55, 55, 45, 30, 20 ],
      [ 20, 27, 30, 40, 42, 40, 30, 27, 20 ],
      [ 10, 18, 22, 35, 40, 35, 22, 18, 10 ],
      [  3,  0,  4,  0,  7,  0,  4,  0,  3 ],
      [ -2,  0, -2,  0,  6,  0, -2,  0, -2 ],
      [  0,  0,  0,  0,  0,  0,  0,  0,  0 ],
      [  0,  0,  0,  0,  0,  0,  0,  0,  0 ],
      [  0,  0,  0,  0,  0,  0,  0,  0,  0 ] ],
    /- Down cannon. -/
    [ [  4, 4, 0, -5, -6, -5, 0, 4,  4 ],
      [  2, 2, 0, -4, -7, -4, 0, 2,  2 ],
      [  1, 1, 0, -5, -4, -5, 0, 1,  1 ],
      [  0, 3, 3,  2,  4,  2, 3, 3,  0 ],
      [  0, 0, 0,  0,  4,  0, 0, 0,  0 ],
      [ -1, 0, 3,  0,  4,  0, 3, 0, -1 ],
      [  0, 0, 0,  0,  0,  0, 0, 0,  0 ],
      [  1, 0, 4,  3,  5,  3, 4, 0,  1 ],
      [  0, 1, 2,  2,  2,  2, 2, 1,  0 ],
      [  0, 0, 1,  3,  3,  3, 1, 0,  0 ] ],
    /- Down rook. -/
    [ [  6,  8,  7, 13, 14, 13,  7,  8,  6 ],
      [  6, 12,  9, 16, 33, 16,  9, 12,  6 ],
      [  6,  8,  7, 14, 16, 14,  7,  8,  6 ],
      [  6, 13, 13, 16, 16, 16, 13, 13,  6 ],
      [  8, 11, 11, 14, 15, 14, 11, 11,  8 ],
      [  8, 12, 12, 14, 15, 14, 12, 12,  8 ],
      [  4,  9,  4, 12, 14, 12,  4,  9,  4 ],
      [ -2,  8,  4, 12, 12, 12,  4,  8, -2 ],
      [  5,  8,  6, 12,  0, 12,  6,  8,  5 ],
      [ -6,  6,  4, 12,  0, 12,  4,  6, -6 ] ],
    /- Down knight. -/
    [ [  2,  2,  2,  8,   2,  8,  2,  2,  2 ],
      [  2,  8, 15,  9,   6,  9, 15,  8,  2 ],
      [  4, 10, 11, 15,  11, 15, 11, 10,  4 ],
      [  5, 20, 12, 19,  12, 19, 12, 20,  5 ],
      [  2, 12, 11, 15,  16, 15, 11, 12,  2 ],
      [  2, 10, 13, 14,  15, 14, 13, 10,  2 ],
      [  4,  6, 10,  7,  10,  7, 10,  6,  4 ],
      [  5,  4,  6,  7,   4,  7,  6,  4,  5 ],
      [ -3,  2,  4,  5, -10,  5,  4,  2, -3 ],
      [  0, -3,  2,  0,   2,  0,  2, -3,  0 ] ],
    /- Down bishop. -/
    [ [  0, 0, 0, 0, 0, 0, 0, 0,  0 ],
      [  0, 0, 0, 0, 0, 0, 0, 0,  0 ],
      [  0, 0, 0, 0, 0, 0, 0, 0,  0 ],
      [  0, 0, 0, 0, 0, 0, 0, 0,  0 ],
      [  0, 0, 0, 0, 0, 0, 0, 0,  0 ],
      [  0, 0, 0, 0, 0, 0, 0, 0,  0 ],
      [  0, 0, 0, 0, 0, 0, 0, 0,  0 ],
      [ -2, 0, 0, 0, 3, 0, 0, 0, -2 ],
      [  0, 0, 0, 0, 0, 0, 0, 0,  0 ],
      [  0, 0, 0, 0, 0, 0, 0, 0,  0 ] ],
    /- Down advisor. -/
    [ [ 0, 0, 0, 0, 0, 0, 0, 0, 0 ],
      [ 0, 0, 0, 0, 0, 0, 0, 0, 0 ],
      [ 0, 0, 0, 0, 0, 0, 0, 0, 0 ],
      [ 0, 0, 0, 0, 0, 0, 0, 0, 0 ],
      [ 0, 0, 0, 0, 0, 0, 0, 0, 0 ],
      [ 0, 0, 0, 0, 0, 0, 0, 0, 0 ],
      [ 0, 0, 0, 0, 0, 0, 0, 0, 0 ],
      [ 0, 0, 0, 0, 3, 0, 0, 0, 0 ],
      [ 0, 0, 0, 0, 0, 0, 0, 0, 0 ],
      [ 0, 0, 0, 0, 0, 0, 0, 0, 0 ] ],
    /- Down general. -/
    [ [ 0, 0, 0,  0,  0,  0, 0, 0, 0 ],
      [ 0, 0, 0,  0,  0,  0, 0, 0, 0 ],
      [ 0, 0, 0,  0,  0,  0, 0, 0, 0 ],
      [ 0, 0, 0,  0,  0,  0, 0, 0, 0 ],
      [ 0, 0, 0,  0,  0,  0, 0, 0, 0 ],
      [ 0, 0, 0,  0,  0,  0, 0, 0, 0 ],
      [ 0, 0, 0,  0,  0,  0, 0, 0, 0 ],
      [ 0, 0, 0, -9, -9, -9, 0, 0, 0 ],
      [ 0, 0, 0, -8, -8, -8, 0, 0, 0 ],
      [ 0, 0, 0,  1,  5,  1, 0, 0, 0 ] ] ]

/-- Look-up `pieceValueMapping[p]`; `none` when the index is past the table
(empty and out-of-board have no entry). -/
def piece_get_value (p : Piece) : Option Int :=
  pieceValueMapping[p.toNat]?

/-- Look-up `piecePosValueMapping[p][r][c]`; `none` when an index is outside
its array. -/
def piece_get_pos_value (p : Piece) (r c : Int) : Option Int :=
  if 0 ≤ r ∧ 0 ≤ c then
    match piecePosValueMapping[p.toNat]? with
    | none => none
    | some tbl =>
      match tbl[r.toNat]? with
      | none => none
      | some row => row[c.toNat]?
  else none

/-! ## board.hpp, board.cpp -/

/-- Move node (`struct MoveNode`): begin and end cell in padded coordinates.
Derived equality is `MoveNode::operator==`, exact equality of the four
fields. -/
structure MoveNode where
  beginRow : Int
  beginCol : Int
  endRow : Int
  endCol : Int
  deriving DecidableEq, Repr

/-- The default constructor `MoveNode()`, all four fields zero. -/
def MoveNode.default : MoveNode := ⟨0, 0, 0, 0⟩

/-- History node (`struct HistoryNode`): a move and the two pieces that stood
on its begin and end cells before it was made. -/
structure HistoryNode where
  move : MoveNode
  beginPiece : Piece
  endPiece : Piece
  deriving DecidableEq, Repr

/-- Chess board (`class ChessBoard`): the 14 x 13 array `data` and the
history, whose last element is `history.back()`. -/
structure ChessBoard where
  data : Mathlib.Vector (Mathlib.Vector Piece 13) 14
  history : List HistoryNode
  deriving DecidableEq

/-- The content of `data[i][j]` for indices within the array. -/
def ChessBoard.cell (cb : ChessBoard) (i : Fin 14) (j : Fin 13) : Piece :=
  (cb.data.get i).get j

/-- A pair of indices addresses a cell of `data`: row in `0..13`, column in
`0..12`. -/
def inGrid (r c : Int) : Prop :=
  0 ≤ r ∧ r < BOARD_ROW_LEN ∧ 0 ≤ c ∧ c < BOARD_COL_LEN

instance (r c : Int) : Decidable (inGrid r c) := by
  unfold inGrid; exact inferInstance

/-- The row index of an addressable cell. -/
def rowIdx (r c : Int) (h : inGrid r c) : Fin 14 :=
  ⟨r.toNat, by unfold inGrid BOARD_ROW_LEN at h; omega⟩

/-- The column index of an addressable cell. -/
def colIdx (r c : Int) (h : inGrid r c) : Fin 13 :=
  ⟨c.toNat, by unfold inGrid BOARD_COL_LEN at h; omega⟩

/-- A board whose grid is filled cell by cell from the given rows, with an
empty history. -/
def boardOfRows (rows : List (List Piece)) : ChessBoard where
  data := Mathlib.Vector.ofFn fun i => Mathlib.Vector.ofFn fun j =>
    (rows.getD i.val []).getD j.val P_EO
  history := []

/-- The constructor `ChessBoard()`: a copy of the template, empty history. -/
def ChessBoard.new : ChessBoard :=
  boardOfRows CHESS_BOARD_DEFAULT_TEMPLATE

/-- Read `data[r][c]` (`ChessBoard::get`); indexing outside the array is
undefined in the source and `none` here. -/
def ChessBoard.get (cb : ChessBoard) (r c : Int) : Option Piece :=
  if h : inGrid r c then some (cb.cell (rowIdx r c h) (colIdx r c h)) else none

/-- Write `data[r][c] = p` (`ChessBoard::set`); indexing outside the array is
undefined in the source and `none` here. -/
def ChessBoard.set (cb : ChessBoard) (r c : Int) (p : Piece) : Option ChessBoard :=
  if h : inGrid r c then
    some { cb with
      data := cb.data.set (rowIdx r c h) ((cb.data.get (rowIdx r c h)).set (colIdx r c h) p) }
  else none

/-- Make a move (`ChessBoard::move`): read both cells, push the history
entry, vacate the begin cell, put the moved piece on the end cell. -/
def ChessBoard.move (cb : ChessBoard) (moveNode : MoveNode) : Option ChessBoard := do
  let beginPiece ← cb.get moveNode.beginRow moveNode.beginCol
  let endPiece ← cb.get moveNode.endRow moveNode.endCol
  let cb1 : ChessBoard := { cb with history := cb.history ++ [⟨moveNode, beginPiece, endPiece⟩] }
  let cb2 ← cb1.set moveNode.beginRow moveNode.beginCol P_EE
  cb2.set moveNode.endRow moveNode.endCol beginPiece

/-- Take back the last move (`ChessBoard::undo`): with a non-empty history,
restore both cells from `history.back()` and pop it; otherwise do nothing. -/
def ChessBoard.undo (cb : ChessBoard) : Option ChessBoard :=
  match cb.history.getLast? with
  | some node => do
    let cb1 ← cb.set node.move.beginRow node.move.beginCol node.beginPiece
    let cb2 ← cb1.set node.move.endRow node.move.endCol node.endPiece
    pure { cb2 with history := cb2.history.dropLast }
  | none => some cb

/-- Apply a sequence of moves in order with `ChessBoard::move`. -/
def moveAll : ChessBoard → List MoveNode → Option ChessBoard
  | cb, [] => some cb
  | cb, m :: ms => (cb.move m).bind fun cb1 => moveAll cb1 ms

/-- Call `ChessBoard::undo` the given number of times. -/
def undoTimes : Nat → ChessBoard → Option ChessBoard
  | 0, cb => some cb
  | n + 1, cb => cb.undo.bind fun cb1 => undoTimes n cb1

/-- A board is well-formed when every cell of rows 0, 1, 12, 13 and of columns
0, 1, 11, 12 is out-of-board and no cell of rows 2..11 x columns 2..10 is. -/
def WellFormed (cb : ChessBoard) : Prop :=
  ∀ (i : Fin 14) (j : Fin 13),
    if 2 ≤ i.val ∧ i.val ≤ 11 ∧ 2 ≤ j.val ∧ j.val ≤ 10 then cb.cell i j ≠ P_EO
    else cb.cell i j = P_EO

instance (cb : ChessBoard) : Decidable (WellFormed cb) := by
  unfold WellFormed; exact inferInstance

/-- A counted loop `for (i = lo; i < hi; ++i) body`, with the number of
iterations `hi - lo` as first argument and the loop state passed along. -/
def forRange {σ : Type} : Nat → Int → (Int → σ → Option σ) → σ → Option σ
  | 0, _, _, s => some s
  | n + 1, i, body, s => (body i s).bind fun s1 => forRange n (i + 1) body s1

/-! ## moves_gen.hpp, moves_gen.cpp -/

/-- The type `PossibleMoves`, a `std::vector<MoveNode>`. -/
abbrev PossibleMoves := List MoveNode

/-- Step budget of one unbounded sliding scan. -/
def SCAN_BUDGET : Nat := 14

/-- Append the move when the end cell is not out-of-board and the two cells
hold pieces of different sides (`check_possible_move_and_insert`). -/
def check_possible_move_and_insert (cb : ChessBoard) (pm : PossibleMoves)
    (beginRow beginCol endRow endCol : Int) : Option PossibleMoves := do
  let beginP ← cb.get beginRow beginCol
  let endP ← cb.get endRow endCol
  if endP ≠ P_EO ∧ piece_get_side beginP ≠ piece_get_side endP then
    pure (pm ++ [⟨beginRow, beginCol, endRow, endCol⟩])
  else
    pure pm

/-- Pawn moves (`gen_possible_moves_for_pawn`).  The source takes the vector
`pm` by value: the moves are appended to a copy that is dropped on return, so
the function only performs its reads and yields nothing. -/
def gen_possible_moves_for_pawn (cb : ChessBoard) (pm : PossibleMoves) (r c : Int)
    (side : PieceSide) : Option Unit :=
  if side = PS_UP then do
    let pm1 ← check_possible_move_and_insert cb pm r c (r + 1) c
    if r > BOARD_RIVER_UP then do
      let pm2 ← check_possible_move_and_insert cb pm1 r c r (c - 1)
      let _ ← check_possible_move_and_insert cb pm2 r c r (c + 1)
      pure ()
    else
      pure ()
  else if side = PS_DOWN then do
    let pm1 ← check_possible_move_and_insert cb pm r c (r - 1) c
    if r < BOARD_RIVER_DOWN then do
      let pm2 ← check_possible_move_and_insert cb pm1 r c r (c - 1)
      let _ ← check_possible_move_and_insert cb pm2 r c r (c + 1)
      pure ()
    else
      pure ()
  else
    pure ()

/-- The first loop of `gen_possible_moves_for_cannon_one_direction` and of
`gen_possible_moves_for_rook_one_direction` (the same text in both): starting
at `(row, col)`, append every empty cell and stop at the first non-empty one.
Yields the list together with the values of `row`, `col` and `p` at the
`break`. -/
def scan_empty_cells (cb : ChessBoard) (r c rGap cGap : Int) :
    Nat → Int → Int → PossibleMoves → Option (PossibleMoves × Int × Int × Piece)
  | 0, _, _, _ => none
  | budget + 1, row, col, pm => do
    let p ← cb.get row col
    if p = P_EE then
      scan_empty_cells cb r c rGap cGap budget (row + rGap) (col + cGap) (pm ++ [⟨r, c, row, col⟩])
    else
      pure (pm, row, col, p)

/-- The second loop of `gen_possible_moves_for_cannon_one_direction`: skip
empty cells; at the first non-empty cell append it when it holds an enemy
piece, and stop. -/
def cannon_scan_capture (cb : ChessBoard) (r c rGap cGap : Int) (side : PieceSide) :
    Nat → Int → Int → PossibleMoves → Option PossibleMoves
  | 0, _, _, _ => none
  | budget + 1, row, col, pm => do
    let p ← cb.get row col
    if p = P_EE then
      cannon_scan_capture cb r c rGap cGap side budget (row + rGap) (col + cGap) pm
    else if piece_get_side p = piece_side_get_reverse side then
      pure (pm ++ [⟨r, c, row, col⟩])
    else
      pure pm

/-- Cannon moves along one ray (`gen_possible_moves_for_cannon_one_direction`). -/
def gen_possible_moves_for_cannon_one_direction (cb : ChessBoard) (pm : PossibleMoves)
    (r c rGap cGap : Int) (side : PieceSide) : Option PossibleMoves := do
  let (pm1, row, col, p) ← scan_empty_cells cb r c rGap cGap SCAN_BUDGET (r + rGap) (c + cGap) pm
  if p ≠ P_EO then
    cannon_scan_capture cb r c rGap cGap side SCAN_BUDGET (row + rGap) (col + cGap) pm1
  else
    pure pm1

/-- Cannon moves (`gen_possible_moves_for_cannon`): up, down, left, right. -/
def gen_possible_moves_for_cannon (cb : ChessBoard) (pm : PossibleMoves) (r c : Int)
    (side : PieceSide) : Option PossibleMoves := do
  let pm1 ← gen_possible_moves_for_cannon_one_direction cb pm r c (-1) 0 side
  let pm2 ← gen_possible_moves_for_cannon_one_direction cb pm1 r c 1 0 side
  let pm3 ← gen_possible_moves_for_cannon_one_direction cb pm2 r c 0 (-1) side
  gen_possible_moves_for_cannon_one_direction cb pm3 r c 0 1 side

/-- Rook moves along one ray (`gen_possible_moves_for_rook_one_direction`). -/
def gen_possible_moves_for_rook_one_direction (cb : ChessBoard) (pm : PossibleMoves)
    (r c rGap cGap : Int) (side : PieceSide) : Option PossibleMoves := do
  let (pm1, row, col, p) ← scan_empty_cells cb r c rGap cGap SCAN_BUDGET (r + rGap) (c + cGap) pm
  if piece_get_side p = piece_side_get_reverse side then
    pure (pm1 ++ [⟨r, c, row, col⟩])
  else
    pure pm1

/-- Rook moves (`gen_possible_moves_for_rook`): up, down, left, right. -/
def gen_possible_moves_for_rook (cb : ChessBoard) (pm : PossibleMoves) (r c : Int)
    (side : PieceSide) : Option PossibleMoves := do
  let pm1 ← gen_possible_moves_for_rook_one_direction cb pm r c (-1) 0 side
  let pm2 ← gen_possible_moves_for_rook_one_direction cb pm1 r c 1 0 side
  let pm3 ← gen_possible_moves_for_rook_one_direction cb pm2 r c 0 (-1) side
  gen_possible_moves_for_rook_one_direction cb pm3 r c 0 1 side

/-- One `if ((p = cb.get(legRow, legCol)) == P_EE) { insert; insert; }` block
of the knight: two leaps behind one leg cell. -/
def knight_leg (cb : ChessBoard) (pm : PossibleMoves) (r c legRow legCol : Int)
    (endRow1 endCol1 endRow2 endCol2 : Int) : Option PossibleMoves := do
  let p ← cb.get legRow legCol
  if p = P_EE then do
    let pm1 ← check_possible_move_and_insert cb pm r c endRow1 endCol1
    check_possible_move_and_insert cb pm1 r c endRow2 endCol2
  else
    pure pm

/-- Knight moves (`gen_possible_moves_for_knight`). -/
def gen_possible_moves_for_knight (cb : ChessBoard) (pm : PossibleMoves) (r c : Int)
    (_side : PieceSide) : Option PossibleMoves := do
  let pm1 ← knight_leg cb pm r c (r + 1) c (r + 2) (c + 1) (r + 2) (c - 1)
  let pm2 ← knight_leg cb pm1 r c (r - 1) c (r - 2) (c + 1) (r - 2) (c - 1)
  let pm3 ← knight_leg cb pm2 r c r (c + 1) (r + 1) (c + 2) (r - 1) (c + 2)
  knight_leg cb pm3 r c r (c - 1) (r + 1) (c - 2) (r - 1) (c - 2)

/-- One `if ((p = cb.get(eyeRow, eyeCol)) == P_EE) { insert; }` block of the
bishop: a leap behind its eye cell. -/
def bishop_eye (cb : ChessBoard) (pm : PossibleMoves) (r c eyeRow eyeCol endRow endCol : Int) :
    Option PossibleMoves := do
  let p ← cb.get eyeRow eyeCol
  if p = P_EE then
    check_possible_move_and_insert cb pm r c endRow endCol
  else
    pure pm

/-- Bishop moves (`gen_possible_moves_for_bishop`). -/
def gen_possible_moves_for_bishop (cb : ChessBoard) (pm : PossibleMoves) (r c : Int)
    (side : PieceSide) : Option PossibleMoves :=
  if side = PS_UP then do
    let pm2 ←
      (if r + 2 ≤ BOARD_RIVER_UP then do
        let pm1 ← bishop_eye cb pm r c (r + 1) (c + 1) (r + 2) (c + 2)
        bishop_eye cb pm1 r c (r + 1) (c - 1) (r + 2) (c - 2)
      else
        pure pm)
    let pm3 ← bishop_eye cb pm2 r c (r - 1) (c + 1) (r - 2) (c + 2)
    bishop_eye cb pm3 r c (r - 1) (c - 1) (r - 2) (c - 2)
  else if side = PS_DOWN then do
    let pm2 ←
      (if r - 2 ≥ BOARD_RIVER_DOWN then do
        let pm1 ← bishop_eye cb pm r c (r - 1) (c + 1) (r - 2) (c + 2)
        bishop_eye cb pm1 r c (r - 1) (c - 1) (r - 2) (c - 2)
      else
        pure pm)
    let pm3 ← bishop_eye cb pm2 r c (r + 1) (c + 1) (r + 2) (c + 2)
    bishop_eye cb pm3 r c (r + 1) (c - 1) (r + 2) (c - 2)
  else
    pure pm

/-- One `if (cond) { insert; }` block of the advisor and of the general. -/
def insert_if (cond : Bool) (cb : ChessBoard) (pm : PossibleMoves)
    (r c endRow endCol : Int) : Option PossibleMoves :=
  if cond then check_possible_move_and_insert cb pm r c endRow endCol else pure pm

/-- Advisor moves (`gen_possible_moves_for_advisor`). -/
def gen_possible_moves_for_advisor (cb : ChessBoard) (pm : PossibleMoves) (r c : Int)
    (side : PieceSide) : Option PossibleMoves :=
  if side = PS_UP then do
    let pm1 ← insert_if (r + 1 ≤ BOARD_9_PALACE_UP_BOTTOM ∧ c + 1 ≤ BOARD_9_PALACE_UP_RIGHT)
      cb pm r c (r + 1) (c + 1)
    let pm2 ← insert_if (r + 1 ≤ BOARD_9_PALACE_UP_BOTTOM ∧ c - 1 ≥ BOARD_9_PALACE_UP_LEFT)
      cb pm1 r c (r + 1) (c - 1)
    let pm3 ← insert_if (r - 1 ≥ BOARD_9_PALACE_UP_TOP ∧ c + 1 ≤ BOARD_9_PALACE_UP_RIGHT)
      cb pm2 r c (r - 1) (c + 1)
    insert_if (r - 1 ≥ BOARD_9_PALACE_UP_TOP ∧ c - 1 ≥ BOARD_9_PALACE_UP_LEFT)
      cb pm3 r c (r - 1) (c - 1)
  else if side = PS_DOWN then do
    let pm1 ← insert_if (r + 1 ≤ BOARD_9_PALACE_DOWN_BOTTOM ∧ c + 1 ≤ BOARD_9_PALACE_DOWN_RIGHT)
      cb pm r c (r + 1) (c + 1)
    let pm2 ← insert_if (r + 1 ≤ BOARD_9_PALACE_DOWN_BOTTOM ∧ c - 1 ≥ BOARD_9_PALACE_DOWN_LEFT)
      cb pm1 r c (r + 1) (c - 1)
    let pm3 ← insert_if (r - 1 ≥ BOARD_9_PALACE_DOWN_TOP ∧ c + 1 ≤ BOARD_9_PALACE_DOWN_RIGHT)
      cb pm2 r c (r - 1) (c + 1)
    insert_if (r - 1 ≥ BOARD_9_PALACE_DOWN_TOP ∧ c - 1 ≥ BOARD_9_PALACE_DOWN_LEFT)
      cb pm3 r c (r - 1) (c - 1)
  else
    pure pm

/-- The facing-generals loop of `gen_possible_moves_for_general`: walk along
column `c` from `row` in steps of `step` for at most the given number of
iterations; skip empty cells; at the first non-empty cell append it when it
is `target` (the opposing general), and stop. -/
def general_scan (cb : ChessBoard) (r c step : Int) (target : Piece) :
    Nat → Int → PossibleMoves → Option PossibleMoves
  | 0, _, pm => some pm
  | n + 1, row, pm => do
    let p ← cb.get row c
    if p = P_EE then
      general_scan cb r c step target n (row + step) pm
    else if p = target then
      pure (pm ++ [⟨r, c, row, c⟩])
    else
      pure pm

/-- General moves (`gen_possible_moves_for_general`).  The up loop runs
`row = r + 1, ..., 11`, the down loop `row = r - 1, ..., 2`. -/
def gen_possible_moves_for_general (cb : ChessBoard) (pm : PossibleMoves) (r c : Int)
    (side : PieceSide) : Option PossibleMoves :=
  if side = PS_UP then do
    let pm1 ← insert_if (r + 1 ≤ BOARD_9_PALACE_UP_BOTTOM) cb pm r c (r + 1) c
    let pm2 ← insert_if (r - 1 ≥ BOARD_9_PALACE_UP_TOP) cb pm1 r c (r - 1) c
    let pm3 ← insert_if (c + 1 ≤ BOARD_9_PALACE_UP_RIGHT) cb pm2 r c r (c + 1)
    let pm4 ← insert_if (c - 1 ≥ BOARD_9_PALACE_UP_LEFT) cb pm3 r c r (c - 1)
    general_scan cb r c 1 P_DG
      (BOARD_ACTUAL_ROW_BEGIN + BOARD_ACTUAL_ROW_LEN - (r + 1)).toNat (r + 1) pm4
  else if side = PS_DOWN then do
    let pm1 ← insert_if (r + 1 ≤ BOARD_9_PALACE_DOWN_BOTTOM) cb pm r c (r + 1) c
    let pm2 ← insert_if (r - 1 ≥ BOARD_9_PALACE_DOWN_TOP) cb pm1 r c (r - 1) c
    let pm3 ← insert_if (c + 1 ≤ BOARD_9_PALACE_DOWN_RIGHT) cb pm2 r c r (c + 1)
    let pm4 ← insert_if (c - 1 ≥ BOARD_9_PALACE_DOWN_LEFT) cb pm3 r c r (c - 1)
    general_scan cb r c (-1) P_UG
      (r - 1 - BOARD_ACTUAL_ROW_BEGIN + 1).toNat (r - 1) pm4
  else
    pure pm

/-- The body of the double loop of `gen_possible_moves` at cell `(r, c)`. -/
def gen_possible_moves_cell (cb : ChessBoard) (side : PieceSide) (r c : Int)
    (pm : PossibleMoves) : Option PossibleMoves := do
  let p ← cb.get r c
  if piece_get_side p = side then
    match piece_get_type p with
    | PT_PAWN => do
      gen_possible_moves_for_pawn cb pm r c side
      pure pm
    | PT_CANNON => gen_possible_moves_for_cannon cb pm r c side
    | PT_ROOK => gen_possible_moves_for_rook cb pm r c side
    | PT_KNIGHT => gen_possible_moves_for_knight cb pm r c side
    | PT_BISHOP => gen_possible_moves_for_bishop cb pm r c side
    | PT_ADVISOR => gen_possible_moves_for_advisor cb pm r c side
    | PT_GENERAL => gen_possible_moves_for_general cb pm r c side
    | PT_EMPTY => pure pm
    | PT_OUT => pure pm
  else
    pure pm

/-- Generate the possible moves of one side (`gen_possible_moves`): rows
`2..11`, in each row columns `2..10`. -/
def gen_possible_moves (cb : ChessBoard) (side : PieceSide) : Option PossibleMoves :=
  forRange BOARD_ACTUAL_ROW_LEN.toNat BOARD_ACTUAL_ROW_BEGIN
    (fun r pm => forRange BOARD_ACTUAL_COL_LEN.toNat BOARD_ACTUAL_COL_BEGIN
      (fun c pm1 => gen_possible_moves_cell cb side r c pm1) pm) []

def gen_possible_moves_upper_side (cb : ChessBoard) : Option PossibleMoves :=
  gen_possible_moves cb PS_UP

def gen_possible_moves_down_side (cb : ChessBoard) : Option PossibleMoves :=
  gen_possible_moves cb PS_DOWN

/-- Is the move in the list generated for the side of the piece on its begin
cell (`check_rule`, a `std::find` over the generated vector). -/
def check_rule (cb : ChessBoard) (moveNode : MoveNode) : Option Bool := do
  let p ← cb.get moveNode.beginRow moveNode.beginCol
  let pm ← gen_possible_moves cb (piece_get_side p)
  pure (pm.contains moveNode)

/-! ## ai.hpp, ai.cpp -/

/-- The body of the double loop of `board_calc_score` at cell `(r, c)`. -/
def board_calc_score_cell (cb : ChessBoard) (r c : Int) (totalScore : Int) : Option Int := do
  let p ← cb.get r c
  if p ≠ P_EE then do
    let v ← piece_get_value p
    let pv ← piece_get_pos_value p (r - BOARD_ACTUAL_ROW_BEGIN) (c - BOARD_ACTUAL_COL_BEGIN)
    pure (totalScore + v + pv)
  else
    pure totalScore

/-- Score of a board (`board_calc_score`): material and positional value of
every non-empty cell of rows `2..11`, columns `2..10`. -/
def board_calc_score (cb : ChessBoard) : Option Int :=
  forRange BOARD_ACTUAL_ROW_LEN.toNat BOARD_ACTUAL_ROW_BEGIN
    (fun r totalScore => forRange BOARD_ACTUAL_COL_LEN.toNat BOARD_ACTUAL_COL_BEGIN
      (fun c totalScore1 => board_calc_score_cell cb r c totalScore1) totalScore) 0

/-- The `PS_UP` loop of `min_max` over the remaining moves; `child` is the
recursive call `min_max(cb, searchDepth - 1, alpha, beta, PS_DOWN)`.  Yields
`minValue` and the board. -/
def min_max_up_loop (child : ChessBoard → Int → Int → Option (Int × ChessBoard)) :
    List MoveNode → ChessBoard → Int → Int → Int → Option (Int × ChessBoard)
  | [], cb, _, _, minValue => some (minValue, cb)
  | node :: rest, cb, alpha, beta, minValue => do
    let cb1 ← cb.move node
    let (minMaxValue, cb2) ← child cb1 alpha beta
    let minValue1 := min minValue minMaxValue
    let cb3 ← cb2.undo
    let beta1 := min beta minValue1
    if alpha ≥ beta1 then
      pure (minValue1, cb3)
    else
      min_max_up_loop child rest cb3 alpha beta1 minValue1

/-- The `PS_DOWN` loop of `min_max` over the remaining moves; `child` is the
recursive call `min_max(cb, searchDepth - 1, alpha, beta, PS_UP)`.  Yields
`maxValue` and the board. -/
def min_max_down_loop (child : ChessBoard → Int → Int → Option (Int × ChessBoard)) :
    List MoveNode → ChessBoard → Int → Int → Int → Option (Int × ChessBoard)
  | [], cb, _, _, maxValue => some (maxValue, cb)
  | node :: rest, cb, alpha, beta, maxValue => do
    let cb1 ← cb.move node
    let (minMaxValue, cb2) ← child cb1 alpha beta
    let maxValue1 := max maxValue minMaxValue
    let cb3 ← cb2.undo
    let alpha1 := max alpha maxValue1
    if alpha1 ≥ beta then
      pure (maxValue1, cb3)
    else
      min_max_down_loop child rest cb3 alpha1 beta maxValue1

/-- Min-max with alpha-beta pruning (`min_max`); yields the value and the
board as the call leaves it. -/
def min_max (cb : ChessBoard) (searchDepth : Nat) (alpha beta : Int) (side : PieceSide) :
    Option (Int × ChessBoard) :=
  match searchDepth with
  | 0 => do
    let score ← board_calc_score cb
    pure (score, cb)
  | d + 1 =>
    if side = PS_UP then do
      let possibleMoves ← gen_possible_moves_upper_side cb
      min_max_up_loop (fun b a bt => min_max b d a bt PS_DOWN) possibleMoves cb alpha beta INT32_MAX
    else if side = PS_DOWN then do
      let possibleMoves ← gen_possible_moves_down_side cb
      min_max_down_loop (fun b a bt => min_max b d a bt PS_UP) possibleMoves cb alpha beta INT32_MIN
    else
      pure (0, cb)

/-- The `PS_UP` loop of `gen_best_move` over the remaining moves, carrying
`minValue` and `bestMove`. -/
def gen_best_move_up_loop (searchDepth : Nat) (alpha beta : Int) :
    List MoveNode → ChessBoard → Int → MoveNode → Option (MoveNode × ChessBoard)
  | [], cb, _, bestMove => some (bestMove, cb)
  | node :: rest, cb, minValue, bestMove => do
    let cb1 ← cb.move node
    let (value, cb2) ← min_max cb1 searchDepth alpha beta PS_DOWN
    let cb3 ← cb2.undo
    if value ≤ minValue then
      gen_best_move_up_loop searchDepth alpha beta rest cb3 value node
    else
      gen_best_move_up_loop searchDepth alpha beta rest cb3 minValue bestMove

/-- The `PS_DOWN` loop of `gen_best_move` over the remaining moves, carrying
`maxValue` and `bestMove`. -/
def gen_best_move_down_loop (searchDepth : Nat) (alpha beta : Int) :
    List MoveNode → ChessBoard → Int → MoveNode → Option (MoveNode × ChessBoard)
  | [], cb, _, bestMove => some (bestMove, cb)
  | node :: rest, cb, maxValue, bestMove => do
    let cb1 ← cb.move node
    let (value, cb2) ← min_max cb1 searchDepth alpha beta PS_UP
    let cb3 ← cb2.undo
    if value ≥ maxValue then
      gen_best_move_down_loop searchDepth alpha beta rest cb3 value node
    else
      gen_best_move_down_loop searchDepth alpha beta rest cb3 maxValue bestMove

/-- Best move of one side (`gen_best_move`); yields the move and the board as
the call leaves it. -/
def gen_best_move (cb : ChessBoard) (side : PieceSide) (searchDepth : Nat) :
    Option (MoveNode × ChessBoard) :=
  let alpha := INT32_MIN
  let beta := INT32_MAX
  let bestMove := MoveNode.default
  if side = PS_UP then do
    let minValue := beta
    let possibleMoves ← gen_possible_moves_upper_side cb
    gen_best_move_up_loop searchDepth alpha beta possibleMoves cb minValue bestMove
  else if side = PS_DOWN then do
    let maxValue := alpha
    let possibleMoves ← gen_possible_moves_down_side cb
    gen_best_move_down_loop searchDepth alpha beta possibleMoves cb maxValue bestMove
  else
    pure (bestMove, cb)

/-! ## extra_funcs.hpp, extra_funcs.cpp -/

/-- Does the piece on the begin cell of the move belong to `side`
(`check_is_this_your_piece`). -/
def check_is_this_your_piece (cb : ChessBoard) (move : MoveNode) (side : PieceSide) :
    Option Bool := do
  let p ← cb.get move.beginRow move.beginCol
  pure (decide (piece_get_side p = side))

/-- The inner loop of `check_winner` over the columns of one palace row,
`for (c = left; c <= right; ++c) if (cb.get(r, c) == target) { alive = true; break; }`,
with the number of remaining iterations as first argument; yields `alive`. -/
def palace_row_scan (cb : ChessBoard) (r : Int) (target : Piece) :
    Nat → Int → Bool → Option Bool
  | 0, _, alive => some alive
  | n + 1, c, alive => do
    let p ← cb.get r c
    if p = target then
      pure true
    else
      palace_row_scan cb r target n (c + 1) alive

/-- The winner (`check_winner`): `PS_EXTRA` when both generals are found in
their palaces, `PS_UP` when only the up general is, `PS_DOWN` otherwise. -/
def check_winner (cb : ChessBoard) : Option PieceSide := do
  let upAlive ← forRange (BOARD_9_PALACE_UP_BOTTOM - BOARD_9_PALACE_UP_TOP + 1).toNat
    BOARD_9_PALACE_UP_TOP
    (fun r alive => palace_row_scan cb r P_UG
      (BOARD_9_PALACE_UP_RIGHT - BOARD_9_PALACE_UP_LEFT + 1).toNat BOARD_9_PALACE_UP_LEFT alive)
    false
  let downAlive ← forRange (BOARD_9_PALACE_DOWN_BOTTOM - BOARD_9_PALACE_DOWN_TOP + 1).toNat
    BOARD_9_PALACE_DOWN_TOP
    (fun r alive => palace_row_scan cb r P_DG
      (BOARD_9_PALACE_DOWN_RIGHT - BOARD_9_PALACE_DOWN_LEFT + 1).toNat BOARD_9_PALACE_DOWN_LEFT
      alive)
    false
  if upAlive && downAlive then
    pure PS_EXTRA
  else if upAlive then
    pure PS_UP
  else
    pure PS_DOWN

/-! ## version_console.hpp -/

/-- The conversion `static_cast<char>` of an integer in the range of `char`
codes used here: the low eight bits as a character. -/
def static_cast_char (x : Int) : Char :=
  Char.ofNat (x % 256).toNat

/-- Can the input stand for a move (`check_input_is_a_move`); a `std::string`
is the list of its characters, compared by their codes. -/
def check_input_is_a_move (input : List Char) : Option Bool :=
  if input.length < 4 then
    some false
  else do
    let c0 ← input[0]?
    let c1 ← input[1]?
    let c2 ← input[2]?
    let c3 ← input[3]?
    pure (decide (c0.toNat ≥ 'a'.toNat ∧ c0.toNat ≤ 'i'.toNat) &&
      decide (c1.toNat ≥ '0'.toNat ∧ c1.toNat ≤ '9'.toNat) &&
      decide (c2.toNat ≥ 'a'.toNat ∧ c2.toNat ≤ 'i'.toNat) &&
      decide (c3.toNat ≥ '0'.toNat ∧ c3.toNat ≤ '9'.toNat))

/-- Convert the input to a move (`convert_input_to_move`); reading a
character the string does not have is `none`. -/
def convert_input_to_move (input : List Char) : Option MoveNode := do
  let c0 ← input[0]?
  let c1 ← input[1]?
  let c2 ← input[2]?
  let c3 ← input[3]?
  pure
    { beginRow := 9 - ((c1.toNat : Int) - ('0'.toNat : Int)) + BOARD_ACTUAL_ROW_BEGIN
      beginCol := (c0.toNat : Int) - ('a'.toNat : Int) + BOARD_ACTUAL_COL_BEGIN
      endRow := 9 - ((c3.toNat : Int) - ('0'.toNat : Int)) + BOARD_ACTUAL_ROW_BEGIN
      endCol := (c2.toNat : Int) - ('a'.toNat : Int) + BOARD_ACTUAL_COL_BEGIN }

/-- Convert a move to its four characters (`convert_move_to_str`). -/
def convert_move_to_str (move : MoveNode) : List Char :=
  [ static_cast_char (move.beginCol - BOARD_ACTUAL_COL_BEGIN + ('a'.toNat : Int)),
    static_cast_char (9 - (move.beginRow - BOARD_ACTUAL_ROW_BEGIN) + ('0'.toNat : Int)),
    static_cast_char (move.endCol - BOARD_ACTUAL_COL_BEGIN + ('a'.toNat : Int)),
    static_cast_char (9 - (move.endRow - BOARD_ACTUAL_ROW_BEGIN) + ('0'.toNat : Int)) ]

/-! ## single_file.cpp -/

/-! The single-file variant declares the enumerations, the side, type and
value tables, `MoveNode`, `HistoryNode`, `ChessBoard::get`, `set`, `move`,
`undo` and `check_possible_move_and_insert` with the text of the namespace
variant; they are shared here.  Its constants swap the meaning of
`BOARD_ROW_LEN` and `BOARD_ACTUAL_ROW_LEN`, so they get their own namespace,
and so do its board reset and its move generator. -/

namespace single_file

def BOARD_ROW_LEN : Int := 10
def BOARD_COL_LEN : Int := 9
def BOARD_ACTUAL_ROW_LEN : Int := 14
def BOARD_ACTUAL_COL_LEN : Int := 13

def BOARD_ACTUAL_ROW_BEGIN : Int := 2
def BOARD_ACTUAL_COL_BEGIN : Int := 2
def BOARD_ACTUAL_ROW_END : Int := BOARD_ACTUAL_ROW_BEGIN + BOARD_ROW_LEN - 1
def BOARD_ACTUAL_COL_END : Int := BOARD_ACTUAL_COL_BEGIN + BOARD_COL_LEN - 1

def BOARD_RIVER_UP : Int := BOARD_ACTUAL_ROW_BEGIN + 4
def BOARD_RIVER_DOWN : Int := BOARD_ACTUAL_ROW_BEGIN + 5

def BOARD_9_PALACE_UP_TOP : Int := BOARD_ACTUAL_ROW_BEGIN
def BOARD_9_PALACE_UP_BOTTOM : Int := BOARD_ACTUAL_ROW_BEGIN + 2
def BOARD_9_PALACE_UP_LEFT : Int := BOARD_ACTUAL_COL_BEGIN + 3
def BOARD_9_PALACE_UP_RIGHT : Int := BOARD_ACTUAL_COL_BEGIN + 5

def BOARD_9_PALACE_DOWN_TOP : Int := BOARD_ACTUAL_ROW_BEGIN + 7
def BOARD_9_PALACE_DOWN_BOTTOM : Int := BOARD_ACTUAL_ROW_BEGIN + 9
def BOARD_9_PALACE_DOWN_LEFT : Int := BOARD_ACTUAL_COL_BEGIN + 3
def BOARD_9_PALACE_DOWN_RIGHT : Int := BOARD_ACTUAL_COL_BEGIN + 5

/-- The starting layout `DEFAULT_CHESS_BOARD_DATA`, row by row. -/
def DEFAULT_CHESS_BOARD_DATA : List (List Piece) :=
  [ [ P_EO, P_EO, P_EO, P_EO, P_EO, P_EO, P_EO, P_EO, P_EO, P_EO, P_EO, P_EO, P_EO ],
    [ P_EO, P_EO, P_EO, P_EO, P_EO, P_EO, P_EO, P_EO, P_EO, P_EO, P_EO, P_EO, P_EO ],
    [ P_EO, P_EO, P_UR, P_UN, P_UB, P_UA, P_UG, P_UA, P_UB, P_UN, P_UR, P_EO, P_EO ],
    [ P_EO, P_EO, P_EE, P_EE, P_EE, P_EE, P_EE, P_EE, P_EE, P_EE, P_EE, P_EO, P_EO ],
    [ P_EO, P_EO, P_EE, P_UC, P_EE, P_EE, P_EE, P_EE, P_EE, P_UC, P_EE, P_EO, P_EO ],
    [ P_EO, P_EO, P_UP, P_EE, P_UP, P_EE, P_UP, P_EE, P_UP, P_EE, P_UP, P_EO, P_EO ],
    [ P_EO, P_EO, P_EE, P_EE, P_EE, P_EE, P_EE, P_EE, P_EE, P_EE, P_EE, P_EO, P_EO ],
    [ P_EO, P_EO, P_EE, P_EE, P_EE, P_EE, P_EE, P_EE, P_EE, P_EE, P_EE, P_EO, P_EO ],
    [ P_EO, P_EO, P_DP, P_EE, P_DP, P_EE, P_DP, P_EE, P_DP, P_EE, P_DP, P_EO, P_EO ],
    [ P_EO, P_EO, P_EE, P_DC, P_EE, P_EE, P_EE, P_EE, P_EE, P_DC, P_EE, P_EO, P_EO ],
    [ P_EO, P_EO, P_EE, P_EE, P_EE, P_EE, P_EE, P_EE, P_EE, P_EE, P_EE, P_EO, P_EO ],
    [ P_EO, P_EO, P_DR, P_DN, P_DB, P_DA, P_DG, P_DA, P_DB, P_DN, P_DR, P_EO, P_EO ],
    [ P_EO, P_EO, P_EO, P_EO, P_EO, P_EO, P_EO, P_EO, P_EO, P_EO, P_EO, P_EO, P_EO ],
    [ P_EO, P_EO, P_EO, P_EO, P_EO, P_EO, P_EO, P_EO, P_EO, P_EO, P_EO, P_EO, P_EO ] ]

/-- Read `DEFAULT_CHESS_BOARD_DATA[r][c]`; `none` when an index is outside
its array. -/
def default_data_at (r c : Int) : Option Piece :=
  if 0 ≤ r ∧ 0 ≤ c then
    match DEFAULT_CHESS_BOARD_DATA[r.toNat]? with
    | none => none
    | some row => row[c.toNat]?
  else none

/-- The body `data[r][c] = DEFAULT_CHESS_BOARD_DATA[r][c]` of the double loop
of `ChessBoard::clear`. -/
def clear_cell (r c : Int) (cb : ChessBoard) : Option ChessBoard := do
  let p ← default_data_at r c
  cb.set r c p

/-- Reset the board (`ChessBoard::clear`): copy the template into all 14 x 13
cells, then `history.clear()`. -/
def ChessBoard.clear (cb : ChessBoard) : Option ChessBoard := do
  let cb1 ← forRange BOARD_ACTUAL_ROW_LEN.toNat 0
    (fun r b => forRange BOARD_ACTUAL_COL_LEN.toNat 0 (fun c b1 => clear_cell r c b1) b) cb
  pure { cb1 with history := [] }

/-- Pawn moves (`gen_moves_pawn`); the vector is taken by reference, so the
appended moves reach the caller. -/
def gen_moves_pawn (cb : ChessBoard) (pm : PossibleMoves) (r c : Int)
    (side : PieceSide) : Option PossibleMoves :=
  if side = PS_UP then do
    let pm1 ← check_possible_move_and_insert cb pm r c (r + 1) c
    if r > BOARD_RIVER_UP then do
      let pm2 ← check_possible_move_and_insert cb pm1 r c r (c - 1)
      check_possible_move_and_insert cb pm2 r c r (c + 1)
    else
      pure pm1
  else if side = PS_DOWN then do
    let pm1 ← check_possible_move_and_insert cb pm r c (r - 1) c
    if r < BOARD_RIVER_DOWN then do
      let pm2 ← check_possible_move_and_insert cb pm1 r c r (c - 1)
      check_possible_move_and_insert cb pm2 r c r (c + 1)
    else
      pure pm1
  else
    pure pm

/-- Cannon moves along one ray (`gen_moves_cannon_one_direction`); the two
loops have the text of the namespace variant. -/
def gen_moves_cannon_one_direction (cb : ChessBoard) (pm : PossibleMoves)
    (r c rGap cGap : Int) (side : PieceSide) : Option PossibleMoves := do
  let (pm1, row, col, p) ← scan_empty_cells cb r c rGap cGap SCAN_BUDGET (r + rGap) (c + cGap) pm
  if p ≠ P_EO then
    cannon_scan_capture cb r c rGap cGap side SCAN_BUDGET (row + rGap) (col + cGap) pm1
  else
    pure pm1

/-- Cannon moves (`gen_moves_cannon`): up, down, left, right. -/
def gen_moves_cannon (cb : ChessBoard) (pm : PossibleMoves) (r c : Int)
    (side : PieceSide) : Option PossibleMoves := do
  let pm1 ← gen_moves_cannon_one_direction cb pm r c (-1) 0 side
  let pm2 ← gen_moves_cannon_one_direction cb pm1 r c 1 0 side
  let pm3 ← gen_moves_cannon_one_direction cb pm2 r c 0 (-1) side
  gen_moves_cannon_one_direction cb pm3 r c 0 1 side

/-- Rook moves along one ray (`gen_moves_rook_one_direction`). -/
def gen_moves_rook_one_direction (cb : ChessBoard) (pm : PossibleMoves)
    (r c rGap cGap : Int) (side : PieceSide) : Option PossibleMoves := do
  let (pm1, row, col, p) ← scan_empty_cells cb r c rGap cGap SCAN_BUDGET (r + rGap) (c + cGap) pm
  if piece_get_side p = piece_side_get_reverse side then
    pure (pm1 ++ [⟨r, c, row, col⟩])
  else
    pure pm1

/-- Rook moves (`gen_moves_rook`): up, down, left, right. -/
def gen_moves_rook (cb : ChessBoard) (pm : PossibleMoves) (r c : Int)
    (side : PieceSide) : Option PossibleMoves := do
  let pm1 ← gen_moves_rook_one_direction cb pm r c (-1) 0 side
  let pm2 ← gen_moves_rook_one_direction cb pm1 r c 1 0 side
  let pm3 ← gen_moves_rook_one_direction cb pm2 r c 0 (-1) side
  gen_moves_rook_one_direction cb pm3 r c 0 1 side

/-- Knight moves (`gen_moves_knight`). -/
def gen_moves_knight (cb : ChessBoard) (pm : PossibleMoves) (r c : Int)
    (_side : PieceSide) : Option PossibleMoves := do
  let pm1 ← knight_leg cb pm r c (r + 1) c (r + 2) (c + 1) (r + 2) (c - 1)
  let pm2 ← knight_leg cb pm1 r c (r - 1) c (r - 2) (c + 1) (r - 2) (c - 1)
  let pm3 ← knight_leg cb pm2 r c r (c + 1) (r + 1) (c + 2) (r - 1) (c + 2)
  knight_leg cb pm3 r c r (c - 1) (r + 1) (c - 2) (r - 1) (c - 2)

/-- Bishop moves (`gen_moves_bishop`). -/
def gen_moves_bishop (cb : ChessBoard) (pm : PossibleMoves) (r c : Int)
    (side : PieceSide) : Option PossibleMoves :=
  if side = PS_UP then do
    let pm2 ←
      (if r + 2 ≤ BOARD_RIVER_UP then do
        let pm1 ← bishop_eye cb pm r c (r + 1) (c + 1) (r + 2) (c + 2)
        bishop_eye cb pm1 r c (r + 1) (c - 1) (r + 2) (c - 2)
      else
        pure pm)
    let pm3 ← bishop_eye cb pm2 r c (r - 1) (c + 1) (r - 2) (c + 2)
    bishop_eye cb pm3 r c (r - 1) (c - 1) (r - 2) (c - 2)
  else if side = PS_DOWN then do
    let pm2 ←
      (if r - 2 ≥ BOARD_RIVER_DOWN then do
        let pm1 ← bishop_eye cb pm r c (r - 1) (c + 1) (r - 2) (c + 2)
        bishop_eye cb pm1 r c (r - 1) (c - 1) (r - 2) (c - 2)
      else
        pure pm)
    let pm3 ← bishop_eye cb pm2 r c (r + 1) (c + 1) (r + 2) (c + 2)
    bishop_eye cb pm3 r c (r + 1) (c - 1) (r + 2) (c - 2)
  else
    pure pm

/-- Advisor moves (`gen_moves_advisor`). -/
def gen_moves_advisor (cb : ChessBoard) (pm : PossibleMoves) (r c : Int)
    (side : PieceSide) : Option PossibleMoves :=
  if side = PS_UP then do
    let pm1 ← insert_if (r + 1 ≤ BOARD_9_PALACE_UP_BOTTOM ∧ c + 1 ≤ BOARD_9_PALACE_UP_RIGHT)
      cb pm r c (r + 1) (c + 1)
    let pm2 ← insert_if (r + 1 ≤ BOARD_9_PALACE_UP_BOTTOM ∧ c - 1 ≥ BOARD_9_PALACE_UP_LEFT)
      cb pm1 r c (r + 1) (c - 1)
    let pm3 ← insert_if (r - 1 ≥ BOARD_9_PALACE_UP_TOP ∧ c + 1 ≤ BOARD_9_PALACE_UP_RIGHT)
      cb pm2 r c (r - 1) (c + 1)
    insert_if (r - 1 ≥ BOARD_9_PALACE_UP_TOP ∧ c - 1 ≥ BOARD_9_PALACE_UP_LEFT)
      cb pm3 r c (r - 1) (c - 1)
  else if side = PS_DOWN then do
    let pm1 ← insert_if (r + 1 ≤ BOARD_9_PALACE_DOWN_BOTTOM ∧ c + 1 ≤ BOARD_9_PALACE_DOWN_RIGHT)
      cb pm r c (r + 1) (c + 1)
    let pm2 ← insert_if (r + 1 ≤ BOARD_9_PALACE_DOWN_BOTTOM ∧ c - 1 ≥ BOARD_9_PALACE_DOWN_LEFT)
      cb pm1 r c (r + 1) (c - 1)
    let pm3 ← insert_if (r - 1 ≥ BOARD_9_PALACE_DOWN_TOP ∧ c + 1 ≤ BOARD_9_PALACE_DOWN_RIGHT)
      cb pm2 r c (r - 1) (c + 1)
    insert_if (r - 1 ≥ BOARD_9_PALACE_DOWN_TOP ∧ c - 1 ≥ BOARD_9_PALACE_DOWN_LEFT)
      cb pm3 r c (r - 1) (c - 1)
  else
    pure pm

/-- General moves (`gen_moves_general`).  The up loop runs
`row = r + 1, ..., BOARD_ACTUAL_ROW_END`, the down loop
`row = r - 1, ..., BOARD_ACTUAL_ROW_BEGIN`. -/
def gen_moves_general (cb : ChessBoard) (pm : PossibleMoves) (r c : Int)
    (side : PieceSide) : Option PossibleMoves :=
  if side = PS_UP then do
    let pm1 ← insert_if (r + 1 ≤ BOARD_9_PALACE_UP_BOTTOM) cb pm r c (r + 1) c
    let pm2 ← insert_if (r - 1 ≥ BOARD_9_PALACE_UP_TOP) cb pm1 r c (r - 1) c
    let pm3 ← insert_if (c + 1 ≤ BOARD_9_PALACE_UP_RIGHT) cb pm2 r c r (c + 1)
    let pm4 ← insert_if (c - 1 ≥ BOARD_9_PALACE_UP_LEFT) cb pm3 r c r (c - 1)
    general_scan cb r c 1 P_DG (BOARD_ACTUAL_ROW_END - (r + 1) + 1).toNat (r + 1) pm4
  else if side = PS_DOWN then do
    let pm1 ← insert_if (r + 1 ≤ BOARD_9_PALACE_DOWN_BOTTOM) cb pm r c (r + 1) c
    let pm2 ← insert_if (r - 1 ≥ BOARD_9_PALACE_DOWN_TOP) cb pm1 r c (r - 1) c
    let pm3 ← insert_if (c + 1 ≤ BOARD_9_PALACE_DOWN_RIGHT) cb pm2 r c r (c + 1)
    let pm4 ← insert_if (c - 1 ≥ BOARD_9_PALACE_DOWN_LEFT) cb pm3 r c r (c - 1)
    general_scan cb r c (-1) P_UG (r - 1 - BOARD_ACTUAL_ROW_BEGIN + 1).toNat (r - 1) pm4
  else
    pure pm

/-- The body of the double loop of `gen_possible_moves` at cell `(r, c)`. -/
def gen_possible_moves_cell (cb : ChessBoard) (side : PieceSide) (r c : Int)
    (pm : PossibleMoves) : Option PossibleMoves := do
  let p ← cb.get r c
  if piece_get_side p = side then
    match piece_get_type p with
    | PT_PAWN => gen_moves_pawn cb pm r c side
    | PT_CANNON => gen_moves_cannon cb pm r c side
    | PT_ROOK => gen_moves_rook cb pm r c side
    | PT_KNIGHT => gen_moves_knight cb pm r c side
    | PT_BISHOP => gen_moves_bishop cb pm r c side
    | PT_ADVISOR => gen_moves_advisor cb pm r c side
    | PT_GENERAL => gen_moves_general cb pm r c side
    | PT_EMPTY => pure pm
    | PT_OUT => pure pm
  else
    pure pm

/-- Generate the possible moves of one side (`gen_possible_moves` of the
single-file variant): rows `BOARD_ACTUAL_ROW_BEGIN..BOARD_ACTUAL_ROW_END`, in
each row columns `BOARD_ACTUAL_COL_BEGIN..BOARD_ACTUAL_COL_END`. -/
def gen_possible_moves (cb : ChessBoard) (side : PieceSide) : Option PossibleMoves :=
  forRange (BOARD_ACTUAL_ROW_END - BOARD_ACTUAL_ROW_BEGIN + 1).toNat BOARD_ACTUAL_ROW_BEGIN
    (fun r pm => forRange (BOARD_ACTUAL_COL_END - BOARD_ACTUAL_COL_BEGIN + 1).toNat
      BOARD_ACTUAL_COL_BEGIN (fun c pm1 => gen_possible_moves_cell cb side r c pm1) pm) []

/-- The difficulty change (`state_diff` of the single-file C++ variant) on the
16-bit unsigned `searchDepth`.  `answer` is the first line read and `entered`
the value of `std::stoi(input)` for the second line; `%` on `int` truncates
toward zero and the assignment to `uint16_t` reduces modulo 65536.  Yields the
new `searchDepth`. -/
def state_diff (searchDepth : Nat) (answer : String) (entered : Int) : Nat :=
  if answer = "n" then searchDepth
  else
    let searchDepth1 := ((Int.tmod entered 6) % 65536).toNat
    if searchDepth1 = 0 then 1 else searchDepth1

end single_file

/-! ## single_file.c -/

namespace single_file_c

/-- The difficulty change (`state_diff` of the C variant) on the
`unsigned int` behind `difficulty`.  `answer` is the first line read
(`string_compare_c_str` is `strcmp(...) == 0`) and `entered` the value of
`atoi(input->data)` for the second line; `%` on `int` truncates toward zero
and the assignment to `unsigned int` reduces modulo 2^32.  Yields the new
`*difficulty`. -/
def state_diff (difficulty : Nat) (answer : String) (entered : Int) : Nat :=
  if answer = "n" then difficulty
  else
    let difficulty1 := ((Int.tmod entered 5) % 4294967296).toNat
    if difficulty1 = 0 then 1 else difficulty1

end single_file_c

/-! ## Reference definitions for the search -/

/-- Minimum of a list of values, or `dflt` for the empty list. -/
def minimumOr (dflt : Int) : List Int → Int
  | [] => dflt
  | v :: vs => vs.foldl min v

/-- Maximum of a list of values, or `dflt` for the empty list. -/
def maximumOr (dflt : Int) : List Int → Int
  | [] => dflt
  | v :: vs => vs.foldl max v

/-- Collect `f x` over a list, `none` as soon as one of them is. -/
def collect {α β : Type} (f : α → Option β) : List α → Option (List β)
  | [] => some []
  | x :: xs => (f x).bind fun y => (collect f xs).map fun ys => y :: ys

/-- Plain minimax without pruning, as the specification words it:
at depth 0 the score of the board; for up the minimum over the generated up
moves of the value of the board after the move with down to move, or
`INT32_MAX` when there is no move; for down the maximum over the generated
down moves, or `INT32_MIN` when there is no move. -/
def plain_minimax (cb : ChessBoard) (depth : Nat) (side : PieceSide) : Option Int :=
  match depth with
  | 0 => board_calc_score cb
  | d + 1 =>
    match side with
    | PS_UP =>
      (gen_possible_moves cb PS_UP).bind fun moves =>
        (collect (fun m => (cb.move m).bind fun b => plain_minimax b d PS_DOWN) moves).map
          (minimumOr INT32_MAX)
    | PS_DOWN =>
      (gen_possible_moves cb PS_DOWN).bind fun moves =>
        (collect (fun m => (cb.move m).bind fun b => plain_minimax b d PS_UP) moves).map
          (maximumOr INT32_MIN)
    | PS_EXTRA => none

/-- The value of the position after `m` with `side`'s opponent to move,
searched `depth` plies by plain minimax. -/
def value_after (cb : ChessBoard) (depth : Nat) (side : PieceSide) (m : MoveNode) : Option Int :=
  (cb.move m).bind fun b => plain_minimax b depth (piece_side_get_reverse side)

/-! ## Predicates used in the statements -/

/-- The cell lies in the playable region: rows 2..11, columns 2..10. -/
def playable (r c : Int) : Prop :=
  2 ≤ r ∧ r ≤ 11 ∧ 2 ≤ c ∧ c ≤ 10

instance (r c : Int) : Decidable (playable r c) := by
  unfold playable; exact inferInstance

/-- The side is one of the two players. -/
def isPlayer (side : PieceSide) : Prop :=
  side = PS_UP ∨ side = PS_DOWN

instance (side : PieceSide) : Decidable (isPlayer side) := by
  unfold isPlayer; exact inferInstance

/-- The cell can be read, is not out-of-board, and is empty or holds a piece
of the side opposite to `side`. -/
def EndOK (cb : ChessBoard) (side : PieceSide) (r c : Int) : Prop :=
  ∃ q, cb.get r c = some q ∧ q ≠ P_EO ∧
    (q = P_EE ∨ piece_get_side q = piece_side_get_reverse side)

/-- The cell can be read and holds a piece of `side`. -/
def BeginOK (cb : ChessBoard) (side : PieceSide) (r c : Int) : Prop :=
  ∃ p, cb.get r c = some p ∧ piece_get_side p = side

/-- What every generated move of `side` satisfies: it starts on a playable
cell holding a piece of `side` and ends on a different playable cell that is
empty or holds a piece of the other side. -/
def GoodMove (cb : ChessBoard) (side : PieceSide) (m : MoveNode) : Prop :=
  playable m.beginRow m.beginCol ∧ BeginOK cb side m.beginRow m.beginCol ∧
  (m.endRow, m.endCol) ≠ (m.beginRow, m.beginCol) ∧
  playable m.endRow m.endCol ∧ EndOK cb side m.endRow m.endCol

/-- The result of a generator step is the list it was given followed by moves
that all satisfy `P`. -/
def Extends (P : MoveNode → Prop) (pm : PossibleMoves) (res : Option PossibleMoves) : Prop :=
  ∃ added, res = some (pm ++ added) ∧ ∀ m ∈ added, P m

/-- The cells a sliding scan can visit: the playable region and the ring of
border cells next to it. -/
def inRing (r c : Int) : Prop :=
  1 ≤ r ∧ r ≤ 12 ∧ 1 ≤ c ∧ c ≤ 11

/-- One of the four orthogonal unit steps. -/
def isStep (rGap cGap : Int) : Prop :=
  (rGap = -1 ∧ cGap = 0) ∨ (rGap = 1 ∧ cGap = 0) ∨ (rGap = 0 ∧ cGap = -1) ∨ (rGap = 0 ∧ cGap = 1)

/-- Number of steps from a ring cell to the border in the given direction. -/
def stepsLeft (rGap cGap row col : Int) : Int :=
  if rGap = 1 then 12 - row else if rGap = -1 then row - 1
  else if cGap = 1 then 11 - col else col - 1

/-- The fail-soft relation between the value `r` returned for the window
`(alpha, beta)` and the exact value `v`: at or below `alpha` it is an upper
bound, at or above `beta` a lower bound, strictly inside it is exact. -/
def FailSoft (r v alpha beta : Int) : Prop :=
  (r ≤ alpha → v ≤ r) ∧ (beta ≤ r → r ≤ v) ∧ (alpha < r → r < beta → r = v)

/-- Index `i` is the greatest index at which `vals` takes its minimum. -/
def IsLastMin (vals : List Int) (i : Nat) : Prop :=
  ∃ vi : Int, vals[i]? = some vi ∧ ∀ (j : Nat) (vj : Int), vals[j]? = some vj → vi ≤ vj ∧ (i < j → vi < vj)

/-- Index `i` is the greatest index at which `vals` takes its maximum. -/
def IsLastMax (vals : List Int) (i : Nat) : Prop :=
  ∃ vi : Int, vals[i]? = some vi ∧ ∀ (j : Nat) (vj : Int), vals[j]? = some vj → vj ≤ vi ∧ (i < j → vj < vi)

/-! ## Predicates for the moves of each piece -/

/-- The result of a generator step is the list it was given followed by
exactly the moves that satisfy `S`. -/
def Appends (S : MoveNode → Prop) (pm : PossibleMoves) (res : Option PossibleMoves) : Prop :=
  ∃ added, res = some (pm ++ added) ∧ ∀ m, m ∈ added ↔ S m

/-- A destination that passes the insertion test for a piece of `side`: it can
be read, is not out-of-board and is not occupied by `side`. -/
def DestOK (cb : ChessBoard) (side : PieceSide) (r c : Int) : Prop :=
  ∃ q, cb.get r c = some q ∧ q ≠ P_EO ∧ piece_get_side q ≠ side

/-- Along the ray from `(r, c)` in direction `(dr, dc)`, distance `k` holds
the first non-empty cell at distance `i0` or more, and that cell holds `p`. -/
def FirstNonEmpty (cb : ChessBoard) (r c dr dc : Int) (i0 k : Nat) (p : Piece) : Prop :=
  i0 ≤ k ∧ (∀ i : Nat, i0 ≤ i → i < k → cb.get (r + i * dr) (c + i * dc) = some P_EE) ∧
    cb.get (r + k * dr) (c + k * dc) = some p ∧ p ≠ P_EE

/-- Rook moves along one ray: the empty cells before the first non-empty
cell, and that cell when it holds a piece of the other side. -/
def RookRayMoves (cb : ChessBoard) (side : PieceSide) (r c dr dc : Int) (m : MoveNode) : Prop :=
  ∃ (k : Nat) (pk : Piece), FirstNonEmpty cb r c dr dc 1 k pk ∧
    ∃ j : Nat, 1 ≤ j ∧ m = ⟨r, c, r + j * dr, c + j * dc⟩ ∧
      (j < k ∨ (j = k ∧ piece_get_side pk = piece_side_get_reverse side))

/-- Cannon moves along one ray: the empty cells before the first non-empty
cell (the screen), and, when the screen is a piece, the first non-empty cell
beyond it when that holds a piece of the other side. -/
def CannonRayMoves (cb : ChessBoard) (side : PieceSide) (r c dr dc : Int) (m : MoveNode) :
    Prop :=
  ∃ (k : Nat) (pk : Piece), FirstNonEmpty cb r c dr dc 1 k pk ∧
    ∃ j : Nat, 1 ≤ j ∧ m = ⟨r, c, r + j * dr, c + j * dc⟩ ∧
      (j < k ∨ (pk ≠ P_EO ∧ ∃ q, FirstNonEmpty cb r c dr dc (k + 1) j q ∧
        piece_get_side q = piece_side_get_reverse side))

/-- Rook moves: the four rays. -/
def RookMoves (cb : ChessBoard) (side : PieceSide) (r c : Int) (m : MoveNode) : Prop :=
  ∃ dr dc : Int, isStep dr dc ∧ RookRayMoves cb side r c dr dc m

/-- Cannon moves: the four rays. -/
def CannonMoves (cb : ChessBoard) (side : PieceSide) (r c : Int) (m : MoveNode) : Prop :=
  ∃ dr dc : Int, isStep dr dc ∧ CannonRayMoves cb side r c dr dc m

/-- A unit offset: `1` or `-1`. -/
def isUnit1 (a : Int) : Prop :=
  a = 1 ∨ a = -1

/-- Knight moves: the leaps `(r + 2a, c + b)` behind the empty leg
`(r + a, c)` and `(r + b, c + 2a)` behind the empty leg `(r, c + a)`, onto an
acceptable destination. -/
def KnightMoves (cb : ChessBoard) (side : PieceSide) (r c : Int) (m : MoveNode) : Prop :=
  ∃ a b : Int, isUnit1 a ∧ isUnit1 b ∧
    ((m = ⟨r, c, r + 2 * a, c + b⟩ ∧ cb.get (r + a) c = some P_EE ∧
        DestOK cb side (r + 2 * a) (c + b)) ∨
      (m = ⟨r, c, r + b, c + 2 * a⟩ ∧ cb.get r (c + a) = some P_EE ∧
        DestOK cb side (r + b) (c + 2 * a)))

/-- Bishop moves: the diagonal leaps `(r + 2a, c + 2b)` behind the empty eye
`(r + a, c + b)`, onto an acceptable destination, the leaps toward the
opponent only when they stay on the own side of the river. -/
def BishopMoves (cb : ChessBoard) (side : PieceSide) (r c : Int) (m : MoveNode) : Prop :=
  ∃ a b : Int, isUnit1 a ∧ isUnit1 b ∧ m = ⟨r, c, r + 2 * a, c + 2 * b⟩ ∧
    cb.get (r + a) (c + b) = some P_EE ∧ DestOK cb side (r + 2 * a) (c + 2 * b) ∧
    (side = PS_UP → a = 1 → r + 2 ≤ 6) ∧ (side = PS_DOWN → a = -1 → r - 2 ≥ 7)

/-- The cell is inside the palace of `side`: rows 2..4 for up, 9..11 for
down, columns 5..7. -/
def inPalace (side : PieceSide) (r c : Int) : Prop :=
  ((side = PS_UP ∧ 2 ≤ r ∧ r ≤ 4) ∨ (side = PS_DOWN ∧ 9 ≤ r ∧ r ≤ 11)) ∧ 5 ≤ c ∧ c ≤ 7

instance (side : PieceSide) (r c : Int) : Decidable (inPalace side r c) := by
  unfold inPalace; exact inferInstance

/-- The bound tests the advisor and the general make before a step by
`(a, b)`: only the bound of the palace of `side` that lies in the direction
of the step is tested. -/
def stepTested (side : PieceSide) (r c a b : Int) : Prop :=
  ((side = PS_UP ∧ (a = 1 → r + 1 ≤ 4) ∧ (a = -1 → r - 1 ≥ 2)) ∨
    (side = PS_DOWN ∧ (a = 1 → r + 1 ≤ 11) ∧ (a = -1 → r - 1 ≥ 9))) ∧
  (b = 1 → c + 1 ≤ 7) ∧ (b = -1 → c - 1 ≥ 5)

/-- Advisor moves: the diagonal steps that pass the bound tests, onto an
acceptable destination. -/
def AdvisorMoves (cb : ChessBoard) (side : PieceSide) (r c : Int) (m : MoveNode) : Prop :=
  ∃ a b : Int, isUnit1 a ∧ isUnit1 b ∧ m = ⟨r, c, r + a, c + b⟩ ∧
    stepTested side r c a b ∧ DestOK cb side (r + a) (c + b)

/-- The flying-general move: along the column toward the opponent, the first
non-empty cell not past the last playable row holds the opposing general. -/
def FlyingMove (cb : ChessBoard) (side : PieceSide) (r c : Int) (m : MoveNode) : Prop :=
  (side = PS_UP ∧ ∃ row : Int, r < row ∧ row ≤ 11 ∧
      (∀ x : Int, r < x → x < row → cb.get x c = some P_EE) ∧
      cb.get row c = some P_DG ∧ m = ⟨r, c, row, c⟩) ∨
  (side = PS_DOWN ∧ ∃ row : Int, 2 ≤ row ∧ row < r ∧
      (∀ x : Int, row < x → x < r → cb.get x c = some P_EE) ∧
      cb.get row c = some P_UG ∧ m = ⟨r, c, row, c⟩)

/-- General moves: the orthogonal steps that pass the bound tests, onto an
acceptable destination, and the flying-general move. -/
def GeneralMoves (cb : ChessBoard) (side : PieceSide) (r c : Int) (m : MoveNode) : Prop :=
  (∃ a b : Int, isStep a b ∧ m = ⟨r, c, r + a, c + b⟩ ∧
    stepTested side r c a b ∧ DestOK cb side (r + a) (c + b)) ∨
  FlyingMove cb side r c m

/-- The moves the generator appends for a piece of type `t` and side `side`
standing on `(r, c)`; none for a pawn, whose moves go to a dropped copy. -/
def PieceMoves (cb : ChessBoard) (side : PieceSide) (t : PieceType) (r c : Int)
    (m : MoveNode) : Prop :=
  match t with
  | PT_PAWN => False
  | PT_CANNON => CannonMoves cb side r c m
  | PT_ROOK => RookMoves cb side r c m
  | PT_KNIGHT => KnightMoves cb side r c m
  | PT_BISHOP => BishopMoves cb side r c m
  | PT_ADVISOR => AdvisorMoves cb side r c m
  | PT_GENERAL => GeneralMoves cb side r c m
  | PT_EMPTY => False
  | PT_OUT => False

/-- The general `g` occupies some cell of the palace of `side`. -/
def generalInPalace (cb : ChessBoard) (side : PieceSide) (g : Piece) : Prop :=
  ∃ r c : Int, inPalace side r c ∧ cb.get r c = some g

/-! ## Reference definitions for the evaluation and the move order -/

/-- The term of a cell in the score, in the words of the specification: the
material value plus the positional value of the piece on the cell, and
nothing for a cell that holds no piece of a player. -/
def cell_term (cb : ChessBoard) (r c : Int) : Int :=
  match cb.get r c with
  | some p =>
    if piece_get_side p = PS_EXTRA then 0
    else (piece_get_value p).getD 0 +
      (piece_get_pos_value p (r - BOARD_ACTUAL_ROW_BEGIN) (c - BOARD_ACTUAL_COL_BEGIN)).getD 0
  | none => 0

/-- The sum of the terms of all cells of the playable region. -/
def sum_of_terms (cb : ChessBoard) : Int :=
  ∑ i ∈ Finset.range 10, ∑ j ∈ Finset.range 9, cell_term cb (2 + (i : Int)) (2 + (j : Int))

/-- The begin cell of `m1` is not after the begin cell of `m2` in row-major
order: rows first, columns second. -/
def rowMajorLE (m1 m2 : MoveNode) : Prop :=
  m1.beginRow < m2.beginRow ∨ (m1.beginRow = m2.beginRow ∧ m1.beginCol ≤ m2.beginCol)

instance (m1 m2 : MoveNode) : Decidable (rowMajorLE m1 m2) := by
  unfold rowMajorLE; exact inferInstance

/-- The two moves start on the same cell. -/
def sameBegin (m1 m2 : MoveNode) : Prop :=
  m1.beginRow = m2.beginRow ∧ m1.beginCol = m2.beginCol

/-! ## Reference definitions for the symmetry of the evaluation -/

/-- The piece of the same kind on the other side; empty and out-of-board stay. -/
def flip_piece : Piece → Piece
  | P_UP => P_DP
  | P_UC => P_DC
  | P_UR => P_DR
  | P_UN => P_DN
  | P_UB => P_DB
  | P_UA => P_DA
  | P_UG => P_DG
  | P_DP => P_UP
  | P_DC => P_UC
  | P_DR => P_UR
  | P_DN => P_UN
  | P_DB => P_UB
  | P_DA => P_UA
  | P_DG => P_UG
  | P_EE => P_EE
  | P_EO => P_EO

/-- The board with the sides exchanged, in the words of the specification:
internal row `r` goes to row `13 - r` and every piece becomes the piece of the
same kind on the other side.  The history is not carried over. -/
def flip (cb : ChessBoard) : ChessBoard where
  data := Mathlib.Vector.ofFn fun i => Mathlib.Vector.ofFn fun j =>
    flip_piece (cb.cell ⟨13 - i.val, by omega⟩ j)
  history := []

/-- The moves of a list that start on a cell holding a piece of kind `t`. -/
def movesOfKind (cb : ChessBoard) (t : PieceType) (L : List MoveNode) : List MoveNode :=
  L.filter fun m => decide ((cb.get m.beginRow m.beginCol).map piece_get_type = some t)

/-! ## Concrete positions -/

/-- A position with only the two generals, facing each other on column 6. -/
def FACING_GENERALS : ChessBoard :=
  boardOfRows
    [ [ P_EO, P_EO, P_EO, P_EO, P_EO, P_EO, P_EO, P_EO, P_EO, P_EO, P_EO, P_EO, P_EO ],
      [ P_EO, P_EO, P_EO, P_EO, P_EO, P_EO, P_EO, P_EO, P_EO, P_EO, P_EO, P_EO, P_EO ],
      [ P_EO, P_EO, P_EE, P_EE, P_EE, P_EE, P_UG, P_EE, P_EE, P_EE, P_EE, P_EO, P_EO ],
      [ P_EO, P_EO, P_EE, P_EE, P_EE, P_EE, P_EE, P_EE, P_EE, P_EE, P_EE, P_EO, P_EO ],
      [ P_EO, P_EO, P_EE, P_EE, P_EE, P_EE, P_EE, P_EE, P_EE, P_EE, P_EE, P_EO, P_EO ],
      [ P_EO, P_EO, P_EE, P_EE, P_EE, P_EE, P_EE, P_EE, P_EE, P_EE, P_EE, P_EO, P_EO ],
      [ P_EO, P_EO, P_EE, P_EE, P_EE, P_EE, P_EE, P_EE, P_EE, P_EE, P_EE, P_EO, P_EO ],
      [ P_EO, P_EO, P_EE, P_EE, P_EE, P_EE, P_EE, P_EE, P_EE, P_EE, P_EE, P_EO, P_EO ],
      [ P_EO, P_EO, P_EE, P_EE, P_EE, P_EE, P_EE, P_EE, P_EE, P_EE, P_EE, P_EO, P_EO ],
      [ P_EO, P_EO, P_EE, P_EE, P_EE, P_EE, P_EE, P_EE, P_EE, P_EE, P_EE, P_EO, P_EO ],
      [ P_EO, P_EO, P_EE, P_EE, P_EE, P_EE, P_EE, P_EE, P_EE, P_EE, P_EE, P_EO, P_EO ],
      [ P_EO, P_EO, P_EE, P_EE, P_EE, P_EE, P_DG, P_EE, P_EE, P_EE, P_EE, P_EO, P_EO ],
      [ P_EO, P_EO, P_EO, P_EO, P_EO, P_EO, P_EO, P_EO, P_EO, P_EO, P_EO, P_EO, P_EO ],
      [ P_EO, P_EO, P_EO, P_EO, P_EO, P_EO, P_EO, P_EO, P_EO, P_EO, P_EO, P_EO, P_EO ] ]

/-- A position with only the down general, on its starting cell. -/
def LONE_DOWN_GENERAL : ChessBoard :=
  boardOfRows
    [ [ P_EO, P_EO, P_EO, P_EO, P_EO, P_EO, P_EO, P_EO, P_EO, P_EO, P_EO, P_EO, P_EO ],
      [ P_EO, P_EO, P_EO, P_EO, P_EO, P_EO, P_EO, P_EO, P_EO, P_EO, P_EO, P_EO, P_EO ],
      [ P_EO, P_EO, P_EE, P_EE, P_EE, P_EE, P_EE, P_EE, P_EE, P_EE, P_EE, P_EO, P_EO ],
      [ P_EO, P_EO, P_EE, P_EE, P_EE, P_EE, P_EE, P_EE, P_EE, P_EE, P_EE, P_EO, P_EO ],
      [ P_EO, P_EO, P_EE, P_EE, P_EE, P_EE, P_EE, P_EE, P_EE, P_EE, P_EE, P_EO, P_EO ],
      [ P_EO, P_EO, P_EE, P_EE, P_EE, P_EE, P_EE, P_EE, P_EE, P_EE, P_EE, P_EO, P_EO ],
      [ P_EO, P_EO, P_EE, P_EE, P_EE, P_EE, P_EE, P_EE, P_EE, P_EE, P_EE, P_EO, P_EO ],
      [ P_EO, P_EO, P_EE, P_EE, P_EE, P_EE, P_EE, P_EE, P_EE, P_EE, P_EE, P_EO, P_EO ],
      [ P_EO, P_EO, P_EE, P_EE, P_EE, P_EE, P_EE, P_EE, P_EE, P_EE, P_EE, P_EO, P_EO ],
      [ P_EO, P_EO, P_EE, P_EE, P_EE, P_EE, P_EE, P_EE, P_EE, P_EE, P_EE, P_EO, P_EO ],
      [ P_EO, P_EO, P_EE, P_EE, P_EE, P_EE, P_EE, P_EE, P_EE, P_EE, P_EE, P_EO, P_EO ],
      [ P_EO, P_EO, P_EE, P_EE, P_EE, P_EE, P_DG, P_EE, P_EE, P_EE, P_EE, P_EO, P_EO ],
      [ P_EO, P_EO, P_EO, P_EO, P_EO, P_EO, P_EO, P_EO, P_EO, P_EO, P_EO, P_EO, P_EO ],
      [ P_EO, P_EO, P_EO, P_EO, P_EO, P_EO, P_EO, P_EO, P_EO, P_EO, P_EO, P_EO, P_EO ] ]

/-- The starting position after the down pawn of column 6 has advanced one
step, `(8, 6) -> (7, 6)`. -/
def AFTER_PAWN_ADVANCE : ChessBoard :=
  (ChessBoard.new.move ⟨8, 6, 7, 6⟩).getD ChessBoard.new

/-- A position with a single piece, the down advisor on the centre of its
palace. -/
def LONE_DOWN_ADVISOR : ChessBoard :=
  boardOfRows
    [ [ P_EO, P_EO, P_EO, P_EO, P_EO, P_EO, P_EO, P_EO, P_EO, P_EO, P_EO, P_EO, P_EO ],
      [ P_EO, P_EO, P_EO, P_EO, P_EO, P_EO, P_EO, P_EO, P_EO, P_EO, P_EO, P_EO, P_EO ],
      [ P_EO, P_EO, P_EE, P_EE, P_EE, P_EE, P_EE, P_EE, P_EE, P_EE, P_EE, P_EO, P_EO ],
      [ P_EO, P_EO, P_EE, P_EE, P_EE, P_EE, P_EE, P_EE, P_EE, P_EE, P_EE, P_EO, P_EO ],
      [ P_EO, P_EO, P_EE, P_EE, P_EE, P_EE, P_EE, P_EE, P_EE, P_EE, P_EE, P_EO, P_EO ],
      [ P_EO, P_EO, P_EE, P_EE, P_EE, P_EE, P_EE, P_EE, P_EE, P_EE, P_EE, P_EO, P_EO ],
      [ P_EO, P_EO, P_EE, P_EE, P_EE, P_EE, P_EE, P_EE, P_EE, P_EE, P_EE, P_EO, P_EO ],
      [ P_EO, P_EO, P_EE, P_EE, P_EE, P_EE, P_EE, P_EE, P_EE, P_EE, P_EE, P_EO, P_EO ],
      [ P_EO, P_EO, P_EE, P_EE, P_EE, P_EE, P_EE, P_EE, P_EE, P_EE, P_EE, P_EO, P_EO ],
      [ P_EO, P_EO, P_EE, P_EE, P_EE, P_EE, P_EE, P_EE, P_EE, P_EE, P_EE, P_EO, P_EO ],
      [ P_EO, P_EO, P_EE, P_EE, P_EE, P_EE, P_DA, P_EE, P_EE, P_EE, P_EE, P_EO, P_EO ],
      [ P_EO, P_EO, P_EE, P_EE, P_EE, P_EE, P_EE, P_EE, P_EE, P_EE, P_EE, P_EO, P_EO ],
      [ P_EO, P_EO, P_EO, P_EO, P_EO, P_EO, P_EO, P_EO, P_EO, P_EO, P_EO, P_EO, P_EO ],
      [ P_EO, P_EO, P_EO, P_EO, P_EO, P_EO, P_EO, P_EO, P_EO, P_EO, P_EO, P_EO, P_EO ] ]

end cnchess

/-! # Properties -/

namespace cnchess

open PieceSide PieceType Piece

/-! ## Board access -/

theorem ChessBoard.ext_cell {cb cb1 : ChessBoard}
    (hc : ∀ i j, cb.cell i j = cb1.cell i j) (hh : cb.history = cb1.history) : cb = cb1 := by
  cases cb with
  | mk d h =>
    cases cb1 with
    | mk d1 h1 =>
      simp only [ChessBoard.cell] at hc
      simp only at hh
      subst hh
      congr 1
      exact Mathlib.Vector.ext fun i => Mathlib.Vector.ext fun j => hc i j

theorem get_of_inGrid (cb : ChessBoard) {r c : Int} (h : inGrid r c) :
    cb.get r c = some (cb.cell (rowIdx r c h) (colIdx r c h)) := by
  simp [ChessBoard.get, h]

theorem get_eq_some_iff (cb : ChessBoard) {r c : Int} {p : Piece} :
    cb.get r c = some p ↔ ∃ h : inGrid r c, cb.cell (rowIdx r c h) (colIdx r c h) = p := by
  unfold ChessBoard.get
  by_cases h : inGrid r c <;> simp [h]

theorem set_of_inGrid (cb : ChessBoard) {r c : Int} (p : Piece) (h : inGrid r c) :
    ∃ cb1, cb.set r c p = some cb1 ∧ cb1.history = cb.history ∧
      ∀ i j, cb1.cell i j = if i = rowIdx r c h ∧ j = colIdx r c h then p else cb.cell i j := by
  refine ⟨{ cb with
      data := cb.data.set (rowIdx r c h) ((cb.data.get (rowIdx r c h)).set (colIdx r c h) p) },
    by simp only [ChessBoard.set, h, dite_true], rfl, ?_⟩
  intro i j
  simp only [ChessBoard.cell]
  by_cases hi : i = rowIdx r c h
  · subst hi
    rw [Mathlib.Vector.get_set_same]
    by_cases hj : j = colIdx r c h
    · subst hj
      simp [Mathlib.Vector.get_set_same]
    · rw [Mathlib.Vector.get_set_of_ne (Ne.symm hj)]
      simp [hj]
  · rw [Mathlib.Vector.get_set_of_ne (Ne.symm hi)]
    simp [hi]

/-- The effect of `ChessBoard::move` on an in-grid move. -/
theorem move_of_inGrid (cb : ChessBoard) (m : MoveNode)
    (hb : inGrid m.beginRow m.beginCol) (he : inGrid m.endRow m.endCol) :
    ∃ cb1, cb.move m = some cb1 ∧
      cb1.history = cb.history ++
        [⟨m, cb.cell (rowIdx _ _ hb) (colIdx _ _ hb), cb.cell (rowIdx _ _ he) (colIdx _ _ he)⟩] ∧
      ∀ i j, cb1.cell i j =
        if i = rowIdx _ _ he ∧ j = colIdx _ _ he then cb.cell (rowIdx _ _ hb) (colIdx _ _ hb)
        else if i = rowIdx _ _ hb ∧ j = colIdx _ _ hb then P_EE
        else cb.cell i j := by
  obtain ⟨cb2, h2, hh2, hc2⟩ := set_of_inGrid
    { cb with history := cb.history ++
        [⟨m, cb.cell (rowIdx _ _ hb) (colIdx _ _ hb), cb.cell (rowIdx _ _ he) (colIdx _ _ he)⟩] }
    P_EE hb
  obtain ⟨cb3, h3, hh3, hc3⟩ := set_of_inGrid cb2 (cb.cell (rowIdx _ _ hb) (colIdx _ _ hb)) he
  refine ⟨cb3, ?_, ?_, ?_⟩
  · simp only [ChessBoard.move, get_of_inGrid cb hb, get_of_inGrid cb he, Option.bind_eq_bind,
      Option.some_bind, h2, h3]
  · rw [hh3, hh2]
  · intro i j
    rw [hc3, hc2]
    rfl

/-- The effect of `ChessBoard::undo` on a board whose last history entry has
in-grid coordinates. -/
theorem undo_of_last (cb : ChessBoard) (hist : List HistoryNode) (node : HistoryNode)
    (hh : cb.history = hist ++ [node])
    (hb : inGrid node.move.beginRow node.move.beginCol)
    (he : inGrid node.move.endRow node.move.endCol) :
    ∃ cb1, cb.undo = some cb1 ∧ cb1.history = hist ∧
      ∀ i j, cb1.cell i j =
        if i = rowIdx _ _ he ∧ j = colIdx _ _ he then node.endPiece
        else if i = rowIdx _ _ hb ∧ j = colIdx _ _ hb then node.beginPiece
        else cb.cell i j := by
  obtain ⟨cb2, h2, hh2, hc2⟩ := set_of_inGrid cb node.beginPiece hb
  obtain ⟨cb3, h3, hh3, hc3⟩ := set_of_inGrid cb2 node.endPiece he
  refine ⟨{ cb3 with history := cb3.history.dropLast }, ?_, ?_, ?_⟩
  · simp only [ChessBoard.undo, hh, List.getLast?_concat, Option.bind_eq_bind,
      Option.some_bind, h2, h3, Option.pure_def]
  · simp [hh3, hh2, hh]
  · intro i j
    show cb3.cell i j = _
    rw [hc3, hc2]

/-- Undo on an empty history is a no-op. -/
theorem undo_of_empty (cb : ChessBoard) (hh : cb.history = []) : cb.undo = some cb := by
  simp [ChessBoard.undo, hh]

/-- Move followed by undo restores the board: grid and history. -/
theorem move_undo (cb : ChessBoard) (m : MoveNode)
    (hb : inGrid m.beginRow m.beginCol) (he : inGrid m.endRow m.endCol) :
    ∃ cb1, cb.move m = some cb1 ∧ cb1.undo = some cb := by
  obtain ⟨cb1, h1, hh1, hc1⟩ := move_of_inGrid cb m hb he
  obtain ⟨cb2, h2, hh2, hc2⟩ := undo_of_last cb1 cb.history _ hh1 hb he
  refine ⟨cb1, h1, ?_⟩
  rw [h2]
  congr 1
  apply ChessBoard.ext_cell _ hh2
  intro i j
  rw [hc2, hc1]
  by_cases h : i = rowIdx _ _ he ∧ j = colIdx _ _ he
  · rw [if_pos h, h.1, h.2]
  · rw [if_neg h, if_neg h]
    by_cases h' : i = rowIdx _ _ hb ∧ j = colIdx _ _ hb
    · rw [if_pos h', h'.1, h'.2]
    · rw [if_neg h', if_neg h']

theorem undoTimes_succ (n : Nat) (cb : ChessBoard) :
    undoTimes (n + 1) cb = (undoTimes n cb).bind ChessBoard.undo := by
  induction n generalizing cb with
  | zero => simp [undoTimes]
  | succ n ih =>
    rw [undoTimes]
    cases h : cb.undo with
    | none => simp [undoTimes, h]
    | some cb1 =>
      rw [Option.some_bind, ih cb1]
      conv_rhs => rw [undoTimes, h, Option.some_bind]

/-- Any number of in-grid moves followed by as many undos restores the board. -/
theorem moveAll_undoTimes (ms : List MoveNode) :
    ∀ cb : ChessBoard,
      (∀ m ∈ ms, inGrid m.beginRow m.beginCol ∧ inGrid m.endRow m.endCol) →
      ∃ cb1, moveAll cb ms = some cb1 ∧ undoTimes ms.length cb1 = some cb := by
  induction ms with
  | nil => intro cb _; exact ⟨cb, rfl, rfl⟩
  | cons m ms ih =>
    intro cb hin
    obtain ⟨cbm, hm, hu⟩ := move_undo cb m (hin m (List.mem_cons_self _ _)).1
      (hin m (List.mem_cons_self _ _)).2
    obtain ⟨cb1, h1, h2⟩ := ih cbm fun x hx => hin x (List.mem_cons_of_mem _ hx)
    refine ⟨cb1, ?_, ?_⟩
    · rw [moveAll, hm, Option.some_bind, h1]
    · rw [List.length_cons, undoTimes_succ, h2, Option.some_bind, hu]

/-! ## Reading a well-formed board -/

theorem inGrid_of_inRing {r c : Int} (h : inRing r c) : inGrid r c := by
  unfold inRing at h
  unfold inGrid BOARD_ROW_LEN BOARD_COL_LEN
  omega

theorem inRing_of_playable {r c : Int} (h : playable r c) : inRing r c := by
  unfold playable at h
  unfold inRing
  omega

theorem inGrid_of_playable {r c : Int} (h : playable r c) : inGrid r c :=
  inGrid_of_inRing (inRing_of_playable h)

/-- On a well-formed board every in-grid cell can be read, and it is
out-of-board exactly when it is outside the playable region. -/
theorem wf_get {cb : ChessBoard} (hwf : WellFormed cb) {r c : Int} (h : inGrid r c) :
    ∃ p, cb.get r c = some p ∧ (p ≠ P_EO ↔ playable r c) := by
  refine ⟨_, get_of_inGrid cb h, ?_⟩
  have hw := hwf (rowIdx r c h) (colIdx r c h)
  have h' := h
  unfold inGrid BOARD_ROW_LEN BOARD_COL_LEN at h'
  have hp : playable r c ↔
      (2 ≤ (rowIdx r c h).val ∧ (rowIdx r c h).val ≤ 11 ∧
        2 ≤ (colIdx r c h).val ∧ (colIdx r c h).val ≤ 10) := by
    unfold playable
    simp only [rowIdx, colIdx]
    omega
  rw [hp]
  split at hw
  · rename_i hc
    exact ⟨fun _ => hc, fun _ => hw⟩
  · rename_i hc
    exact ⟨fun hne => absurd hw hne, fun hx => absurd hx hc⟩

theorem wf_get_playable {cb : ChessBoard} (hwf : WellFormed cb) {r c : Int} {p : Piece}
    (hg : cb.get r c = some p) (hp : p ≠ P_EO) : playable r c := by
  obtain ⟨hin, _⟩ := (get_eq_some_iff cb).1 hg
  obtain ⟨q, hq, hiff⟩ := wf_get hwf hin
  rw [hg] at hq
  cases hq
  exact hiff.1 hp

theorem side_ne_reverse {side : PieceSide} (hs : isPlayer side) :
    piece_side_get_reverse side ≠ side := by
  rcases hs with rfl | rfl <;> decide

theorem side_EO : piece_get_side P_EO = PS_EXTRA := rfl

theorem side_EE : piece_get_side P_EE = PS_EXTRA := rfl

theorem extra_ne {side : PieceSide} (hs : isPlayer side) : PS_EXTRA ≠ side := by
  rcases hs with rfl | rfl <;> decide

theorem reverse_ne_extra {side : PieceSide} (hs : isPlayer side) :
    piece_side_get_reverse side ≠ PS_EXTRA := by
  rcases hs with rfl | rfl <;> decide

/-- An acceptable end cell is never the begin cell. -/
theorem end_ne_begin {cb : ChessBoard} {side : PieceSide} (hs : isPlayer side) {r c er ec : Int}
    (hb : BeginOK cb side r c) (he : EndOK cb side er ec) : (er, ec) ≠ (r, c) := by
  intro heq
  obtain ⟨p, hp, hps⟩ := hb
  obtain ⟨q, hq, _, hqs⟩ := he
  simp only [Prod.mk.injEq] at heq
  rw [heq.1, heq.2, hp] at hq
  cases hq
  rcases hqs with rfl | hqs
  · rw [side_EE] at hps
    exact extra_ne hs hps
  · rw [hps] at hqs
    exact side_ne_reverse hs hqs.symm

/-- A move from an acceptable begin cell to an acceptable end cell is good. -/
theorem goodMove_mk {cb : ChessBoard} (hwf : WellFormed cb) {side : PieceSide}
    (hs : isPlayer side) {r c er ec : Int} (hpl : playable r c) (hb : BeginOK cb side r c)
    (he : EndOK cb side er ec) : GoodMove cb side ⟨r, c, er, ec⟩ := by
  refine ⟨hpl, hb, end_ne_begin hs hb he, ?_, he⟩
  obtain ⟨q, hq, hne, _⟩ := he
  exact wf_get_playable hwf hq hne

/-! ## The steps of the generator -/

theorem Extends.refl (P : MoveNode → Prop) (pm : PossibleMoves) : Extends P pm (some pm) :=
  ⟨[], by simp, by simp⟩

theorem Extends.one {P : MoveNode → Prop} (pm : PossibleMoves) {m : MoveNode} (h : P m) :
    Extends P pm (some (pm ++ [m])) :=
  ⟨[m], rfl, by simpa using h⟩

theorem Extends.bind {P : MoveNode → Prop} {pm : PossibleMoves} {x : Option PossibleMoves}
    {f : PossibleMoves → Option PossibleMoves} (hx : Extends P pm x)
    (hf : ∀ pm1, Extends P pm1 (f pm1)) : Extends P pm (x >>= f) := by
  obtain ⟨a, rfl, ha⟩ := hx
  obtain ⟨b, hb, hb'⟩ := hf (pm ++ a)
  refine ⟨a ++ b, ?_, ?_⟩
  · simp [hb]
  · intro m hm
    rcases List.mem_append.1 hm with h | h
    · exact ha m h
    · exact hb' m h

theorem Extends.trans {P : MoveNode → Prop} {pm pm1 : PossibleMoves} {a : List MoveNode}
    {res : Option PossibleMoves} (h1 : pm1 = pm ++ a) (ha : ∀ m ∈ a, P m)
    (h : Extends P pm1 res) : Extends P pm res := by
  obtain ⟨b, rfl, hb⟩ := h
  subst h1
  refine ⟨a ++ b, by simp, ?_⟩
  intro m hm
  rcases List.mem_append.1 hm with h | h
  · exact ha m h
  · exact hb m h

/-- The insertion test appends nothing or one good move. -/
theorem check_possible_move_and_insert_extends {cb : ChessBoard} (hwf : WellFormed cb)
    {side : PieceSide} (hs : isPlayer side) {r c : Int} (hpl : playable r c)
    (hb : BeginOK cb side r c) (pm : PossibleMoves) {er ec : Int} (hin : inGrid er ec) :
    Extends (GoodMove cb side) pm (check_possible_move_and_insert cb pm r c er ec) := by
  obtain ⟨p, hp, hps⟩ := hb
  obtain ⟨q, hq, _⟩ := wf_get hwf hin
  simp only [check_possible_move_and_insert, hp, hq, Option.bind_eq_bind, Option.some_bind,
    Option.pure_def]
  split
  · rename_i hc
    apply Extends.one
    refine goodMove_mk hwf hs hpl ⟨p, hp, hps⟩ ⟨q, hq, hc.1, ?_⟩
    rw [hps] at hc
    revert hc
    rcases hs with rfl | rfl <;> cases q <;> simp [piece_get_side, piece_side_get_reverse]
  · exact Extends.refl _ _

/-! ## Sliding scans -/

theorem stepsLeft_nonneg (rGap cGap : Int) {row col : Int} (hr : inRing row col) :
    0 ≤ stepsLeft rGap cGap row col := by
  unfold inRing at hr
  unfold stepsLeft
  split_ifs <;> omega

theorem stepsLeft_le (rGap cGap : Int) {row col : Int} (hr : inRing row col) :
    stepsLeft rGap cGap row col ≤ 11 := by
  unfold inRing at hr
  unfold stepsLeft
  split_ifs <;> omega

/-- One step from a playable cell stays in the ring and brings the border one
step closer. -/
theorem step_from_playable {rGap cGap row col : Int} (hstep : isStep rGap cGap)
    (hp : playable row col) :
    inRing (row + rGap) (col + cGap) ∧
      stepsLeft rGap cGap (row + rGap) (col + cGap) = stepsLeft rGap cGap row col - 1 := by
  unfold playable at hp
  unfold inRing stepsLeft
  rcases hstep with ⟨rfl, rfl⟩ | ⟨rfl, rfl⟩ | ⟨rfl, rfl⟩ | ⟨rfl, rfl⟩ <;>
    simp <;> omega

/-- The first loop of a sliding scan on a well-formed board: it ends within
its budget, appends only good moves, and stops on a non-empty ring cell. -/
theorem scan_empty_cells_spec {cb : ChessBoard} (hwf : WellFormed cb) {side : PieceSide}
    (hs : isPlayer side) {r c : Int} (hpl : playable r c) (hb : BeginOK cb side r c)
    {rGap cGap : Int} (hstep : isStep rGap cGap) :
    ∀ (budget : Nat) (row col : Int) (pm : PossibleMoves), inRing row col →
      stepsLeft rGap cGap row col < budget →
      ∃ added row1 col1 p,
        scan_empty_cells cb r c rGap cGap budget row col pm = some (pm ++ added, row1, col1, p) ∧
        (∀ m ∈ added, GoodMove cb side m) ∧ inRing row1 col1 ∧
        cb.get row1 col1 = some p ∧ p ≠ P_EE := by
  intro budget
  induction budget with
  | zero =>
    intro row col pm hr hlt
    have := stepsLeft_nonneg rGap cGap hr
    simp at hlt
    omega
  | succ n ih =>
    intro row col pm hr hlt
    obtain ⟨p, hp, hiff⟩ := wf_get hwf (inGrid_of_inRing hr)
    rw [scan_empty_cells]
    simp only [hp, Option.bind_eq_bind, Option.some_bind]
    by_cases hpe : p = P_EE
    · subst hpe
      have hplay : playable row col := hiff.1 (by decide)
      obtain ⟨hr1, hs1⟩ := step_from_playable hstep hplay
      obtain ⟨added, row1, col1, p1, h1, h2, h3, h4, h5⟩ :=
        ih (row + rGap) (col + cGap) (pm ++ [⟨r, c, row, col⟩]) hr1 (by rw [hs1]; push_cast at hlt; omega)
      refine ⟨⟨r, c, row, col⟩ :: added, row1, col1, p1, ?_, ?_, h3, h4, h5⟩
      · rw [if_pos rfl, h1]
        simp
      · intro m hm
        rcases List.mem_cons.1 hm with rfl | hm
        · exact goodMove_mk hwf hs hpl hb ⟨P_EE, hp, by decide, Or.inl rfl⟩
        · exact h2 m hm
    · refine ⟨[], row, col, p, ?_, by simp, hr, hp, hpe⟩
      rw [if_neg hpe]
      simp

/-- The second loop of the cannon on a well-formed board. -/
theorem cannon_scan_capture_extends {cb : ChessBoard} (hwf : WellFormed cb) {side : PieceSide}
    (hs : isPlayer side) {r c : Int} (hpl : playable r c) (hb : BeginOK cb side r c)
    {rGap cGap : Int} (hstep : isStep rGap cGap) :
    ∀ (budget : Nat) (row col : Int) (pm : PossibleMoves), inRing row col →
      stepsLeft rGap cGap row col < budget →
      Extends (GoodMove cb side) pm
        (cannon_scan_capture cb r c rGap cGap side budget row col pm) := by
  intro budget
  induction budget with
  | zero =>
    intro row col pm hr hlt
    have := stepsLeft_nonneg rGap cGap hr
    simp at hlt
    omega
  | succ n ih =>
    intro row col pm hr hlt
    obtain ⟨p, hp, hiff⟩ := wf_get hwf (inGrid_of_inRing hr)
    rw [cannon_scan_capture]
    simp only [hp, Option.bind_eq_bind, Option.some_bind]
    by_cases hpe : p = P_EE
    · subst hpe
      have hplay : playable row col := hiff.1 (by decide)
      obtain ⟨hr1, hs1⟩ := step_from_playable hstep hplay
      rw [if_pos rfl]
      exact ih (row + rGap) (col + cGap) pm hr1 (by rw [hs1]; push_cast at hlt; omega)
    · rw [if_neg hpe]
      split
      · rename_i hside
        apply Extends.one
        refine goodMove_mk hwf hs hpl hb ⟨p, hp, ?_, Or.inr hside⟩
        intro h
        subst h
        exact reverse_ne_extra hs hside.symm
      · exact Extends.refl _ _

theorem gen_possible_moves_for_cannon_one_direction_extends {cb : ChessBoard}
    (hwf : WellFormed cb) {side : PieceSide} (hs : isPlayer side) {r c : Int}
    (hpl : playable r c) (hb : BeginOK cb side r c) {rGap cGap : Int}
    (hstep : isStep rGap cGap) (pm : PossibleMoves) :
    Extends (GoodMove cb side) pm
      (gen_possible_moves_for_cannon_one_direction cb pm r c rGap cGap side) := by
  obtain ⟨hr0, hs0⟩ := step_from_playable hstep hpl
  obtain ⟨added, row1, col1, p, h1, h2, h3, h4, _⟩ :=
    scan_empty_cells_spec hwf hs hpl hb hstep SCAN_BUDGET (r + rGap) (c + cGap) pm hr0
      (by have := stepsLeft_le rGap cGap hr0; simp [SCAN_BUDGET]; omega)
  unfold gen_possible_moves_for_cannon_one_direction
  simp only [h1, Option.bind_eq_bind, Option.some_bind]
  split
  · rename_i hne
    have hplay : playable row1 col1 := wf_get_playable hwf h4 hne
    obtain ⟨hr1, _⟩ := step_from_playable hstep hplay
    exact Extends.trans rfl h2
      (cannon_scan_capture_extends hwf hs hpl hb hstep SCAN_BUDGET _ _ _ hr1
        (by have := stepsLeft_le rGap cGap hr1; simp [SCAN_BUDGET]; omega))
  · exact ⟨added, rfl, h2⟩

theorem gen_possible_moves_for_rook_one_direction_extends {cb : ChessBoard}
    (hwf : WellFormed cb) {side : PieceSide} (hs : isPlayer side) {r c : Int}
    (hpl : playable r c) (hb : BeginOK cb side r c) {rGap cGap : Int}
    (hstep : isStep rGap cGap) (pm : PossibleMoves) :
    Extends (GoodMove cb side) pm
      (gen_possible_moves_for_rook_one_direction cb pm r c rGap cGap side) := by
  obtain ⟨hr0, hs0⟩ := step_from_playable hstep hpl
  obtain ⟨added, row1, col1, p, h1, h2, h3, h4, _⟩ :=
    scan_empty_cells_spec hwf hs hpl hb hstep SCAN_BUDGET (r + rGap) (c + cGap) pm hr0
      (by have := stepsLeft_le rGap cGap hr0; simp [SCAN_BUDGET]; omega)
  unfold gen_possible_moves_for_rook_one_direction
  simp only [h1, Option.bind_eq_bind, Option.some_bind]
  split
  · rename_i hside
    refine Extends.trans rfl h2 (Extends.one _ ?_)
    refine goodMove_mk hwf hs hpl hb ⟨p, h4, ?_, Or.inr hside⟩
    intro h
    subst h
    exact reverse_ne_extra hs hside.symm
  · exact ⟨added, rfl, h2⟩

theorem isStep_up : isStep (-1) 0 := Or.inl ⟨rfl, rfl⟩

theorem isStep_down : isStep 1 0 := Or.inr (Or.inl ⟨rfl, rfl⟩)

theorem isStep_left : isStep 0 (-1) := Or.inr (Or.inr (Or.inl ⟨rfl, rfl⟩))

theorem isStep_right : isStep 0 1 := Or.inr (Or.inr (Or.inr ⟨rfl, rfl⟩))

theorem gen_possible_moves_for_cannon_extends {cb : ChessBoard}
    (hwf : WellFormed cb) {side : PieceSide} (hs : isPlayer side) {r c : Int}
    (hpl : playable r c) (hb : BeginOK cb side r c) (pm : PossibleMoves) :
    Extends (GoodMove cb side) pm (gen_possible_moves_for_cannon cb pm r c side) := by
  unfold gen_possible_moves_for_cannon
  refine Extends.bind (gen_possible_moves_for_cannon_one_direction_extends hwf hs hpl hb
    isStep_up pm) fun pm1 => ?_
  refine Extends.bind (gen_possible_moves_for_cannon_one_direction_extends hwf hs hpl hb
    isStep_down pm1) fun pm2 => ?_
  refine Extends.bind (gen_possible_moves_for_cannon_one_direction_extends hwf hs hpl hb
    isStep_left pm2) fun pm3 => ?_
  exact gen_possible_moves_for_cannon_one_direction_extends hwf hs hpl hb isStep_right pm3

theorem gen_possible_moves_for_rook_extends {cb : ChessBoard}
    (hwf : WellFormed cb) {side : PieceSide} (hs : isPlayer side) {r c : Int}
    (hpl : playable r c) (hb : BeginOK cb side r c) (pm : PossibleMoves) :
    Extends (GoodMove cb side) pm (gen_possible_moves_for_rook cb pm r c side) := by
  unfold gen_possible_moves_for_rook
  refine Extends.bind (gen_possible_moves_for_rook_one_direction_extends hwf hs hpl hb
    isStep_up pm) fun pm1 => ?_
  refine Extends.bind (gen_possible_moves_for_rook_one_direction_extends hwf hs hpl hb
    isStep_down pm1) fun pm2 => ?_
  refine Extends.bind (gen_possible_moves_for_rook_one_direction_extends hwf hs hpl hb
    isStep_left pm2) fun pm3 => ?_
  exact gen_possible_moves_for_rook_one_direction_extends hwf hs hpl hb isStep_right pm3

/-! ## The step budget of the scans is not a restriction -/

/-- A scan that ends within its budget ends with the same result within any
larger budget. -/
theorem scan_empty_cells_budget_succ (cb : ChessBoard) (r c rGap cGap : Int) :
    ∀ (budget : Nat) (row col : Int) (pm : PossibleMoves)
      (res : PossibleMoves × Int × Int × Piece),
      scan_empty_cells cb r c rGap cGap budget row col pm = some res →
      scan_empty_cells cb r c rGap cGap (budget + 1) row col pm = some res := by
  intro budget
  induction budget with
  | zero =>
    intro row col pm res h
    rw [scan_empty_cells] at h
    cases h
  | succ n ih =>
    intro row col pm res h
    rw [scan_empty_cells] at h ⊢
    cases hp : cb.get row col with
    | none => simp [hp] at h
    | some p =>
      simp only [hp, Option.bind_eq_bind, Option.some_bind] at h ⊢
      by_cases hpe : p = P_EE
      · rw [if_pos hpe] at h ⊢
        exact ih _ _ _ _ h
      · rw [if_neg hpe] at h ⊢
        exact h

/-- The second loop of the cannon, likewise. -/
theorem cannon_scan_capture_budget_succ (cb : ChessBoard) (r c rGap cGap : Int)
    (side : PieceSide) :
    ∀ (budget : Nat) (row col : Int) (pm res : PossibleMoves),
      cannon_scan_capture cb r c rGap cGap side budget row col pm = some res →
      cannon_scan_capture cb r c rGap cGap side (budget + 1) row col pm = some res := by
  intro budget
  induction budget with
  | zero =>
    intro row col pm res h
    rw [cannon_scan_capture] at h
    cases h
  | succ n ih =>
    intro row col pm res h
    rw [cannon_scan_capture] at h ⊢
    cases hp : cb.get row col with
    | none => simp [hp] at h
    | some p =>
      simp only [hp, Option.bind_eq_bind, Option.some_bind] at h ⊢
      by_cases hpe : p = P_EE
      · rw [if_pos hpe] at h ⊢
        exact ih _ _ _ _ h
      · rw [if_neg hpe] at h ⊢
        exact h

/-! ## Leaping and stepping pieces -/

/-- Cells at most two steps away from a playable cell are in the grid. -/
theorem inGrid_near {r c : Int} (hpl : playable r c) {er ec : Int}
    (hr : r - 2 ≤ er ∧ er ≤ r + 2) (hc : c - 2 ≤ ec ∧ ec ≤ c + 2) : inGrid er ec := by
  unfold playable at hpl
  unfold inGrid BOARD_ROW_LEN BOARD_COL_LEN
  omega

theorem knight_leg_extends {cb : ChessBoard} (hwf : WellFormed cb) {side : PieceSide}
    (hs : isPlayer side) {r c : Int} (hpl : playable r c) (hb : BeginOK cb side r c)
    (pm : PossibleMoves) {lr lc er1 ec1 er2 ec2 : Int} (hl : inGrid lr lc)
    (h1 : inGrid er1 ec1) (h2 : inGrid er2 ec2) :
    Extends (GoodMove cb side) pm (knight_leg cb pm r c lr lc er1 ec1 er2 ec2) := by
  obtain ⟨p, hp, _⟩ := wf_get hwf hl
  unfold knight_leg
  simp only [hp, Option.bind_eq_bind, Option.some_bind]
  split
  · exact Extends.bind (check_possible_move_and_insert_extends hwf hs hpl hb pm h1) fun pm1 =>
      check_possible_move_and_insert_extends hwf hs hpl hb pm1 h2
  · exact Extends.refl _ _

theorem gen_possible_moves_for_knight_extends {cb : ChessBoard}
    (hwf : WellFormed cb) {side : PieceSide} (hs : isPlayer side) {r c : Int}
    (hpl : playable r c) (hb : BeginOK cb side r c) (pm : PossibleMoves) :
    Extends (GoodMove cb side) pm (gen_possible_moves_for_knight cb pm r c side) := by
  unfold gen_possible_moves_for_knight
  have hg : ∀ er ec : Int, (r - 2 ≤ er ∧ er ≤ r + 2) → (c - 2 ≤ ec ∧ ec ≤ c + 2) →
      inGrid er ec := fun er ec h1 h2 => inGrid_near hpl h1 h2
  refine Extends.bind (knight_leg_extends hwf hs hpl hb pm (hg _ _ (by omega) (by omega))
    (hg _ _ (by omega) (by omega)) (hg _ _ (by omega) (by omega))) fun pm1 => ?_
  refine Extends.bind (knight_leg_extends hwf hs hpl hb pm1 (hg _ _ (by omega) (by omega))
    (hg _ _ (by omega) (by omega)) (hg _ _ (by omega) (by omega))) fun pm2 => ?_
  refine Extends.bind (knight_leg_extends hwf hs hpl hb pm2 (hg _ _ (by omega) (by omega))
    (hg _ _ (by omega) (by omega)) (hg _ _ (by omega) (by omega))) fun pm3 => ?_
  exact knight_leg_extends hwf hs hpl hb pm3 (hg _ _ (by omega) (by omega))
    (hg _ _ (by omega) (by omega)) (hg _ _ (by omega) (by omega))

theorem bishop_eye_extends {cb : ChessBoard} (hwf : WellFormed cb) {side : PieceSide}
    (hs : isPlayer side) {r c : Int} (hpl : playable r c) (hb : BeginOK cb side r c)
    (pm : PossibleMoves) {yr yc er ec : Int} (hy : inGrid yr yc) (he : inGrid er ec) :
    Extends (GoodMove cb side) pm (bishop_eye cb pm r c yr yc er ec) := by
  obtain ⟨p, hp, _⟩ := wf_get hwf hy
  unfold bishop_eye
  simp only [hp, Option.bind_eq_bind, Option.some_bind]
  split
  · exact check_possible_move_and_insert_extends hwf hs hpl hb pm he
  · exact Extends.refl _ _

theorem gen_possible_moves_for_bishop_extends {cb : ChessBoard}
    (hwf : WellFormed cb) {side : PieceSide} (hs : isPlayer side) {r c : Int}
    (hpl : playable r c) (hb : BeginOK cb side r c) (pm : PossibleMoves) :
    Extends (GoodMove cb side) pm (gen_possible_moves_for_bishop cb pm r c side) := by
  have hg : ∀ er ec : Int, (r - 2 ≤ er ∧ er ≤ r + 2) → (c - 2 ≤ ec ∧ ec ≤ c + 2) →
      inGrid er ec := fun er ec h1 h2 => inGrid_near hpl h1 h2
  have eye : ∀ (pm1 : PossibleMoves) (yr yc er ec : Int),
      (r - 2 ≤ yr ∧ yr ≤ r + 2) → (c - 2 ≤ yc ∧ yc ≤ c + 2) →
      (r - 2 ≤ er ∧ er ≤ r + 2) → (c - 2 ≤ ec ∧ ec ≤ c + 2) →
      Extends (GoodMove cb side) pm1 (bishop_eye cb pm1 r c yr yc er ec) :=
    fun pm1 yr yc er ec a b c d => bishop_eye_extends hwf hs hpl hb pm1 (hg _ _ a b) (hg _ _ c d)
  unfold gen_possible_moves_for_bishop
  rcases hs with rfl | rfl
  · rw [if_pos rfl]
    apply Extends.bind
    · split
      · exact Extends.bind (eye pm _ _ _ _ (by omega) (by omega) (by omega) (by omega))
          fun pm1 => eye pm1 _ _ _ _ (by omega) (by omega) (by omega) (by omega)
      · exact Extends.refl _ _
    · intro pm2
      exact Extends.bind (eye pm2 _ _ _ _ (by omega) (by omega) (by omega) (by omega))
        fun pm3 => eye pm3 _ _ _ _ (by omega) (by omega) (by omega) (by omega)
  · rw [if_neg (by decide), if_pos rfl]
    apply Extends.bind
    · split
      · exact Extends.bind (eye pm _ _ _ _ (by omega) (by omega) (by omega) (by omega))
          fun pm1 => eye pm1 _ _ _ _ (by omega) (by omega) (by omega) (by omega)
      · exact Extends.refl _ _
    · intro pm2
      exact Extends.bind (eye pm2 _ _ _ _ (by omega) (by omega) (by omega) (by omega))
        fun pm3 => eye pm3 _ _ _ _ (by omega) (by omega) (by omega) (by omega)

theorem insert_if_extends {cb : ChessBoard} (hwf : WellFormed cb) {side : PieceSide}
    (hs : isPlayer side) {r c : Int} (hpl : playable r c) (hb : BeginOK cb side r c)
    (cond : Bool) (pm : PossibleMoves) {er ec : Int} (he : inGrid er ec) :
    Extends (GoodMove cb side) pm (insert_if cond cb pm r c er ec) := by
  unfold insert_if
  split
  · exact check_possible_move_and_insert_extends hwf hs hpl hb pm he
  · exact Extends.refl _ _

theorem gen_possible_moves_for_advisor_extends {cb : ChessBoard}
    (hwf : WellFormed cb) {side : PieceSide} (hs : isPlayer side) {r c : Int}
    (hpl : playable r c) (hb : BeginOK cb side r c) (pm : PossibleMoves) :
    Extends (GoodMove cb side) pm (gen_possible_moves_for_advisor cb pm r c side) := by
  have ins : ∀ (cond : Bool) (pm1 : PossibleMoves) (er ec : Int),
      (r - 2 ≤ er ∧ er ≤ r + 2) → (c - 2 ≤ ec ∧ ec ≤ c + 2) →
      Extends (GoodMove cb side) pm1 (insert_if cond cb pm1 r c er ec) :=
    fun cond pm1 er ec a b => insert_if_extends hwf hs hpl hb cond pm1 (inGrid_near hpl a b)
  unfold gen_possible_moves_for_advisor
  rcases hs with rfl | rfl
  · rw [if_pos rfl]
    exact Extends.bind (ins _ pm _ _ (by omega) (by omega)) fun pm1 =>
      Extends.bind (ins _ pm1 _ _ (by omega) (by omega)) fun pm2 =>
      Extends.bind (ins _ pm2 _ _ (by omega) (by omega)) fun pm3 =>
      ins _ pm3 _ _ (by omega) (by omega)
  · rw [if_neg (by decide), if_pos rfl]
    exact Extends.bind (ins _ pm _ _ (by omega) (by omega)) fun pm1 =>
      Extends.bind (ins _ pm1 _ _ (by omega) (by omega)) fun pm2 =>
      Extends.bind (ins _ pm2 _ _ (by omega) (by omega)) fun pm3 =>
      ins _ pm3 _ _ (by omega) (by omega)

/-- The facing-generals loop on a well-formed board, for a target of the
other side. -/
theorem general_scan_extends {cb : ChessBoard} (hwf : WellFormed cb) {side : PieceSide}
    (hs : isPlayer side) {r c : Int} (hpl : playable r c) (hb : BeginOK cb side r c)
    {step : Int} {target : Piece}
    (ht : piece_get_side target = piece_side_get_reverse side) :
    ∀ (n : Nat) (row : Int) (pm : PossibleMoves),
      ((step = 1 ∧ 0 ≤ row ∧ row + n ≤ 14) ∨ (step = -1 ∧ row ≤ 13 ∧ -1 ≤ row - n)) →
      Extends (GoodMove cb side) pm (general_scan cb r c step target n row pm) := by
  intro n
  induction n with
  | zero => intro row pm _; exact Extends.refl _ _
  | succ n ih =>
    intro row pm hrow
    have hin : inGrid row c := by
      unfold playable at hpl
      unfold inGrid BOARD_ROW_LEN BOARD_COL_LEN
      omega
    obtain ⟨p, hp, _⟩ := wf_get hwf hin
    rw [general_scan]
    simp only [hp, Option.bind_eq_bind, Option.some_bind]
    split
    · apply ih
      omega
    · split
      · rename_i _ hpt
        subst hpt
        apply Extends.one
        refine goodMove_mk hwf hs hpl hb ⟨p, hp, ?_, Or.inr ht⟩
        intro h
        subst h
        exact reverse_ne_extra hs ht.symm
      · exact Extends.refl _ _

theorem gen_possible_moves_for_general_extends {cb : ChessBoard}
    (hwf : WellFormed cb) {side : PieceSide} (hs : isPlayer side) {r c : Int}
    (hpl : playable r c) (hb : BeginOK cb side r c) (pm : PossibleMoves) :
    Extends (GoodMove cb side) pm (gen_possible_moves_for_general cb pm r c side) := by
  have ins : ∀ (cond : Bool) (pm1 : PossibleMoves) (er ec : Int),
      (r - 2 ≤ er ∧ er ≤ r + 2) → (c - 2 ≤ ec ∧ ec ≤ c + 2) →
      Extends (GoodMove cb side) pm1 (insert_if cond cb pm1 r c er ec) :=
    fun cond pm1 er ec a b => insert_if_extends hwf hs hpl hb cond pm1 (inGrid_near hpl a b)
  have hpl' := hpl
  unfold playable at hpl'
  unfold gen_possible_moves_for_general
  rcases hs with rfl | rfl
  · rw [if_pos rfl]
    refine Extends.bind (ins _ pm _ _ (by omega) (by omega)) fun pm1 =>
      Extends.bind (ins _ pm1 _ _ (by omega) (by omega)) fun pm2 =>
      Extends.bind (ins _ pm2 _ _ (by omega) (by omega)) fun pm3 =>
      Extends.bind (ins _ pm3 _ _ (by omega) (by omega)) fun pm4 => ?_
    have ht : piece_get_side P_DG = piece_side_get_reverse PS_UP := rfl
    apply general_scan_extends hwf (Or.inl rfl) hpl hb ht
    left
    simp only [BOARD_ACTUAL_ROW_BEGIN, BOARD_ACTUAL_ROW_LEN]
    refine ⟨trivial, by omega, ?_⟩
    rw [Int.toNat_of_nonneg (by omega)]
    omega
  · rw [if_neg (by decide), if_pos rfl]
    refine Extends.bind (ins _ pm _ _ (by omega) (by omega)) fun pm1 =>
      Extends.bind (ins _ pm1 _ _ (by omega) (by omega)) fun pm2 =>
      Extends.bind (ins _ pm2 _ _ (by omega) (by omega)) fun pm3 =>
      Extends.bind (ins _ pm3 _ _ (by omega) (by omega)) fun pm4 => ?_
    have ht : piece_get_side P_UG = piece_side_get_reverse PS_DOWN := rfl
    apply general_scan_extends hwf (Or.inr rfl) hpl hb ht
    right
    simp only [BOARD_ACTUAL_ROW_BEGIN]
    refine ⟨trivial, by omega, ?_⟩
    rw [Int.toNat_of_nonneg (by omega)]
    omega

/-- The pawn generator performs its reads and returns. -/
theorem gen_possible_moves_for_pawn_total {cb : ChessBoard}
    (hwf : WellFormed cb) {side : PieceSide} (hs : isPlayer side) {r c : Int}
    (hpl : playable r c) (hb : BeginOK cb side r c) (pm : PossibleMoves) :
    gen_possible_moves_for_pawn cb pm r c side = some () := by
  have ins : ∀ (pm1 : PossibleMoves) (er ec : Int),
      (r - 2 ≤ er ∧ er ≤ r + 2) → (c - 2 ≤ ec ∧ ec ≤ c + 2) →
      ∃ pm2, check_possible_move_and_insert cb pm1 r c er ec = some pm2 :=
    fun pm1 er ec a b => by
      obtain ⟨added, h, _⟩ :=
        check_possible_move_and_insert_extends hwf hs hpl hb pm1 (inGrid_near hpl a b)
      exact ⟨_, h⟩
  unfold gen_possible_moves_for_pawn
  rcases hs with rfl | rfl
  · rw [if_pos rfl]
    obtain ⟨pm1, h1⟩ := ins pm (r + 1) c (by omega) (by omega)
    simp only [h1, Option.bind_eq_bind, Option.some_bind]
    split
    · obtain ⟨pm2, h2⟩ := ins pm1 r (c - 1) (by omega) (by omega)
      obtain ⟨pm3, h3⟩ := ins pm2 r (c + 1) (by omega) (by omega)
      simp [h2, h3]
    · rfl
  · rw [if_neg (by decide), if_pos rfl]
    obtain ⟨pm1, h1⟩ := ins pm (r - 1) c (by omega) (by omega)
    simp only [h1, Option.bind_eq_bind, Option.some_bind]
    split
    · obtain ⟨pm2, h2⟩ := ins pm1 r (c - 1) (by omega) (by omega)
      obtain ⟨pm3, h3⟩ := ins pm2 r (c + 1) (by omega) (by omega)
      simp [h2, h3]
    · rfl

/-! ## The double loop of the generator -/

theorem Extends.bind_opt {P : MoveNode → Prop} {pm : PossibleMoves} {x : Option PossibleMoves}
    {f : PossibleMoves → Option PossibleMoves} (hx : Extends P pm x)
    (hf : ∀ pm1, Extends P pm1 (f pm1)) : Extends P pm (x.bind f) :=
  Extends.bind hx hf

theorem forRange_extends {P : MoveNode → Prop}
    {body : Int → PossibleMoves → Option PossibleMoves} :
    ∀ (n : Nat) (lo : Int) (pm : PossibleMoves),
      (∀ i pm1, lo ≤ i → i < lo + n → Extends P pm1 (body i pm1)) →
      Extends P pm (forRange n lo body pm) := by
  intro n
  induction n with
  | zero => intro lo pm _; exact Extends.refl _ _
  | succ n ih =>
    intro lo pm h
    rw [forRange]
    refine Extends.bind_opt (h lo pm (le_refl _) (by push_cast; omega)) fun pm1 => ?_
    exact ih (lo + 1) pm1 fun i pm2 h1 h2 => h i pm2 (by omega) (by push_cast at h2 ⊢; omega)

theorem gen_possible_moves_cell_extends {cb : ChessBoard} (hwf : WellFormed cb)
    {side : PieceSide} (hs : isPlayer side) {r c : Int} (hpl : playable r c)
    (pm : PossibleMoves) :
    Extends (GoodMove cb side) pm (gen_possible_moves_cell cb side r c pm) := by
  obtain ⟨p, hp, _⟩ := wf_get hwf (inGrid_of_playable hpl)
  unfold gen_possible_moves_cell
  simp only [hp, Option.bind_eq_bind, Option.some_bind]
  split
  · rename_i hside
    have hb : BeginOK cb side r c := ⟨p, hp, hside⟩
    split
    · rw [gen_possible_moves_for_pawn_total hwf hs hpl hb pm]
      exact Extends.refl _ _
    · exact gen_possible_moves_for_cannon_extends hwf hs hpl hb pm
    · exact gen_possible_moves_for_rook_extends hwf hs hpl hb pm
    · exact gen_possible_moves_for_knight_extends hwf hs hpl hb pm
    · exact gen_possible_moves_for_bishop_extends hwf hs hpl hb pm
    · exact gen_possible_moves_for_advisor_extends hwf hs hpl hb pm
    · exact gen_possible_moves_for_general_extends hwf hs hpl hb pm
    · exact Extends.refl _ _
    · exact Extends.refl _ _
  · exact Extends.refl _ _

/-- For the side `PS_EXTRA` the body of the double loop appends nothing. -/
theorem gen_possible_moves_cell_extra {cb : ChessBoard} (hwf : WellFormed cb)
    {r c : Int} (hpl : playable r c) (pm : PossibleMoves) :
    Extends (fun _ => False) pm (gen_possible_moves_cell cb PS_EXTRA r c pm) := by
  obtain ⟨p, hp, _⟩ := wf_get hwf (inGrid_of_playable hpl)
  unfold gen_possible_moves_cell
  simp only [hp, Option.bind_eq_bind, Option.some_bind]
  split
  · rename_i hside
    have : p = P_EE ∨ p = P_EO := by
      revert hside
      cases p <;> simp [piece_get_side]
    rcases this with rfl | rfl
    · exact Extends.refl _ _
    · exact Extends.refl _ _
  · exact Extends.refl _ _

theorem gen_possible_moves_extends (cb : ChessBoard) (side : PieceSide) (P : MoveNode → Prop)
    (h : ∀ r c pm, playable r c → Extends P pm (gen_possible_moves_cell cb side r c pm)) :
    Extends P [] (gen_possible_moves cb side) := by
  unfold gen_possible_moves
  apply forRange_extends
  intro r pm hr1 hr2
  apply forRange_extends
  intro c pm1 hc1 hc2
  apply h
  simp only [BOARD_ACTUAL_ROW_BEGIN, BOARD_ACTUAL_ROW_LEN, BOARD_ACTUAL_COL_BEGIN,
    BOARD_ACTUAL_COL_LEN] at hr1 hr2 hc1 hc2
  unfold playable
  have e1 : ((10 : Int).toNat : Int) = 10 := rfl
  have e2 : ((9 : Int).toNat : Int) = 9 := rfl
  rw [e1] at hr2
  rw [e2] at hc2
  omega

/-- On a well-formed board the generator returns a list, and every move in
it is good. -/
theorem gen_possible_moves_spec {cb : ChessBoard} (hwf : WellFormed cb) {side : PieceSide}
    (hs : isPlayer side) :
    ∃ L, gen_possible_moves cb side = some L ∧ ∀ m ∈ L, GoodMove cb side m := by
  obtain ⟨added, h, hg⟩ := gen_possible_moves_extends cb side (GoodMove cb side)
    (fun r c pm hpl => gen_possible_moves_cell_extends hwf hs hpl pm)
  exact ⟨added, by simpa using h, hg⟩

/-- On a well-formed board the generator returns the empty list for
`PS_EXTRA`. -/
theorem gen_possible_moves_extra {cb : ChessBoard} (hwf : WellFormed cb) :
    gen_possible_moves cb PS_EXTRA = some [] := by
  obtain ⟨added, h, hg⟩ := gen_possible_moves_extends cb PS_EXTRA (fun _ => False)
    (fun r c pm hpl => gen_possible_moves_cell_extra hwf hpl pm)
  cases added with
  | nil => simpa using h
  | cons m ms => exact absurd (hg m (List.mem_cons_self _ _)) id

/-- Without a piece of `side` on the playable region the generator returns
the empty list. -/
theorem gen_possible_moves_no_piece {cb : ChessBoard} {side : PieceSide}
    (h : ∀ r c p, playable r c → cb.get r c = some p → piece_get_side p ≠ side) :
    gen_possible_moves cb side = some [] := by
  obtain ⟨added, ha, hg⟩ := gen_possible_moves_extends cb side (fun _ => False) (by
      intro r c pm hpl
      obtain ⟨p, hp⟩ : ∃ p, cb.get r c = some p := ⟨_, get_of_inGrid cb (inGrid_of_playable hpl)⟩
      unfold gen_possible_moves_cell
      simp only [hp, Option.bind_eq_bind, Option.some_bind]
      rw [if_neg (h r c p hpl hp)]
      exact Extends.refl _ _)
  cases added with
  | nil => simpa using ha
  | cons m ms => exact absurd (hg m (List.mem_cons_self _ _)) id

/-! ## The evaluation -/

/-- Every real piece has a material value and, on every cell of the 10 x 9
board, a positional value; their sum has magnitude at most 10070. -/
theorem piece_term_bound (p : Piece) (i : Fin 10) (j : Fin 9) (h1 : p ≠ P_EE) (h2 : p ≠ P_EO) :
    ∃ v pv, piece_get_value p = some v ∧
      piece_get_pos_value p (i.val : Int) (j.val : Int) = some pv ∧
      -10070 ≤ v + pv ∧ v + pv ≤ 10070 := by
  have key : ∀ (p : Piece) (i : Fin 10) (j : Fin 9), p ≠ P_EE → p ≠ P_EO →
      ((piece_get_value p).bind fun v =>
        (piece_get_pos_value p (i.val : Int) (j.val : Int)).map fun pv =>
          decide (-10070 ≤ v + pv ∧ v + pv ≤ 10070)) = some true := by
    intro p
    cases p <;> decide
  have hk := key p i j h1 h2
  cases hv : piece_get_value p with
  | none => simp [hv] at hk
  | some v =>
    cases hpv : piece_get_pos_value p (i.val : Int) (j.val : Int) with
    | none => simp [hv, hpv] at hk
    | some pv =>
      simp only [hv, hpv, Option.some_bind, Option.map_some', Option.some.injEq,
        decide_eq_true_eq] at hk
      exact ⟨v, pv, rfl, rfl, hk.1, hk.2⟩

/-- On a well-formed board the loop body of the evaluation succeeds on every
playable cell and changes the running total by at most 10070. -/
theorem board_calc_score_cell_spec {cb : ChessBoard} (hwf : WellFormed cb) {r c : Int}
    (hpl : playable r c) (t : Int) :
    ∃ t1, board_calc_score_cell cb r c t = some t1 ∧ -10070 ≤ t1 - t ∧ t1 - t ≤ 10070 := by
  obtain ⟨p, hp, hiff⟩ := wf_get hwf (inGrid_of_playable hpl)
  have hne : p ≠ P_EO := hiff.2 hpl
  unfold board_calc_score_cell
  simp only [hp, Option.bind_eq_bind, Option.some_bind]
  by_cases hpe : p = P_EE
  · refine ⟨t, ?_, by omega, by omega⟩
    simp [hpe]
  · have hpl' := hpl
    unfold playable at hpl'
    obtain ⟨v, pv, hv, hpv, hlo, hhi⟩ :=
      piece_term_bound p ⟨(r - 2).toNat, by omega⟩ ⟨(c - 2).toNat, by omega⟩ hpe hne
    have er : (((r - 2).toNat : Nat) : Int) = r - BOARD_ACTUAL_ROW_BEGIN := by
      unfold BOARD_ACTUAL_ROW_BEGIN; omega
    have ec : (((c - 2).toNat : Nat) : Int) = c - BOARD_ACTUAL_COL_BEGIN := by
      unfold BOARD_ACTUAL_COL_BEGIN; omega
    simp only [er, ec] at hpv
    refine ⟨t + v + pv, ?_, by omega, by omega⟩
    simp [hpe, hv, hpv]

/-- A counted loop over an integer accumulator whose body changes it by at
most `B` changes it by at most `n * B`. -/
theorem forRange_bound (body : Int → Int → Option Int) (B : Int) :
    ∀ (n : Nat) (lo : Int) (s : Int),
      (∀ i s1, lo ≤ i → i < lo + n → ∃ s2, body i s1 = some s2 ∧ -B ≤ s2 - s1 ∧ s2 - s1 ≤ B) →
      ∃ s3, forRange n lo body s = some s3 ∧ -(n * B) ≤ s3 - s ∧ s3 - s ≤ n * B := by
  intro n
  induction n with
  | zero => intro lo s _; exact ⟨s, rfl, by simp, by simp⟩
  | succ n ih =>
    intro lo s h
    obtain ⟨s2, h2, hlo, hhi⟩ := h lo s (le_refl _) (by push_cast; omega)
    obtain ⟨s3, h3, hlo3, hhi3⟩ :=
      ih (lo + 1) s2 fun i s1 h1 h2 => h i s1 (by omega) (by push_cast at h2 ⊢; omega)
    refine ⟨s3, ?_, ?_, ?_⟩
    · rw [forRange, h2, Option.some_bind, h3]
    · have : ((n + 1 : Nat) : Int) * B = n * B + B := by push_cast; ring
      rw [this]; omega
    · have : ((n + 1 : Nat) : Int) * B = n * B + B := by push_cast; ring
      rw [this]; omega

/-- On a well-formed board the evaluation returns a score, and the score is
far inside the 32-bit range. -/
theorem board_calc_score_range {cb : ChessBoard} (hwf : WellFormed cb) :
    ∃ v, board_calc_score cb = some v ∧ -906300 ≤ v ∧ v ≤ 906300 := by
  have e1 : ((10 : Int).toNat : Int) = 10 := rfl
  have e2 : ((9 : Int).toNat : Int) = 9 := rfl
  have inner : ∀ (r : Int) (t : Int), 2 ≤ r → r < 2 + 10 →
      ∃ t1, forRange BOARD_ACTUAL_COL_LEN.toNat BOARD_ACTUAL_COL_BEGIN
        (fun c t2 => board_calc_score_cell cb r c t2) t = some t1 ∧
        -90630 ≤ t1 - t ∧ t1 - t ≤ 90630 := by
    intro r t hr1 hr2
    obtain ⟨t1, h1, hlo, hhi⟩ := forRange_bound (fun c t2 => board_calc_score_cell cb r c t2)
      10070 BOARD_ACTUAL_COL_LEN.toNat BOARD_ACTUAL_COL_BEGIN t (by
        intro c t2 hc1 hc2
        simp only [BOARD_ACTUAL_COL_BEGIN, BOARD_ACTUAL_COL_LEN, e2] at hc1 hc2
        exact board_calc_score_cell_spec hwf (by unfold playable; omega) t2)
    simp only [BOARD_ACTUAL_COL_LEN, e2] at hlo hhi
    exact ⟨t1, h1, by omega, by omega⟩
  obtain ⟨v, hv, hlo, hhi⟩ := forRange_bound
    (fun r t => forRange BOARD_ACTUAL_COL_LEN.toNat BOARD_ACTUAL_COL_BEGIN
      (fun c t2 => board_calc_score_cell cb r c t2) t)
    90630 BOARD_ACTUAL_ROW_LEN.toNat BOARD_ACTUAL_ROW_BEGIN 0 (by
      intro r t hr1 hr2
      simp only [BOARD_ACTUAL_ROW_BEGIN, BOARD_ACTUAL_ROW_LEN, e1] at hr1 hr2
      exact inner r t hr1 hr2)
  simp only [BOARD_ACTUAL_ROW_LEN, e1] at hlo hhi
  exact ⟨v, hv, by omega, by omega⟩

/-! ## Well-formedness is preserved by good moves -/

/-- Making a good move on a well-formed board gives a well-formed board, and
undoing it gives back the board. -/
theorem goodMove_move {cb : ChessBoard} (hwf : WellFormed cb) {side : PieceSide}
    (hs : isPlayer side) {m : MoveNode} (hg : GoodMove cb side m) :
    ∃ cb1, cb.move m = some cb1 ∧ WellFormed cb1 ∧ cb1.undo = some cb := by
  obtain ⟨hpb, ⟨p, hp, hps⟩, _, hpe, _⟩ := hg
  have hb := inGrid_of_playable hpb
  have he := inGrid_of_playable hpe
  obtain ⟨cb1, h1, hu⟩ := move_undo cb m hb he
  refine ⟨cb1, h1, ?_, hu⟩
  obtain ⟨cb2, h2, _, hc⟩ := move_of_inGrid cb m hb he
  rw [h1] at h2
  cases h2
  rw [get_of_inGrid cb hb] at hp
  cases hp
  intro i j
  rw [hc]
  have hw := hwf i j
  unfold playable at hpb hpe
  by_cases hc1 : i = rowIdx _ _ he ∧ j = colIdx _ _ he
  · rw [if_pos hc1]
    have : 2 ≤ i.val ∧ i.val ≤ 11 ∧ 2 ≤ j.val ∧ j.val ≤ 10 := by
      rw [hc1.1, hc1.2]
      simp only [rowIdx, colIdx]
      omega
    rw [if_pos this]
    intro h
    rw [h, side_EO] at hps
    exact extra_ne hs hps
  · rw [if_neg hc1]
    by_cases hc2 : i = rowIdx _ _ hb ∧ j = colIdx _ _ hb
    · rw [if_pos hc2]
      have : 2 ≤ i.val ∧ i.val ≤ 11 ∧ 2 ≤ j.val ∧ j.val ≤ 10 := by
        rw [hc2.1, hc2.2]
        simp only [rowIdx, colIdx]
        omega
      rw [if_pos this]
      decide
    · rw [if_neg hc2]
      exact hw

/-! ## The search leaves the board as it found it -/

theorem min_max_up_loop_restores {child : ChessBoard → Int → Int → Option (Int × ChessBoard)}
    {cb : ChessBoard} (hwf : WellFormed cb)
    (hchild : ∀ b, WellFormed b → ∀ a bt, ∃ r, child b a bt = some (r, b)) :
    ∀ (L : List MoveNode) (alpha beta minValue : Int), (∀ m ∈ L, GoodMove cb PS_UP m) →
      ∃ r, min_max_up_loop child L cb alpha beta minValue = some (r, cb) := by
  intro L
  induction L with
  | nil => intro _ _ minValue _; exact ⟨minValue, rfl⟩
  | cons node rest ih =>
    intro alpha beta minValue hL
    obtain ⟨cb1, h1, hwf1, hu⟩ := goodMove_move hwf (Or.inl rfl) (hL node (List.mem_cons_self _ _))
    obtain ⟨r1, hr1⟩ := hchild cb1 hwf1 alpha beta
    rw [min_max_up_loop]
    simp only [h1, hr1, hu, Option.bind_eq_bind, Option.some_bind, Option.pure_def]
    split
    · exact ⟨_, rfl⟩
    · exact ih _ _ _ fun m hm => hL m (List.mem_cons_of_mem _ hm)

theorem min_max_down_loop_restores {child : ChessBoard → Int → Int → Option (Int × ChessBoard)}
    {cb : ChessBoard} (hwf : WellFormed cb)
    (hchild : ∀ b, WellFormed b → ∀ a bt, ∃ r, child b a bt = some (r, b)) :
    ∀ (L : List MoveNode) (alpha beta maxValue : Int), (∀ m ∈ L, GoodMove cb PS_DOWN m) →
      ∃ r, min_max_down_loop child L cb alpha beta maxValue = some (r, cb) := by
  intro L
  induction L with
  | nil => intro _ _ maxValue _; exact ⟨maxValue, rfl⟩
  | cons node rest ih =>
    intro alpha beta maxValue hL
    obtain ⟨cb1, h1, hwf1, hu⟩ := goodMove_move hwf (Or.inr rfl) (hL node (List.mem_cons_self _ _))
    obtain ⟨r1, hr1⟩ := hchild cb1 hwf1 alpha beta
    rw [min_max_down_loop]
    simp only [h1, hr1, hu, Option.bind_eq_bind, Option.some_bind, Option.pure_def]
    split
    · exact ⟨_, rfl⟩
    · exact ih _ _ _ fun m hm => hL m (List.mem_cons_of_mem _ hm)

theorem min_max_zero (cb : ChessBoard) (alpha beta : Int) (side : PieceSide) :
    min_max cb 0 alpha beta side = (board_calc_score cb).bind fun score => some (score, cb) := by
  rw [min_max]
  rfl

theorem min_max_succ_up (cb : ChessBoard) (d : Nat) (alpha beta : Int) :
    min_max cb (d + 1) alpha beta PS_UP =
      (gen_possible_moves cb PS_UP).bind fun possibleMoves =>
        min_max_up_loop (fun b a bt => min_max b d a bt PS_DOWN) possibleMoves cb alpha beta
          INT32_MAX := by
  rw [min_max]
  rfl

theorem min_max_succ_down (cb : ChessBoard) (d : Nat) (alpha beta : Int) :
    min_max cb (d + 1) alpha beta PS_DOWN =
      (gen_possible_moves cb PS_DOWN).bind fun possibleMoves =>
        min_max_down_loop (fun b a bt => min_max b d a bt PS_UP) possibleMoves cb alpha beta
          INT32_MIN := by
  rw [min_max]
  rfl

theorem min_max_succ_extra (cb : ChessBoard) (d : Nat) (alpha beta : Int) :
    min_max cb (d + 1) alpha beta PS_EXTRA = some (0, cb) := by
  rw [min_max]
  rfl

/-- On a well-formed board `min_max` returns, whatever the window and the
side, and the board it leaves is the board it was given. -/
theorem min_max_restores (d : Nat) :
    ∀ (cb : ChessBoard), WellFormed cb → ∀ (alpha beta : Int) (side : PieceSide),
      ∃ r, min_max cb d alpha beta side = some (r, cb) := by
  induction d with
  | zero =>
    intro cb hwf alpha beta side
    obtain ⟨v, hv, _⟩ := board_calc_score_range hwf
    exact ⟨v, by rw [min_max_zero, hv, Option.some_bind]⟩
  | succ d ih =>
    intro cb hwf alpha beta side
    cases side with
    | PS_UP =>
      obtain ⟨L, hL, hgood⟩ := gen_possible_moves_spec hwf (Or.inl rfl)
      rw [min_max_succ_up, hL, Option.some_bind]
      exact min_max_up_loop_restores hwf (fun b hb a bt => ih b hb a bt PS_DOWN) L _ _ _ hgood
    | PS_DOWN =>
      obtain ⟨L, hL, hgood⟩ := gen_possible_moves_spec hwf (Or.inr rfl)
      rw [min_max_succ_down, hL, Option.some_bind]
      exact min_max_down_loop_restores hwf (fun b hb a bt => ih b hb a bt PS_UP) L _ _ _ hgood
    | PS_EXTRA => exact ⟨0, min_max_succ_extra cb d alpha beta⟩

theorem gen_best_move_up_loop_restores (d : Nat) (alpha beta : Int) {cb : ChessBoard}
    (hwf : WellFormed cb) :
    ∀ (L : List MoveNode) (minValue : Int) (bestMove : MoveNode),
      (∀ m ∈ L, GoodMove cb PS_UP m) →
      ∃ bm, gen_best_move_up_loop d alpha beta L cb minValue bestMove = some (bm, cb) := by
  intro L
  induction L with
  | nil => intro _ bestMove _; exact ⟨bestMove, rfl⟩
  | cons node rest ih =>
    intro minValue bestMove hL
    obtain ⟨cb1, h1, hwf1, hu⟩ := goodMove_move hwf (Or.inl rfl) (hL node (List.mem_cons_self _ _))
    obtain ⟨r1, hr1⟩ := min_max_restores d cb1 hwf1 alpha beta PS_DOWN
    rw [gen_best_move_up_loop]
    simp only [h1, hr1, hu, Option.bind_eq_bind, Option.some_bind]
    split
    · exact ih _ _ fun m hm => hL m (List.mem_cons_of_mem _ hm)
    · exact ih _ _ fun m hm => hL m (List.mem_cons_of_mem _ hm)

theorem gen_best_move_down_loop_restores (d : Nat) (alpha beta : Int) {cb : ChessBoard}
    (hwf : WellFormed cb) :
    ∀ (L : List MoveNode) (maxValue : Int) (bestMove : MoveNode),
      (∀ m ∈ L, GoodMove cb PS_DOWN m) →
      ∃ bm, gen_best_move_down_loop d alpha beta L cb maxValue bestMove = some (bm, cb) := by
  intro L
  induction L with
  | nil => intro _ bestMove _; exact ⟨bestMove, rfl⟩
  | cons node rest ih =>
    intro maxValue bestMove hL
    obtain ⟨cb1, h1, hwf1, hu⟩ := goodMove_move hwf (Or.inr rfl) (hL node (List.mem_cons_self _ _))
    obtain ⟨r1, hr1⟩ := min_max_restores d cb1 hwf1 alpha beta PS_UP
    rw [gen_best_move_down_loop]
    simp only [h1, hr1, hu, Option.bind_eq_bind, Option.some_bind]
    split
    · exact ih _ _ fun m hm => hL m (List.mem_cons_of_mem _ hm)
    · exact ih _ _ fun m hm => hL m (List.mem_cons_of_mem _ hm)

theorem gen_best_move_up (cb : ChessBoard) (d : Nat) :
    gen_best_move cb PS_UP d =
      (gen_possible_moves cb PS_UP).bind fun possibleMoves =>
        gen_best_move_up_loop d INT32_MIN INT32_MAX possibleMoves cb INT32_MAX
          MoveNode.default := rfl

theorem gen_best_move_down (cb : ChessBoard) (d : Nat) :
    gen_best_move cb PS_DOWN d =
      (gen_possible_moves cb PS_DOWN).bind fun possibleMoves =>
        gen_best_move_down_loop d INT32_MIN INT32_MAX possibleMoves cb INT32_MIN
          MoveNode.default := rfl

theorem gen_best_move_extra (cb : ChessBoard) (d : Nat) :
    gen_best_move cb PS_EXTRA d = some (MoveNode.default, cb) := rfl

/-- On a well-formed board `gen_best_move` returns and leaves the board it
was given. -/
theorem gen_best_move_restores {cb : ChessBoard} (hwf : WellFormed cb) (side : PieceSide)
    (d : Nat) : ∃ bm, gen_best_move cb side d = some (bm, cb) := by
  cases side with
  | PS_UP =>
    obtain ⟨L, hL, hgood⟩ := gen_possible_moves_spec hwf (Or.inl rfl)
    rw [gen_best_move_up, hL, Option.some_bind]
    exact gen_best_move_up_loop_restores d _ _ hwf L _ _ hgood
  | PS_DOWN =>
    obtain ⟨L, hL, hgood⟩ := gen_possible_moves_spec hwf (Or.inr rfl)
    rw [gen_best_move_down, hL, Option.some_bind]
    exact gen_best_move_down_loop_restores d _ _ hwf L _ _ hgood
  | PS_EXTRA => exact ⟨_, gen_best_move_extra cb d⟩

/-! ## Lists of values -/

theorem collect_cons_eq_some {α β : Type} {f : α → Option β} {x : α} {xs : List α}
    {ys : List β} (h : collect f (x :: xs) = some ys) :
    ∃ y ys1, f x = some y ∧ collect f xs = some ys1 ∧ ys = y :: ys1 := by
  rw [collect] at h
  cases hx : f x with
  | none => simp [hx] at h
  | some y =>
    cases hxs : collect f xs with
    | none => simp [hx, hxs] at h
    | some ys1 =>
      simp only [hx, hxs, Option.some_bind, Option.map_some', Option.some.injEq] at h
      exact ⟨y, ys1, rfl, rfl, h.symm⟩

theorem collect_total {α β : Type} {f : α → Option β} {Q : β → Prop} :
    ∀ (L : List α), (∀ x ∈ L, ∃ y, f x = some y ∧ Q y) →
      ∃ ys, collect f L = some ys ∧ (∀ y ∈ ys, Q y) ∧ ys.length = L.length := by
  intro L
  induction L with
  | nil => intro _; exact ⟨[], rfl, by simp, rfl⟩
  | cons x xs ih =>
    intro h
    obtain ⟨y, hy, hq⟩ := h x (List.mem_cons_self _ _)
    obtain ⟨ys, hys, hqs, hlen⟩ := ih fun z hz => h z (List.mem_cons_of_mem _ hz)
    refine ⟨y :: ys, ?_, ?_, by simp [hlen]⟩
    · rw [collect, hy, Option.some_bind, hys]
      rfl
    · intro z hz
      rcases List.mem_cons.1 hz with rfl | hz
      · exact hq
      · exact hqs z hz

theorem foldl_min_le (vs : List Int) : ∀ a : Int, vs.foldl min a ≤ a := by
  induction vs with
  | nil => intro a; exact le_refl _
  | cons v vs ih =>
    intro a
    rw [List.foldl_cons]
    exact le_trans (ih _) (min_le_left _ _)

theorem le_foldl_max (vs : List Int) : ∀ a : Int, a ≤ vs.foldl max a := by
  induction vs with
  | nil => intro a; exact le_refl _
  | cons v vs ih =>
    intro a
    rw [List.foldl_cons]
    exact le_trans (le_max_left _ _) (ih _)

theorem foldl_min_range {lo hi : Int} (vs : List Int) :
    ∀ a : Int, lo ≤ a → a ≤ hi → (∀ v ∈ vs, lo ≤ v ∧ v ≤ hi) →
      lo ≤ vs.foldl min a ∧ vs.foldl min a ≤ hi := by
  induction vs with
  | nil => intro a h1 h2 _; exact ⟨h1, h2⟩
  | cons v vs ih =>
    intro a h1 h2 h
    rw [List.foldl_cons]
    have hv := h v (List.mem_cons_self _ _)
    exact ih _ (by omega) (by omega) fun w hw => h w (List.mem_cons_of_mem _ hw)

theorem foldl_max_range {lo hi : Int} (vs : List Int) :
    ∀ a : Int, lo ≤ a → a ≤ hi → (∀ v ∈ vs, lo ≤ v ∧ v ≤ hi) →
      lo ≤ vs.foldl max a ∧ vs.foldl max a ≤ hi := by
  induction vs with
  | nil => intro a h1 h2 _; exact ⟨h1, h2⟩
  | cons v vs ih =>
    intro a h1 h2 h
    rw [List.foldl_cons]
    have hv := h v (List.mem_cons_self _ _)
    exact ih _ (by omega) (by omega) fun w hw => h w (List.mem_cons_of_mem _ hw)

/-- For values not above `dflt` the minimum-or-default is the running minimum
started at `dflt`, which is what the loop of `min_max` computes. -/
theorem minimumOr_eq_foldl {dflt : Int} {vs : List Int} (h : ∀ v ∈ vs, v ≤ dflt) :
    minimumOr dflt vs = vs.foldl min dflt := by
  cases vs with
  | nil => rfl
  | cons v vs =>
    rw [minimumOr, List.foldl_cons, min_eq_right (h v (List.mem_cons_self _ _))]

theorem maximumOr_eq_foldl {dflt : Int} {vs : List Int} (h : ∀ v ∈ vs, dflt ≤ v) :
    maximumOr dflt vs = vs.foldl max dflt := by
  cases vs with
  | nil => rfl
  | cons v vs =>
    rw [maximumOr, List.foldl_cons, max_eq_right (h v (List.mem_cons_self _ _))]

/-! ## Plain minimax -/

theorem plain_minimax_zero (cb : ChessBoard) (side : PieceSide) :
    plain_minimax cb 0 side = board_calc_score cb := by
  rw [plain_minimax]

theorem plain_minimax_succ_up (cb : ChessBoard) (d : Nat) :
    plain_minimax cb (d + 1) PS_UP =
      (gen_possible_moves cb PS_UP).bind fun moves =>
        (collect (value_after cb d PS_UP) moves).map (minimumOr INT32_MAX) := by
  rw [plain_minimax]
  rfl

theorem plain_minimax_succ_down (cb : ChessBoard) (d : Nat) :
    plain_minimax cb (d + 1) PS_DOWN =
      (gen_possible_moves cb PS_DOWN).bind fun moves =>
        (collect (value_after cb d PS_DOWN) moves).map (maximumOr INT32_MIN) := by
  rw [plain_minimax]
  rfl

theorem value_after_of_move {cb cb1 : ChessBoard} {m : MoveNode} (h : cb.move m = some cb1)
    (d : Nat) (side : PieceSide) :
    value_after cb d side m = plain_minimax cb1 d (piece_side_get_reverse side) := by
  rw [value_after, h, Option.some_bind]

theorem isPlayer_reverse {side : PieceSide} (hs : isPlayer side) :
    isPlayer (piece_side_get_reverse side) := by
  rcases hs with rfl | rfl
  · exact Or.inr rfl
  · exact Or.inl rfl

/-- On a well-formed board plain minimax has a value, and the value is a
32-bit integer. -/
theorem plain_minimax_range (d : Nat) :
    ∀ (cb : ChessBoard), WellFormed cb → ∀ side, isPlayer side →
      ∃ v, plain_minimax cb d side = some v ∧ INT32_MIN ≤ v ∧ v ≤ INT32_MAX := by
  induction d with
  | zero =>
    intro cb hwf side _
    obtain ⟨v, hv, h1, h2⟩ := board_calc_score_range hwf
    refine ⟨v, by rw [plain_minimax_zero, hv], ?_, ?_⟩
    · unfold INT32_MIN; omega
    · unfold INT32_MAX; omega
  | succ d ih =>
    intro cb hwf side hs
    obtain ⟨L, hL, hgood⟩ := gen_possible_moves_spec hwf hs
    have hvals : ∀ m ∈ L, ∃ v, value_after cb d side m = some v ∧
        (INT32_MIN ≤ v ∧ v ≤ INT32_MAX) := by
      intro m hm
      obtain ⟨cb1, h1, hwf1, _⟩ := goodMove_move hwf hs (hgood m hm)
      rw [value_after_of_move h1]
      exact ih cb1 hwf1 _ (isPlayer_reverse hs)
    obtain ⟨vs, hvs, hrange, _⟩ := collect_total L hvals
    rcases hs with rfl | rfl
    · refine ⟨minimumOr INT32_MAX vs, ?_, ?_⟩
      · rw [plain_minimax_succ_up, hL, Option.some_bind, hvs]
        rfl
      · rw [minimumOr_eq_foldl fun v hv => (hrange v hv).2]
        exact foldl_min_range vs _ (by decide) (le_refl _) hrange
    · refine ⟨maximumOr INT32_MIN vs, ?_, ?_⟩
      · rw [plain_minimax_succ_down, hL, Option.some_bind, hvs]
        rfl
      · rw [maximumOr_eq_foldl fun v hv => (hrange v hv).1]
        exact foldl_max_range vs _ (le_refl _) (by decide) hrange

/-! ## Alpha-beta pruning is fail-soft -/

/-- The `PS_UP` loop: with the running minimum fail-soft for the moves seen
so far, the returned value is fail-soft for all moves. -/
theorem min_max_up_loop_failsoft {child : ChessBoard → Int → Int → Option (Int × ChessBoard)}
    {cb : ChessBoard} {f : MoveNode → Option Int} (hwf : WellFormed cb)
    (hchild : ∀ m cb1, GoodMove cb PS_UP m → cb.move m = some cb1 →
      ∀ a bt, INT32_MIN ≤ a → a < bt → bt ≤ INT32_MAX →
        ∃ r v, child cb1 a bt = some (r, cb1) ∧ f m = some v ∧ FailSoft r v a bt) :
    ∀ (L : List MoveNode) (vs : List Int) (alpha beta0 minValue M : Int),
      (∀ m ∈ L, GoodMove cb PS_UP m) → collect f L = some vs →
      INT32_MIN ≤ alpha → alpha < min beta0 minValue → beta0 ≤ INT32_MAX →
      FailSoft minValue M alpha beta0 →
      ∃ r, min_max_up_loop child L cb alpha (min beta0 minValue) minValue = some (r, cb) ∧
        FailSoft r (vs.foldl min M) alpha beta0 := by
  intro L
  induction L with
  | nil =>
    intro vs alpha beta0 minValue M _ hvs _ _ _ hfs
    rw [collect] at hvs
    cases hvs
    exact ⟨minValue, rfl, hfs⟩
  | cons node rest ih =>
    intro vs alpha beta0 minValue M hL hvs ha hab hb hfs
    obtain ⟨v, vs1, hv, hvs1, rfl⟩ := collect_cons_eq_some hvs
    have hg := hL node (List.mem_cons_self _ _)
    obtain ⟨cb1, h1, _, hu⟩ := goodMove_move hwf (Or.inl rfl) hg
    obtain ⟨r1, v1, hr1, hv1, hfs1⟩ :=
      hchild node cb1 hg h1 alpha (min beta0 minValue) ha hab (by omega)
    rw [hv] at hv1
    cases hv1
    rw [min_max_up_loop]
    simp only [h1, hr1, hu, Option.bind_eq_bind, Option.some_bind, Option.pure_def]
    have hbeta : min (min beta0 minValue) (min minValue r1) = min beta0 (min minValue r1) := by
      omega
    rw [hbeta, List.foldl_cons]
    have hstep : FailSoft (min minValue r1) (min M v) alpha beta0 := by
      unfold FailSoft at hfs hfs1 ⊢
      omega
    split
    · rename_i hprune
      refine ⟨_, rfl, ?_⟩
      have hle := foldl_min_le vs1 (min M v)
      unfold FailSoft at hstep ⊢
      omega
    · rename_i hprune
      exact ih vs1 alpha beta0 (min minValue r1) (min M v)
        (fun m hm => hL m (List.mem_cons_of_mem _ hm)) hvs1 ha (by omega) hb hstep

/-- The `PS_DOWN` loop: with the running maximum fail-soft for the moves seen
so far, the returned value is fail-soft for all moves. -/
theorem min_max_down_loop_failsoft {child : ChessBoard → Int → Int → Option (Int × ChessBoard)}
    {cb : ChessBoard} {f : MoveNode → Option Int} (hwf : WellFormed cb)
    (hchild : ∀ m cb1, GoodMove cb PS_DOWN m → cb.move m = some cb1 →
      ∀ a bt, INT32_MIN ≤ a → a < bt → bt ≤ INT32_MAX →
        ∃ r v, child cb1 a bt = some (r, cb1) ∧ f m = some v ∧ FailSoft r v a bt) :
    ∀ (L : List MoveNode) (vs : List Int) (alpha0 beta maxValue M : Int),
      (∀ m ∈ L, GoodMove cb PS_DOWN m) → collect f L = some vs →
      INT32_MIN ≤ alpha0 → max alpha0 maxValue < beta → beta ≤ INT32_MAX →
      FailSoft maxValue M alpha0 beta →
      ∃ r, min_max_down_loop child L cb (max alpha0 maxValue) beta maxValue = some (r, cb) ∧
        FailSoft r (vs.foldl max M) alpha0 beta := by
  intro L
  induction L with
  | nil =>
    intro vs alpha0 beta maxValue M _ hvs _ _ _ hfs
    rw [collect] at hvs
    cases hvs
    exact ⟨maxValue, rfl, hfs⟩
  | cons node rest ih =>
    intro vs alpha0 beta maxValue M hL hvs ha hab hb hfs
    obtain ⟨v, vs1, hv, hvs1, rfl⟩ := collect_cons_eq_some hvs
    have hg := hL node (List.mem_cons_self _ _)
    obtain ⟨cb1, h1, _, hu⟩ := goodMove_move hwf (Or.inr rfl) hg
    obtain ⟨r1, v1, hr1, hv1, hfs1⟩ :=
      hchild node cb1 hg h1 (max alpha0 maxValue) beta (by omega) hab hb
    rw [hv] at hv1
    cases hv1
    rw [min_max_down_loop]
    simp only [h1, hr1, hu, Option.bind_eq_bind, Option.some_bind, Option.pure_def]
    have halpha : max (max alpha0 maxValue) (max maxValue r1) = max alpha0 (max maxValue r1) := by
      omega
    rw [halpha, List.foldl_cons]
    have hstep : FailSoft (max maxValue r1) (max M v) alpha0 beta := by
      unfold FailSoft at hfs hfs1 ⊢
      omega
    split
    · rename_i hprune
      refine ⟨_, rfl, ?_⟩
      have hle := le_foldl_max vs1 (max M v)
      unfold FailSoft at hstep ⊢
      omega
    · rename_i hprune
      exact ih vs1 alpha0 beta (max maxValue r1) (max M v)
        (fun m hm => hL m (List.mem_cons_of_mem _ hm)) hvs1 ha (by omega) hb hstep

/-- On a well-formed board, for a player and a non-empty window of 32-bit
bounds, `min_max` returns a value that is fail-soft with respect to plain
minimax, and leaves the board as it was. -/
theorem min_max_failsoft (d : Nat) :
    ∀ (cb : ChessBoard), WellFormed cb → ∀ side, isPlayer side → ∀ (alpha beta : Int),
      INT32_MIN ≤ alpha → alpha < beta → beta ≤ INT32_MAX →
      ∃ r v, min_max cb d alpha beta side = some (r, cb) ∧ plain_minimax cb d side = some v ∧
        FailSoft r v alpha beta := by
  induction d with
  | zero =>
    intro cb hwf side _ alpha beta _ _ _
    obtain ⟨v, hv, _⟩ := board_calc_score_range hwf
    refine ⟨v, v, by rw [min_max_zero, hv, Option.some_bind], by rw [plain_minimax_zero, hv], ?_⟩
    unfold FailSoft
    omega
  | succ d ih =>
    intro cb hwf side hs alpha beta ha hab hb
    obtain ⟨L, hL, hgood⟩ := gen_possible_moves_spec hwf hs
    have hvals : ∀ m ∈ L, ∃ v, value_after cb d side m = some v ∧
        (INT32_MIN ≤ v ∧ v ≤ INT32_MAX) := by
      intro m hm
      obtain ⟨cb1, h1, hwf1, _⟩ := goodMove_move hwf hs (hgood m hm)
      rw [value_after_of_move h1]
      exact plain_minimax_range d cb1 hwf1 _ (isPlayer_reverse hs)
    obtain ⟨vs, hvs, hrange, _⟩ := collect_total L hvals
    have hchild : ∀ m cb1, GoodMove cb side m → cb.move m = some cb1 →
        ∀ a bt, INT32_MIN ≤ a → a < bt → bt ≤ INT32_MAX →
          ∃ r v, min_max cb1 d a bt (piece_side_get_reverse side) = some (r, cb1) ∧
            value_after cb d side m = some v ∧ FailSoft r v a bt := by
      intro m cb1 hg h1 a bt h2 h3 h4
      obtain ⟨cb2, h5, hwf2, _⟩ := goodMove_move hwf hs hg
      rw [h1] at h5
      cases h5
      rw [value_after_of_move h1]
      exact ih cb1 hwf2 _ (isPlayer_reverse hs) a bt h2 h3 h4
    rcases hs with rfl | rfl
    · have hmax : beta = min beta INT32_MAX := by omega
      obtain ⟨r, hr, hfs⟩ := min_max_up_loop_failsoft (f := value_after cb d PS_UP) hwf hchild
        L vs alpha beta INT32_MAX INT32_MAX hgood hvs ha (by omega) hb
        (by unfold FailSoft; omega)
      rw [← hmax] at hr
      refine ⟨r, _, ?_, ?_, hfs⟩
      · rw [min_max_succ_up, hL, Option.some_bind]
        exact hr
      · rw [plain_minimax_succ_up, hL, Option.some_bind, hvs, Option.map_some',
          minimumOr_eq_foldl fun v hv => (hrange v hv).2]
    · have hmin : alpha = max alpha INT32_MIN := by omega
      obtain ⟨r, hr, hfs⟩ := min_max_down_loop_failsoft (f := value_after cb d PS_DOWN) hwf hchild
        L vs alpha beta INT32_MIN INT32_MIN hgood hvs ha (by omega) hb
        (by unfold FailSoft; omega)
      rw [← hmin] at hr
      refine ⟨r, _, ?_, ?_, hfs⟩
      · rw [min_max_succ_down, hL, Option.some_bind]
        exact hr
      · rw [plain_minimax_succ_down, hL, Option.some_bind, hvs, Option.map_some',
          maximumOr_eq_foldl fun v hv => (hrange v hv).1]

/-- With the full window the value returned by `min_max` is the plain
minimax value. -/
theorem min_max_full_window {cb : ChessBoard} (hwf : WellFormed cb) {side : PieceSide}
    (hs : isPlayer side) (d : Nat) :
    ∃ v, min_max cb d INT32_MIN INT32_MAX side = some (v, cb) ∧
      plain_minimax cb d side = some v ∧ INT32_MIN ≤ v ∧ v ≤ INT32_MAX := by
  obtain ⟨r, v, hr, hv, hfs⟩ := min_max_failsoft d cb hwf side hs INT32_MIN INT32_MAX
    (le_refl _) (by decide) (le_refl _)
  obtain ⟨v1, hv1, hlo, hhi⟩ := plain_minimax_range d cb hwf side hs
  rw [hv] at hv1
  cases hv1
  have : r = v := by
    unfold FailSoft at hfs
    omega
  subst this
  exact ⟨r, hr, hv, hlo, hhi⟩

/-! ## The root of the search -/

/-- The `PS_UP` loop of `gen_best_move`: either no remaining value is at most
`minValue` and the best move stays, or the result is the move at the last
index where the remaining values are minimal. -/
theorem gen_best_move_up_loop_spec (d : Nat) {cb : ChessBoard} (hwf : WellFormed cb) :
    ∀ (L : List MoveNode) (vs : List Int) (minValue : Int) (bestMove : MoveNode),
      (∀ m ∈ L, GoodMove cb PS_UP m) → collect (value_after cb d PS_UP) L = some vs →
      ∃ bm, gen_best_move_up_loop d INT32_MIN INT32_MAX L cb minValue bestMove = some (bm, cb) ∧
        (((∀ v ∈ vs, minValue < v) ∧ bm = bestMove) ∨
          ∃ (i : Nat) (vi : Int), vs[i]? = some vi ∧ L[i]? = some bm ∧ vi ≤ minValue ∧
            ∀ (j : Nat) (vj : Int), vs[j]? = some vj → vi ≤ vj ∧ (i < j → vi < vj)) := by
  intro L
  induction L with
  | nil =>
    intro vs minValue bestMove _ hvs
    rw [collect] at hvs
    cases hvs
    exact ⟨bestMove, rfl, Or.inl ⟨by simp, rfl⟩⟩
  | cons node rest ih =>
    intro vs minValue bestMove hL hvs
    obtain ⟨v, vs1, hv, hvs1, rfl⟩ := collect_cons_eq_some hvs
    have hg := hL node (List.mem_cons_self _ _)
    obtain ⟨cb1, h1, hwf1, hu⟩ := goodMove_move hwf (Or.inl rfl) hg
    obtain ⟨v1, hr1, hp1, _⟩ := min_max_full_window hwf1 (Or.inr rfl : isPlayer PS_DOWN) d
    rw [value_after_of_move h1] at hv
    have : v1 = v := by
      have e : piece_side_get_reverse PS_UP = PS_DOWN := rfl
      rw [e, hp1] at hv
      exact Option.some.inj hv
    subst this
    rw [gen_best_move_up_loop]
    simp only [h1, hr1, hu, Option.bind_eq_bind, Option.some_bind]
    have hrest : ∀ m ∈ rest, GoodMove cb PS_UP m := fun m hm => hL m (List.mem_cons_of_mem _ hm)
    by_cases hle : v1 ≤ minValue
    · rw [if_pos hle]
      obtain ⟨bm, hbm, hcase⟩ := ih vs1 v1 node hrest hvs1
      refine ⟨bm, hbm, Or.inr ?_⟩
      rcases hcase with ⟨hall, rfl⟩ | ⟨i, vi, hi, hLi, hvi, hmin⟩
      · refine ⟨0, v1, List.getElem?_cons_zero, List.getElem?_cons_zero, hle, ?_⟩
        intro j vj hj
        cases j with
        | zero =>
          simp only [List.getElem?_cons_zero, Option.some.injEq] at hj
          subst hj
          exact ⟨le_refl _, fun h => absurd h (lt_irrefl _)⟩
        | succ j =>
          rw [List.getElem?_cons_succ] at hj
          have := hall vj (List.getElem?_mem hj)
          exact ⟨le_of_lt this, fun _ => this⟩
      · refine ⟨i + 1, vi, by rw [List.getElem?_cons_succ]; exact hi,
          by rw [List.getElem?_cons_succ]; exact hLi, by omega, ?_⟩
        intro j vj hj
        cases j with
        | zero =>
          simp only [List.getElem?_cons_zero, Option.some.injEq] at hj
          subst hj
          exact ⟨hvi, fun h => absurd h (Nat.not_lt_zero _)⟩
        | succ j =>
          rw [List.getElem?_cons_succ] at hj
          obtain ⟨h2, h3⟩ := hmin j vj hj
          exact ⟨h2, fun h => h3 (by omega)⟩
    · rw [if_neg hle]
      obtain ⟨bm, hbm, hcase⟩ := ih vs1 minValue bestMove hrest hvs1
      refine ⟨bm, hbm, ?_⟩
      rcases hcase with ⟨hall, rfl⟩ | ⟨i, vi, hi, hLi, hvi, hmin⟩
      · left
        refine ⟨?_, rfl⟩
        intro w hw
        rcases List.mem_cons.1 hw with rfl | hw
        · omega
        · exact hall w hw
      · right
        refine ⟨i + 1, vi, by rw [List.getElem?_cons_succ]; exact hi,
          by rw [List.getElem?_cons_succ]; exact hLi, hvi, ?_⟩
        intro j vj hj
        cases j with
        | zero =>
          simp only [List.getElem?_cons_zero, Option.some.injEq] at hj
          subst hj
          exact ⟨by omega, fun h => absurd h (Nat.not_lt_zero _)⟩
        | succ j =>
          rw [List.getElem?_cons_succ] at hj
          obtain ⟨h2, h3⟩ := hmin j vj hj
          exact ⟨h2, fun h => h3 (by omega)⟩

/-- The `PS_DOWN` loop of `gen_best_move`: either no remaining value is at
least `maxValue` and the best move stays, or the result is the move at the
last index where the remaining values are maximal. -/
theorem gen_best_move_down_loop_spec (d : Nat) {cb : ChessBoard} (hwf : WellFormed cb) :
    ∀ (L : List MoveNode) (vs : List Int) (maxValue : Int) (bestMove : MoveNode),
      (∀ m ∈ L, GoodMove cb PS_DOWN m) → collect (value_after cb d PS_DOWN) L = some vs →
      ∃ bm, gen_best_move_down_loop d INT32_MIN INT32_MAX L cb maxValue bestMove = some (bm, cb) ∧
        (((∀ v ∈ vs, v < maxValue) ∧ bm = bestMove) ∨
          ∃ (i : Nat) (vi : Int), vs[i]? = some vi ∧ L[i]? = some bm ∧ maxValue ≤ vi ∧
            ∀ (j : Nat) (vj : Int), vs[j]? = some vj → vj ≤ vi ∧ (i < j → vj < vi)) := by
  intro L
  induction L with
  | nil =>
    intro vs maxValue bestMove _ hvs
    rw [collect] at hvs
    cases hvs
    exact ⟨bestMove, rfl, Or.inl ⟨by simp, rfl⟩⟩
  | cons node rest ih =>
    intro vs maxValue bestMove hL hvs
    obtain ⟨v, vs1, hv, hvs1, rfl⟩ := collect_cons_eq_some hvs
    have hg := hL node (List.mem_cons_self _ _)
    obtain ⟨cb1, h1, hwf1, hu⟩ := goodMove_move hwf (Or.inr rfl) hg
    obtain ⟨v1, hr1, hp1, _⟩ := min_max_full_window hwf1 (Or.inl rfl : isPlayer PS_UP) d
    rw [value_after_of_move h1] at hv
    have : v1 = v := by
      have e : piece_side_get_reverse PS_DOWN = PS_UP := rfl
      rw [e, hp1] at hv
      exact Option.some.inj hv
    subst this
    rw [gen_best_move_down_loop]
    simp only [h1, hr1, hu, Option.bind_eq_bind, Option.some_bind]
    have hrest : ∀ m ∈ rest, GoodMove cb PS_DOWN m :=
      fun m hm => hL m (List.mem_cons_of_mem _ hm)
    by_cases hle : v1 ≥ maxValue
    · rw [if_pos hle]
      obtain ⟨bm, hbm, hcase⟩ := ih vs1 v1 node hrest hvs1
      refine ⟨bm, hbm, Or.inr ?_⟩
      rcases hcase with ⟨hall, rfl⟩ | ⟨i, vi, hi, hLi, hvi, hmin⟩
      · refine ⟨0, v1, List.getElem?_cons_zero, List.getElem?_cons_zero, hle, ?_⟩
        intro j vj hj
        cases j with
        | zero =>
          simp only [List.getElem?_cons_zero, Option.some.injEq] at hj
          subst hj
          exact ⟨le_refl _, fun h => absurd h (lt_irrefl _)⟩
        | succ j =>
          rw [List.getElem?_cons_succ] at hj
          have := hall vj (List.getElem?_mem hj)
          exact ⟨le_of_lt this, fun _ => this⟩
      · refine ⟨i + 1, vi, by rw [List.getElem?_cons_succ]; exact hi,
          by rw [List.getElem?_cons_succ]; exact hLi, by omega, ?_⟩
        intro j vj hj
        cases j with
        | zero =>
          simp only [List.getElem?_cons_zero, Option.some.injEq] at hj
          subst hj
          exact ⟨hvi, fun h => absurd h (Nat.not_lt_zero _)⟩
        | succ j =>
          rw [List.getElem?_cons_succ] at hj
          obtain ⟨h2, h3⟩ := hmin j vj hj
          exact ⟨h2, fun h => h3 (by omega)⟩
    · rw [if_neg hle]
      obtain ⟨bm, hbm, hcase⟩ := ih vs1 maxValue bestMove hrest hvs1
      refine ⟨bm, hbm, ?_⟩
      rcases hcase with ⟨hall, rfl⟩ | ⟨i, vi, hi, hLi, hvi, hmin⟩
      · left
        refine ⟨?_, rfl⟩
        intro w hw
        rcases List.mem_cons.1 hw with rfl | hw
        · omega
        · exact hall w hw
      · right
        refine ⟨i + 1, vi, by rw [List.getElem?_cons_succ]; exact hi,
          by rw [List.getElem?_cons_succ]; exact hLi, hvi, ?_⟩
        intro j vj hj
        cases j with
        | zero =>
          simp only [List.getElem?_cons_zero, Option.some.injEq] at hj
          subst hj
          exact ⟨by omega, fun h => absurd h (Nat.not_lt_zero _)⟩
        | succ j =>
          rw [List.getElem?_cons_succ] at hj
          obtain ⟨h2, h3⟩ := hmin j vj hj
          exact ⟨h2, fun h => h3 (by omega)⟩

/-- The values after each generated move exist and are 32-bit integers. -/
theorem values_after_total {cb : ChessBoard} (hwf : WellFormed cb) {side : PieceSide}
    (hs : isPlayer side) (d : Nat) {L : List MoveNode} (hgood : ∀ m ∈ L, GoodMove cb side m) :
    ∃ vs, collect (value_after cb d side) L = some vs ∧
      (∀ v ∈ vs, INT32_MIN ≤ v ∧ v ≤ INT32_MAX) ∧ vs.length = L.length := by
  apply collect_total
  intro m hm
  obtain ⟨cb1, h1, hwf1, _⟩ := goodMove_move hwf hs (hgood m hm)
  rw [value_after_of_move h1]
  exact plain_minimax_range d cb1 hwf1 _ (isPlayer_reverse hs)

/-- For a non-empty generated list, `gen_best_move` for up returns the move
at the last index where the plain minimax value after the move is minimal. -/
theorem gen_best_move_up_spec {cb : ChessBoard} (hwf : WellFormed cb) (d : Nat)
    {L : List MoveNode} (hL : gen_possible_moves cb PS_UP = some L) (hne : L ≠ []) :
    ∃ vs i bm, collect (value_after cb d PS_UP) L = some vs ∧ L[i]? = some bm ∧
      gen_best_move cb PS_UP d = some (bm, cb) ∧ IsLastMin vs i := by
  obtain ⟨L1, hL1, hgood⟩ := gen_possible_moves_spec hwf (Or.inl rfl : isPlayer PS_UP)
  rw [hL] at hL1
  cases hL1
  obtain ⟨vs, hvs, hrange, hlen⟩ := values_after_total hwf (Or.inl rfl) d hgood
  obtain ⟨bm, hbm, hcase⟩ := gen_best_move_up_loop_spec d hwf L vs INT32_MAX MoveNode.default
    hgood hvs
  rcases hcase with ⟨hall, _⟩ | ⟨i, vi, hi, hLi, _, hmin⟩
  · exfalso
    cases vs with
    | nil =>
      simp only [List.length_nil] at hlen
      exact hne (List.length_eq_zero.1 hlen.symm)
    | cons v vs1 =>
      have h1 := hall v (List.mem_cons_self _ _)
      have h2 := (hrange v (List.mem_cons_self _ _)).2
      omega
  · exact ⟨vs, i, bm, hvs, hLi, by rw [gen_best_move_up, hL, Option.some_bind]; exact hbm,
      vi, hi, hmin⟩

/-- For a non-empty generated list, `gen_best_move` for down returns the move
at the last index where the plain minimax value after the move is maximal. -/
theorem gen_best_move_down_spec {cb : ChessBoard} (hwf : WellFormed cb) (d : Nat)
    {L : List MoveNode} (hL : gen_possible_moves cb PS_DOWN = some L) (hne : L ≠ []) :
    ∃ vs i bm, collect (value_after cb d PS_DOWN) L = some vs ∧ L[i]? = some bm ∧
      gen_best_move cb PS_DOWN d = some (bm, cb) ∧ IsLastMax vs i := by
  obtain ⟨L1, hL1, hgood⟩ := gen_possible_moves_spec hwf (Or.inr rfl : isPlayer PS_DOWN)
  rw [hL] at hL1
  cases hL1
  obtain ⟨vs, hvs, hrange, hlen⟩ := values_after_total hwf (Or.inr rfl) d hgood
  obtain ⟨bm, hbm, hcase⟩ := gen_best_move_down_loop_spec d hwf L vs INT32_MIN MoveNode.default
    hgood hvs
  rcases hcase with ⟨hall, _⟩ | ⟨i, vi, hi, hLi, _, hmin⟩
  · exfalso
    cases vs with
    | nil =>
      simp only [List.length_nil] at hlen
      exact hne (List.length_eq_zero.1 hlen.symm)
    | cons v vs1 =>
      have h1 := hall v (List.mem_cons_self _ _)
      have h2 := (hrange v (List.mem_cons_self _ _)).1
      omega
  · exact ⟨vs, i, bm, hvs, hLi, by rw [gen_best_move_down, hL, Option.some_bind]; exact hbm,
      vi, hi, hmin⟩

/-! # The claims

## Move and undo (C1, C2) -/

/-- C1: for every board and every move whose four coordinates lie inside the
14 x 13 grid (in particular every move the generator returns for a player on
a well-formed board), `ChessBoard::move` followed by `ChessBoard::undo`
succeeds and yields a board whose grid equals the original grid cell for cell
and whose history equals the original history. -/
theorem C1_move_undo_roundtrip (cb : ChessBoard) (m : MoveNode)
    (h : (inGrid m.beginRow m.beginCol ∧ inGrid m.endRow m.endCol) ∨
      (WellFormed cb ∧ ∃ side L, isPlayer side ∧ gen_possible_moves cb side = some L ∧ m ∈ L)) :
    ∃ cb1 cb2, cb.move m = some cb1 ∧ cb1.undo = some cb2 ∧
      (∀ i j, cb2.cell i j = cb.cell i j) ∧ cb2.history = cb.history := by
  have hin : inGrid m.beginRow m.beginCol ∧ inGrid m.endRow m.endCol := by
    rcases h with h | ⟨hwf, side, L, hs, hL, hm⟩
    · exact h
    · obtain ⟨L1, hL1, hgood⟩ := gen_possible_moves_spec hwf hs
      rw [hL] at hL1
      cases hL1
      obtain ⟨h1, _, _, h2, _⟩ := hgood m hm
      exact ⟨inGrid_of_playable h1, inGrid_of_playable h2⟩
  obtain ⟨cb1, h1, h2⟩ := move_undo cb m hin.1 hin.2
  exact ⟨cb1, cb, h1, h2, fun _ _ => rfl, rfl⟩

/-- Witness of C1: the up cannon of the starting position captures the down
knight on (11, 3) and the move is taken back. -/
theorem C1_move_undo_roundtrip_witness :
    (inGrid 4 3 ∧ inGrid 11 3) ∧
    ∃ cb1 cb2, ChessBoard.new.move ⟨4, 3, 11, 3⟩ = some cb1 ∧ cb1.undo = some cb2 ∧
      (∀ i j, cb2.cell i j = ChessBoard.new.cell i j) ∧
      cb2.history = ChessBoard.new.history :=
  ⟨by decide, C1_move_undo_roundtrip ChessBoard.new ⟨4, 3, 11, 3⟩ (Or.inl (by decide))⟩

/-- C2: for every board and every sequence of N in-grid moves (N = 0
included), applying the moves in order with `ChessBoard::move` and then
calling `ChessBoard::undo` N times succeeds and returns the grid and the
history to their state before the sequence. -/
theorem C2_moves_undos_roundtrip (cb : ChessBoard) (ms : List MoveNode)
    (h : ∀ m ∈ ms, inGrid m.beginRow m.beginCol ∧ inGrid m.endRow m.endCol) :
    ∃ cb1 cb2, moveAll cb ms = some cb1 ∧ undoTimes ms.length cb1 = some cb2 ∧
      (∀ i j, cb2.cell i j = cb.cell i j) ∧ cb2.history = cb.history := by
  obtain ⟨cb1, h1, h2⟩ := moveAll_undoTimes ms cb h
  exact ⟨cb1, cb, h1, h2, fun _ _ => rfl, rfl⟩

/-- Witness of C2: a capture followed by a move onto the cell just captured
on, then a move from a border cell, all taken back. -/
theorem C2_moves_undos_roundtrip_witness :
    (∀ m ∈ ([⟨4, 3, 11, 3⟩, ⟨11, 4, 11, 3⟩, ⟨0, 0, 11, 3⟩] : List MoveNode),
      inGrid m.beginRow m.beginCol ∧ inGrid m.endRow m.endCol) ∧
    ∃ cb1 cb2, moveAll ChessBoard.new [⟨4, 3, 11, 3⟩, ⟨11, 4, 11, 3⟩, ⟨0, 0, 11, 3⟩] = some cb1 ∧
      undoTimes 3 cb1 = some cb2 ∧
      (∀ i j, cb2.cell i j = ChessBoard.new.cell i j) ∧
      cb2.history = ChessBoard.new.history :=
  ⟨by decide, C2_moves_undos_roundtrip ChessBoard.new
    [⟨4, 3, 11, 3⟩, ⟨11, 4, 11, 3⟩, ⟨0, 0, 11, 3⟩] (by decide)⟩

/-! ## The search (C3 to C8) -/

/-- C3: for every well-formed board, every side (up, down or neither), every
depth and every window, `gen_best_move` and `min_max` return, and the board
they leave has exactly the grid and the history it had on entry. -/
theorem C3_search_restores_board (cb : ChessBoard) (hwf : WellFormed cb) (side : PieceSide)
    (searchDepth : Nat) (alpha beta : Int) :
    (∃ bm cb1, gen_best_move cb side searchDepth = some (bm, cb1) ∧
      (∀ i j, cb1.cell i j = cb.cell i j) ∧ cb1.history = cb.history) ∧
    (∃ r cb1, min_max cb searchDepth alpha beta side = some (r, cb1) ∧
      (∀ i j, cb1.cell i j = cb.cell i j) ∧ cb1.history = cb.history) := by
  obtain ⟨bm, hbm⟩ := gen_best_move_restores hwf side searchDepth
  obtain ⟨r, hr⟩ := min_max_restores searchDepth cb hwf alpha beta side
  exact ⟨⟨bm, cb, hbm, fun _ _ => rfl, rfl⟩, ⟨r, cb, hr, fun _ _ => rfl, rfl⟩⟩

/-- Witness of C3: the starting position, up to move, depth 4, a window that
prunes. -/
theorem C3_search_restores_board_witness :
    WellFormed ChessBoard.new ∧
    (∃ bm cb1, gen_best_move ChessBoard.new PS_UP 4 = some (bm, cb1) ∧
      (∀ i j, cb1.cell i j = ChessBoard.new.cell i j) ∧
      cb1.history = ChessBoard.new.history) ∧
    (∃ r cb1, min_max ChessBoard.new 4 (-5) 5 PS_UP = some (r, cb1) ∧
      (∀ i j, cb1.cell i j = ChessBoard.new.cell i j) ∧
      cb1.history = ChessBoard.new.history) :=
  ⟨by decide, C3_search_restores_board ChessBoard.new (by decide) PS_UP 4 (-5) 5⟩

/-- C4: for every well-formed board, depth and player, `min_max` called with
the window `(INT32_MIN, INT32_MAX)` returns the value of plain minimax
without pruning. -/
theorem C4_min_max_eq_plain_minimax (cb : ChessBoard) (hwf : WellFormed cb) (searchDepth : Nat)
    (side : PieceSide) (hs : isPlayer side) :
    ∃ v, min_max cb searchDepth INT32_MIN INT32_MAX side = some (v, cb) ∧
      plain_minimax cb searchDepth side = some v := by
  obtain ⟨v, h1, h2, _⟩ := min_max_full_window hwf hs searchDepth
  exact ⟨v, h1, h2⟩

/-- Witness of C4: the starting position, down to move, depth 3. -/
theorem C4_min_max_eq_plain_minimax_witness :
    WellFormed ChessBoard.new ∧ isPlayer PS_DOWN ∧
    ∃ v, min_max ChessBoard.new 3 INT32_MIN INT32_MAX PS_DOWN = some (v, ChessBoard.new) ∧
      plain_minimax ChessBoard.new 3 PS_DOWN = some v :=
  ⟨by decide, by decide,
    C4_min_max_eq_plain_minimax ChessBoard.new (by decide) 3 PS_DOWN (by decide)⟩

/-- C5: for every well-formed board, depth and player whose generated list
`L` is not empty, `gen_best_move` returns `L[i]`, where `i` is the greatest
index at which the plain minimax value of the position after the move, with
the opponent to move, is minimal (for up) or maximal (for down) over `L`; the
returned move is a member of `L`. -/
theorem C5_gen_best_move_last_extremal (cb : ChessBoard) (hwf : WellFormed cb)
    (searchDepth : Nat) (side : PieceSide) (hs : isPlayer side) (L : List MoveNode)
    (hL : gen_possible_moves cb side = some L) (hne : L ≠ []) :
    ∃ vals i bm, collect (value_after cb searchDepth side) L = some vals ∧
      L[i]? = some bm ∧ gen_best_move cb side searchDepth = some (bm, cb) ∧
      (side = PS_UP → IsLastMin vals i) ∧ (side = PS_DOWN → IsLastMax vals i) ∧ bm ∈ L := by
  rcases hs with rfl | rfl
  · obtain ⟨vs, i, bm, h1, h2, h3, h4⟩ := gen_best_move_up_spec hwf searchDepth hL hne
    exact ⟨vs, i, bm, h1, h2, h3, fun _ => h4, fun h => (by cases h), List.getElem?_mem h2⟩
  · obtain ⟨vs, i, bm, h1, h2, h3, h4⟩ := gen_best_move_down_spec hwf searchDepth hL hne
    exact ⟨vs, i, bm, h1, h2, h3, fun h => (by cases h), fun _ => h4, List.getElem?_mem h2⟩

/-- Witness of C5: the two generals facing each other, up to move, depth 2. -/
theorem C5_gen_best_move_last_extremal_witness :
    WellFormed FACING_GENERALS ∧ isPlayer PS_UP ∧
    gen_possible_moves FACING_GENERALS PS_UP =
      some [⟨2, 6, 3, 6⟩, ⟨2, 6, 2, 7⟩, ⟨2, 6, 2, 5⟩, ⟨2, 6, 11, 6⟩] ∧
    ([⟨2, 6, 3, 6⟩, ⟨2, 6, 2, 7⟩, ⟨2, 6, 2, 5⟩, ⟨2, 6, 11, 6⟩] : List MoveNode) ≠ [] ∧
    ∃ vals i bm,
      collect (value_after FACING_GENERALS 2 PS_UP)
        [⟨2, 6, 3, 6⟩, ⟨2, 6, 2, 7⟩, ⟨2, 6, 2, 5⟩, ⟨2, 6, 11, 6⟩] = some vals ∧
      ([⟨2, 6, 3, 6⟩, ⟨2, 6, 2, 7⟩, ⟨2, 6, 2, 5⟩, ⟨2, 6, 11, 6⟩] : List MoveNode)[i]? = some bm ∧
      gen_best_move FACING_GENERALS PS_UP 2 = some (bm, FACING_GENERALS) ∧
      (PS_UP = PS_UP → IsLastMin vals i) ∧ (PS_UP = PS_DOWN → IsLastMax vals i) ∧
      bm ∈ ([⟨2, 6, 3, 6⟩, ⟨2, 6, 2, 7⟩, ⟨2, 6, 2, 5⟩, ⟨2, 6, 11, 6⟩] : List MoveNode) :=
  ⟨by decide, by decide, by decide, by decide,
    C5_gen_best_move_last_extremal FACING_GENERALS (by decide) 2 PS_UP (by decide) _
      (by decide) (by decide)⟩

/-- C6: for every well-formed board and player whose generated list `L` is
not empty, `gen_best_move` at depth 0 returns the last move of `L` for which
the score of the board after the move is the minimum over `L` (for up) or
the maximum over `L` (for down). -/
theorem C6_gen_best_move_depth_zero (cb : ChessBoard) (hwf : WellFormed cb)
    (side : PieceSide) (hs : isPlayer side) (L : List MoveNode)
    (hL : gen_possible_moves cb side = some L) (hne : L ≠ []) :
    ∃ scores i bm,
      collect (fun m => (cb.move m).bind fun b => board_calc_score b) L = some scores ∧
      L[i]? = some bm ∧ gen_best_move cb side 0 = some (bm, cb) ∧
      (side = PS_UP → IsLastMin scores i) ∧ (side = PS_DOWN → IsLastMax scores i) := by
  have hf : value_after cb 0 side = fun m => (cb.move m).bind fun b => board_calc_score b := by
    funext m
    unfold value_after
    congr 1
  rw [← hf]
  rcases hs with rfl | rfl
  · obtain ⟨vs, i, bm, h1, h2, h3, h4⟩ := gen_best_move_up_spec hwf 0 hL hne
    exact ⟨vs, i, bm, h1, h2, h3, fun _ => h4, fun h => (by cases h)⟩
  · obtain ⟨vs, i, bm, h1, h2, h3, h4⟩ := gen_best_move_down_spec hwf 0 hL hne
    exact ⟨vs, i, bm, h1, h2, h3, fun h => (by cases h), fun _ => h4⟩

/-- Witness of C6: the two generals facing each other, down to move. -/
theorem C6_gen_best_move_depth_zero_witness :
    WellFormed FACING_GENERALS ∧ isPlayer PS_DOWN ∧
    gen_possible_moves FACING_GENERALS PS_DOWN =
      some [⟨11, 6, 10, 6⟩, ⟨11, 6, 11, 7⟩, ⟨11, 6, 11, 5⟩, ⟨11, 6, 2, 6⟩] ∧
    ([⟨11, 6, 10, 6⟩, ⟨11, 6, 11, 7⟩, ⟨11, 6, 11, 5⟩, ⟨11, 6, 2, 6⟩] : List MoveNode) ≠ [] ∧
    ∃ scores i bm,
      collect (fun m => (FACING_GENERALS.move m).bind fun b => board_calc_score b)
        [⟨11, 6, 10, 6⟩, ⟨11, 6, 11, 7⟩, ⟨11, 6, 11, 5⟩, ⟨11, 6, 2, 6⟩] = some scores ∧
      ([⟨11, 6, 10, 6⟩, ⟨11, 6, 11, 7⟩, ⟨11, 6, 11, 5⟩, ⟨11, 6, 2, 6⟩] : List MoveNode)[i]?
        = some bm ∧
      gen_best_move FACING_GENERALS PS_DOWN 0 = some (bm, FACING_GENERALS) ∧
      (PS_DOWN = PS_UP → IsLastMin scores i) ∧ (PS_DOWN = PS_DOWN → IsLastMax scores i) :=
  ⟨by decide, by decide, by decide, by decide,
    C6_gen_best_move_depth_zero FACING_GENERALS (by decide) PS_DOWN (by decide) _
      (by decide) (by decide)⟩

/-- C7: for every board, well-formed or not, and every depth, `gen_best_move`
called with the side `PS_EXTRA` returns the zero move `(0, 0, 0, 0)` and the
board it was given. -/
theorem C7_gen_best_move_neither (cb : ChessBoard) (searchDepth : Nat) :
    gen_best_move cb PS_EXTRA searchDepth = some (⟨0, 0, 0, 0⟩, cb) :=
  gen_best_move_extra cb searchDepth

/-- C8: for every board, depth and player for which the generator returns the
empty list (in particular when the player has no piece on the playable
region), `gen_best_move` returns the zero move `(0, 0, 0, 0)`. -/
theorem C8_gen_best_move_no_moves (cb : ChessBoard) (searchDepth : Nat) (side : PieceSide)
    (hs : isPlayer side)
    (h : gen_possible_moves cb side = some [] ∨
      ∀ r c p, playable r c → cb.get r c = some p → piece_get_side p ≠ side) :
    gen_possible_moves cb side = some [] ∧
      gen_best_move cb side searchDepth = some (⟨0, 0, 0, 0⟩, cb) := by
  have hL : gen_possible_moves cb side = some [] := by
    rcases h with h | h
    · exact h
    · exact gen_possible_moves_no_piece h
  refine ⟨hL, ?_⟩
  rcases hs with rfl | rfl
  · rw [gen_best_move_up, hL]
    rfl
  · rw [gen_best_move_down, hL]
    rfl

/-- Witness of C8: up has no piece left. -/
theorem C8_gen_best_move_no_moves_witness :
    isPlayer PS_UP ∧ gen_possible_moves LONE_DOWN_GENERAL PS_UP = some [] ∧
    gen_best_move LONE_DOWN_GENERAL PS_UP 4 = some (⟨0, 0, 0, 0⟩, LONE_DOWN_GENERAL) :=
  ⟨by decide, C8_gen_best_move_no_moves LONE_DOWN_GENERAL 4 PS_UP (by decide)
    (Or.inl (by decide))⟩

/-! ## The generator (C9, C10) -/

/-- C9: for every well-formed board and player the generator returns a list,
and every move in it starts on a playable cell holding a piece of the player
and ends on a different cell that is playable (so not out-of-board) and is
empty or holds a piece of the other side, never a piece of the player. -/
theorem C9_generated_moves_are_good (cb : ChessBoard) (hwf : WellFormed cb) (side : PieceSide)
    (hs : isPlayer side) :
    ∃ L, gen_possible_moves cb side = some L ∧ ∀ m ∈ L,
      playable m.beginRow m.beginCol ∧
      (∃ p, cb.get m.beginRow m.beginCol = some p ∧ piece_get_side p = side) ∧
      (m.endRow, m.endCol) ≠ (m.beginRow, m.beginCol) ∧
      playable m.endRow m.endCol ∧
      ∃ q, cb.get m.endRow m.endCol = some q ∧ q ≠ P_EO ∧
        (q = P_EE ∨ piece_get_side q = piece_side_get_reverse side) ∧
        piece_get_side q ≠ side := by
  obtain ⟨L, hL, hgood⟩ := gen_possible_moves_spec hwf hs
  refine ⟨L, hL, fun m hm => ?_⟩
  obtain ⟨h1, h2, h3, h4, q, hq, hne, hq2⟩ := hgood m hm
  refine ⟨h1, h2, h3, h4, q, hq, hne, hq2, ?_⟩
  rcases hq2 with rfl | hq2
  · exact extra_ne hs
  · rw [hq2]
    exact side_ne_reverse hs

/-- Witness of C9: the starting position, up to move. -/
theorem C9_generated_moves_are_good_witness :
    WellFormed ChessBoard.new ∧ isPlayer PS_UP ∧
    ∃ L, gen_possible_moves ChessBoard.new PS_UP = some L ∧ ∀ m ∈ L,
      playable m.beginRow m.beginCol ∧
      (∃ p, ChessBoard.new.get m.beginRow m.beginCol = some p ∧ piece_get_side p = PS_UP) ∧
      (m.endRow, m.endCol) ≠ (m.beginRow, m.beginCol) ∧
      playable m.endRow m.endCol ∧
      ∃ q, ChessBoard.new.get m.endRow m.endCol = some q ∧ q ≠ P_EO ∧
        (q = P_EE ∨ piece_get_side q = piece_side_get_reverse PS_UP) ∧
        piece_get_side q ≠ PS_UP :=
  ⟨by decide, by decide,
    C9_generated_moves_are_good ChessBoard.new (by decide) PS_UP (by decide)⟩

/-- C10: for every well-formed board and every move whose begin cell is in
the grid, the generator returns a list for the side of the piece on the begin
cell, and `check_rule` returns true exactly when the move occurs in that
list.  (`check_rule` takes the board by constant reference and yields only
the truth value.) -/
theorem C10_check_rule_iff_generated (cb : ChessBoard) (hwf : WellFormed cb) (m : MoveNode)
    (hb : inGrid m.beginRow m.beginCol) :
    ∃ p L, cb.get m.beginRow m.beginCol = some p ∧
      gen_possible_moves cb (piece_get_side p) = some L ∧
      ∃ b, check_rule cb m = some b ∧ (b = true ↔ m ∈ L) := by
  obtain ⟨p, hp, _⟩ := wf_get hwf hb
  have hgen : ∃ L, gen_possible_moves cb (piece_get_side p) = some L := by
    cases hside : piece_get_side p with
    | PS_UP =>
      obtain ⟨L, hL, _⟩ := gen_possible_moves_spec hwf (Or.inl rfl : isPlayer PS_UP)
      exact ⟨L, hL⟩
    | PS_DOWN =>
      obtain ⟨L, hL, _⟩ := gen_possible_moves_spec hwf (Or.inr rfl : isPlayer PS_DOWN)
      exact ⟨L, hL⟩
    | PS_EXTRA => exact ⟨[], gen_possible_moves_extra hwf⟩
  obtain ⟨L, hL⟩ := hgen
  refine ⟨p, L, hp, hL, L.contains m, ?_, ?_⟩
  · simp only [check_rule, hp, hL, Option.bind_eq_bind, Option.some_bind, Option.pure_def]
  · simp

/-- Witness of C10: the cannon capture (4, 3) -> (11, 3) on the starting
position. -/
theorem C10_check_rule_iff_generated_witness :
    WellFormed ChessBoard.new ∧ inGrid 4 3 ∧
    ∃ p L, ChessBoard.new.get 4 3 = some p ∧
      gen_possible_moves ChessBoard.new (piece_get_side p) = some L ∧
      ∃ b, check_rule ChessBoard.new ⟨4, 3, 11, 3⟩ = some b ∧
        (b = true ↔ (⟨4, 3, 11, 3⟩ : MoveNode) ∈ L) :=
  ⟨by decide, by decide,
    C10_check_rule_iff_generated ChessBoard.new (by decide) ⟨4, 3, 11, 3⟩ (by decide)⟩

/-! # The generated moves, piece by piece -/

/-! ## Exact steps of the generator -/

theorem Appends.nil (pm : PossibleMoves) : Appends (fun _ => False) pm (some pm) :=
  ⟨[], by simp, by simp⟩

theorem Appends.single (pm : PossibleMoves) (x : MoveNode) :
    Appends (fun m => m = x) pm (some (pm ++ [x])) :=
  ⟨[x], rfl, by simp⟩

theorem Appends.congr {S T : MoveNode → Prop} {pm : PossibleMoves}
    {res : Option PossibleMoves} (h : ∀ m, S m ↔ T m) (ha : Appends S pm res) :
    Appends T pm res := by
  obtain ⟨added, h1, h2⟩ := ha
  exact ⟨added, h1, fun m => (h2 m).trans (h m)⟩

theorem Appends.seq {S T : MoveNode → Prop} {pm : PossibleMoves} {x : Option PossibleMoves}
    {f : PossibleMoves → Option PossibleMoves} (hx : Appends S pm x)
    (hf : ∀ pm1, Appends T pm1 (f pm1)) : Appends (fun m => S m ∨ T m) pm (x >>= f) := by
  obtain ⟨a, rfl, ha⟩ := hx
  obtain ⟨b, hb, hb1⟩ := hf (pm ++ a)
  refine ⟨a ++ b, by simp [hb], ?_⟩
  intro m
  rw [List.mem_append, ha, hb1]

theorem Appends.seq_opt {S T : MoveNode → Prop} {pm : PossibleMoves}
    {x : Option PossibleMoves} {f : PossibleMoves → Option PossibleMoves} (hx : Appends S pm x)
    (hf : ∀ pm1, Appends T pm1 (f pm1)) : Appends (fun m => S m ∨ T m) pm (x.bind f) :=
  Appends.seq hx hf

theorem Appends.chain {S T : MoveNode → Prop} {pm pm1 : PossibleMoves} {a : List MoveNode}
    {res : Option PossibleMoves} (h1 : pm1 = pm ++ a) (ha : ∀ m, m ∈ a ↔ S m)
    (h : Appends T pm1 res) : Appends (fun m => S m ∨ T m) pm res := by
  obtain ⟨b, rfl, hb⟩ := h
  subst h1
  refine ⟨a ++ b, by simp, ?_⟩
  intro m
  rw [List.mem_append, ha, hb]

theorem Appends.toExtends {S : MoveNode → Prop} {pm : PossibleMoves}
    {res : Option PossibleMoves} (h : Appends S pm res) : Extends S pm res := by
  obtain ⟨added, h1, h2⟩ := h
  exact ⟨added, h1, fun m hm => (h2 m).1 hm⟩

theorem forRange_appends {S : Int → MoveNode → Prop}
    {body : Int → PossibleMoves → Option PossibleMoves} :
    ∀ (n : Nat) (lo : Int) (pm : PossibleMoves),
      (∀ i pm1, lo ≤ i → i < lo + n → Appends (S i) pm1 (body i pm1)) →
      Appends (fun m => ∃ i, lo ≤ i ∧ i < lo + n ∧ S i m) pm (forRange n lo body pm) := by
  intro n
  induction n with
  | zero =>
    intro lo pm _
    refine Appends.congr ?_ (Appends.nil pm)
    intro m
    constructor
    · exact False.elim
    · rintro ⟨i, h1, h2, _⟩
      simp at h2
      omega
  | succ n ih =>
    intro lo pm h
    rw [forRange]
    have h0 := h lo pm (le_refl _) (by push_cast; omega)
    have h1 : ∀ pm1, Appends (fun m => ∃ i, lo + 1 ≤ i ∧ i < lo + 1 + n ∧ S i m) pm1
        (forRange n (lo + 1) body pm1) := fun pm1 =>
      ih (lo + 1) pm1 fun i pm2 h1 h2 => h i pm2 (by omega) (by push_cast at h2 ⊢; omega)
    refine Appends.congr ?_ (Appends.seq_opt h0 h1)
    intro m
    constructor
    · rintro (hm | ⟨i, h2, h3, hm⟩)
      · exact ⟨lo, le_refl _, by push_cast; omega, hm⟩
      · exact ⟨i, by omega, by push_cast; omega, hm⟩
    · rintro ⟨i, h2, h3, hm⟩
      by_cases hi : i = lo
      · subst hi
        exact Or.inl hm
      · exact Or.inr ⟨i, by omega, by push_cast at h3; omega, hm⟩

/-- The insertion test appends the move exactly when the destination is
acceptable. -/
theorem check_possible_move_and_insert_appends {cb : ChessBoard} {side : PieceSide}
    {r c : Int} (hb : BeginOK cb side r c) (pm : PossibleMoves) {er ec : Int}
    (he : ∃ q, cb.get er ec = some q) :
    Appends (fun m => m = ⟨r, c, er, ec⟩ ∧ DestOK cb side er ec) pm
      (check_possible_move_and_insert cb pm r c er ec) := by
  obtain ⟨p, hp, hps⟩ := hb
  obtain ⟨q, hq⟩ := he
  simp only [check_possible_move_and_insert, hp, hq, Option.bind_eq_bind, Option.some_bind,
    Option.pure_def]
  split
  · rename_i hc
    refine Appends.congr ?_ (Appends.single pm _)
    intro m
    constructor
    · intro hm
      exact ⟨hm, q, hq, hc.1, by rw [← hps]; exact fun h => hc.2 h.symm⟩
    · exact fun h => h.1
  · rename_i hc
    refine Appends.congr ?_ (Appends.nil pm)
    intro m
    constructor
    · exact False.elim
    · rintro ⟨_, q1, hq1, h1, h2⟩
      rw [hq] at hq1
      cases hq1
      exact hc ⟨h1, by rw [hps]; exact fun h => h2 h.symm⟩

/-! ## Exact sliding scans -/

theorem ray_succ (r dr : Int) (i : Nat) : r + (i : Int) * dr + dr = r + ((i + 1 : Nat) : Int) * dr := by
  push_cast
  ring

theorem FirstNonEmpty.unique {cb : ChessBoard} {r c dr dc : Int} {i0 k k1 : Nat} {p p1 : Piece}
    (h : FirstNonEmpty cb r c dr dc i0 k p) (h1 : FirstNonEmpty cb r c dr dc i0 k1 p1) :
    k = k1 ∧ p = p1 := by
  obtain ⟨a1, a2, a3, a4⟩ := h
  obtain ⟨b1, b2, b3, b4⟩ := h1
  have hk : k = k1 := by
    rcases Nat.lt_trichotomy k k1 with hlt | heq | hgt
    · have := b2 k a1 hlt
      rw [a3] at this
      exact absurd (Option.some.inj this) a4
    · exact heq
    · have := a2 k1 b1 hgt
      rw [b3] at this
      exact absurd (Option.some.inj this) b4
  subst hk
  rw [a3] at b3
  exact ⟨rfl, Option.some.inj b3⟩

/-- The first loop of a sliding scan, started at distance `i0`, appends the
cells at distances `i0 .. k - 1` and stops at distance `k`, the first
non-empty cell. -/
theorem scan_empty_cells_exact (cb : ChessBoard) (r c dr dc : Int) (k : Nat) (p : Piece) :
    ∀ (budget i0 : Nat) (pm : PossibleMoves), FirstNonEmpty cb r c dr dc i0 k p →
      k - i0 < budget →
      scan_empty_cells cb r c dr dc budget (r + i0 * dr) (c + i0 * dc) pm =
        some (pm ++ (List.range' i0 (k - i0)).map
          (fun i : Nat => (⟨r, c, r + i * dr, c + i * dc⟩ : MoveNode)),
          r + k * dr, c + k * dc, p) := by
  intro budget
  induction budget with
  | zero => intro i0 pm _ h; omega
  | succ n ih =>
    intro i0 pm hf hlt
    obtain ⟨h1, h2, h3, h4⟩ := hf
    rw [scan_empty_cells]
    by_cases hk : i0 = k
    · subst hk
      simp [h3, h4]
    · have hlt2 : i0 < k := by omega
      rw [h2 i0 (le_refl _) hlt2]
      simp only [Option.bind_eq_bind, Option.some_bind, if_true]
      rw [ray_succ, ray_succ, ih (i0 + 1) _ ⟨by omega, fun i hi1 hi2 => h2 i (by omega) hi2, h3, h4⟩
        (by omega)]
      have e : k - i0 = (k - (i0 + 1)) + 1 := by omega
      rw [e, List.range'_succ]
      simp

/-- The second loop of the cannon, started at distance `i0`, appends the
first non-empty cell when it holds a piece of the other side. -/
theorem cannon_scan_capture_exact (cb : ChessBoard) (r c dr dc : Int) (side : PieceSide)
    (k : Nat) (q : Piece) :
    ∀ (budget i0 : Nat) (pm : PossibleMoves), FirstNonEmpty cb r c dr dc i0 k q →
      k - i0 < budget →
      cannon_scan_capture cb r c dr dc side budget (r + i0 * dr) (c + i0 * dc) pm =
        some (if piece_get_side q = piece_side_get_reverse side
          then pm ++ [⟨r, c, r + k * dr, c + k * dc⟩] else pm) := by
  intro budget
  induction budget with
  | zero => intro i0 pm _ h; omega
  | succ n ih =>
    intro i0 pm hf hlt
    obtain ⟨h1, h2, h3, h4⟩ := hf
    rw [cannon_scan_capture]
    by_cases hk : i0 = k
    · subst hk
      simp only [h3, Option.bind_eq_bind, Option.some_bind, if_neg h4, Option.pure_def]
      split <;> rfl
    · have hlt2 : i0 < k := by omega
      rw [h2 i0 (le_refl _) hlt2]
      simp only [Option.bind_eq_bind, Option.some_bind, if_true]
      rw [ray_succ, ray_succ, ih (i0 + 1) _ ⟨by omega, fun i hi1 hi2 => h2 i (by omega) hi2, h3, h4⟩
        (by omega)]

/-- On a well-formed board every ray that starts in the ring reaches a first
non-empty cell, in the ring, before the border is passed. -/
theorem exists_firstNonEmpty {cb : ChessBoard} (hwf : WellFormed cb) {r c dr dc : Int}
    (hstep : isStep dr dc) :
    ∀ (n i0 : Nat), inRing (r + i0 * dr) (c + i0 * dc) →
      stepsLeft dr dc (r + i0 * dr) (c + i0 * dc) ≤ n →
      ∃ k p, FirstNonEmpty cb r c dr dc i0 k p ∧ inRing (r + k * dr) (c + k * dc) ∧
        k - i0 ≤ n := by
  intro n
  induction n with
  | zero =>
    intro i0 hr hle
    obtain ⟨p, hp, hiff⟩ := wf_get hwf (inGrid_of_inRing hr)
    refine ⟨i0, p, ⟨le_refl _, fun i h1 h2 => by omega, hp, ?_⟩, hr, by omega⟩
    intro hpe
    subst hpe
    have hplay : playable (r + i0 * dr) (c + i0 * dc) := hiff.1 (by decide)
    obtain ⟨hr1, hs1⟩ := step_from_playable hstep hplay
    have := stepsLeft_nonneg dr dc hr1
    simp at hle
    omega
  | succ n ih =>
    intro i0 hr hle
    obtain ⟨p, hp, hiff⟩ := wf_get hwf (inGrid_of_inRing hr)
    by_cases hpe : p = P_EE
    · subst hpe
      have hplay : playable (r + i0 * dr) (c + i0 * dc) := hiff.1 (by decide)
      obtain ⟨hr1, hs1⟩ := step_from_playable hstep hplay
      rw [ray_succ, ray_succ] at hr1 hs1
      obtain ⟨k, q, ⟨h1, h2, h3, h4⟩, h5, h6⟩ := ih (i0 + 1) hr1 (by rw [hs1]; push_cast at hle; omega)
      refine ⟨k, q, ⟨by omega, ?_, h3, h4⟩, h5, by omega⟩
      intro i hi1 hi2
      by_cases hi : i = i0
      · subst hi
        exact hp
      · exact h2 i (by omega) hi2
    · exact ⟨i0, p, ⟨le_refl _, fun i h1 h2 => by omega, hp, hpe⟩, hr, by omega⟩

theorem mem_ray_map {r c dr dc : Int} {i0 k : Nat} {m : MoveNode} :
    m ∈ (List.range' i0 (k - i0)).map
        (fun i : Nat => (⟨r, c, r + i * dr, c + i * dc⟩ : MoveNode)) ↔
      ∃ j : Nat, i0 ≤ j ∧ j < k ∧ m = ⟨r, c, r + j * dr, c + j * dc⟩ := by
  simp only [List.mem_map, List.mem_range'_1]
  constructor
  · rintro ⟨j, ⟨h1, h2⟩, rfl⟩
    exact ⟨j, h1, by omega, rfl⟩
  · rintro ⟨j, h1, h2, rfl⟩
    exact ⟨j, ⟨h1, by omega⟩, rfl⟩

/-- The first non-empty cell of a ray from a playable cell of a well-formed
board, with the bound that keeps the scan within its budget. -/
theorem firstNonEmpty_from_playable {cb : ChessBoard} (hwf : WellFormed cb) {r c dr dc : Int}
    (hstep : isStep dr dc) {i0 : Nat} (hpl : playable (r + i0 * dr) (c + i0 * dc)) :
    ∃ k p, FirstNonEmpty cb r c dr dc (i0 + 1) k p ∧ k - (i0 + 1) < SCAN_BUDGET := by
  obtain ⟨hr0, _⟩ := step_from_playable hstep hpl
  rw [ray_succ, ray_succ] at hr0
  obtain ⟨k, p, hf, _, hk⟩ := exists_firstNonEmpty hwf hstep 11 (i0 + 1) hr0
    (stepsLeft_le dr dc hr0)
  exact ⟨k, p, hf, by unfold SCAN_BUDGET; omega⟩

theorem ray_zero (r dr : Int) : r + ((0 : Nat) : Int) * dr = r := by simp

theorem ray_one (r dr : Int) : r + dr = r + ((0 + 1 : Nat) : Int) * dr := by simp

/-- A rook ray on a well-formed board: exactly the moves of `RookRayMoves`. -/
theorem gen_possible_moves_for_rook_one_direction_appends {cb : ChessBoard}
    (hwf : WellFormed cb) {side : PieceSide} {r c : Int} (hpl : playable r c) {dr dc : Int}
    (hstep : isStep dr dc) (pm : PossibleMoves) :
    Appends (RookRayMoves cb side r c dr dc) pm
      (gen_possible_moves_for_rook_one_direction cb pm r c dr dc side) := by
  have hpl0 : playable (r + ((0 : Nat) : Int) * dr) (c + ((0 : Nat) : Int) * dc) := by
    rw [ray_zero, ray_zero]; exact hpl
  obtain ⟨k, pk, hf, hk⟩ := firstNonEmpty_from_playable hwf hstep hpl0
  unfold gen_possible_moves_for_rook_one_direction
  rw [ray_one r dr, ray_one c dc, scan_empty_cells_exact cb r c dr dc k pk SCAN_BUDGET (0 + 1) pm
    hf hk]
  simp only [Option.bind_eq_bind, Option.some_bind, Option.pure_def]
  split
  · rename_i hside
    refine ⟨_, congrArg some (List.append_assoc _ _ _), ?_⟩
    intro m
    rw [List.mem_append, mem_ray_map, List.mem_singleton]
    constructor
    · rintro (⟨j, h1, h2, hm⟩ | hm)
      · exact ⟨k, pk, hf, j, h1, hm, Or.inl h2⟩
      · exact ⟨k, pk, hf, k, hf.1, hm, Or.inr ⟨rfl, hside⟩⟩
    · rintro ⟨k1, pk1, hf1, j, h1, hm, hj⟩
      obtain ⟨rfl, rfl⟩ := hf.unique hf1
      rcases hj with hj | ⟨rfl, _⟩
      · exact Or.inl ⟨j, h1, hj, hm⟩
      · exact Or.inr hm
  · rename_i hside
    refine ⟨_, rfl, ?_⟩
    intro m
    rw [mem_ray_map]
    constructor
    · rintro ⟨j, h1, h2, hm⟩
      exact ⟨k, pk, hf, j, h1, hm, Or.inl h2⟩
    · rintro ⟨k1, pk1, hf1, j, h1, hm, hj⟩
      obtain ⟨rfl, rfl⟩ := hf.unique hf1
      rcases hj with hj | ⟨_, hs1⟩
      · exact ⟨j, h1, hj, hm⟩
      · exact absurd hs1 hside

/-- A cannon ray on a well-formed board: exactly the moves of
`CannonRayMoves`. -/
theorem gen_possible_moves_for_cannon_one_direction_appends {cb : ChessBoard}
    (hwf : WellFormed cb) {side : PieceSide} {r c : Int} (hpl : playable r c) {dr dc : Int}
    (hstep : isStep dr dc) (pm : PossibleMoves) :
    Appends (CannonRayMoves cb side r c dr dc) pm
      (gen_possible_moves_for_cannon_one_direction cb pm r c dr dc side) := by
  have hpl0 : playable (r + ((0 : Nat) : Int) * dr) (c + ((0 : Nat) : Int) * dc) := by
    rw [ray_zero, ray_zero]; exact hpl
  obtain ⟨k, pk, hf, hk⟩ := firstNonEmpty_from_playable hwf hstep hpl0
  unfold gen_possible_moves_for_cannon_one_direction
  rw [ray_one r dr, ray_one c dc, scan_empty_cells_exact cb r c dr dc k pk SCAN_BUDGET (0 + 1) pm
    hf hk]
  simp only [Option.bind_eq_bind, Option.some_bind, Option.pure_def]
  split
  · rename_i hne
    have hplk : playable (r + (k : Int) * dr) (c + (k : Int) * dc) :=
      wf_get_playable hwf hf.2.2.1 hne
    obtain ⟨k2, q, hf2, hk2⟩ := firstNonEmpty_from_playable hwf hstep hplk
    rw [ray_succ, ray_succ, cannon_scan_capture_exact cb r c dr dc side k2 q SCAN_BUDGET (k + 1) _
      hf2 hk2]
    split
    · rename_i hside
      refine ⟨_, congrArg some (List.append_assoc _ _ _), ?_⟩
      intro m
      rw [List.mem_append, mem_ray_map, List.mem_singleton]
      constructor
      · rintro (⟨j, h1, h2, hm⟩ | hm)
        · exact ⟨k, pk, hf, j, h1, hm, Or.inl h2⟩
        · exact ⟨k, pk, hf, k2, by have := hf2.1; omega, hm, Or.inr ⟨hne, q, hf2, hside⟩⟩
      · rintro ⟨k1, pk1, hf1, j, h1, hm, hj⟩
        obtain ⟨rfl, rfl⟩ := hf.unique hf1
        rcases hj with hj | ⟨_, q1, hf3, _⟩
        · exact Or.inl ⟨j, h1, hj, hm⟩
        · obtain ⟨rfl, rfl⟩ := hf2.unique hf3
          exact Or.inr hm
    · rename_i hside
      refine ⟨_, rfl, ?_⟩
      intro m
      rw [mem_ray_map]
      constructor
      · rintro ⟨j, h1, h2, hm⟩
        exact ⟨k, pk, hf, j, h1, hm, Or.inl h2⟩
      · rintro ⟨k1, pk1, hf1, j, h1, hm, hj⟩
        obtain ⟨rfl, rfl⟩ := hf.unique hf1
        rcases hj with hj | ⟨_, q1, hf3, hs1⟩
        · exact ⟨j, h1, hj, hm⟩
        · obtain ⟨rfl, rfl⟩ := hf2.unique hf3
          exact absurd hs1 hside
  · rename_i hne
    have hpk : pk = P_EO := by
      by_contra h
      exact hne h
    refine ⟨_, rfl, ?_⟩
    intro m
    rw [mem_ray_map]
    constructor
    · rintro ⟨j, h1, h2, hm⟩
      exact ⟨k, pk, hf, j, h1, hm, Or.inl h2⟩
    · rintro ⟨k1, pk1, hf1, j, h1, hm, hj⟩
      obtain ⟨rfl, rfl⟩ := hf.unique hf1
      rcases hj with hj | ⟨h2, _⟩
      · exact ⟨j, h1, hj, hm⟩
      · exact absurd hpk h2

theorem isStep_cases {dr dc : Int} (h : isStep dr dc) {P : Int → Int → Prop}
    (h1 : P (-1) 0) (h2 : P 1 0) (h3 : P 0 (-1)) (h4 : P 0 1) : P dr dc := by
  rcases h with ⟨rfl, rfl⟩ | ⟨rfl, rfl⟩ | ⟨rfl, rfl⟩ | ⟨rfl, rfl⟩
  · exact h1
  · exact h2
  · exact h3
  · exact h4

theorem gen_possible_moves_for_rook_appends {cb : ChessBoard} (hwf : WellFormed cb)
    {side : PieceSide} {r c : Int} (hpl : playable r c) (pm : PossibleMoves) :
    Appends (RookMoves cb side r c) pm (gen_possible_moves_for_rook cb pm r c side) := by
  unfold gen_possible_moves_for_rook
  refine Appends.congr ?_ (Appends.seq
    (gen_possible_moves_for_rook_one_direction_appends hwf hpl isStep_up pm) fun pm1 =>
    Appends.seq
      (gen_possible_moves_for_rook_one_direction_appends hwf hpl isStep_down pm1) fun pm2 =>
    Appends.seq
      (gen_possible_moves_for_rook_one_direction_appends hwf hpl isStep_left pm2) fun pm3 =>
    gen_possible_moves_for_rook_one_direction_appends hwf hpl isStep_right pm3)
  intro m
  constructor
  · rintro (h | h | h | h)
    · exact ⟨_, _, isStep_up, h⟩
    · exact ⟨_, _, isStep_down, h⟩
    · exact ⟨_, _, isStep_left, h⟩
    · exact ⟨_, _, isStep_right, h⟩
  · rintro ⟨dr, dc, hstep, h⟩
    revert h
    exact isStep_cases hstep (P := fun dr dc => RookRayMoves cb side r c dr dc m → _)
      Or.inl (fun h => Or.inr (Or.inl h)) (fun h => Or.inr (Or.inr (Or.inl h)))
      (fun h => Or.inr (Or.inr (Or.inr h)))

theorem gen_possible_moves_for_cannon_appends {cb : ChessBoard} (hwf : WellFormed cb)
    {side : PieceSide} {r c : Int} (hpl : playable r c) (pm : PossibleMoves) :
    Appends (CannonMoves cb side r c) pm (gen_possible_moves_for_cannon cb pm r c side) := by
  unfold gen_possible_moves_for_cannon
  refine Appends.congr ?_ (Appends.seq
    (gen_possible_moves_for_cannon_one_direction_appends hwf hpl isStep_up pm) fun pm1 =>
    Appends.seq
      (gen_possible_moves_for_cannon_one_direction_appends hwf hpl isStep_down pm1) fun pm2 =>
    Appends.seq
      (gen_possible_moves_for_cannon_one_direction_appends hwf hpl isStep_left pm2) fun pm3 =>
    gen_possible_moves_for_cannon_one_direction_appends hwf hpl isStep_right pm3)
  intro m
  constructor
  · rintro (h | h | h | h)
    · exact ⟨_, _, isStep_up, h⟩
    · exact ⟨_, _, isStep_down, h⟩
    · exact ⟨_, _, isStep_left, h⟩
    · exact ⟨_, _, isStep_right, h⟩
  · rintro ⟨dr, dc, hstep, h⟩
    revert h
    exact isStep_cases hstep (P := fun dr dc => CannonRayMoves cb side r c dr dc m → _)
      Or.inl (fun h => Or.inr (Or.inl h)) (fun h => Or.inr (Or.inr (Or.inl h)))
      (fun h => Or.inr (Or.inr (Or.inr h)))

/-! ## Exact leaps and steps -/

theorem readable_near (cb : ChessBoard) {r c : Int} (hpl : playable r c) {er ec : Int}
    (hr : r - 2 ≤ er ∧ er ≤ r + 2) (hc : c - 2 ≤ ec ∧ ec ≤ c + 2) :
    ∃ q, cb.get er ec = some q :=
  ⟨_, get_of_inGrid cb (inGrid_near hpl hr hc)⟩

/-- One leg block of the knight: nothing when the leg is occupied, otherwise
each of the two leaps whose destination is acceptable. -/
theorem knight_leg_appends {cb : ChessBoard} {side : PieceSide} {r c : Int}
    (hb : BeginOK cb side r c) (pm : PossibleMoves) {lr lc er1 ec1 er2 ec2 : Int}
    (hl : ∃ q, cb.get lr lc = some q) (h1 : ∃ q, cb.get er1 ec1 = some q)
    (h2 : ∃ q, cb.get er2 ec2 = some q) :
    Appends (fun m => cb.get lr lc = some P_EE ∧
        ((m = ⟨r, c, er1, ec1⟩ ∧ DestOK cb side er1 ec1) ∨
          (m = ⟨r, c, er2, ec2⟩ ∧ DestOK cb side er2 ec2))) pm
      (knight_leg cb pm r c lr lc er1 ec1 er2 ec2) := by
  obtain ⟨p, hp⟩ := hl
  unfold knight_leg
  simp only [hp, Option.bind_eq_bind, Option.some_bind]
  split
  · rename_i hpe
    subst hpe
    refine Appends.congr ?_ (Appends.seq (check_possible_move_and_insert_appends hb pm h1)
      fun pm1 => check_possible_move_and_insert_appends hb pm1 h2)
    intro m
    exact ⟨fun h => ⟨rfl, h⟩, fun h => h.2⟩
  · rename_i hpe
    refine Appends.congr ?_ (Appends.nil pm)
    intro m
    exact ⟨False.elim, fun h => hpe (Option.some.inj h.1)⟩

theorem leg_case {cb : ChessBoard} {side : PieceSide} {r c lr lc e1r e1c e2r e2c : Int}
    {m : MoveNode} {lr1 lc1 er ec : Int} (hl : cb.get lr1 lc1 = some P_EE)
    (hm : m = ⟨r, c, er, ec⟩) (hd : DestOK cb side er ec) (h1 : lr1 = lr) (h2 : lc1 = lc)
    (h : (er = e1r ∧ ec = e1c) ∨ (er = e2r ∧ ec = e2c)) :
    cb.get lr lc = some P_EE ∧
      ((m = ⟨r, c, e1r, e1c⟩ ∧ DestOK cb side e1r e1c) ∨
        (m = ⟨r, c, e2r, e2c⟩ ∧ DestOK cb side e2r e2c)) := by
  subst h1 h2
  refine ⟨hl, ?_⟩
  rcases h with ⟨rfl, rfl⟩ | ⟨rfl, rfl⟩
  · exact Or.inl ⟨hm, hd⟩
  · exact Or.inr ⟨hm, hd⟩

theorem KnightMoves.intro1 {cb : ChessBoard} {side : PieceSide} {r c : Int} {m : MoveNode}
    (a b : Int) (ha : isUnit1 a) (hb : isUnit1 b) {lr lc er ec : Int}
    (hl : cb.get lr lc = some P_EE) (hm : m = ⟨r, c, er, ec⟩) (hd : DestOK cb side er ec)
    (h1 : lr = r + a) (h2 : lc = c) (h3 : er = r + 2 * a) (h4 : ec = c + b) :
    KnightMoves cb side r c m := by
  subst h1 h2 h3 h4
  exact ⟨a, b, ha, hb, Or.inl ⟨hm, hl, hd⟩⟩

theorem KnightMoves.intro2 {cb : ChessBoard} {side : PieceSide} {r c : Int} {m : MoveNode}
    (a b : Int) (ha : isUnit1 a) (hb : isUnit1 b) {lr lc er ec : Int}
    (hl : cb.get lr lc = some P_EE) (hm : m = ⟨r, c, er, ec⟩) (hd : DestOK cb side er ec)
    (h1 : lr = r) (h2 : lc = c + a) (h3 : er = r + b) (h4 : ec = c + 2 * a) :
    KnightMoves cb side r c m := by
  subst h1 h2 h3 h4
  exact ⟨a, b, ha, hb, Or.inr ⟨hm, hl, hd⟩⟩

/-- The knight on a playable cell: exactly the moves of `KnightMoves`. -/
theorem gen_possible_moves_for_knight_appends {cb : ChessBoard} {side : PieceSide}
    {r c : Int} (hpl : playable r c) (hb : BeginOK cb side r c) (pm : PossibleMoves) :
    Appends (KnightMoves cb side r c) pm (gen_possible_moves_for_knight cb pm r c side) := by
  have rd : ∀ er ec : Int, (r - 2 ≤ er ∧ er ≤ r + 2) → (c - 2 ≤ ec ∧ ec ≤ c + 2) →
      ∃ q, cb.get er ec = some q := fun er ec h1 h2 => readable_near cb hpl h1 h2
  unfold gen_possible_moves_for_knight
  refine Appends.congr ?_ (Appends.seq
    (knight_leg_appends hb pm (rd _ _ (by omega) (by omega)) (rd _ _ (by omega) (by omega))
      (rd _ _ (by omega) (by omega))) fun pm1 => Appends.seq
    (knight_leg_appends hb pm1 (rd _ _ (by omega) (by omega)) (rd _ _ (by omega) (by omega))
      (rd _ _ (by omega) (by omega))) fun pm2 => Appends.seq
    (knight_leg_appends hb pm2 (rd _ _ (by omega) (by omega)) (rd _ _ (by omega) (by omega))
      (rd _ _ (by omega) (by omega))) fun pm3 =>
    knight_leg_appends hb pm3 (rd _ _ (by omega) (by omega)) (rd _ _ (by omega) (by omega))
      (rd _ _ (by omega) (by omega)))
  intro m
  constructor
  · rintro (⟨hl, ⟨hm, hd⟩ | ⟨hm, hd⟩⟩ | ⟨hl, ⟨hm, hd⟩ | ⟨hm, hd⟩⟩ | ⟨hl, ⟨hm, hd⟩ | ⟨hm, hd⟩⟩ |
      ⟨hl, ⟨hm, hd⟩ | ⟨hm, hd⟩⟩)
    · exact KnightMoves.intro1 1 1 (Or.inl rfl) (Or.inl rfl) hl hm hd
        (by omega) (by omega) (by omega) (by omega)
    · exact KnightMoves.intro1 1 (-1) (Or.inl rfl) (Or.inr rfl) hl hm hd
        (by omega) (by omega) (by omega) (by omega)
    · exact KnightMoves.intro1 (-1) 1 (Or.inr rfl) (Or.inl rfl) hl hm hd
        (by omega) (by omega) (by omega) (by omega)
    · exact KnightMoves.intro1 (-1) (-1) (Or.inr rfl) (Or.inr rfl) hl hm hd
        (by omega) (by omega) (by omega) (by omega)
    · exact KnightMoves.intro2 1 1 (Or.inl rfl) (Or.inl rfl) hl hm hd
        (by omega) (by omega) (by omega) (by omega)
    · exact KnightMoves.intro2 1 (-1) (Or.inl rfl) (Or.inr rfl) hl hm hd
        (by omega) (by omega) (by omega) (by omega)
    · exact KnightMoves.intro2 (-1) 1 (Or.inr rfl) (Or.inl rfl) hl hm hd
        (by omega) (by omega) (by omega) (by omega)
    · exact KnightMoves.intro2 (-1) (-1) (Or.inr rfl) (Or.inr rfl) hl hm hd
        (by omega) (by omega) (by omega) (by omega)
  · rintro ⟨a, b, (rfl | rfl), (rfl | rfl), (⟨hm, hl, hd⟩ | ⟨hm, hl, hd⟩)⟩ <;>
    first
    | exact Or.inl (leg_case hl hm hd (by omega) (by omega) (by omega))
    | exact Or.inr (Or.inl (leg_case hl hm hd (by omega) (by omega) (by omega)))
    | exact Or.inr (Or.inr (Or.inl (leg_case hl hm hd (by omega) (by omega) (by omega))))
    | exact Or.inr (Or.inr (Or.inr (leg_case hl hm hd (by omega) (by omega) (by omega))))

/-- One eye block of the bishop: the leap when the eye is empty and the
destination is acceptable. -/
theorem bishop_eye_appends {cb : ChessBoard} {side : PieceSide} {r c : Int}
    (hb : BeginOK cb side r c) (pm : PossibleMoves) {yr yc er ec : Int}
    (hy : ∃ q, cb.get yr yc = some q) (he : ∃ q, cb.get er ec = some q) :
    Appends (fun m => cb.get yr yc = some P_EE ∧ m = ⟨r, c, er, ec⟩ ∧ DestOK cb side er ec) pm
      (bishop_eye cb pm r c yr yc er ec) := by
  obtain ⟨p, hp⟩ := hy
  unfold bishop_eye
  simp only [hp, Option.bind_eq_bind, Option.some_bind]
  split
  · rename_i hpe
    subst hpe
    refine Appends.congr ?_ (check_possible_move_and_insert_appends hb pm he)
    intro m
    exact ⟨fun h => ⟨rfl, h⟩, fun h => h.2⟩
  · rename_i hpe
    refine Appends.congr ?_ (Appends.nil pm)
    intro m
    exact ⟨False.elim, fun h => hpe (Option.some.inj h.1)⟩

theorem eye_case {cb : ChessBoard} {side : PieceSide} {r c yr yc er ec : Int} {m : MoveNode}
    {yr1 yc1 er1 ec1 : Int} (hy : cb.get yr1 yc1 = some P_EE) (hm : m = ⟨r, c, er1, ec1⟩)
    (hd : DestOK cb side er1 ec1) (h1 : yr1 = yr) (h2 : yc1 = yc) (h3 : er1 = er)
    (h4 : ec1 = ec) :
    cb.get yr yc = some P_EE ∧ m = ⟨r, c, er, ec⟩ ∧ DestOK cb side er ec := by
  subst h1 h2 h3 h4
  exact ⟨hy, hm, hd⟩

theorem BishopMoves.leap {cb : ChessBoard} {side : PieceSide} {r c : Int} {m : MoveNode}
    (a b : Int) (ha : isUnit1 a) (hb : isUnit1 b) {yr yc er ec : Int}
    (hy : cb.get yr yc = some P_EE) (hm : m = ⟨r, c, er, ec⟩) (hd : DestOK cb side er ec)
    (h1 : yr = r + a) (h2 : yc = c + b) (h3 : er = r + 2 * a) (h4 : ec = c + 2 * b)
    (hup : side = PS_UP → a = 1 → r + 2 ≤ 6) (hdown : side = PS_DOWN → a = -1 → r - 2 ≥ 7) :
    BishopMoves cb side r c m := by
  subst h1 h2 h3 h4
  exact ⟨a, b, ha, hb, hm, hy, hd, hup, hdown⟩

theorem river_up_iff (r : Int) : r + 2 ≤ BOARD_RIVER_UP ↔ r + 2 ≤ 6 := by
  unfold BOARD_RIVER_UP BOARD_ACTUAL_ROW_BEGIN
  omega

theorem river_down_iff (r : Int) : r - 2 ≥ BOARD_RIVER_DOWN ↔ r - 2 ≥ 7 := by
  unfold BOARD_RIVER_DOWN BOARD_ACTUAL_ROW_BEGIN
  omega

/-- The bishop on a playable cell: exactly the moves of `BishopMoves`. -/
theorem gen_possible_moves_for_bishop_appends {cb : ChessBoard} {side : PieceSide}
    (hs : isPlayer side) {r c : Int} (hpl : playable r c) (hb : BeginOK cb side r c)
    (pm : PossibleMoves) :
    Appends (BishopMoves cb side r c) pm (gen_possible_moves_for_bishop cb pm r c side) := by
  have eye : ∀ (pm1 : PossibleMoves) (yr yc er ec : Int),
      (r - 2 ≤ yr ∧ yr ≤ r + 2) → (c - 2 ≤ yc ∧ yc ≤ c + 2) →
      (r - 2 ≤ er ∧ er ≤ r + 2) → (c - 2 ≤ ec ∧ ec ≤ c + 2) →
      Appends (fun m => cb.get yr yc = some P_EE ∧ m = ⟨r, c, er, ec⟩ ∧ DestOK cb side er ec)
        pm1 (bishop_eye cb pm1 r c yr yc er ec) :=
    fun pm1 yr yc er ec a b c d =>
      bishop_eye_appends hb pm1 (readable_near cb hpl a b) (readable_near cb hpl c d)
  unfold gen_possible_moves_for_bishop
  rcases hs with rfl | rfl
  · rw [if_pos rfl]
    have hfwd : Appends (fun m => r + 2 ≤ 6 ∧
        ((cb.get (r + 1) (c + 1) = some P_EE ∧ m = ⟨r, c, r + 2, c + 2⟩ ∧
            DestOK cb PS_UP (r + 2) (c + 2)) ∨
          (cb.get (r + 1) (c - 1) = some P_EE ∧ m = ⟨r, c, r + 2, c - 2⟩ ∧
            DestOK cb PS_UP (r + 2) (c - 2)))) pm
        (if r + 2 ≤ BOARD_RIVER_UP then
          bishop_eye cb pm r c (r + 1) (c + 1) (r + 2) (c + 2) >>= fun pm1 =>
            bishop_eye cb pm1 r c (r + 1) (c - 1) (r + 2) (c - 2)
        else pure pm) := by
      split
      · rename_i hg
        refine Appends.congr ?_ (Appends.seq
          (eye pm _ _ _ _ (by omega) (by omega) (by omega) (by omega)) fun pm1 =>
          eye pm1 _ _ _ _ (by omega) (by omega) (by omega) (by omega))
        intro m
        exact ⟨fun h => ⟨(river_up_iff r).1 hg, h⟩, fun h => h.2⟩
      · rename_i hg
        refine Appends.congr ?_ (Appends.nil pm)
        intro m
        exact ⟨False.elim, fun h => hg ((river_up_iff r).2 h.1)⟩
    refine Appends.congr ?_ (Appends.seq hfwd fun pm2 => Appends.seq
      (eye pm2 _ _ _ _ (by omega) (by omega) (by omega) (by omega)) fun pm3 =>
      eye pm3 _ _ _ _ (by omega) (by omega) (by omega) (by omega))
    intro m
    constructor
    · rintro (⟨hg, ⟨hy, hm, hd⟩ | ⟨hy, hm, hd⟩⟩ | ⟨hy, hm, hd⟩ | ⟨hy, hm, hd⟩)
      · exact BishopMoves.leap 1 1 (Or.inl rfl) (Or.inl rfl) hy hm hd (by omega) (by omega)
          (by omega) (by omega) (fun _ _ => hg) (fun h => by cases h)
      · exact BishopMoves.leap 1 (-1) (Or.inl rfl) (Or.inr rfl) hy hm hd (by omega) (by omega)
          (by omega) (by omega) (fun _ _ => hg) (fun h => by cases h)
      · exact BishopMoves.leap (-1) 1 (Or.inr rfl) (Or.inl rfl) hy hm hd (by omega) (by omega)
          (by omega) (by omega) (fun _ h => by omega) (fun h => by cases h)
      · exact BishopMoves.leap (-1) (-1) (Or.inr rfl) (Or.inr rfl) hy hm hd (by omega)
          (by omega) (by omega) (by omega) (fun _ h => by omega) (fun h => by cases h)
    · rintro ⟨a, b, (rfl | rfl), (rfl | rfl), hm, hy, hd, hup, _⟩ <;>
      first
      | exact Or.inl ⟨hup rfl rfl, Or.inl (eye_case hy hm hd (by omega) (by omega) (by omega)
          (by omega))⟩
      | exact Or.inl ⟨hup rfl rfl, Or.inr (eye_case hy hm hd (by omega) (by omega) (by omega)
          (by omega))⟩
      | exact Or.inr (Or.inl (eye_case hy hm hd (by omega) (by omega) (by omega) (by omega)))
      | exact Or.inr (Or.inr (eye_case hy hm hd (by omega) (by omega) (by omega) (by omega)))
  · rw [if_neg (by decide), if_pos rfl]
    have hfwd : Appends (fun m => r - 2 ≥ 7 ∧
        ((cb.get (r - 1) (c + 1) = some P_EE ∧ m = ⟨r, c, r - 2, c + 2⟩ ∧
            DestOK cb PS_DOWN (r - 2) (c + 2)) ∨
          (cb.get (r - 1) (c - 1) = some P_EE ∧ m = ⟨r, c, r - 2, c - 2⟩ ∧
            DestOK cb PS_DOWN (r - 2) (c - 2)))) pm
        (if r - 2 ≥ BOARD_RIVER_DOWN then
          bishop_eye cb pm r c (r - 1) (c + 1) (r - 2) (c + 2) >>= fun pm1 =>
            bishop_eye cb pm1 r c (r - 1) (c - 1) (r - 2) (c - 2)
        else pure pm) := by
      split
      · rename_i hg
        refine Appends.congr ?_ (Appends.seq
          (eye pm _ _ _ _ (by omega) (by omega) (by omega) (by omega)) fun pm1 =>
          eye pm1 _ _ _ _ (by omega) (by omega) (by omega) (by omega))
        intro m
        exact ⟨fun h => ⟨(river_down_iff r).1 hg, h⟩, fun h => h.2⟩
      · rename_i hg
        refine Appends.congr ?_ (Appends.nil pm)
        intro m
        exact ⟨False.elim, fun h => hg ((river_down_iff r).2 h.1)⟩
    refine Appends.congr ?_ (Appends.seq hfwd fun pm2 => Appends.seq
      (eye pm2 _ _ _ _ (by omega) (by omega) (by omega) (by omega)) fun pm3 =>
      eye pm3 _ _ _ _ (by omega) (by omega) (by omega) (by omega))
    intro m
    constructor
    · rintro (⟨hg, ⟨hy, hm, hd⟩ | ⟨hy, hm, hd⟩⟩ | ⟨hy, hm, hd⟩ | ⟨hy, hm, hd⟩)
      · exact BishopMoves.leap (-1) 1 (Or.inr rfl) (Or.inl rfl) hy hm hd (by omega) (by omega)
          (by omega) (by omega) (fun h => by cases h) (fun _ _ => hg)
      · exact BishopMoves.leap (-1) (-1) (Or.inr rfl) (Or.inr rfl) hy hm hd (by omega)
          (by omega) (by omega) (by omega) (fun h => by cases h) (fun _ _ => hg)
      · exact BishopMoves.leap 1 1 (Or.inl rfl) (Or.inl rfl) hy hm hd (by omega) (by omega)
          (by omega) (by omega) (fun h => by cases h) (fun _ h => by omega)
      · exact BishopMoves.leap 1 (-1) (Or.inl rfl) (Or.inr rfl) hy hm hd (by omega) (by omega)
          (by omega) (by omega) (fun h => by cases h) (fun _ h => by omega)
    · rintro ⟨a, b, (rfl | rfl), (rfl | rfl), hm, hy, hd, _, hdown⟩ <;>
      first
      | exact Or.inl ⟨hdown rfl rfl, Or.inl (eye_case hy hm hd (by omega) (by omega) (by omega)
          (by omega))⟩
      | exact Or.inl ⟨hdown rfl rfl, Or.inr (eye_case hy hm hd (by omega) (by omega) (by omega)
          (by omega))⟩
      | exact Or.inr (Or.inl (eye_case hy hm hd (by omega) (by omega) (by omega) (by omega)))
      | exact Or.inr (Or.inr (eye_case hy hm hd (by omega) (by omega) (by omega) (by omega)))

/-- One guarded insertion of the advisor or the general. -/
theorem insert_if_appends {cb : ChessBoard} {side : PieceSide} {r c : Int}
    (hb : BeginOK cb side r c) (P : Prop) [Decidable P] (pm : PossibleMoves) {er ec : Int}
    (he : ∃ q, cb.get er ec = some q) :
    Appends (fun m => P ∧ m = ⟨r, c, er, ec⟩ ∧ DestOK cb side er ec) pm
      (insert_if (decide P) cb pm r c er ec) := by
  unfold insert_if
  by_cases hP : P
  · simp only [hP, decide_True, if_true]
    refine Appends.congr ?_ (check_possible_move_and_insert_appends hb pm he)
    intro m
    exact ⟨fun h => ⟨trivial, h⟩, fun h => h.2⟩
  · simp only [hP, decide_False, Bool.false_eq_true, if_false]
    refine Appends.congr ?_ (Appends.nil pm)
    intro m
    exact ⟨False.elim, fun h => h.1⟩

theorem stepTested_up (r c a b : Int) :
    stepTested PS_UP r c a b ↔
      (a = 1 → r + 1 ≤ 4) ∧ (a = -1 → r - 1 ≥ 2) ∧ (b = 1 → c + 1 ≤ 7) ∧ (b = -1 → c - 1 ≥ 5) := by
  unfold stepTested
  constructor
  · rintro ⟨(⟨_, h1, h2⟩ | ⟨h, _⟩), h3, h4⟩
    · exact ⟨h1, h2, h3, h4⟩
    · cases h
  · rintro ⟨h1, h2, h3, h4⟩
    exact ⟨Or.inl ⟨rfl, h1, h2⟩, h3, h4⟩

theorem stepTested_down (r c a b : Int) :
    stepTested PS_DOWN r c a b ↔
      (a = 1 → r + 1 ≤ 11) ∧ (a = -1 → r - 1 ≥ 9) ∧ (b = 1 → c + 1 ≤ 7) ∧
        (b = -1 → c - 1 ≥ 5) := by
  unfold stepTested
  constructor
  · rintro ⟨(⟨h, _⟩ | ⟨_, h1, h2⟩), h3, h4⟩
    · cases h
    · exact ⟨h1, h2, h3, h4⟩
  · rintro ⟨h1, h2, h3, h4⟩
    exact ⟨Or.inr ⟨rfl, h1, h2⟩, h3, h4⟩

theorem palace_consts :
    BOARD_9_PALACE_UP_TOP = 2 ∧ BOARD_9_PALACE_UP_BOTTOM = 4 ∧ BOARD_9_PALACE_UP_LEFT = 5 ∧
    BOARD_9_PALACE_UP_RIGHT = 7 ∧ BOARD_9_PALACE_DOWN_TOP = 9 ∧
    BOARD_9_PALACE_DOWN_BOTTOM = 11 ∧ BOARD_9_PALACE_DOWN_LEFT = 5 ∧
    BOARD_9_PALACE_DOWN_RIGHT = 7 := by
  decide

theorem step_case {cb : ChessBoard} {side : PieceSide} {r c er ec : Int} {m : MoveNode}
    {P : Prop} {er1 ec1 : Int} (hP : P) (hm : m = ⟨r, c, er1, ec1⟩)
    (hd : DestOK cb side er1 ec1) (h1 : er1 = er) (h2 : ec1 = ec) :
    P ∧ m = ⟨r, c, er, ec⟩ ∧ DestOK cb side er ec := by
  subst h1 h2
  exact ⟨hP, hm, hd⟩

theorem AdvisorMoves.diag {cb : ChessBoard} {side : PieceSide} {r c : Int} {m : MoveNode}
    (a b : Int) (ha : isUnit1 a) (hb : isUnit1 b) {er ec : Int} (hm : m = ⟨r, c, er, ec⟩)
    (hd : DestOK cb side er ec) (h1 : er = r + a) (h2 : ec = c + b)
    (ht : stepTested side r c a b) : AdvisorMoves cb side r c m := by
  subst h1 h2
  exact ⟨a, b, ha, hb, hm, ht, hd⟩

/-- The advisor on a playable cell: exactly the moves of `AdvisorMoves`. -/
theorem gen_possible_moves_for_advisor_appends {cb : ChessBoard} {side : PieceSide}
    (hs : isPlayer side) {r c : Int} (hpl : playable r c) (hb : BeginOK cb side r c)
    (pm : PossibleMoves) :
    Appends (AdvisorMoves cb side r c) pm (gen_possible_moves_for_advisor cb pm r c side) := by
  have ins : ∀ (P : Prop) [Decidable P] (pm1 : PossibleMoves) (er ec : Int),
      (r - 2 ≤ er ∧ er ≤ r + 2) → (c - 2 ≤ ec ∧ ec ≤ c + 2) →
      Appends (fun m => P ∧ m = ⟨r, c, er, ec⟩ ∧ DestOK cb side er ec) pm1
        (insert_if (decide P) cb pm1 r c er ec) :=
    fun P _ pm1 er ec a b => insert_if_appends hb P pm1 (readable_near cb hpl a b)
  obtain ⟨k1, k2, k3, k4, k5, k6, k7, k8⟩ := palace_consts
  unfold gen_possible_moves_for_advisor
  rcases hs with rfl | rfl
  · rw [if_pos rfl]
    refine Appends.congr ?_ (Appends.seq (ins _ pm _ _ (by omega) (by omega)) fun pm1 =>
      Appends.seq (ins _ pm1 _ _ (by omega) (by omega)) fun pm2 =>
      Appends.seq (ins _ pm2 _ _ (by omega) (by omega)) fun pm3 =>
      ins _ pm3 _ _ (by omega) (by omega))
    intro m
    rw [k1, k2, k3, k4]
    constructor
    · rintro (⟨hc, hm, hd⟩ | ⟨hc, hm, hd⟩ | ⟨hc, hm, hd⟩ | ⟨hc, hm, hd⟩)
      · exact AdvisorMoves.diag 1 1 (Or.inl rfl) (Or.inl rfl) hm hd (by omega) (by omega)
          ((stepTested_up _ _ _ _).2 (by omega))
      · exact AdvisorMoves.diag 1 (-1) (Or.inl rfl) (Or.inr rfl) hm hd (by omega) (by omega)
          ((stepTested_up _ _ _ _).2 (by omega))
      · exact AdvisorMoves.diag (-1) 1 (Or.inr rfl) (Or.inl rfl) hm hd (by omega) (by omega)
          ((stepTested_up _ _ _ _).2 (by omega))
      · exact AdvisorMoves.diag (-1) (-1) (Or.inr rfl) (Or.inr rfl) hm hd (by omega) (by omega)
          ((stepTested_up _ _ _ _).2 (by omega))
    · rintro ⟨a, b, (rfl | rfl), (rfl | rfl), hm, ht, hd⟩ <;>
      (have ht1 := (stepTested_up _ _ _ _).1 ht
       first
        | exact Or.inl (step_case (by omega) hm hd (by omega) (by omega))
        | exact Or.inr (Or.inl (step_case (by omega) hm hd (by omega) (by omega)))
        | exact Or.inr (Or.inr (Or.inl (step_case (by omega) hm hd (by omega) (by omega))))
        | exact Or.inr (Or.inr (Or.inr (step_case (by omega) hm hd (by omega) (by omega)))))
  · rw [if_neg (by decide), if_pos rfl]
    refine Appends.congr ?_ (Appends.seq (ins _ pm _ _ (by omega) (by omega)) fun pm1 =>
      Appends.seq (ins _ pm1 _ _ (by omega) (by omega)) fun pm2 =>
      Appends.seq (ins _ pm2 _ _ (by omega) (by omega)) fun pm3 =>
      ins _ pm3 _ _ (by omega) (by omega))
    intro m
    rw [k5, k6, k7, k8]
    constructor
    · rintro (⟨hc, hm, hd⟩ | ⟨hc, hm, hd⟩ | ⟨hc, hm, hd⟩ | ⟨hc, hm, hd⟩)
      · exact AdvisorMoves.diag 1 1 (Or.inl rfl) (Or.inl rfl) hm hd (by omega) (by omega)
          ((stepTested_down _ _ _ _).2 (by omega))
      · exact AdvisorMoves.diag 1 (-1) (Or.inl rfl) (Or.inr rfl) hm hd (by omega) (by omega)
          ((stepTested_down _ _ _ _).2 (by omega))
      · exact AdvisorMoves.diag (-1) 1 (Or.inr rfl) (Or.inl rfl) hm hd (by omega) (by omega)
          ((stepTested_down _ _ _ _).2 (by omega))
      · exact AdvisorMoves.diag (-1) (-1) (Or.inr rfl) (Or.inr rfl) hm hd (by omega) (by omega)
          ((stepTested_down _ _ _ _).2 (by omega))
    · rintro ⟨a, b, (rfl | rfl), (rfl | rfl), hm, ht, hd⟩ <;>
      (have ht1 := (stepTested_down _ _ _ _).1 ht
       first
        | exact Or.inl (step_case (by omega) hm hd (by omega) (by omega))
        | exact Or.inr (Or.inl (step_case (by omega) hm hd (by omega) (by omega)))
        | exact Or.inr (Or.inr (Or.inl (step_case (by omega) hm hd (by omega) (by omega))))
        | exact Or.inr (Or.inr (Or.inr (step_case (by omega) hm hd (by omega) (by omega)))))

/-! ## The exact general -/

/-- The facing-generals loop appends the first non-empty cell among the cells
it may visit exactly when that cell holds the target. -/
theorem general_scan_appends (cb : ChessBoard) (r c step : Int) {target : Piece}
    (ht : target ≠ P_EE) :
    ∀ (n : Nat) (row : Int) (pm : PossibleMoves),
      (∀ i : Nat, i < n → ∃ p, cb.get (row + i * step) c = some p) →
      Appends (fun m => ∃ j : Nat, j < n ∧
          (∀ i : Nat, i < j → cb.get (row + i * step) c = some P_EE) ∧
          cb.get (row + j * step) c = some target ∧ m = ⟨r, c, row + j * step, c⟩) pm
        (general_scan cb r c step target n row pm) := by
  intro n
  induction n with
  | zero =>
    intro row pm _
    refine Appends.congr ?_ (Appends.nil pm)
    intro m
    exact ⟨False.elim, fun ⟨j, hj, _⟩ => absurd hj (Nat.not_lt_zero _)⟩
  | succ n ih =>
    intro row pm hread
    obtain ⟨p, hp⟩ := hread 0 (Nat.succ_pos _)
    rw [ray_zero] at hp
    rw [general_scan]
    simp only [hp, Option.bind_eq_bind, Option.some_bind, Option.pure_def]
    by_cases hpe : p = P_EE
    · subst hpe
      rw [if_pos rfl]
      have hread1 : ∀ i : Nat, i < n → ∃ p, cb.get (row + step + i * step) c = some p := by
        intro i hi
        obtain ⟨q, hq⟩ := hread (i + 1) (by omega)
        refine ⟨q, ?_⟩
        rw [← hq]
        congr 1
        push_cast
        ring
      refine Appends.congr ?_ (ih (row + step) pm hread1)
      intro m
      have e : ∀ i : Nat, row + step + (i : Int) * step = row + ((i + 1 : Nat) : Int) * step := by
        intro i
        push_cast
        ring
      constructor
      · rintro ⟨j, hj, hall, hg, hm⟩
        refine ⟨j + 1, by omega, ?_, by rw [← e]; exact hg, by rw [← e]; exact hm⟩
        intro i hi
        cases i with
        | zero => rw [ray_zero]; exact hp
        | succ i =>
          rw [← e]
          exact hall i (by omega)
      · rintro ⟨j, hj, hall, hg, hm⟩
        cases j with
        | zero =>
          rw [ray_zero, hp] at hg
          exact absurd (Option.some.inj hg).symm ht
        | succ j =>
          refine ⟨j, by omega, ?_, by rw [e]; exact hg, by rw [e]; exact hm⟩
          intro i hi
          rw [e]
          exact hall (i + 1) (by omega)
    · rw [if_neg hpe]
      split
      · rename_i hpt
        refine Appends.congr ?_ (Appends.single pm _)
        intro m
        constructor
        · intro hm
          exact ⟨0, Nat.succ_pos _, fun i hi => absurd hi (Nat.not_lt_zero _),
            by rw [ray_zero, hp, hpt], by rw [ray_zero]; exact hm⟩
        · rintro ⟨j, hj, hall, hg, hm⟩
          cases j with
          | zero => rw [ray_zero] at hm; exact hm
          | succ j =>
            have := hall 0 (Nat.succ_pos _)
            rw [ray_zero, hp] at this
            exact absurd (Option.some.inj this) hpe
      · rename_i hpt
        refine Appends.congr ?_ (Appends.nil pm)
        intro m
        constructor
        · exact False.elim
        · rintro ⟨j, hj, hall, hg, hm⟩
          cases j with
          | zero =>
            rw [ray_zero, hp] at hg
            exact hpt (Option.some.inj hg)
          | succ j =>
            have := hall 0 (Nat.succ_pos _)
            rw [ray_zero, hp] at this
            exact absurd (Option.some.inj this) hpe

/-- The facing-generals loop of the up general, in rows. -/
theorem general_scan_up_appends (cb : ChessBoard) {r c : Int} (hpl : playable r c)
    (pm : PossibleMoves) :
    Appends (FlyingMove cb PS_UP r c) pm
      (general_scan cb r c 1 P_DG
        (BOARD_ACTUAL_ROW_BEGIN + BOARD_ACTUAL_ROW_LEN - (r + 1)).toNat (r + 1) pm) := by
  have hpl1 := hpl
  unfold playable at hpl1
  have hn : (BOARD_ACTUAL_ROW_BEGIN + BOARD_ACTUAL_ROW_LEN - (r + 1)).toNat = (11 - r).toNat := by
    unfold BOARD_ACTUAL_ROW_BEGIN BOARD_ACTUAL_ROW_LEN
    congr 1
    omega
  rw [hn]
  refine Appends.congr ?_ (general_scan_appends cb r c 1 (by decide) _ _ pm ?_)
  · intro m
    unfold FlyingMove
    constructor
    · rintro ⟨j, hj, hall, hg, hm⟩
      refine Or.inl ⟨rfl, r + 1 + j, by omega, by omega, ?_, by rw [← hg]; congr 1; omega,
        by rw [hm]; congr 1; omega⟩
      intro x hx1 hx2
      have := hall (x - r - 1).toNat (by omega)
      rw [← this]
      congr 1
      omega
    · rintro (⟨_, row, h1, h2, hall, hg, hm⟩ | ⟨h, _⟩)
      · refine ⟨(row - r - 1).toNat, by omega, ?_, by rw [← hg]; congr 1; omega,
          by rw [hm]; congr 1; omega⟩
        intro i hi
        rw [← hall (r + 1 + i) (by omega) (by omega)]
        congr 1
        omega
      · cases h
  · intro i hi
    exact ⟨_, get_of_inGrid cb (by unfold inGrid BOARD_ROW_LEN BOARD_COL_LEN; omega)⟩

/-- The facing-generals loop of the down general, in rows. -/
theorem general_scan_down_appends (cb : ChessBoard) {r c : Int} (hpl : playable r c)
    (pm : PossibleMoves) :
    Appends (FlyingMove cb PS_DOWN r c) pm
      (general_scan cb r c (-1) P_UG
        (r - 1 - BOARD_ACTUAL_ROW_BEGIN + 1).toNat (r - 1) pm) := by
  have hpl1 := hpl
  unfold playable at hpl1
  have hn : (r - 1 - BOARD_ACTUAL_ROW_BEGIN + 1).toNat = (r - 2).toNat := by
    unfold BOARD_ACTUAL_ROW_BEGIN
    congr 1
    omega
  rw [hn]
  refine Appends.congr ?_ (general_scan_appends cb r c (-1) (by decide) _ _ pm ?_)
  · intro m
    unfold FlyingMove
    constructor
    · rintro ⟨j, hj, hall, hg, hm⟩
      refine Or.inr ⟨rfl, r - 1 - j, by omega, by omega, ?_, by rw [← hg]; congr 1; omega,
        by rw [hm]; congr 1; omega⟩
      intro x hx1 hx2
      have := hall (r - 1 - x).toNat (by omega)
      rw [← this]
      congr 1
      omega
    · rintro (⟨h, _⟩ | ⟨_, row, h1, h2, hall, hg, hm⟩)
      · cases h
      · refine ⟨(r - 1 - row).toNat, by omega, ?_, by rw [← hg]; congr 1; omega,
          by rw [hm]; congr 1; omega⟩
        intro i hi
        rw [← hall (r - 1 - i) (by omega) (by omega)]
        congr 1
        omega
  · intro i hi
    exact ⟨_, get_of_inGrid cb (by unfold inGrid BOARD_ROW_LEN BOARD_COL_LEN; omega)⟩

theorem GeneralMoves.step {cb : ChessBoard} {side : PieceSide} {r c : Int} {m : MoveNode}
    (a b : Int) (hab : isStep a b) {er ec : Int} (hm : m = ⟨r, c, er, ec⟩)
    (hd : DestOK cb side er ec) (h1 : er = r + a) (h2 : ec = c + b)
    (ht : stepTested side r c a b) : GeneralMoves cb side r c m := by
  subst h1 h2
  exact Or.inl ⟨a, b, hab, hm, ht, hd⟩

/-- The general on a playable cell: exactly the moves of `GeneralMoves`. -/
theorem gen_possible_moves_for_general_appends {cb : ChessBoard} {side : PieceSide}
    (hs : isPlayer side) {r c : Int} (hpl : playable r c) (hb : BeginOK cb side r c)
    (pm : PossibleMoves) :
    Appends (GeneralMoves cb side r c) pm (gen_possible_moves_for_general cb pm r c side) := by
  have ins : ∀ (P : Prop) [Decidable P] (pm1 : PossibleMoves) (er ec : Int),
      (r - 2 ≤ er ∧ er ≤ r + 2) → (c - 2 ≤ ec ∧ ec ≤ c + 2) →
      Appends (fun m => P ∧ m = ⟨r, c, er, ec⟩ ∧ DestOK cb side er ec) pm1
        (insert_if (decide P) cb pm1 r c er ec) :=
    fun P _ pm1 er ec a b => insert_if_appends hb P pm1 (readable_near cb hpl a b)
  obtain ⟨k1, k2, k3, k4, k5, k6, k7, k8⟩ := palace_consts
  unfold gen_possible_moves_for_general
  rcases hs with rfl | rfl
  · rw [if_pos rfl]
    refine Appends.congr ?_ (Appends.seq (ins _ pm _ _ (by omega) (by omega)) fun pm1 =>
      Appends.seq (ins _ pm1 _ _ (by omega) (by omega)) fun pm2 =>
      Appends.seq (ins _ pm2 _ _ (by omega) (by omega)) fun pm3 =>
      Appends.seq (ins _ pm3 _ _ (by omega) (by omega)) fun pm4 =>
      general_scan_up_appends cb hpl pm4)
    intro m
    rw [k1, k2, k3, k4]
    constructor
    · rintro (⟨hc, hm, hd⟩ | ⟨hc, hm, hd⟩ | ⟨hc, hm, hd⟩ | ⟨hc, hm, hd⟩ | hf)
      · exact GeneralMoves.step 1 0 isStep_down hm hd (by omega) (by omega)
          ((stepTested_up _ _ _ _).2 (by omega))
      · exact GeneralMoves.step (-1) 0 isStep_up hm hd (by omega) (by omega)
          ((stepTested_up _ _ _ _).2 (by omega))
      · exact GeneralMoves.step 0 1 isStep_right hm hd (by omega) (by omega)
          ((stepTested_up _ _ _ _).2 (by omega))
      · exact GeneralMoves.step 0 (-1) isStep_left hm hd (by omega) (by omega)
          ((stepTested_up _ _ _ _).2 (by omega))
      · exact Or.inr hf
    · rintro (⟨a, b, (⟨rfl, rfl⟩ | ⟨rfl, rfl⟩ | ⟨rfl, rfl⟩ | ⟨rfl, rfl⟩), hm, ht, hd⟩ | hf)
      · have ht1 := (stepTested_up _ _ _ _).1 ht
        exact Or.inr (Or.inl (step_case (by omega) hm hd (by omega) (by omega)))
      · have ht1 := (stepTested_up _ _ _ _).1 ht
        exact Or.inl (step_case (by omega) hm hd (by omega) (by omega))
      · have ht1 := (stepTested_up _ _ _ _).1 ht
        exact Or.inr (Or.inr (Or.inr (Or.inl (step_case (by omega) hm hd (by omega) (by omega)))))
      · have ht1 := (stepTested_up _ _ _ _).1 ht
        exact Or.inr (Or.inr (Or.inl (step_case (by omega) hm hd (by omega) (by omega))))
      · exact Or.inr (Or.inr (Or.inr (Or.inr hf)))
  · rw [if_neg (by decide), if_pos rfl]
    refine Appends.congr ?_ (Appends.seq (ins _ pm _ _ (by omega) (by omega)) fun pm1 =>
      Appends.seq (ins _ pm1 _ _ (by omega) (by omega)) fun pm2 =>
      Appends.seq (ins _ pm2 _ _ (by omega) (by omega)) fun pm3 =>
      Appends.seq (ins _ pm3 _ _ (by omega) (by omega)) fun pm4 =>
      general_scan_down_appends cb hpl pm4)
    intro m
    rw [k5, k6, k7, k8]
    constructor
    · rintro (⟨hc, hm, hd⟩ | ⟨hc, hm, hd⟩ | ⟨hc, hm, hd⟩ | ⟨hc, hm, hd⟩ | hf)
      · exact GeneralMoves.step 1 0 isStep_down hm hd (by omega) (by omega)
          ((stepTested_down _ _ _ _).2 (by omega))
      · exact GeneralMoves.step (-1) 0 isStep_up hm hd (by omega) (by omega)
          ((stepTested_down _ _ _ _).2 (by omega))
      · exact GeneralMoves.step 0 1 isStep_right hm hd (by omega) (by omega)
          ((stepTested_down _ _ _ _).2 (by omega))
      · exact GeneralMoves.step 0 (-1) isStep_left hm hd (by omega) (by omega)
          ((stepTested_down _ _ _ _).2 (by omega))
      · exact Or.inr hf
    · rintro (⟨a, b, (⟨rfl, rfl⟩ | ⟨rfl, rfl⟩ | ⟨rfl, rfl⟩ | ⟨rfl, rfl⟩), hm, ht, hd⟩ | hf)
      · have ht1 := (stepTested_down _ _ _ _).1 ht
        exact Or.inr (Or.inl (step_case (by omega) hm hd (by omega) (by omega)))
      · have ht1 := (stepTested_down _ _ _ _).1 ht
        exact Or.inl (step_case (by omega) hm hd (by omega) (by omega))
      · have ht1 := (stepTested_down _ _ _ _).1 ht
        exact Or.inr (Or.inr (Or.inr (Or.inl (step_case (by omega) hm hd (by omega) (by omega)))))
      · have ht1 := (stepTested_down _ _ _ _).1 ht
        exact Or.inr (Or.inr (Or.inl (step_case (by omega) hm hd (by omega) (by omega))))
      · exact Or.inr (Or.inr (Or.inr (Or.inr hf)))

/-! ## The exact generator -/

/-- Every move a piece appends starts on the cell of the piece. -/
theorem pieceMoves_begin {cb : ChessBoard} {side : PieceSide} {t : PieceType} {r c : Int}
    {m : MoveNode} (h : PieceMoves cb side t r c m) : m.beginRow = r ∧ m.beginCol = c := by
  cases t with
  | PT_PAWN => exact absurd h id
  | PT_CANNON =>
    obtain ⟨dr, dc, _, k, pk, _, j, _, rfl, _⟩ := h
    exact ⟨rfl, rfl⟩
  | PT_ROOK =>
    obtain ⟨dr, dc, _, k, pk, _, j, _, rfl, _⟩ := h
    exact ⟨rfl, rfl⟩
  | PT_KNIGHT =>
    obtain ⟨a, b, _, _, ⟨rfl, _⟩ | ⟨rfl, _⟩⟩ := h <;> exact ⟨rfl, rfl⟩
  | PT_BISHOP =>
    obtain ⟨a, b, _, _, rfl, _⟩ := h
    exact ⟨rfl, rfl⟩
  | PT_ADVISOR =>
    obtain ⟨a, b, _, _, rfl, _⟩ := h
    exact ⟨rfl, rfl⟩
  | PT_GENERAL =>
    rcases h with ⟨a, b, _, rfl, _⟩ | ⟨_, row, _, _, _, _, rfl⟩ | ⟨_, row, _, _, _, _, rfl⟩ <;>
      exact ⟨rfl, rfl⟩
  | PT_EMPTY => exact absurd h id
  | PT_OUT => exact absurd h id

/-- The body of the double loop on a playable cell of a well-formed board
appends exactly the moves of the piece standing there, when it belongs to
`side`. -/
theorem gen_possible_moves_cell_appends {cb : ChessBoard} (hwf : WellFormed cb)
    {side : PieceSide} (hs : isPlayer side) {r c : Int} (hpl : playable r c)
    (pm : PossibleMoves) :
    Appends (fun m => ∃ p, cb.get r c = some p ∧ piece_get_side p = side ∧
        PieceMoves cb side (piece_get_type p) r c m) pm
      (gen_possible_moves_cell cb side r c pm) := by
  obtain ⟨p, hp, _⟩ := wf_get hwf (inGrid_of_playable hpl)
  have key : ∀ {S : MoveNode → Prop} {res : Option PossibleMoves},
      piece_get_side p = side →
      (∀ m, S m ↔ PieceMoves cb side (piece_get_type p) r c m) → Appends S pm res →
      Appends (fun m => ∃ p, cb.get r c = some p ∧ piece_get_side p = side ∧
        PieceMoves cb side (piece_get_type p) r c m) pm res := by
    intro S res hside hiff ha
    refine Appends.congr ?_ ha
    intro m
    rw [hiff]
    constructor
    · exact fun h => ⟨p, hp, hside, h⟩
    · rintro ⟨p1, hp1, _, h⟩
      rw [hp] at hp1
      cases hp1
      exact h
  suffices hgoal : ∀ S : MoveNode → Prop,
      (S = fun m => ∃ p, cb.get r c = some p ∧ piece_get_side p = side ∧
        PieceMoves cb side (piece_get_type p) r c m) →
      Appends S pm (gen_possible_moves_cell cb side r c pm) from hgoal _ rfl
  intro S hS
  unfold gen_possible_moves_cell
  simp only [hp, Option.bind_eq_bind, Option.some_bind]
  subst hS
  split
  · rename_i hside
    have hb : BeginOK cb side r c := ⟨p, hp, hside⟩
    split
    · rename_i ht
      rw [gen_possible_moves_for_pawn_total hwf hs hpl hb pm]
      exact key hside (fun m => by rw [ht]; exact Iff.rfl) (Appends.nil pm)
    · rename_i ht
      exact key hside (fun m => by rw [ht]; exact Iff.rfl)
        (gen_possible_moves_for_cannon_appends hwf hpl pm)
    · rename_i ht
      exact key hside (fun m => by rw [ht]; exact Iff.rfl)
        (gen_possible_moves_for_rook_appends hwf hpl pm)
    · rename_i ht
      exact key hside (fun m => by rw [ht]; exact Iff.rfl)
        (gen_possible_moves_for_knight_appends hpl hb pm)
    · rename_i ht
      exact key hside (fun m => by rw [ht]; exact Iff.rfl)
        (gen_possible_moves_for_bishop_appends hs hpl hb pm)
    · rename_i ht
      exact key hside (fun m => by rw [ht]; exact Iff.rfl)
        (gen_possible_moves_for_advisor_appends hs hpl hb pm)
    · rename_i ht
      exact key hside (fun m => by rw [ht]; exact Iff.rfl)
        (gen_possible_moves_for_general_appends hs hpl hb pm)
    · rename_i ht
      exact key hside (fun m => by rw [ht]; exact Iff.rfl) (Appends.nil pm)
    · rename_i ht
      exact key hside (fun m => by rw [ht]; exact Iff.rfl) (Appends.nil pm)
  · rename_i hside
    refine Appends.congr ?_ (Appends.nil pm)
    intro m
    constructor
    · exact False.elim
    · rintro ⟨p1, hp1, hs1, _⟩
      rw [hp] at hp1
      cases hp1
      exact hside hs1

/-- The generated list of a player on a well-formed board: a move is in it
exactly when it starts on a playable cell holding a piece of the player and
is one of the moves of that piece. -/
theorem gen_possible_moves_mem {cb : ChessBoard} (hwf : WellFormed cb) {side : PieceSide}
    (hs : isPlayer side) :
    ∃ L, gen_possible_moves cb side = some L ∧ ∀ m, m ∈ L ↔
      (playable m.beginRow m.beginCol ∧ ∃ p, cb.get m.beginRow m.beginCol = some p ∧
        piece_get_side p = side ∧
        PieceMoves cb side (piece_get_type p) m.beginRow m.beginCol m) := by
  have e1 : ((10 : Int).toNat : Int) = 10 := rfl
  have e2 : ((9 : Int).toNat : Int) = 9 := rfl
  have h : Appends (fun m => ∃ r, BOARD_ACTUAL_ROW_BEGIN ≤ r ∧
      r < BOARD_ACTUAL_ROW_BEGIN + BOARD_ACTUAL_ROW_LEN.toNat ∧
      ∃ c, BOARD_ACTUAL_COL_BEGIN ≤ c ∧ c < BOARD_ACTUAL_COL_BEGIN + BOARD_ACTUAL_COL_LEN.toNat ∧
        ∃ p, cb.get r c = some p ∧ piece_get_side p = side ∧
          PieceMoves cb side (piece_get_type p) r c m) [] (gen_possible_moves cb side) := by
    unfold gen_possible_moves
    apply forRange_appends
    intro r pm hr1 hr2
    apply forRange_appends
    intro c pm1 hc1 hc2
    apply gen_possible_moves_cell_appends hwf hs
    simp only [BOARD_ACTUAL_ROW_BEGIN, BOARD_ACTUAL_ROW_LEN, BOARD_ACTUAL_COL_BEGIN,
      BOARD_ACTUAL_COL_LEN, e1, e2] at hr1 hr2 hc1 hc2
    unfold playable
    omega
  obtain ⟨L, hL, hmem⟩ := h
  refine ⟨L, by simpa using hL, ?_⟩
  intro m
  rw [hmem]
  simp only [BOARD_ACTUAL_ROW_BEGIN, BOARD_ACTUAL_ROW_LEN, BOARD_ACTUAL_COL_BEGIN,
    BOARD_ACTUAL_COL_LEN, e1, e2]
  constructor
  · rintro ⟨r, hr1, hr2, c, hc1, hc2, p, hp, hside, hpm⟩
    obtain ⟨rfl, rfl⟩ := pieceMoves_begin hpm
    exact ⟨by unfold playable; omega, p, hp, hside, hpm⟩
  · rintro ⟨hpl, p, hp, hside, hpm⟩
    unfold playable at hpl
    exact ⟨m.beginRow, by omega, by omega, m.beginCol, by omega, by omega, p, hp, hside, hpm⟩

/-! ## The moves that start on one cell -/

/-- The generated moves that start on a playable cell holding a piece of the
player are exactly the moves of that piece. -/
theorem gen_possible_moves_from_cell {cb : ChessBoard} (hwf : WellFormed cb)
    {side : PieceSide} (hs : isPlayer side) {r c : Int} (hpl : playable r c) {p : Piece}
    (hp : cb.get r c = some p) (hside : piece_get_side p = side) :
    ∃ L, gen_possible_moves cb side = some L ∧
      ∀ m, (m ∈ L ∧ m.beginRow = r ∧ m.beginCol = c) ↔
        PieceMoves cb side (piece_get_type p) r c m := by
  obtain ⟨L, hL, hmem⟩ := gen_possible_moves_mem hwf hs
  refine ⟨L, hL, fun m => ?_⟩
  rw [hmem]
  constructor
  · rintro ⟨⟨_, p1, hp1, _, hpm⟩, rfl, rfl⟩
    rw [hp] at hp1
    cases hp1
    exact hpm
  · intro hpm
    obtain ⟨rfl, rfl⟩ := pieceMoves_begin hpm
    exact ⟨⟨hpl, p, hp, hside, hpm⟩, rfl, rfl⟩

/-- No generated move starts on a pawn: the pawn generator works on a copy of
the list. -/
theorem pawn_moves_not_generated {cb : ChessBoard} (hwf : WellFormed cb) {side : PieceSide}
    (hs : isPlayer side) {r c : Int} (hpl : playable r c) {p : Piece}
    (hp : cb.get r c = some p) (hside : piece_get_side p = side)
    (ht : piece_get_type p = PT_PAWN) :
    ∃ L, gen_possible_moves cb side = some L ∧
      ∀ m ∈ L, ¬ (m.beginRow = r ∧ m.beginCol = c) := by
  obtain ⟨L, hL, hmem⟩ := gen_possible_moves_from_cell hwf hs hpl hp hside
  refine ⟨L, hL, fun m hm hbeg => ?_⟩
  have := (hmem m).1 ⟨hm, hbeg.1, hbeg.2⟩
  rw [ht] at this
  exact this

/-- Two moves from the same cell along rays coincide only on the same ray at
the same distance. -/
theorem ray_move_inj {r c dr dc dr1 dc1 : Int} (h : isStep dr dc) (h1 : isStep dr1 dc1)
    {j j1 : Nat} (hj : 1 ≤ j) (hj1 : 1 ≤ j1)
    (heq : (⟨r, c, r + j * dr, c + j * dc⟩ : MoveNode) = ⟨r, c, r + j1 * dr1, c + j1 * dc1⟩) :
    dr = dr1 ∧ dc = dc1 ∧ j = j1 := by
  simp only [MoveNode.mk.injEq, true_and] at heq
  obtain ⟨e1, e2⟩ := heq
  rcases h with ⟨rfl, rfl⟩ | ⟨rfl, rfl⟩ | ⟨rfl, rfl⟩ | ⟨rfl, rfl⟩ <;>
    rcases h1 with ⟨rfl, rfl⟩ | ⟨rfl, rfl⟩ | ⟨rfl, rfl⟩ | ⟨rfl, rfl⟩ <;>
    simp only [mul_neg, mul_one, mul_zero, add_zero] at e1 e2 <;>
    refine ⟨?_, ?_, ?_⟩ <;> omega

theorem inPalace_up (r c : Int) : inPalace PS_UP r c ↔ 2 ≤ r ∧ r ≤ 4 ∧ 5 ≤ c ∧ c ≤ 7 := by
  unfold inPalace
  constructor
  · rintro ⟨(⟨_, h1, h2⟩ | ⟨h, _⟩), h3, h4⟩
    · exact ⟨h1, h2, h3, h4⟩
    · cases h
  · rintro ⟨h1, h2, h3, h4⟩
    exact ⟨Or.inl ⟨rfl, h1, h2⟩, h3, h4⟩

theorem inPalace_down (r c : Int) : inPalace PS_DOWN r c ↔ 9 ≤ r ∧ r ≤ 11 ∧ 5 ≤ c ∧ c ≤ 7 := by
  unfold inPalace
  constructor
  · rintro ⟨(⟨h, _⟩ | ⟨_, h1, h2⟩), h3, h4⟩
    · cases h
    · exact ⟨h1, h2, h3, h4⟩
  · rintro ⟨h1, h2, h3, h4⟩
    exact ⟨Or.inr ⟨rfl, h1, h2⟩, h3, h4⟩

theorem playable_of_inPalace {side : PieceSide} {r c : Int} (h : inPalace side r c) :
    playable r c := by
  unfold inPalace at h
  unfold playable
  omega

/-- From inside the palace, a step by at most one in each coordinate passes
the bound tests exactly when it stays inside the palace. -/
theorem stepTested_iff_inPalace {side : PieceSide} (hs : isPlayer side) {r c a b : Int}
    (hin : inPalace side r c) (ha : a = 1 ∨ a = -1 ∨ a = 0) (hb : b = 1 ∨ b = -1 ∨ b = 0) :
    stepTested side r c a b ↔ inPalace side (r + a) (c + b) := by
  rcases hs with rfl | rfl
  · rw [stepTested_up, inPalace_up]
    rw [inPalace_up] at hin
    omega
  · rw [stepTested_down, inPalace_down]
    rw [inPalace_down] at hin
    omega

theorem wf_get_playable_ne {cb : ChessBoard} (hwf : WellFormed cb) {r c : Int} {q : Piece}
    (hq : cb.get r c = some q) (hpl : playable r c) : q ≠ P_EO := by
  obtain ⟨q1, hq1, hiff⟩ := wf_get hwf (inGrid_of_playable hpl)
  rw [hq] at hq1
  cases hq1
  exact hiff.2 hpl

/-- On a well-formed board a playable destination is acceptable exactly when
it is not occupied by the side. -/
theorem destOK_iff_of_playable {cb : ChessBoard} (hwf : WellFormed cb) (side : PieceSide)
    {r c : Int} (hpl : playable r c) :
    DestOK cb side r c ↔ ∃ q, cb.get r c = some q ∧ piece_get_side q ≠ side := by
  constructor
  · rintro ⟨q, hq, _, hs⟩
    exact ⟨q, hq, hs⟩
  · rintro ⟨q, hq, hs⟩
    exact ⟨q, hq, wf_get_playable_ne hwf hq hpl, hs⟩

/-! ## The winner -/

/-- The scan of one palace row is total on grid cells and yields `true`
exactly when `alive` was already set or one of the scanned cells holds the
target. -/
theorem palace_row_scan_spec (cb : ChessBoard) (r : Int) (target : Piece) :
    ∀ (n : Nat) (c : Int) (alive : Bool),
      (∀ i : Int, c ≤ i → i < c + n → inGrid r i) →
      ∃ b, palace_row_scan cb r target n c alive = some b ∧
        (b = true ↔ alive = true ∨ ∃ i : Int, c ≤ i ∧ i < c + n ∧ cb.get r i = some target) := by
  intro n
  induction n with
  | zero =>
    intro c alive _
    refine ⟨alive, rfl, ?_⟩
    constructor
    · exact Or.inl
    · rintro (h | ⟨i, h1, h2, _⟩)
      · exact h
      · simp only [Nat.cast_zero, add_zero] at h2
        omega
  | succ n ih =>
    intro c alive hgrid
    have hget := get_of_inGrid cb (hgrid c (le_refl _) (by push_cast; omega))
    rw [palace_row_scan]
    simp only [hget, Option.bind_eq_bind, Option.some_bind]
    split
    · rename_i heq
      refine ⟨true, rfl, ?_⟩
      constructor
      · intro _
        exact Or.inr ⟨c, le_refl _, by push_cast; omega, by rw [hget, heq]⟩
      · intro _; rfl
    · rename_i hne
      obtain ⟨b, hb, hiff⟩ := ih (c + 1) alive
        (fun i h1 h2 => hgrid i (by omega) (by push_cast; omega))
      refine ⟨b, hb, ?_⟩
      rw [hiff]
      constructor
      · rintro (h | ⟨i, h1, h2, h3⟩)
        · exact Or.inl h
        · exact Or.inr ⟨i, by omega, by push_cast; omega, h3⟩
      · rintro (h | ⟨i, h1, h2, h3⟩)
        · exact Or.inl h
        · by_cases hic : i = c
          · subst hic
            rw [hget] at h3
            exact absurd (Option.some.inj h3) hne
          · exact Or.inr ⟨i, by omega, by push_cast at h2; omega, h3⟩

/-- A counted loop over a flag that every iteration keeps or sets. -/
theorem forRange_flag {body : Int → Bool → Option Bool} {Q : Int → Prop} :
    ∀ (n : Nat) (lo : Int) (init : Bool),
      (∀ (i : Int) (alive : Bool), lo ≤ i → i < lo + n →
        ∃ b, body i alive = some b ∧ (b = true ↔ alive = true ∨ Q i)) →
      ∃ b, forRange n lo body init = some b ∧
        (b = true ↔ init = true ∨ ∃ i : Int, lo ≤ i ∧ i < lo + n ∧ Q i) := by
  intro n
  induction n with
  | zero =>
    intro lo init _
    refine ⟨init, rfl, ?_⟩
    constructor
    · exact Or.inl
    · rintro (h | ⟨i, h1, h2, _⟩)
      · exact h
      · simp only [Nat.cast_zero, add_zero] at h2
        omega
  | succ n ih =>
    intro lo init h
    obtain ⟨b1, hb1, hiff1⟩ := h lo init (le_refl _) (by push_cast; omega)
    obtain ⟨b, hb, hiff⟩ := ih (lo + 1) b1
      (fun i alive h1 h2 => h i alive (by omega) (by push_cast; omega))
    refine ⟨b, ?_, ?_⟩
    · rw [forRange, hb1]
      exact hb
    · rw [hiff, hiff1]
      constructor
      · rintro ((h | h) | ⟨i, h1, h2, h3⟩)
        · exact Or.inl h
        · exact Or.inr ⟨lo, le_refl _, by push_cast; omega, h⟩
        · exact Or.inr ⟨i, by omega, by push_cast; omega, h3⟩
      · rintro (h | ⟨i, h1, h2, h3⟩)
        · exact Or.inl (Or.inl h)
        · by_cases hil : i = lo
          · subst hil
            exact Or.inl (Or.inr h3)
          · exact Or.inr ⟨i, by omega, by push_cast at h2; omega, h3⟩

/-- The scan of a 3 x 3 palace that lies in the grid is total and finds the
target exactly when one of the nine cells holds it. -/
theorem palace_scan_spec (cb : ChessBoard) (target : Piece) (top left : Int)
    (h1 : 0 ≤ top) (h2 : top + 3 ≤ BOARD_ROW_LEN) (h3 : 0 ≤ left)
    (h4 : left + 3 ≤ BOARD_COL_LEN) :
    ∃ b, forRange 3 top (fun r alive => palace_row_scan cb r target 3 left alive) false
          = some b ∧
      (b = true ↔ ∃ r c : Int, top ≤ r ∧ r < top + 3 ∧ left ≤ c ∧ c < left + 3 ∧
        cb.get r c = some target) := by
  obtain ⟨b, hb, hiff⟩ := forRange_flag
    (Q := fun r => ∃ c : Int, left ≤ c ∧ c < left + (3 : Nat) ∧ cb.get r c = some target)
    3 top false
    (fun r alive hr1 hr2 => palace_row_scan_spec cb r target 3 left alive
      (fun i hi1 hi2 => by
        unfold inGrid
        unfold BOARD_ROW_LEN at h2 ⊢
        unfold BOARD_COL_LEN at h4 ⊢
        push_cast at hr2 hi2
        omega))
  refine ⟨b, hb, ?_⟩
  rw [hiff]
  constructor
  · rintro (h | ⟨r, hr1, hr2, c, hc1, hc2, hg⟩)
    · cases h
    · exact ⟨r, c, hr1, by push_cast at hr2; omega, hc1, by push_cast at hc2; omega, hg⟩
  · rintro ⟨r, c, hr1, hr2, hc1, hc2, hg⟩
    exact Or.inr ⟨r, hr1, by push_cast; omega, c, hc1, by push_cast; omega, hg⟩

theorem generalInPalace_up (cb : ChessBoard) (g : Piece) :
    generalInPalace cb PS_UP g ↔
      ∃ r c : Int, 2 ≤ r ∧ r < 2 + 3 ∧ 5 ≤ c ∧ c < 5 + 3 ∧ cb.get r c = some g := by
  unfold generalInPalace
  constructor
  · rintro ⟨r, c, hin, hg⟩
    rw [inPalace_up] at hin
    exact ⟨r, c, by omega, by omega, by omega, by omega, hg⟩
  · rintro ⟨r, c, h1, h2, h3, h4, hg⟩
    exact ⟨r, c, (inPalace_up r c).2 (by omega), hg⟩

theorem generalInPalace_down (cb : ChessBoard) (g : Piece) :
    generalInPalace cb PS_DOWN g ↔
      ∃ r c : Int, 9 ≤ r ∧ r < 9 + 3 ∧ 5 ≤ c ∧ c < 5 + 3 ∧ cb.get r c = some g := by
  unfold generalInPalace
  constructor
  · rintro ⟨r, c, hin, hg⟩
    rw [inPalace_down] at hin
    exact ⟨r, c, by omega, by omega, by omega, by omega, hg⟩
  · rintro ⟨r, c, h1, h2, h3, h4, hg⟩
    exact ⟨r, c, (inPalace_down r c).2 (by omega), hg⟩

/-- The two flags computed by `check_winner` and its result in terms of
them. -/
theorem check_winner_flags (cb : ChessBoard) :
    ∃ upAlive downAlive : Bool,
      (upAlive = true ↔ generalInPalace cb PS_UP P_UG) ∧
      (downAlive = true ↔ generalInPalace cb PS_DOWN P_DG) ∧
      check_winner cb = some (if upAlive && downAlive then PS_EXTRA
        else if upAlive then PS_UP else PS_DOWN) := by
  obtain ⟨u, hu, hui⟩ := palace_scan_spec cb P_UG 2 5 (by decide) (by decide) (by decide)
    (by decide)
  obtain ⟨d, hd, hdi⟩ := palace_scan_spec cb P_DG 9 5 (by decide) (by decide) (by decide)
    (by decide)
  refine ⟨u, d, by rw [hui, generalInPalace_up], by rw [hdi, generalInPalace_down], ?_⟩
  unfold check_winner
  have e1 : (BOARD_9_PALACE_UP_BOTTOM - BOARD_9_PALACE_UP_TOP + 1).toNat = 3 := rfl
  have e2 : (BOARD_9_PALACE_UP_RIGHT - BOARD_9_PALACE_UP_LEFT + 1).toNat = 3 := rfl
  have e3 : (BOARD_9_PALACE_DOWN_BOTTOM - BOARD_9_PALACE_DOWN_TOP + 1).toNat = 3 := rfl
  have e4 : (BOARD_9_PALACE_DOWN_RIGHT - BOARD_9_PALACE_DOWN_LEFT + 1).toNat = 3 := rfl
  have e5 : BOARD_9_PALACE_UP_TOP = 2 := rfl
  have e6 : BOARD_9_PALACE_UP_LEFT = 5 := rfl
  have e7 : BOARD_9_PALACE_DOWN_TOP = 9 := rfl
  have e8 : BOARD_9_PALACE_DOWN_LEFT = 5 := rfl
  rw [e1, e2, e3, e4, e5, e6, e7, e8]
  simp only [hu, hd, Option.bind_eq_bind, Option.some_bind]
  cases u <;> cases d <;> rfl

/-! # The claims about the moves of each piece -/

/-! ## Pawn (C11) -/

/-- C11 (evaluated on the code): on the starting position the up pawn on
(5, 2) has an empty forward cell (6, 2), and the list generated for up does
not contain the forward move (5, 2) -> (6, 2). -/
theorem C11_pawn_forward_move_not_generated :
    ChessBoard.new.get 5 2 = some P_UP ∧ ChessBoard.new.get 6 2 = some P_EE ∧
    ∃ L, gen_possible_moves ChessBoard.new PS_UP = some L ∧
      (⟨5, 2, 6, 2⟩ : MoveNode) ∉ L := by
  refine ⟨by decide, by decide, ?_⟩
  have hwf : WellFormed ChessBoard.new := by decide
  have hp : ChessBoard.new.get 5 2 = some P_UP := by decide
  obtain ⟨L, hL, hnone⟩ := pawn_moves_not_generated hwf (Or.inl rfl : isPlayer PS_UP)
    (by decide : playable 5 2) hp rfl rfl
  exact ⟨L, hL, fun hm => hnone _ hm ⟨rfl, rfl⟩⟩

/-! ## Cannon and rook (C12, C13) -/

/-- C12: on a well-formed board, for a cannon of the player on a playable cell
`(r, c)` and an orthogonal direction, let `k` be the distance of the first
non-empty cell of the ray and `pk` its content.  The move from `(r, c)` to
the ray cell at distance `j` is generated exactly when `j < k` (an empty cell
before the screen), or the screen is a piece and `j` is the distance of the
first non-empty cell beyond the screen and that cell holds a piece of the
other side.  In particular the screen cell itself is never a
destination. -/
theorem C12_cannon_ray_moves (cb : ChessBoard) (hwf : WellFormed cb) (side : PieceSide)
    (hs : isPlayer side) (r c : Int) (hpl : playable r c) (p : Piece)
    (hp : cb.get r c = some p) (hside : piece_get_side p = side)
    (ht : piece_get_type p = PT_CANNON) (dr dc : Int) (hstep : isStep dr dc) :
    ∃ L k pk, gen_possible_moves cb side = some L ∧ FirstNonEmpty cb r c dr dc 1 k pk ∧
      (∀ j : Nat, 1 ≤ j →
        ((⟨r, c, r + j * dr, c + j * dc⟩ : MoveNode) ∈ L ↔
          (j < k ∨ (pk ≠ P_EO ∧ ∃ q, FirstNonEmpty cb r c dr dc (k + 1) j q ∧
            piece_get_side q = piece_side_get_reverse side)))) ∧
      (⟨r, c, r + k * dr, c + k * dc⟩ : MoveNode) ∉ L := by
  obtain ⟨L, hL, hmem⟩ := gen_possible_moves_from_cell hwf hs hpl hp hside
  rw [ht] at hmem
  have hpl0 : playable (r + ((0 : Nat) : Int) * dr) (c + ((0 : Nat) : Int) * dc) := by
    rw [ray_zero, ray_zero]; exact hpl
  obtain ⟨k, pk, hf, _⟩ := firstNonEmpty_from_playable hwf hstep hpl0
  have hiff : ∀ j : Nat, 1 ≤ j →
      ((⟨r, c, r + j * dr, c + j * dc⟩ : MoveNode) ∈ L ↔
        (j < k ∨ (pk ≠ P_EO ∧ ∃ q, FirstNonEmpty cb r c dr dc (k + 1) j q ∧
          piece_get_side q = piece_side_get_reverse side))) := by
    intro j hj
    constructor
    · intro hm
      obtain ⟨dr1, dc1, hstep1, k1, pk1, hf1, j1, hj1, heq, hcase⟩ := (hmem _).1 ⟨hm, rfl, rfl⟩
      obtain ⟨rfl, rfl, rfl⟩ := ray_move_inj hstep hstep1 hj hj1 heq
      obtain ⟨rfl, rfl⟩ := hf.unique hf1
      exact hcase
    · intro hcase
      exact ((hmem _).2 ⟨dr, dc, hstep, k, pk, hf, j, hj, rfl, hcase⟩).1
  refine ⟨L, k, pk, hL, hf, hiff, fun hm => ?_⟩
  rcases (hiff k hf.1).1 hm with h | ⟨_, q, hq, _⟩
  · omega
  · have := hq.1
    omega

/-- Witness of C12: the up cannon on (4, 3) of the starting position, looking
down its column: screen at distance 4, capture at distance 7. -/
theorem C12_cannon_ray_moves_witness :
    WellFormed ChessBoard.new ∧ isPlayer PS_UP ∧ playable 4 3 ∧
    ChessBoard.new.get 4 3 = some P_UC ∧ piece_get_side P_UC = PS_UP ∧
    piece_get_type P_UC = PT_CANNON ∧ isStep 1 0 ∧
    ∃ L k pk, gen_possible_moves ChessBoard.new PS_UP = some L ∧
      FirstNonEmpty ChessBoard.new 4 3 1 0 1 k pk ∧
      (∀ j : Nat, 1 ≤ j →
        ((⟨4, 3, 4 + j * 1, 3 + j * 0⟩ : MoveNode) ∈ L ↔
          (j < k ∨ (pk ≠ P_EO ∧ ∃ q, FirstNonEmpty ChessBoard.new 4 3 1 0 (k + 1) j q ∧
            piece_get_side q = piece_side_get_reverse PS_UP)))) ∧
      (⟨4, 3, 4 + k * 1, 3 + k * 0⟩ : MoveNode) ∉ L :=
  ⟨by decide, by decide, by decide, by decide, rfl, rfl, isStep_down,
    C12_cannon_ray_moves ChessBoard.new (by decide) PS_UP (by decide) 4 3 (by decide) P_UC
      (by decide) rfl rfl 1 0 isStep_down⟩

/-- C13: on a well-formed board, for a rook of the player on a playable cell
`(r, c)` and an orthogonal direction, let `k` be the distance of the first
non-empty cell of the ray and `pk` its content.  The move from `(r, c)` to
the ray cell at distance `j` is generated exactly when `j < k` (an empty cell
before it), or `j = k` and `pk` is a piece of the other side.  In particular
the first non-empty cell is never a destination when it holds a piece of the
player or the out-of-board sentinel. -/
theorem C13_rook_ray_moves (cb : ChessBoard) (hwf : WellFormed cb) (side : PieceSide)
    (hs : isPlayer side) (r c : Int) (hpl : playable r c) (p : Piece)
    (hp : cb.get r c = some p) (hside : piece_get_side p = side)
    (ht : piece_get_type p = PT_ROOK) (dr dc : Int) (hstep : isStep dr dc) :
    ∃ L k pk, gen_possible_moves cb side = some L ∧ FirstNonEmpty cb r c dr dc 1 k pk ∧
      (∀ j : Nat, 1 ≤ j →
        ((⟨r, c, r + j * dr, c + j * dc⟩ : MoveNode) ∈ L ↔
          (j < k ∨ (j = k ∧ piece_get_side pk = piece_side_get_reverse side)))) ∧
      (piece_get_side pk = side ∨ pk = P_EO →
        (⟨r, c, r + k * dr, c + k * dc⟩ : MoveNode) ∉ L) := by
  obtain ⟨L, hL, hmem⟩ := gen_possible_moves_from_cell hwf hs hpl hp hside
  rw [ht] at hmem
  have hpl0 : playable (r + ((0 : Nat) : Int) * dr) (c + ((0 : Nat) : Int) * dc) := by
    rw [ray_zero, ray_zero]; exact hpl
  obtain ⟨k, pk, hf, _⟩ := firstNonEmpty_from_playable hwf hstep hpl0
  have hiff : ∀ j : Nat, 1 ≤ j →
      ((⟨r, c, r + j * dr, c + j * dc⟩ : MoveNode) ∈ L ↔
        (j < k ∨ (j = k ∧ piece_get_side pk = piece_side_get_reverse side))) := by
    intro j hj
    constructor
    · intro hm
      obtain ⟨dr1, dc1, hstep1, k1, pk1, hf1, j1, hj1, heq, hcase⟩ := (hmem _).1 ⟨hm, rfl, rfl⟩
      obtain ⟨rfl, rfl, rfl⟩ := ray_move_inj hstep hstep1 hj hj1 heq
      obtain ⟨rfl, rfl⟩ := hf.unique hf1
      exact hcase
    · intro hcase
      exact ((hmem _).2 ⟨dr, dc, hstep, k, pk, hf, j, hj, rfl, hcase⟩).1
  refine ⟨L, k, pk, hL, hf, hiff, fun hown hm => ?_⟩
  rcases (hiff k hf.1).1 hm with h | ⟨_, hrev⟩
  · omega
  · rcases hown with h | rfl
    · exact side_ne_reverse hs (hrev.symm.trans h)
    · exact reverse_ne_extra hs hrev.symm

/-- Witness of C13: the up rook on (2, 2) of the starting position, looking
down its column. -/
theorem C13_rook_ray_moves_witness :
    WellFormed ChessBoard.new ∧ isPlayer PS_UP ∧ playable 2 2 ∧
    ChessBoard.new.get 2 2 = some P_UR ∧ piece_get_side P_UR = PS_UP ∧
    piece_get_type P_UR = PT_ROOK ∧ isStep 1 0 ∧
    ∃ L k pk, gen_possible_moves ChessBoard.new PS_UP = some L ∧
      FirstNonEmpty ChessBoard.new 2 2 1 0 1 k pk ∧
      (∀ j : Nat, 1 ≤ j →
        ((⟨2, 2, 2 + j * 1, 2 + j * 0⟩ : MoveNode) ∈ L ↔
          (j < k ∨ (j = k ∧ piece_get_side pk = piece_side_get_reverse PS_UP)))) ∧
      (piece_get_side pk = PS_UP ∨ pk = P_EO →
        (⟨2, 2, 2 + k * 1, 2 + k * 0⟩ : MoveNode) ∉ L) :=
  ⟨by decide, by decide, by decide, by decide, rfl, rfl, isStep_down,
    C13_rook_ray_moves ChessBoard.new (by decide) PS_UP (by decide) 2 2 (by decide) P_UR
      (by decide) rfl rfl 1 0 isStep_down⟩

/-! ## Knight, bishop, advisor (C14, C15, C16) -/

/-- C14: on a well-formed board, for a knight of the player on a playable cell
`(r, c)` and `a`, `b` in `{1, -1}`: the leap to `(r + 2a, c + b)` is generated
exactly when the leg `(r + a, c)` is empty and the destination is not
out-of-board and not occupied by the player; the leap to `(r + b, c + 2a)`
exactly when the leg `(r, c + a)` is empty and the destination is not
out-of-board and not occupied by the player. -/
theorem C14_knight_leaps (cb : ChessBoard) (hwf : WellFormed cb) (side : PieceSide)
    (hs : isPlayer side) (r c : Int) (hpl : playable r c) (p : Piece)
    (hp : cb.get r c = some p) (hside : piece_get_side p = side)
    (ht : piece_get_type p = PT_KNIGHT) :
    ∃ L, gen_possible_moves cb side = some L ∧
      ∀ a b : Int, (a = 1 ∨ a = -1) → (b = 1 ∨ b = -1) →
        (((⟨r, c, r + 2 * a, c + b⟩ : MoveNode) ∈ L ↔
            cb.get (r + a) c = some P_EE ∧
            ∃ q, cb.get (r + 2 * a) (c + b) = some q ∧ q ≠ P_EO ∧ piece_get_side q ≠ side) ∧
          ((⟨r, c, r + b, c + 2 * a⟩ : MoveNode) ∈ L ↔
            cb.get r (c + a) = some P_EE ∧
            ∃ q, cb.get (r + b) (c + 2 * a) = some q ∧ q ≠ P_EO ∧ piece_get_side q ≠ side)) := by
  obtain ⟨L, hL, hmem⟩ := gen_possible_moves_from_cell hwf hs hpl hp hside
  rw [ht] at hmem
  refine ⟨L, hL, fun a b ha hb => ⟨?_, ?_⟩⟩
  · constructor
    · intro hm
      obtain ⟨a1, b1, ha1, hb1, h⟩ := (hmem _).1 ⟨hm, rfl, rfl⟩
      unfold isUnit1 at ha1 hb1
      rcases h with ⟨heq, hl, hd⟩ | ⟨heq, hl, hd⟩
      · simp only [MoveNode.mk.injEq, true_and] at heq
        obtain ⟨rfl, rfl⟩ : a1 = a ∧ b1 = b := by omega
        exact ⟨hl, hd⟩
      · simp only [MoveNode.mk.injEq, true_and] at heq
        omega
    · rintro ⟨hl, hd⟩
      exact ((hmem _).2 ⟨a, b, ha, hb, Or.inl ⟨rfl, hl, hd⟩⟩).1
  · constructor
    · intro hm
      obtain ⟨a1, b1, ha1, hb1, h⟩ := (hmem _).1 ⟨hm, rfl, rfl⟩
      unfold isUnit1 at ha1 hb1
      rcases h with ⟨heq, hl, hd⟩ | ⟨heq, hl, hd⟩
      · simp only [MoveNode.mk.injEq, true_and] at heq
        omega
      · simp only [MoveNode.mk.injEq, true_and] at heq
        obtain ⟨rfl, rfl⟩ : a1 = a ∧ b1 = b := by omega
        exact ⟨hl, hd⟩
    · rintro ⟨hl, hd⟩
      exact ((hmem _).2 ⟨a, b, ha, hb, Or.inr ⟨rfl, hl, hd⟩⟩).1

/-- Witness of C14: the up knight on (2, 3) of the starting position. -/
theorem C14_knight_leaps_witness :
    WellFormed ChessBoard.new ∧ isPlayer PS_UP ∧ playable 2 3 ∧
    ChessBoard.new.get 2 3 = some P_UN ∧ piece_get_side P_UN = PS_UP ∧
    piece_get_type P_UN = PT_KNIGHT ∧
    ∃ L, gen_possible_moves ChessBoard.new PS_UP = some L ∧
      ∀ a b : Int, (a = 1 ∨ a = -1) → (b = 1 ∨ b = -1) →
        (((⟨2, 3, 2 + 2 * a, 3 + b⟩ : MoveNode) ∈ L ↔
            ChessBoard.new.get (2 + a) 3 = some P_EE ∧
            ∃ q, ChessBoard.new.get (2 + 2 * a) (3 + b) = some q ∧ q ≠ P_EO ∧
              piece_get_side q ≠ PS_UP) ∧
          ((⟨2, 3, 2 + b, 3 + 2 * a⟩ : MoveNode) ∈ L ↔
            ChessBoard.new.get 2 (3 + a) = some P_EE ∧
            ∃ q, ChessBoard.new.get (2 + b) (3 + 2 * a) = some q ∧ q ≠ P_EO ∧
              piece_get_side q ≠ PS_UP)) :=
  ⟨by decide, by decide, by decide, by decide, rfl, rfl,
    C14_knight_leaps ChessBoard.new (by decide) PS_UP (by decide) 2 3 (by decide) P_UN
      (by decide) rfl rfl⟩

/-- C15: on a well-formed board, for a bishop of the player on a playable cell
`(r, c)`, the generated moves that start on `(r, c)` are exactly the leaps to
`(r + 2a, c + 2b)`, `a`, `b` in `{1, -1}`, whose eye `(r + a, c + b)` is
empty, whose destination is not out-of-board and not occupied by the player,
and which, when they go toward the opponent, stay on the own side of the
river.  Hence a bishop on its own half has no generated move that ends on the
other half. -/
theorem C15_bishop_leaps (cb : ChessBoard) (hwf : WellFormed cb) (side : PieceSide)
    (hs : isPlayer side) (r c : Int) (hpl : playable r c) (p : Piece)
    (hp : cb.get r c = some p) (hside : piece_get_side p = side)
    (ht : piece_get_type p = PT_BISHOP) :
    ∃ L, gen_possible_moves cb side = some L ∧
      (∀ m, (m ∈ L ∧ m.beginRow = r ∧ m.beginCol = c) ↔
        ∃ a b : Int, (a = 1 ∨ a = -1) ∧ (b = 1 ∨ b = -1) ∧ m = ⟨r, c, r + 2 * a, c + 2 * b⟩ ∧
          cb.get (r + a) (c + b) = some P_EE ∧
          (∃ q, cb.get (r + 2 * a) (c + 2 * b) = some q ∧ q ≠ P_EO ∧ piece_get_side q ≠ side) ∧
          (side = PS_UP → a = 1 → r + 2 ≤ 6) ∧ (side = PS_DOWN → a = -1 → r - 2 ≥ 7)) ∧
      (side = PS_UP → r ≤ 6 →
        ∀ m ∈ L, m.beginRow = r → m.beginCol = c → m.endRow ≤ 6) ∧
      (side = PS_DOWN → 7 ≤ r →
        ∀ m ∈ L, m.beginRow = r → m.beginCol = c → 7 ≤ m.endRow) := by
  obtain ⟨L, hL, hmem⟩ := gen_possible_moves_from_cell hwf hs hpl hp hside
  rw [ht] at hmem
  refine ⟨L, hL, hmem, ?_, ?_⟩
  · intro hup hr m hm h1 h2
    obtain ⟨a, b, ha, _, rfl, _, _, hriver, _⟩ := (hmem m).1 ⟨hm, h1, h2⟩
    have := hriver hup
    unfold isUnit1 at ha
    show r + 2 * a ≤ 6
    omega
  · intro hdown hr m hm h1 h2
    obtain ⟨a, b, ha, _, rfl, _, _, _, hriver⟩ := (hmem m).1 ⟨hm, h1, h2⟩
    have := hriver hdown
    unfold isUnit1 at ha
    show 7 ≤ r + 2 * a
    omega

/-- Witness of C15: the up bishop on (2, 4) of the starting position. -/
theorem C15_bishop_leaps_witness :
    WellFormed ChessBoard.new ∧ isPlayer PS_UP ∧ playable 2 4 ∧
    ChessBoard.new.get 2 4 = some P_UB ∧ piece_get_side P_UB = PS_UP ∧
    piece_get_type P_UB = PT_BISHOP ∧
    ∃ L, gen_possible_moves ChessBoard.new PS_UP = some L ∧
      (∀ m, (m ∈ L ∧ m.beginRow = 2 ∧ m.beginCol = 4) ↔
        ∃ a b : Int, (a = 1 ∨ a = -1) ∧ (b = 1 ∨ b = -1) ∧ m = ⟨2, 4, 2 + 2 * a, 4 + 2 * b⟩ ∧
          ChessBoard.new.get (2 + a) (4 + b) = some P_EE ∧
          (∃ q, ChessBoard.new.get (2 + 2 * a) (4 + 2 * b) = some q ∧ q ≠ P_EO ∧
            piece_get_side q ≠ PS_UP) ∧
          (PS_UP = PS_UP → a = 1 → (2 : Int) + 2 ≤ 6) ∧
          (PS_UP = PS_DOWN → a = -1 → (2 : Int) - 2 ≥ 7)) ∧
      (PS_UP = PS_UP → (2 : Int) ≤ 6 →
        ∀ m ∈ L, m.beginRow = 2 → m.beginCol = 4 → m.endRow ≤ 6) ∧
      (PS_UP = PS_DOWN → (7 : Int) ≤ 2 →
        ∀ m ∈ L, m.beginRow = 2 → m.beginCol = 4 → 7 ≤ m.endRow) :=
  ⟨by decide, by decide, by decide, by decide, rfl, rfl,
    C15_bishop_leaps ChessBoard.new (by decide) PS_UP (by decide) 2 4 (by decide) P_UB
      (by decide) rfl rfl⟩

/-- C16: on a well-formed board, for an advisor of the player standing inside
the player's own palace, the generated moves that start on its cell are
exactly the single diagonal steps whose destination lies inside that palace
and is not occupied by the player; so every one of them ends inside the
palace. -/
theorem C16_advisor_steps (cb : ChessBoard) (hwf : WellFormed cb) (side : PieceSide)
    (hs : isPlayer side) (r c : Int) (hin : inPalace side r c) (p : Piece)
    (hp : cb.get r c = some p) (hside : piece_get_side p = side)
    (ht : piece_get_type p = PT_ADVISOR) :
    ∃ L, gen_possible_moves cb side = some L ∧
      (∀ m, (m ∈ L ∧ m.beginRow = r ∧ m.beginCol = c) ↔
        ∃ a b : Int, (a = 1 ∨ a = -1) ∧ (b = 1 ∨ b = -1) ∧ m = ⟨r, c, r + a, c + b⟩ ∧
          inPalace side (r + a) (c + b) ∧
          ∃ q, cb.get (r + a) (c + b) = some q ∧ piece_get_side q ≠ side) ∧
      (∀ m ∈ L, m.beginRow = r → m.beginCol = c → inPalace side m.endRow m.endCol) := by
  obtain ⟨L, hL, hmem⟩ :=
    gen_possible_moves_from_cell hwf hs (playable_of_inPalace hin) hp hside
  rw [ht] at hmem
  have hiff : ∀ m, (m ∈ L ∧ m.beginRow = r ∧ m.beginCol = c) ↔
      ∃ a b : Int, (a = 1 ∨ a = -1) ∧ (b = 1 ∨ b = -1) ∧ m = ⟨r, c, r + a, c + b⟩ ∧
        inPalace side (r + a) (c + b) ∧
        ∃ q, cb.get (r + a) (c + b) = some q ∧ piece_get_side q ≠ side := by
    intro m
    rw [hmem]
    constructor
    · rintro ⟨a, b, ha, hb, hm, htest, hd⟩
      have hpal : inPalace side (r + a) (c + b) :=
        (stepTested_iff_inPalace hs hin (by unfold isUnit1 at ha; omega)
          (by unfold isUnit1 at hb; omega)).1 htest
      exact ⟨a, b, ha, hb, hm, hpal,
        (destOK_iff_of_playable hwf side (playable_of_inPalace hpal)).1 hd⟩
    · rintro ⟨a, b, ha, hb, hm, hpal, hq⟩
      exact ⟨a, b, ha, hb, hm,
        (stepTested_iff_inPalace hs hin (by omega) (by omega)).2 hpal,
        (destOK_iff_of_playable hwf side (playable_of_inPalace hpal)).2 hq⟩
  refine ⟨L, hL, hiff, fun m hm h1 h2 => ?_⟩
  obtain ⟨a, b, _, _, rfl, hpal, _⟩ := (hiff m).1 ⟨hm, h1, h2⟩
  exact hpal

/-- Witness of C16: the up advisor on (2, 5) of the starting position. -/
theorem C16_advisor_steps_witness :
    WellFormed ChessBoard.new ∧ isPlayer PS_UP ∧ inPalace PS_UP 2 5 ∧
    ChessBoard.new.get 2 5 = some P_UA ∧ piece_get_side P_UA = PS_UP ∧
    piece_get_type P_UA = PT_ADVISOR ∧
    ∃ L, gen_possible_moves ChessBoard.new PS_UP = some L ∧
      (∀ m, (m ∈ L ∧ m.beginRow = 2 ∧ m.beginCol = 5) ↔
        ∃ a b : Int, (a = 1 ∨ a = -1) ∧ (b = 1 ∨ b = -1) ∧ m = ⟨2, 5, 2 + a, 5 + b⟩ ∧
          inPalace PS_UP (2 + a) (5 + b) ∧
          ∃ q, ChessBoard.new.get (2 + a) (5 + b) = some q ∧ piece_get_side q ≠ PS_UP) ∧
      (∀ m ∈ L, m.beginRow = 2 → m.beginCol = 5 → inPalace PS_UP m.endRow m.endCol) :=
  ⟨by decide, by decide, by decide, by decide, rfl, rfl,
    C16_advisor_steps ChessBoard.new (by decide) PS_UP (by decide) 2 5 (by decide) P_UA
      (by decide) rfl rfl⟩

/-! ## General (C17, C18) -/

/-- C17: on a well-formed board with the up general in the up palace on
`(ru, c)` and the down general in the down palace on `(rd, c)`, the same
column, the move of a general onto the other general is generated for its
side exactly when every cell strictly between them is empty; so a piece
between them removes both moves. -/
theorem C17_flying_general_iff_clear (cb : ChessBoard) (hwf : WellFormed cb) (ru rd c : Int)
    (hu : cb.get ru c = some P_UG) (hup : inPalace PS_UP ru c)
    (hd : cb.get rd c = some P_DG) (hdp : inPalace PS_DOWN rd c) :
    ∃ LU LD, gen_possible_moves cb PS_UP = some LU ∧ gen_possible_moves cb PS_DOWN = some LD ∧
      ((⟨ru, c, rd, c⟩ : MoveNode) ∈ LU ↔ ∀ x : Int, ru < x → x < rd → cb.get x c = some P_EE) ∧
      ((⟨rd, c, ru, c⟩ : MoveNode) ∈ LD ↔ ∀ x : Int, ru < x → x < rd → cb.get x c = some P_EE) ∧
      (∀ (x : Int) (q : Piece), ru < x → x < rd → cb.get x c = some q → q ≠ P_EE →
        (⟨ru, c, rd, c⟩ : MoveNode) ∉ LU ∧ (⟨rd, c, ru, c⟩ : MoveNode) ∉ LD) := by
  obtain ⟨LU, hLU, hmu⟩ := gen_possible_moves_from_cell hwf (Or.inl rfl : isPlayer PS_UP)
    (playable_of_inPalace hup) hu rfl
  obtain ⟨LD, hLD, hmd⟩ := gen_possible_moves_from_cell hwf (Or.inr rfl : isPlayer PS_DOWN)
    (playable_of_inPalace hdp) hd rfl
  have hru := (inPalace_up ru c).1 hup
  have hrd := (inPalace_down rd c).1 hdp
  have hiU : (⟨ru, c, rd, c⟩ : MoveNode) ∈ LU ↔
      ∀ x : Int, ru < x → x < rd → cb.get x c = some P_EE := by
    constructor
    · intro hm
      have h := (hmu _).1 ⟨hm, rfl, rfl⟩
      change GeneralMoves cb PS_UP ru c _ at h
      rcases h with ⟨a, b, hab, heq, _⟩ | ⟨_, row, _, _, hclear, _, heq⟩ | ⟨hne, _⟩
      · simp only [MoveNode.mk.injEq, true_and] at heq
        unfold isStep at hab
        omega
      · simp only [MoveNode.mk.injEq, true_and, and_true] at heq
        subst heq
        exact hclear
      · cases hne
    · intro hclear
      have h : GeneralMoves cb PS_UP ru c ⟨ru, c, rd, c⟩ :=
        Or.inr (Or.inl ⟨rfl, rd, by omega, by omega, hclear, hd, rfl⟩)
      exact ((hmu _).2 h).1
  have hiD : (⟨rd, c, ru, c⟩ : MoveNode) ∈ LD ↔
      ∀ x : Int, ru < x → x < rd → cb.get x c = some P_EE := by
    constructor
    · intro hm
      have h := (hmd _).1 ⟨hm, rfl, rfl⟩
      change GeneralMoves cb PS_DOWN rd c _ at h
      rcases h with ⟨a, b, hab, heq, _⟩ | ⟨hne, _⟩ | ⟨_, row, _, _, hclear, _, heq⟩
      · simp only [MoveNode.mk.injEq, true_and] at heq
        unfold isStep at hab
        omega
      · cases hne
      · simp only [MoveNode.mk.injEq, true_and, and_true] at heq
        subst heq
        exact hclear
    · intro hclear
      have h : GeneralMoves cb PS_DOWN rd c ⟨rd, c, ru, c⟩ :=
        Or.inr (Or.inr ⟨rfl, ru, by omega, by omega, hclear, hu, rfl⟩)
      exact ((hmd _).2 h).1
  refine ⟨LU, LD, hLU, hLD, hiU, hiD, fun x q h1 h2 hq hne => ?_⟩
  have hblock : ¬ ∀ y : Int, ru < y → y < rd → cb.get y c = some P_EE := by
    intro hall
    have := hall x h1 h2
    rw [hq] at this
    exact hne (Option.some.inj this)
  exact ⟨fun hm => hblock (hiU.1 hm), fun hm => hblock (hiD.1 hm)⟩

/-- Witness of C17: the two generals facing each other on column 6. -/
theorem C17_flying_general_iff_clear_witness :
    WellFormed FACING_GENERALS ∧ FACING_GENERALS.get 2 6 = some P_UG ∧ inPalace PS_UP 2 6 ∧
    FACING_GENERALS.get 11 6 = some P_DG ∧ inPalace PS_DOWN 11 6 ∧
    ∃ LU LD, gen_possible_moves FACING_GENERALS PS_UP = some LU ∧
      gen_possible_moves FACING_GENERALS PS_DOWN = some LD ∧
      ((⟨2, 6, 11, 6⟩ : MoveNode) ∈ LU ↔
        ∀ x : Int, 2 < x → x < 11 → FACING_GENERALS.get x 6 = some P_EE) ∧
      ((⟨11, 6, 2, 6⟩ : MoveNode) ∈ LD ↔
        ∀ x : Int, 2 < x → x < 11 → FACING_GENERALS.get x 6 = some P_EE) ∧
      (∀ (x : Int) (q : Piece), 2 < x → x < 11 → FACING_GENERALS.get x 6 = some q → q ≠ P_EE →
        (⟨2, 6, 11, 6⟩ : MoveNode) ∉ LU ∧ (⟨11, 6, 2, 6⟩ : MoveNode) ∉ LD) :=
  ⟨by decide, by decide, by decide, by decide, by decide,
    C17_flying_general_iff_clear FACING_GENERALS (by decide) 2 11 6 (by decide) (by decide)
      (by decide) (by decide)⟩

/-- C18: on a well-formed board, for a general of the player standing inside
the player's own palace, every generated move that starts on its cell is a
single orthogonal step to a cell of that palace not occupied by the player, or
it ends in the same column on a cell that holds the general of the other side;
so a generated move that leaves the palace ends on the other general. -/
theorem C18_general_moves (cb : ChessBoard) (hwf : WellFormed cb) (side : PieceSide)
    (hs : isPlayer side) (r c : Int) (hin : inPalace side r c) (p : Piece)
    (hp : cb.get r c = some p) (hside : piece_get_side p = side)
    (ht : piece_get_type p = PT_GENERAL) :
    ∃ L, gen_possible_moves cb side = some L ∧
      (∀ m ∈ L, m.beginRow = r → m.beginCol = c →
        ((∃ a b : Int, isStep a b ∧ m.endRow = r + a ∧ m.endCol = c + b ∧
            inPalace side m.endRow m.endCol ∧
            ∃ q, cb.get m.endRow m.endCol = some q ∧ piece_get_side q ≠ side) ∨
          (m.endCol = c ∧ ∃ g, cb.get m.endRow m.endCol = some g ∧
            piece_get_type g = PT_GENERAL ∧
            piece_get_side g = piece_side_get_reverse side))) ∧
      (∀ m ∈ L, m.beginRow = r → m.beginCol = c → ¬ inPalace side m.endRow m.endCol →
        m.endCol = c ∧ ∃ g, cb.get m.endRow m.endCol = some g ∧
          piece_get_type g = PT_GENERAL ∧ piece_get_side g = piece_side_get_reverse side) := by
  obtain ⟨L, hL, hmem⟩ :=
    gen_possible_moves_from_cell hwf hs (playable_of_inPalace hin) hp hside
  rw [ht] at hmem
  have key : ∀ m ∈ L, m.beginRow = r → m.beginCol = c →
      ((∃ a b : Int, isStep a b ∧ m.endRow = r + a ∧ m.endCol = c + b ∧
          inPalace side m.endRow m.endCol ∧
          ∃ q, cb.get m.endRow m.endCol = some q ∧ piece_get_side q ≠ side) ∨
        (m.endCol = c ∧ ∃ g, cb.get m.endRow m.endCol = some g ∧
          piece_get_type g = PT_GENERAL ∧
          piece_get_side g = piece_side_get_reverse side)) := by
    intro m hm h1 h2
    have h := (hmem m).1 ⟨hm, h1, h2⟩
    change GeneralMoves cb side r c m at h
    rcases h with ⟨a, b, hab, rfl, htest, hdest⟩ | ⟨rfl, row, _, _, _, hg, rfl⟩ |
      ⟨rfl, row, _, _, _, hg, rfl⟩
    · have hpal : inPalace side (r + a) (c + b) :=
        (stepTested_iff_inPalace hs hin (by unfold isStep at hab; omega)
          (by unfold isStep at hab; omega)).1 htest
      exact Or.inl ⟨a, b, hab, rfl, rfl, hpal,
        (destOK_iff_of_playable hwf side (playable_of_inPalace hpal)).1 hdest⟩
    · exact Or.inr ⟨rfl, P_DG, hg, rfl, rfl⟩
    · exact Or.inr ⟨rfl, P_UG, hg, rfl, rfl⟩
  refine ⟨L, hL, key, fun m hm h1 h2 hout => ?_⟩
  rcases key m hm h1 h2 with ⟨_, _, _, _, _, hpal, _⟩ | h
  · exact absurd hpal hout
  · exact h

/-- Witness of C18: the up general of the position with the two generals
facing each other. -/
theorem C18_general_moves_witness :
    WellFormed FACING_GENERALS ∧ isPlayer PS_UP ∧ inPalace PS_UP 2 6 ∧
    FACING_GENERALS.get 2 6 = some P_UG ∧ piece_get_side P_UG = PS_UP ∧
    piece_get_type P_UG = PT_GENERAL ∧
    ∃ L, gen_possible_moves FACING_GENERALS PS_UP = some L ∧
      (∀ m ∈ L, m.beginRow = 2 → m.beginCol = 6 →
        ((∃ a b : Int, isStep a b ∧ m.endRow = 2 + a ∧ m.endCol = 6 + b ∧
            inPalace PS_UP m.endRow m.endCol ∧
            ∃ q, FACING_GENERALS.get m.endRow m.endCol = some q ∧ piece_get_side q ≠ PS_UP) ∨
          (m.endCol = 6 ∧ ∃ g, FACING_GENERALS.get m.endRow m.endCol = some g ∧
            piece_get_type g = PT_GENERAL ∧
            piece_get_side g = piece_side_get_reverse PS_UP))) ∧
      (∀ m ∈ L, m.beginRow = 2 → m.beginCol = 6 → ¬ inPalace PS_UP m.endRow m.endCol →
        m.endCol = 6 ∧ ∃ g, FACING_GENERALS.get m.endRow m.endCol = some g ∧
          piece_get_type g = PT_GENERAL ∧
          piece_get_side g = piece_side_get_reverse PS_UP) :=
  ⟨by decide, by decide, by decide, by decide, rfl, rfl,
    C18_general_moves FACING_GENERALS (by decide) PS_UP (by decide) 2 6 (by decide) P_UG
      (by decide) rfl rfl⟩

/-! ## The winner (C19, C20) -/

/-- C19: `check_winner` returns a result on every board; the result is
`PS_EXTRA` exactly when the up general is on a cell of the up palace and the
down general on a cell of the down palace, `PS_UP` exactly when the up general
is in the up palace and the down general is not in the down palace, and
`PS_DOWN` in every other case, that is exactly when the up general is not in
the up palace (so also when both generals are absent).  On the starting
position it is `PS_EXTRA`, after removing the up general `PS_DOWN`, after
removing the down general `PS_UP`. -/
theorem C19_check_winner_cases :
    (∀ cb : ChessBoard, ∃ w, check_winner cb = some w ∧
      (w = PS_EXTRA ↔ generalInPalace cb PS_UP P_UG ∧ generalInPalace cb PS_DOWN P_DG) ∧
      (w = PS_UP ↔ generalInPalace cb PS_UP P_UG ∧ ¬ generalInPalace cb PS_DOWN P_DG) ∧
      (w = PS_DOWN ↔ ¬ generalInPalace cb PS_UP P_UG)) ∧
    (∀ cb : ChessBoard, ¬ generalInPalace cb PS_UP P_UG → ¬ generalInPalace cb PS_DOWN P_DG →
      check_winner cb = some PS_DOWN) ∧
    check_winner ChessBoard.new = some PS_EXTRA ∧
    (ChessBoard.new.set 2 6 P_EE).bind check_winner = some PS_DOWN ∧
    (ChessBoard.new.set 11 6 P_EE).bind check_winner = some PS_UP := by
  have main : ∀ cb : ChessBoard, ∃ w, check_winner cb = some w ∧
      (w = PS_EXTRA ↔ generalInPalace cb PS_UP P_UG ∧ generalInPalace cb PS_DOWN P_DG) ∧
      (w = PS_UP ↔ generalInPalace cb PS_UP P_UG ∧ ¬ generalInPalace cb PS_DOWN P_DG) ∧
      (w = PS_DOWN ↔ ¬ generalInPalace cb PS_UP P_UG) := by
    intro cb
    obtain ⟨u, d, hu, hd, hw⟩ := check_winner_flags cb
    refine ⟨_, hw, ?_⟩
    rw [← hu, ← hd]
    cases u <;> cases d <;> simp
  refine ⟨main, fun cb h1 h2 => ?_, by decide, by decide, by decide⟩
  obtain ⟨w, hw, _, _, h3⟩ := main cb
  rw [hw, h3.2 h1]

/-- C20 (evaluated on the code): on the well-formed position with exactly the
two generals, each in its own palace and facing each other, the capture of the
down general by the up general is generated for up; after it the up general
stands on (11, 6), no cell holds the down general, and `check_winner` returns
`PS_DOWN`, not `PS_UP`.  The capture by the down general is generated for
down, and after it `check_winner` returns `PS_DOWN`. -/
theorem C20_flying_capture_by_up_yields_down :
    WellFormed FACING_GENERALS ∧
    generalInPalace FACING_GENERALS PS_UP P_UG ∧ generalInPalace FACING_GENERALS PS_DOWN P_DG ∧
    (∃ L, gen_possible_moves FACING_GENERALS PS_UP = some L ∧ (⟨2, 6, 11, 6⟩ : MoveNode) ∈ L) ∧
    (∃ cb, FACING_GENERALS.move ⟨2, 6, 11, 6⟩ = some cb ∧ cb.get 11 6 = some P_UG ∧
      (∀ i j, cb.cell i j ≠ P_DG) ∧ check_winner cb = some PS_DOWN) ∧
    (∃ L, gen_possible_moves FACING_GENERALS PS_DOWN = some L ∧
      (⟨11, 6, 2, 6⟩ : MoveNode) ∈ L) ∧
    (∃ cb, FACING_GENERALS.move ⟨11, 6, 2, 6⟩ = some cb ∧ cb.get 2 6 = some P_DG ∧
      (∀ i j, cb.cell i j ≠ P_UG) ∧ check_winner cb = some PS_DOWN) := by
  refine ⟨by decide, ⟨2, 6, by decide, by decide⟩, ⟨11, 6, by decide, by decide⟩,
    ⟨_, rfl, by decide⟩, ?_, ⟨_, rfl, by decide⟩, ?_⟩
  · exact ⟨_, rfl, by decide, by decide, by decide⟩
  · exact ⟨_, rfl, by decide, by decide, by decide⟩

/-! # Board effects, reads, evaluation and order -/

/-! ## Moves and resets in padded coordinates -/

theorem rowIdx_eq_iff {r c : Int} (h : inGrid r c) (i : Fin 14) :
    i = rowIdx r c h ↔ (i.val : Int) = r := by
  unfold inGrid at h
  rw [Fin.ext_iff]
  show i.val = r.toNat ↔ _
  omega

theorem colIdx_eq_iff {r c : Int} (h : inGrid r c) (j : Fin 13) :
    j = colIdx r c h ↔ (j.val : Int) = c := by
  unfold inGrid at h
  rw [Fin.ext_iff]
  show j.val = c.toNat ↔ _
  omega

theorem rowIdx_val {r c : Int} (h : inGrid r c) : ((rowIdx r c h).val : Int) = r :=
  (rowIdx_eq_iff h _).1 rfl

theorem colIdx_val {r c : Int} (h : inGrid r c) : ((colIdx r c h).val : Int) = c :=
  (colIdx_eq_iff h _).1 rfl

theorem get_none_of_not_inGrid (cb : ChessBoard) {r c : Int} (h : ¬ inGrid r c) :
    cb.get r c = none := by
  simp [ChessBoard.get, h]

/-- The effect of `ChessBoard::move` on an in-grid move, read through
`ChessBoard::get`. -/
theorem move_get (cb : ChessBoard) (m : MoveNode)
    (hb : inGrid m.beginRow m.beginCol) (he : inGrid m.endRow m.endCol) :
    ∃ cb1 beginPiece endPiece, cb.get m.beginRow m.beginCol = some beginPiece ∧
      cb.get m.endRow m.endCol = some endPiece ∧ cb.move m = some cb1 ∧
      cb1.history = cb.history ++ [⟨m, beginPiece, endPiece⟩] ∧
      ∀ r c, cb1.get r c =
        if r = m.endRow ∧ c = m.endCol then some beginPiece
        else if r = m.beginRow ∧ c = m.beginCol then some P_EE
        else cb.get r c := by
  obtain ⟨cb1, h1, hh1, hc1⟩ := move_of_inGrid cb m hb he
  refine ⟨cb1, _, _, get_of_inGrid cb hb, get_of_inGrid cb he, h1, hh1, fun r c => ?_⟩
  by_cases h : inGrid r c
  · rw [get_of_inGrid cb1 h, get_of_inGrid cb h, hc1]
    simp only [rowIdx_eq_iff, colIdx_eq_iff, rowIdx_val, colIdx_val]
    split_ifs <;> rfl
  · rw [get_none_of_not_inGrid cb1 h, get_none_of_not_inGrid cb h]
    have h2 : ¬ (r = m.endRow ∧ c = m.endCol) := by
      rintro ⟨rfl, rfl⟩
      exact h he
    have h3 : ¬ (r = m.beginRow ∧ c = m.beginCol) := by
      rintro ⟨rfl, rfl⟩
      exact h hb
    rw [if_neg h2, if_neg h3]

/-- The template of the single-file variant, read at the indices of a cell,
is the cell of the fresh board. -/
theorem default_data_at_cell :
    ∀ (i : Fin 14) (j : Fin 13),
      single_file.default_data_at (i.val : Int) (j.val : Int) = some (ChessBoard.new.cell i j) := by
  decide

theorem clear_cell_spec (cb : ChessBoard) {r c : Int} (h : inGrid r c) :
    ∃ cb1, single_file.clear_cell r c cb = some cb1 ∧ cb1.history = cb.history ∧
      ∀ i j, cb1.cell i j =
        if (i.val : Int) = r ∧ (j.val : Int) = c then ChessBoard.new.cell i j else cb.cell i j := by
  have hd := default_data_at_cell (rowIdx r c h) (colIdx r c h)
  rw [rowIdx_val, colIdx_val] at hd
  obtain ⟨cb1, h1, hh1, hc1⟩ := set_of_inGrid cb
    (ChessBoard.new.cell (rowIdx r c h) (colIdx r c h)) h
  refine ⟨cb1, ?_, hh1, fun i j => ?_⟩
  · simp only [single_file.clear_cell, hd, Option.bind_eq_bind, Option.some_bind, h1]
  · rw [hc1]
    simp only [rowIdx_eq_iff, colIdx_eq_iff]
    by_cases hij : (i.val : Int) = r ∧ (j.val : Int) = c
    · rw [if_pos hij, if_pos hij]
      have hi : i = rowIdx r c h := (rowIdx_eq_iff h i).2 hij.1
      have hj : j = colIdx r c h := (colIdx_eq_iff h j).2 hij.2
      rw [hi, hj]
    · rw [if_neg hij, if_neg hij]

/-- The inner loop of `ChessBoard::clear` over the columns `c0 .. c0 + n - 1`
of row `r`. -/
theorem clear_row_spec {r : Int} (hr0 : 0 ≤ r) (hr1 : r < 14) :
    ∀ (n : Nat) (c0 : Int) (cb : ChessBoard), 0 ≤ c0 → c0 + n ≤ 13 →
      ∃ cb1, forRange n c0 (fun c b => single_file.clear_cell r c b) cb = some cb1 ∧
        cb1.history = cb.history ∧
        ∀ i j, cb1.cell i j =
          if (i.val : Int) = r ∧ c0 ≤ (j.val : Int) ∧ (j.val : Int) < c0 + n
          then ChessBoard.new.cell i j else cb.cell i j := by
  intro n
  induction n with
  | zero =>
    intro c0 cb _ _
    refine ⟨cb, rfl, rfl, fun i j => ?_⟩
    rw [if_neg]
    simp only [Nat.cast_zero, add_zero]
    omega
  | succ n ih =>
    intro c0 cb h0 h1
    have hin : inGrid r c0 := by
      unfold inGrid BOARD_ROW_LEN BOARD_COL_LEN
      push_cast at h1
      omega
    obtain ⟨cb1, hcb1, hh1, hc1⟩ := clear_cell_spec cb hin
    obtain ⟨cb2, hcb2, hh2, hc2⟩ := ih (c0 + 1) cb1 (by omega) (by push_cast at h1 ⊢; omega)
    refine ⟨cb2, ?_, hh2.trans hh1, fun i j => ?_⟩
    · rw [forRange, hcb1]
      exact hcb2
    · rw [hc2, hc1]
      push_cast
      by_cases hi : (i.val : Int) = r
      · by_cases hj : (j.val : Int) = c0
        · rw [if_neg (by omega), if_pos ⟨hi, hj⟩, if_pos (by omega)]
        · by_cases hj2 : c0 + 1 ≤ (j.val : Int) ∧ (j.val : Int) < c0 + 1 + n
          · rw [if_pos ⟨hi, hj2⟩, if_pos (by omega)]
          · rw [if_neg (by tauto), if_neg (by tauto), if_neg (by omega)]
      · rw [if_neg (by tauto), if_neg (by tauto), if_neg (by tauto)]

/-- The outer loop of `ChessBoard::clear` over the rows `r0 .. r0 + n - 1`. -/
theorem clear_rows_spec :
    ∀ (n : Nat) (r0 : Int) (cb : ChessBoard), 0 ≤ r0 → r0 + n ≤ 14 →
      ∃ cb1, forRange n r0
          (fun r b => forRange 13 0 (fun c b1 => single_file.clear_cell r c b1) b) cb = some cb1 ∧
        cb1.history = cb.history ∧
        ∀ i j, cb1.cell i j =
          if r0 ≤ (i.val : Int) ∧ (i.val : Int) < r0 + n
          then ChessBoard.new.cell i j else cb.cell i j := by
  intro n
  induction n with
  | zero =>
    intro r0 cb _ _
    refine ⟨cb, rfl, rfl, fun i j => ?_⟩
    rw [if_neg]
    simp only [Nat.cast_zero, add_zero]
    omega
  | succ n ih =>
    intro r0 cb h0 h1
    obtain ⟨cb1, hcb1, hh1, hc1⟩ := clear_row_spec h0 (by push_cast at h1; omega) 13 0 cb
      (le_refl _) (by norm_num)
    obtain ⟨cb2, hcb2, hh2, hc2⟩ := ih (r0 + 1) cb1 (by omega) (by push_cast at h1 ⊢; omega)
    refine ⟨cb2, ?_, hh2.trans hh1, fun i j => ?_⟩
    · rw [forRange, hcb1]
      exact hcb2
    · rw [hc2, hc1]
      push_cast
      have hj : 0 ≤ (j.val : Int) ∧ (j.val : Int) < 0 + 13 := by
        have := j.isLt
        omega
      by_cases hi : (i.val : Int) = r0
      · rw [if_neg (by omega), if_pos ⟨hi, hj⟩, if_pos (by omega)]
      · by_cases hi2 : r0 + 1 ≤ (i.val : Int) ∧ (i.val : Int) < r0 + 1 + n
        · rw [if_pos hi2, if_pos (by omega)]
        · rw [if_neg hi2, if_neg (by tauto), if_neg (by omega)]

/-- `ChessBoard::clear` returns the fresh board, whatever board it is called
on. -/
theorem clear_eq_new (cb : ChessBoard) : single_file.ChessBoard.clear cb = some ChessBoard.new := by
  obtain ⟨cb1, hcb1, _, hc1⟩ := clear_rows_spec 14 0 cb (le_refl _) (by norm_num)
  have e1 : single_file.BOARD_ACTUAL_ROW_LEN.toNat = 14 := rfl
  have e2 : single_file.BOARD_ACTUAL_COL_LEN.toNat = 13 := rfl
  unfold single_file.ChessBoard.clear
  rw [e1, e2, hcb1]
  simp only [Option.bind_eq_bind, Option.some_bind, Option.pure_def]
  congr 1
  apply ChessBoard.ext_cell
  · intro i j
    show cb1.cell i j = _
    rw [hc1, if_pos]
    have := i.isLt
    push_cast
    omega
  · rfl

/-! ## The reads of the generator -/

theorem inGrid_of_get {cb : ChessBoard} {r c : Int} {p : Piece} (h : cb.get r c = some p) :
    inGrid r c := by
  obtain ⟨hin, _⟩ := (get_eq_some_iff cb).1 h
  exact hin

/-- Every cell a scan reads up to its stop is a cell of the grid. -/
theorem FirstNonEmpty.cells_inGrid {cb : ChessBoard} {r c dr dc : Int} {i0 k : Nat} {p : Piece}
    (h : FirstNonEmpty cb r c dr dc i0 k p) (i : Nat) (h1 : i0 ≤ i) (h2 : i ≤ k) :
    inGrid (r + i * dr) (c + i * dc) := by
  obtain ⟨_, hempty, hstop, _⟩ := h
  rcases Nat.lt_or_ge i k with hlt | hge
  · exact inGrid_of_get (hempty i h1 hlt)
  · have : i = k := by omega
    subst this
    exact inGrid_of_get hstop

/-- The generator returns a list for every side on a well-formed board. -/
theorem gen_possible_moves_total {cb : ChessBoard} (hwf : WellFormed cb) (side : PieceSide) :
    ∃ L, gen_possible_moves cb side = some L := by
  cases side with
  | PS_UP =>
    obtain ⟨L, hL, _⟩ := gen_possible_moves_spec hwf (Or.inl rfl : isPlayer PS_UP)
    exact ⟨L, hL⟩
  | PS_DOWN =>
    obtain ⟨L, hL, _⟩ := gen_possible_moves_spec hwf (Or.inr rfl : isPlayer PS_DOWN)
    exact ⟨L, hL⟩
  | PS_EXTRA => exact ⟨[], gen_possible_moves_extra hwf⟩

/-! ## The score as a sum of terms -/

/-- The term of an up piece is negative and the term of a down piece positive
on every cell of the 10 x 9 board. -/
theorem piece_term_sign (p : Piece) (i : Fin 10) (j : Fin 9) :
    ∃ v pv, (piece_get_side p ≠ PS_EXTRA →
        piece_get_value p = some v ∧
        piece_get_pos_value p (i.val : Int) (j.val : Int) = some pv) ∧
      (piece_get_side p = PS_UP → v + pv < 0) ∧ (piece_get_side p = PS_DOWN → 0 < v + pv) := by
  have key : ∀ (p : Piece) (i : Fin 10) (j : Fin 9), piece_get_side p ≠ PS_EXTRA →
      ((piece_get_value p).bind fun v =>
        (piece_get_pos_value p (i.val : Int) (j.val : Int)).map fun pv =>
          decide ((piece_get_side p = PS_UP → v + pv < 0) ∧
            (piece_get_side p = PS_DOWN → 0 < v + pv))) = some true := by
    intro p
    cases p <;> decide
  by_cases hs : piece_get_side p = PS_EXTRA
  · refine ⟨0, 0, fun h => absurd hs h, fun h => ?_, fun h => ?_⟩
    · rw [hs] at h; cases h
    · rw [hs] at h; cases h
  · have hk := key p i j hs
    cases hv : piece_get_value p with
    | none => simp [hv] at hk
    | some v =>
      cases hpv : piece_get_pos_value p (i.val : Int) (j.val : Int) with
      | none => simp [hv, hpv] at hk
      | some pv =>
        simp only [hv, hpv, Option.some_bind, Option.map_some', Option.some.injEq,
          decide_eq_true_eq] at hk
        exact ⟨v, pv, fun _ => ⟨rfl, rfl⟩, hk.1, hk.2⟩

/-- On a playable cell of a well-formed board the term of the cell is
negative for an up piece, positive for a down piece and zero for the empty
cell, and the loop body of the evaluation adds exactly this term. -/
theorem cell_term_spec {cb : ChessBoard} (hwf : WellFormed cb) {r c : Int}
    (hpl : playable r c) :
    ∃ p, cb.get r c = some p ∧
      (piece_get_side p = PS_UP → cell_term cb r c < 0) ∧
      (piece_get_side p = PS_DOWN → 0 < cell_term cb r c) ∧
      (p = P_EE → cell_term cb r c = 0) ∧
      ∀ t, board_calc_score_cell cb r c t = some (t + cell_term cb r c) := by
  obtain ⟨p, hp, hiff⟩ := wf_get hwf (inGrid_of_playable hpl)
  have hne : p ≠ P_EO := hiff.2 hpl
  have hpl1 := hpl
  unfold playable at hpl1
  obtain ⟨v, pv, hval, hup, hdown⟩ :=
    piece_term_sign p ⟨(r - 2).toNat, by omega⟩ ⟨(c - 2).toNat, by omega⟩
  have er : (((r - 2).toNat : Nat) : Int) = r - BOARD_ACTUAL_ROW_BEGIN := by
    unfold BOARD_ACTUAL_ROW_BEGIN; omega
  have ec : (((c - 2).toNat : Nat) : Int) = c - BOARD_ACTUAL_COL_BEGIN := by
    unfold BOARD_ACTUAL_COL_BEGIN; omega
  simp only [er, ec] at hval
  by_cases hs : piece_get_side p = PS_EXTRA
  · have hpe : p = P_EE := by
      cases p <;> first | rfl | (exact absurd rfl hne) | cases hs
    have hterm : cell_term cb r c = 0 := by
      unfold cell_term
      simp only [hp, hs, if_true]
    refine ⟨p, hp, fun h => ?_, fun h => ?_, fun _ => hterm, fun t => ?_⟩
    · rw [hs] at h; cases h
    · rw [hs] at h; cases h
    · rw [hterm]
      unfold board_calc_score_cell
      simp [hp, hpe]
  · obtain ⟨hv, hpv⟩ := hval hs
    have hpe : p ≠ P_EE := by
      rintro rfl
      exact hs rfl
    have hterm : cell_term cb r c = v + pv := by
      unfold cell_term
      simp only [hp, hs, if_false, hv, hpv, Option.getD_some]
    refine ⟨p, hp, fun h => ?_, fun h => ?_, fun h => absurd h hpe, fun t => ?_⟩
    · rw [hterm]; exact hup h
    · rw [hterm]; exact hdown h
    · rw [hterm]
      unfold board_calc_score_cell
      simp [hp, hpe, hv, hpv, add_assoc]

/-- A counted loop that adds `f i` in iteration `i` adds the sum of the
`f i`. -/
theorem forRange_sum (body : Int → Int → Option Int) (f : Int → Int) :
    ∀ (n : Nat) (lo : Int) (s : Int),
      (∀ i s1, lo ≤ i → i < lo + n → body i s1 = some (s1 + f i)) →
      forRange n lo body s = some (s + ∑ k ∈ Finset.range n, f (lo + (k : Int))) := by
  intro n
  induction n with
  | zero => intro lo s _; simp [forRange]
  | succ n ih =>
    intro lo s h
    rw [forRange, h lo s (le_refl _) (by push_cast; omega), Option.some_bind,
      ih (lo + 1) (s + f lo) fun i s1 h1 h2 => h i s1 (by omega) (by push_cast at h2 ⊢; omega),
      Finset.sum_range_succ']
    congr 1
    have : ∀ k : Nat, f (lo + 1 + (k : Int)) = f (lo + ((k + 1 : Nat) : Int)) := by
      intro k
      congr 1
      push_cast
      ring
    simp only [this, Nat.cast_zero, add_zero]
    ring

/-- On a well-formed board the evaluation returns the sum of the terms of the
playable cells. -/
theorem board_calc_score_eq_sum {cb : ChessBoard} (hwf : WellFormed cb) :
    board_calc_score cb = some (sum_of_terms cb) := by
  have e1 : BOARD_ACTUAL_ROW_LEN.toNat = 10 := rfl
  have e2 : BOARD_ACTUAL_COL_LEN.toNat = 9 := rfl
  have e3 : BOARD_ACTUAL_ROW_BEGIN = 2 := rfl
  have e4 : BOARD_ACTUAL_COL_BEGIN = 2 := rfl
  unfold board_calc_score sum_of_terms
  rw [e1, e2, e3, e4]
  rw [forRange_sum _ (fun r => ∑ j ∈ Finset.range 9, cell_term cb r (2 + (j : Int))) 10 2 0]
  · simp
  · intro r s hr1 hr2
    rw [forRange_sum _ (fun c => cell_term cb r c) 9 2 s]
    intro c s1 hc1 hc2
    obtain ⟨_, _, _, _, _, hbody⟩ :=
      cell_term_spec hwf (show playable r c by unfold playable; push_cast at hr2 hc2; omega)
    exact hbody s1

/-! ## The order of the generated moves -/

theorem rowMajorLE_of_sameBegin {a b : MoveNode} (h : sameBegin a b) : rowMajorLE a b :=
  Or.inr ⟨h.1, le_of_eq h.2⟩

theorem pairwise_of_all {R : MoveNode → MoveNode → Prop} {P : MoveNode → Prop}
    (hR : ∀ a b, P a → P b → R a b) :
    ∀ l : List MoveNode, (∀ m ∈ l, P m) → l.Pairwise R := by
  intro l
  induction l with
  | nil => intro _; exact List.Pairwise.nil
  | cons a l ih =>
    intro h
    refine List.Pairwise.cons (fun b hb => ?_) (ih fun m hm => h m (List.mem_cons_of_mem _ hm))
    exact hR a b (h a (List.mem_cons_self _ _)) (h b (List.mem_cons_of_mem _ hb))

/-- A counted loop whose iteration `i` appends an ordered block of moves with
key `i` appends an ordered list of moves. -/
theorem forRange_pairwise {R : MoveNode → MoveNode → Prop} {I : MoveNode → Prop}
    {k : MoveNode → Int} (hR : ∀ a b, I a → I b → k a < k b → R a b)
    {body : Int → PossibleMoves → Option PossibleMoves} :
    ∀ (n : Nat) (lo : Int) (pm : PossibleMoves),
      (∀ i pm1, lo ≤ i → i < lo + n →
        ∃ added, body i pm1 = some (pm1 ++ added) ∧ added.Pairwise R ∧
          ∀ m ∈ added, I m ∧ k m = i) →
      ∃ added, forRange n lo body pm = some (pm ++ added) ∧ added.Pairwise R ∧
        ∀ m ∈ added, I m ∧ lo ≤ k m ∧ k m < lo + n := by
  intro n
  induction n with
  | zero =>
    intro lo pm _
    exact ⟨[], by simp [forRange], List.Pairwise.nil, fun m hm => by cases hm⟩
  | succ n ih =>
    intro lo pm h
    obtain ⟨a1, hb1, hp1, hk1⟩ := h lo pm (le_refl _) (by push_cast; omega)
    obtain ⟨a2, hb2, hp2, hk2⟩ := ih (lo + 1) (pm ++ a1)
      fun i pm1 h1 h2 => h i pm1 (by omega) (by push_cast at h2 ⊢; omega)
    refine ⟨a1 ++ a2, ?_, ?_, ?_⟩
    · rw [forRange, hb1, Option.some_bind, hb2, List.append_assoc]
    · rw [List.pairwise_append]
      refine ⟨hp1, hp2, fun a ha b hb => ?_⟩
      obtain ⟨hIa, hka⟩ := hk1 a ha
      obtain ⟨hIb, hkb, _⟩ := hk2 b hb
      exact hR a b hIa hIb (by omega)
    · intro m hm
      rcases List.mem_append.1 hm with hm | hm
      · obtain ⟨hI, hk⟩ := hk1 m hm
        exact ⟨hI, by omega, by push_cast; omega⟩
      · obtain ⟨hI, hk, hk'⟩ := hk2 m hm
        exact ⟨hI, by omega, by push_cast at hk' ⊢; omega⟩

/-- The moves appended at a cell start on that cell. -/
theorem gen_possible_moves_cell_begin {cb : ChessBoard} (hwf : WellFormed cb)
    {side : PieceSide} (hs : isPlayer side) {r c : Int} (hpl : playable r c)
    (pm : PossibleMoves) :
    ∃ added, gen_possible_moves_cell cb side r c pm = some (pm ++ added) ∧
      ∀ m ∈ added, m.beginRow = r ∧ m.beginCol = c := by
  obtain ⟨added, hres, hmem⟩ := gen_possible_moves_cell_appends hwf hs hpl pm
  refine ⟨added, hres, fun m hm => ?_⟩
  obtain ⟨p, _, _, hpm⟩ := (hmem m).1 hm
  exact pieceMoves_begin hpm

/-- The generated list is ordered by begin cell, rows first. -/
theorem gen_possible_moves_sorted {cb : ChessBoard} (hwf : WellFormed cb) {side : PieceSide}
    (hs : isPlayer side) :
    ∃ L, gen_possible_moves cb side = some L ∧ L.Pairwise rowMajorLE := by
  have e1 : BOARD_ACTUAL_ROW_LEN.toNat = 10 := rfl
  have e2 : BOARD_ACTUAL_COL_LEN.toNat = 9 := rfl
  have e3 : BOARD_ACTUAL_ROW_BEGIN = 2 := rfl
  have e4 : BOARD_ACTUAL_COL_BEGIN = 2 := rfl
  have inner : ∀ (r : Int) (pm : PossibleMoves), 2 ≤ r → r < 2 + (10 : Nat) →
      ∃ added, forRange 9 2 (fun c pm1 => gen_possible_moves_cell cb side r c pm1) pm
          = some (pm ++ added) ∧ added.Pairwise rowMajorLE ∧
        ∀ m ∈ added, True ∧ m.beginRow = r := by
    intro r pm hr1 hr2
    obtain ⟨added, hres, hpw, hk⟩ := forRange_pairwise
      (R := rowMajorLE) (I := fun m => m.beginRow = r) (k := fun m => m.beginCol)
      (fun a b ha hb hlt => Or.inr ⟨ha.trans hb.symm, le_of_lt hlt⟩) 9 2 pm
      (fun c pm1 hc1 hc2 => by
        obtain ⟨added, hres, hbeg⟩ := gen_possible_moves_cell_begin hwf hs
          (show playable r c by unfold playable; push_cast at hr2 hc2; omega) pm1
        refine ⟨added, hres, ?_, hbeg⟩
        exact pairwise_of_all
          (fun a b ha hb => rowMajorLE_of_sameBegin
            ⟨ha.1.trans hb.1.symm, ha.2.trans hb.2.symm⟩) added hbeg)
    exact ⟨added, hres, hpw, fun m hm => ⟨trivial, (hk m hm).1⟩⟩
  obtain ⟨added, hres, hpw, _⟩ := forRange_pairwise
    (R := rowMajorLE) (I := fun _ => True) (k := fun m => m.beginRow)
    (fun a b _ _ hlt => Or.inl hlt) 10 2 []
    (fun r pm hr1 hr2 => inner r pm hr1 hr2)
  refine ⟨added, ?_, hpw⟩
  unfold gen_possible_moves
  rw [e1, e2, e3, e4, hres, List.nil_append]

/-! ## The two move generators -/

theorem forRange_congr {σ : Type} {body1 body2 : Int → σ → Option σ} :
    ∀ (n : Nat) (lo : Int) (s : σ),
      (∀ i s1, lo ≤ i → i < lo + n → body1 i s1 = body2 i s1) →
      forRange n lo body1 s = forRange n lo body2 s := by
  intro n
  induction n with
  | zero => intro lo s _; rfl
  | succ n ih =>
    intro lo s h
    rw [forRange, forRange, h lo s (le_refl _) (by push_cast; omega)]
    cases body2 lo s with
    | none => rfl
    | some s1 =>
      exact ih (lo + 1) s1 fun i s2 h1 h2 => h i s2 (by omega) (by push_cast at h2 ⊢; omega)

/-- The general of the single-file variant scans the same rows: its bound
`row <= BOARD_ACTUAL_ROW_END` is the bound
`row < BOARD_ACTUAL_ROW_BEGIN + BOARD_ACTUAL_ROW_LEN` of the namespace
variant. -/
theorem single_file_general_eq (cb : ChessBoard) (pm : PossibleMoves) (r c : Int)
    (side : PieceSide) :
    single_file.gen_moves_general cb pm r c side = gen_possible_moves_for_general cb pm r c side := by
  have e : (single_file.BOARD_ACTUAL_ROW_END - (r + 1) + 1).toNat =
      (BOARD_ACTUAL_ROW_BEGIN + BOARD_ACTUAL_ROW_LEN - (r + 1)).toNat := by
    unfold single_file.BOARD_ACTUAL_ROW_END single_file.BOARD_ACTUAL_ROW_BEGIN
      single_file.BOARD_ROW_LEN BOARD_ACTUAL_ROW_BEGIN BOARD_ACTUAL_ROW_LEN
    congr 1
    ring
  unfold single_file.gen_moves_general gen_possible_moves_for_general
  rw [e]
  rfl

/-- At a cell that does not hold a pawn of the side the loop bodies of the two
generators do the same. -/
theorem single_file_cell_eq (cb : ChessBoard) (side : PieceSide) (r c : Int)
    (pm : PossibleMoves)
    (h : ∀ p, cb.get r c = some p → piece_get_side p = side → piece_get_type p ≠ PT_PAWN) :
    single_file.gen_possible_moves_cell cb side r c pm = gen_possible_moves_cell cb side r c pm := by
  unfold single_file.gen_possible_moves_cell gen_possible_moves_cell
  cases hp : cb.get r c with
  | none => rfl
  | some p =>
    simp only [Option.bind_eq_bind, Option.some_bind]
    by_cases hs : piece_get_side p = side
    · rw [if_pos hs, if_pos hs]
      have hne := h p hp hs
      cases ht : piece_get_type p with
      | PT_PAWN => exact absurd ht hne
      | PT_CANNON => rfl
      | PT_ROOK => rfl
      | PT_KNIGHT => rfl
      | PT_BISHOP => rfl
      | PT_ADVISOR => rfl
      | PT_GENERAL => exact single_file_general_eq cb pm r c side
      | PT_EMPTY => rfl
      | PT_OUT => rfl
    · rw [if_neg hs, if_neg hs]

/-- On a board without a pawn of the side on the playable region the two
generators return the same list. -/
theorem single_file_eq_of_no_pawn (cb : ChessBoard) (side : PieceSide)
    (h : ∀ r c p, playable r c → cb.get r c = some p → piece_get_side p = side →
      piece_get_type p ≠ PT_PAWN) :
    single_file.gen_possible_moves cb side = gen_possible_moves cb side := by
  unfold single_file.gen_possible_moves gen_possible_moves
  have e1 : (single_file.BOARD_ACTUAL_ROW_END - single_file.BOARD_ACTUAL_ROW_BEGIN + 1).toNat
      = BOARD_ACTUAL_ROW_LEN.toNat := rfl
  have e2 : (single_file.BOARD_ACTUAL_COL_END - single_file.BOARD_ACTUAL_COL_BEGIN + 1).toNat
      = BOARD_ACTUAL_COL_LEN.toNat := rfl
  have e3 : single_file.BOARD_ACTUAL_ROW_BEGIN = BOARD_ACTUAL_ROW_BEGIN := rfl
  have e4 : single_file.BOARD_ACTUAL_COL_BEGIN = BOARD_ACTUAL_COL_BEGIN := rfl
  have e5 : ((BOARD_ACTUAL_ROW_LEN.toNat : Nat) : Int) = 10 := rfl
  have e6 : ((BOARD_ACTUAL_COL_LEN.toNat : Nat) : Int) = 9 := rfl
  have e7 : BOARD_ACTUAL_ROW_BEGIN = 2 := rfl
  have e8 : BOARD_ACTUAL_COL_BEGIN = 2 := rfl
  rw [e1, e2, e3, e4]
  refine forRange_congr _ _ _ fun r pm hr1 hr2 => ?_
  refine forRange_congr _ _ _ fun c pm1 hc1 hc2 => ?_
  rw [e5, e7] at hr2
  rw [e6, e8] at hc2
  rw [e7] at hr1
  rw [e8] at hc1
  exact single_file_cell_eq cb side r c pm1 fun p hp hs =>
    h r c p (by unfold playable; omega) hp hs

/-! # The claims about the board, the scenario and the invariants -/

/-! ## The opening pawn advance (C21) -/

/-- C21 (evaluated on the code): on the starting position, for each of the
five down pawns, on `(8, c)` with `c = 2 + 2 i`, `i = 0, ..., 4`, `check_rule`
rejects the one-step advance `(8, c) -> (7, c)`: the move is not in the list
generated for down, although the forward cell is empty and the generator of
the single-file variant has it.  The rest of the scenario holds: after the
move `check_winner` returns `PS_EXTRA` and an undo restores the starting
board. -/
theorem C21_opening_pawn_advance_rejected :
    ∀ i : Fin 5,
      ChessBoard.new.get 8 (2 + 2 * (i.val : Int)) = some P_DP ∧
      ChessBoard.new.get 7 (2 + 2 * (i.val : Int)) = some P_EE ∧
      check_rule ChessBoard.new ⟨8, 2 + 2 * (i.val : Int), 7, 2 + 2 * (i.val : Int)⟩
        = some false ∧
      (∃ L, gen_possible_moves ChessBoard.new PS_DOWN = some L ∧
        (⟨8, 2 + 2 * (i.val : Int), 7, 2 + 2 * (i.val : Int)⟩ : MoveNode) ∉ L) ∧
      (∃ L, single_file.gen_possible_moves ChessBoard.new PS_DOWN = some L ∧
        (⟨8, 2 + 2 * (i.val : Int), 7, 2 + 2 * (i.val : Int)⟩ : MoveNode) ∈ L) ∧
      (∃ cb1, ChessBoard.new.move ⟨8, 2 + 2 * (i.val : Int), 7, 2 + 2 * (i.val : Int)⟩
          = some cb1 ∧
        check_winner cb1 = some PS_EXTRA ∧ cb1.undo = some ChessBoard.new) := by
  have hns : ∃ L, gen_possible_moves ChessBoard.new PS_DOWN = some L ∧
      ∀ i : Fin 5,
        (⟨8, 2 + 2 * (i.val : Int), 7, 2 + 2 * (i.val : Int)⟩ : MoveNode) ∉ L :=
    ⟨_, rfl, by decide⟩
  have hsf : ∃ L, single_file.gen_possible_moves ChessBoard.new PS_DOWN = some L ∧
      ∀ i : Fin 5,
        (⟨8, 2 + 2 * (i.val : Int), 7, 2 + 2 * (i.val : Int)⟩ : MoveNode) ∈ L :=
    ⟨_, rfl, by decide⟩
  have hrest : ∀ i : Fin 5,
      ChessBoard.new.get 8 (2 + 2 * (i.val : Int)) = some P_DP ∧
      ChessBoard.new.get 7 (2 + 2 * (i.val : Int)) = some P_EE ∧
      check_rule ChessBoard.new ⟨8, 2 + 2 * (i.val : Int), 7, 2 + 2 * (i.val : Int)⟩
        = some false ∧
      ((ChessBoard.new.move ⟨8, 2 + 2 * (i.val : Int), 7, 2 + 2 * (i.val : Int)⟩).bind
          check_winner = some PS_EXTRA ∧
        (ChessBoard.new.move ⟨8, 2 + 2 * (i.val : Int), 7, 2 + 2 * (i.val : Int)⟩).bind
          ChessBoard.undo = some ChessBoard.new) := by
    decide
  obtain ⟨L1, hL1, h1⟩ := hns
  obtain ⟨L2, hL2, h2⟩ := hsf
  intro i
  obtain ⟨g1, g2, g3, g4, g5⟩ := hrest i
  refine ⟨g1, g2, g3, ⟨L1, hL1, h1 i⟩, ⟨L2, hL2, h2 i⟩, ?_⟩
  cases hm : ChessBoard.new.move ⟨8, 2 + 2 * (i.val : Int), 7, 2 + 2 * (i.val : Int)⟩ with
  | none => rw [hm] at g4; cases g4
  | some cb1 =>
    rw [hm] at g4 g5
    exact ⟨cb1, rfl, g4, g5⟩

/-! ## Move, undo, reset (C22, C23, C27) -/

/-- C22: for every board and every move whose begin and end cells lie in the
grid and differ, `ChessBoard::move` succeeds; afterwards the begin cell is
empty, the end cell holds the piece that stood on the begin cell, every other
cell reads as before, and the history is the old history followed by one
entry, which records the move and the former content of the begin and end
cells. -/
theorem C22_move_frame (cb : ChessBoard) (m : MoveNode)
    (hb : inGrid m.beginRow m.beginCol) (he : inGrid m.endRow m.endCol)
    (hne : (m.beginRow, m.beginCol) ≠ (m.endRow, m.endCol)) :
    ∃ cb1 beginPiece endPiece, cb.get m.beginRow m.beginCol = some beginPiece ∧
      cb.get m.endRow m.endCol = some endPiece ∧ cb.move m = some cb1 ∧
      cb1.get m.beginRow m.beginCol = some P_EE ∧
      cb1.get m.endRow m.endCol = some beginPiece ∧
      (∀ r c, (r, c) ≠ (m.beginRow, m.beginCol) → (r, c) ≠ (m.endRow, m.endCol) →
        cb1.get r c = cb.get r c) ∧
      cb1.history = cb.history ++ [⟨m, beginPiece, endPiece⟩] ∧
      cb1.history.length = cb.history.length + 1 := by
  obtain ⟨cb1, bp, ep, h1, h2, h3, hh, hg⟩ := move_get cb m hb he
  have hne2 : ¬ (m.beginRow = m.endRow ∧ m.beginCol = m.endCol) := by
    rintro ⟨h4, h5⟩
    exact hne (Prod.ext h4 h5)
  refine ⟨cb1, bp, ep, h1, h2, h3, ?_, ?_, ?_, hh, ?_⟩
  · rw [hg, if_neg hne2, if_pos ⟨rfl, rfl⟩]
  · rw [hg, if_pos ⟨rfl, rfl⟩]
  · intro r c hrb hre
    have h6 : ¬ (r = m.endRow ∧ c = m.endCol) := by
      rintro ⟨rfl, rfl⟩
      exact hre rfl
    have h7 : ¬ (r = m.beginRow ∧ c = m.beginCol) := by
      rintro ⟨rfl, rfl⟩
      exact hrb rfl
    rw [hg, if_neg h6, if_neg h7]
  · rw [hh, List.length_append]
    rfl

/-- Witness of C22: the up cannon of the starting position captures the down
knight on (11, 3). -/
theorem C22_move_frame_witness :
    inGrid 4 3 ∧ inGrid 11 3 ∧ ((4 : Int), (3 : Int)) ≠ (11, 3) ∧
    ∃ cb1 beginPiece endPiece, ChessBoard.new.get 4 3 = some beginPiece ∧
      ChessBoard.new.get 11 3 = some endPiece ∧
      ChessBoard.new.move ⟨4, 3, 11, 3⟩ = some cb1 ∧
      cb1.get 4 3 = some P_EE ∧ cb1.get 11 3 = some beginPiece ∧
      (∀ r c, (r, c) ≠ ((4 : Int), (3 : Int)) → (r, c) ≠ ((11 : Int), (3 : Int)) →
        cb1.get r c = ChessBoard.new.get r c) ∧
      cb1.history = ChessBoard.new.history ++ [⟨⟨4, 3, 11, 3⟩, beginPiece, endPiece⟩] ∧
      cb1.history.length = ChessBoard.new.history.length + 1 :=
  ⟨by decide, by decide, by decide,
    C22_move_frame ChessBoard.new ⟨4, 3, 11, 3⟩ (by decide) (by decide) (by decide)⟩

/-- C23: `ChessBoard::undo` on a board whose last history entry, if there is
one, names cells of the grid (as every entry recorded by `ChessBoard::move`
does) returns a board.  With an empty history the grid and the history are
unchanged; with a non-empty history the history loses exactly its last
entry. -/
theorem C23_undo_history (cb : ChessBoard)
    (hin : ∀ node, cb.history.getLast? = some node →
      inGrid node.move.beginRow node.move.beginCol ∧
      inGrid node.move.endRow node.move.endCol) :
    ∃ cb1, cb.undo = some cb1 ∧
      (cb.history = [] →
        (∀ i j, cb1.cell i j = cb.cell i j) ∧ cb1.history = cb.history) ∧
      (cb.history ≠ [] →
        cb1.history = cb.history.dropLast ∧ cb1.history.length + 1 = cb.history.length) := by
  rcases List.eq_nil_or_concat cb.history with hnil | ⟨hist, node, hh0⟩
  · refine ⟨cb, undo_of_empty cb hnil, fun _ => ⟨fun _ _ => rfl, rfl⟩, fun hne => ?_⟩
    exact absurd hnil hne
  · have hh : cb.history = hist ++ [node] := by
      rw [hh0, List.concat_eq_append]
    have hlast : cb.history.getLast? = some node := by
      rw [hh, List.getLast?_concat]
    obtain ⟨hb, he⟩ := hin node hlast
    obtain ⟨cb1, h1, hh1, _⟩ := undo_of_last cb hist node hh hb he
    refine ⟨cb1, h1, fun hnil => ?_, fun _ => ?_⟩
    · rw [hnil] at hh
      exact absurd hh (by simp)
    · rw [hh1, hh]
      simp

/-- Witness of C23: the starting position after one pawn advance; its
history holds one entry. -/
theorem C23_undo_history_witness :
    (∀ node, AFTER_PAWN_ADVANCE.history.getLast? = some node →
      inGrid node.move.beginRow node.move.beginCol ∧
      inGrid node.move.endRow node.move.endCol) ∧
    AFTER_PAWN_ADVANCE.history ≠ [] ∧
    ∃ cb1, AFTER_PAWN_ADVANCE.undo = some cb1 ∧
      (AFTER_PAWN_ADVANCE.history = [] →
        (∀ i j, cb1.cell i j = AFTER_PAWN_ADVANCE.cell i j) ∧
        cb1.history = AFTER_PAWN_ADVANCE.history) ∧
      (AFTER_PAWN_ADVANCE.history ≠ [] →
        cb1.history = AFTER_PAWN_ADVANCE.history.dropLast ∧
        cb1.history.length + 1 = AFTER_PAWN_ADVANCE.history.length) :=
  have hlast : AFTER_PAWN_ADVANCE.history.getLast? = some ⟨⟨8, 6, 7, 6⟩, P_DP, P_EE⟩ := by
    decide
  have hin : ∀ node, AFTER_PAWN_ADVANCE.history.getLast? = some node →
      inGrid node.move.beginRow node.move.beginCol ∧
      inGrid node.move.endRow node.move.endCol := by
    intro node h
    rw [hlast] at h
    cases h
    decide
  ⟨hin, by decide, C23_undo_history AFTER_PAWN_ADVANCE hin⟩

/-- C27: on every board (so on every board reached by moves and undos)
`ChessBoard::clear` of the single-file variant returns a board whose grid is
the starting layout `DEFAULT_CHESS_BOARD_DATA` cell for cell and whose history
is empty; it is the fresh board, and an undo that follows changes nothing. -/
theorem C27_clear_resets (cb : ChessBoard) :
    ∃ cb1, single_file.ChessBoard.clear cb = some cb1 ∧
      (∀ i j, cb1.cell i j = (boardOfRows single_file.DEFAULT_CHESS_BOARD_DATA).cell i j) ∧
      cb1.history = [] ∧ cb1 = ChessBoard.new ∧ cb1.undo = some cb1 := by
  refine ⟨ChessBoard.new, clear_eq_new cb, ?_, rfl, rfl, undo_of_empty _ rfl⟩
  decide

/-! ## Pruning (C28) -/

/-- C28: for every well-formed board, depth, player and 32-bit window
`alpha < beta`, `min_max` returns a value `r`, plain minimax without pruning
has a value `v`, and: `alpha < r < beta` implies `r = v`; `r <= alpha` implies
`v <= r`; `r >= beta` implies `v >= r`. -/
theorem C28_pruning_fail_soft (cb : ChessBoard) (hwf : WellFormed cb) (d : Nat)
    (side : PieceSide) (hs : isPlayer side) (alpha beta : Int)
    (ha : INT32_MIN ≤ alpha) (hab : alpha < beta) (hb : beta ≤ INT32_MAX) :
    ∃ r v cb1, min_max cb d alpha beta side = some (r, cb1) ∧
      plain_minimax cb d side = some v ∧
      (alpha < r → r < beta → r = v) ∧ (r ≤ alpha → v ≤ r) ∧ (r ≥ beta → v ≥ r) := by
  obtain ⟨r, v, h1, h2, h3, h4, h5⟩ := min_max_failsoft d cb hwf side hs alpha beta ha hab hb
  exact ⟨r, v, cb, h1, h2, h5, h3, h4⟩

/-- Witness of C28: the starting position, depth 2, up to move, the window
`(-5, 5)`. -/
theorem C28_pruning_fail_soft_witness :
    WellFormed ChessBoard.new ∧ isPlayer PS_UP ∧ INT32_MIN ≤ -5 ∧ (-5 : Int) < 5 ∧
    5 ≤ INT32_MAX ∧
    ∃ r v cb1, min_max ChessBoard.new 2 (-5) 5 PS_UP = some (r, cb1) ∧
      plain_minimax ChessBoard.new 2 PS_UP = some v ∧
      ((-5 : Int) < r → r < 5 → r = v) ∧ (r ≤ -5 → v ≤ r) ∧ (r ≥ 5 → v ≥ r) :=
  ⟨by decide, by decide, by decide, by decide, by decide,
    C28_pruning_fail_soft ChessBoard.new (by decide) 2 PS_UP (by decide) (-5) 5 (by decide)
      (by decide) (by decide)⟩

/-! ## Well-formedness (C30) -/

/-- C30: the starting board is well-formed: every cell outside rows 2..11 x
columns 2..10 is out-of-board and no cell inside is.  For every well-formed
board and player the generator returns a list, and for every move of the
list `ChessBoard::move` yields a well-formed board and the `ChessBoard::undo`
that follows yields a well-formed board again. -/
theorem C30_wellformed_invariant (cb : ChessBoard) (hwf : WellFormed cb) (side : PieceSide)
    (hs : isPlayer side) :
    WellFormed ChessBoard.new ∧
    (∀ r c, inGrid r c →
      ∃ p, ChessBoard.new.get r c = some p ∧ (p = P_EO ↔ ¬ playable r c)) ∧
    ∃ L, gen_possible_moves cb side = some L ∧
      ∀ m ∈ L, ∃ cb1, cb.move m = some cb1 ∧ WellFormed cb1 ∧
        ∃ cb2, cb1.undo = some cb2 ∧ WellFormed cb2 := by
  have hnew : WellFormed ChessBoard.new := by decide
  refine ⟨hnew, fun r c hin => ?_, ?_⟩
  · obtain ⟨p, hp, hiff⟩ := wf_get hnew hin
    refine ⟨p, hp, ?_⟩
    rw [← hiff]
    exact ⟨fun h => not_not.2 h, fun h => not_not.1 h⟩
  · obtain ⟨L, hL, hgood⟩ := gen_possible_moves_spec hwf hs
    refine ⟨L, hL, fun m hm => ?_⟩
    obtain ⟨cb1, h1, hwf1, hundo⟩ := goodMove_move hwf hs (hgood m hm)
    exact ⟨cb1, h1, hwf1, cb, hundo, hwf⟩

/-- Witness of C30: the starting position, down to move. -/
theorem C30_wellformed_invariant_witness :
    WellFormed ChessBoard.new ∧ isPlayer PS_DOWN ∧
    WellFormed ChessBoard.new ∧
    (∀ r c, inGrid r c →
      ∃ p, ChessBoard.new.get r c = some p ∧ (p = P_EO ↔ ¬ playable r c)) ∧
    ∃ L, gen_possible_moves ChessBoard.new PS_DOWN = some L ∧
      ∀ m ∈ L, ∃ cb1, ChessBoard.new.move m = some cb1 ∧ WellFormed cb1 ∧
        ∃ cb2, cb1.undo = some cb2 ∧ WellFormed cb2 :=
  ⟨by decide, by decide,
    C30_wellformed_invariant ChessBoard.new (by decide) PS_DOWN (by decide)⟩

/-! ## The reads of the generator (C24) -/

/-- C24: on a well-formed board the generator returns a list for every side
(up, down, neither); as a read outside the 14 x 13 array yields no result,
every cell it reads has a row in 0..13 and a column in 0..12.  From every
playable cell and in every orthogonal direction the sliding scan of rook and
cannon reads only cells of the grid and stops at its first non-empty cell, at
distance `k` at most 10; when that cell is a piece the cannon's second scan
reads only cells of the grid and stops at the next non-empty cell; and every
cell at most two rows and two columns away from a playable cell (knight and
bishop look-ups) is in the grid. -/
theorem C24_generator_stays_in_grid (cb : ChessBoard) (hwf : WellFormed cb) :
    (∀ side, ∃ L, gen_possible_moves cb side = some L) ∧
    (∀ r c dr dc, playable r c → isStep dr dc →
      ∃ (k : Nat) (pk : Piece), FirstNonEmpty cb r c dr dc 1 k pk ∧ k ≤ 10 ∧
        (∀ i : Nat, 1 ≤ i → i ≤ k → inGrid (r + i * dr) (c + i * dc)) ∧
        (∀ pm, ∃ pm1, scan_empty_cells cb r c dr dc SCAN_BUDGET (r + dr) (c + dc) pm =
          some (pm1, r + k * dr, c + k * dc, pk)) ∧
        (pk ≠ P_EO → ∃ (j : Nat) (q : Piece), FirstNonEmpty cb r c dr dc (k + 1) j q ∧
          (∀ i : Nat, k + 1 ≤ i → i ≤ j → inGrid (r + i * dr) (c + i * dc)) ∧
          ∀ side pm, ∃ pm1, cannon_scan_capture cb r c dr dc side SCAN_BUDGET
            (r + k * dr + dr) (c + k * dc + dc) pm = some pm1)) ∧
    (∀ r c er ec, playable r c → r - 2 ≤ er → er ≤ r + 2 → c - 2 ≤ ec → ec ≤ c + 2 →
      inGrid er ec) := by
  refine ⟨gen_possible_moves_total hwf, fun r c dr dc hpl hstep => ?_,
    fun r c er ec hpl h1 h2 h3 h4 => inGrid_near hpl ⟨h1, h2⟩ ⟨h3, h4⟩⟩
  have hpl0 : playable (r + ((0 : Nat) : Int) * dr) (c + ((0 : Nat) : Int) * dc) := by
    rw [ray_zero, ray_zero]; exact hpl
  obtain ⟨k, pk, hf, hk⟩ := firstNonEmpty_from_playable hwf hstep hpl0
  have hk10 : k ≤ 10 := by
    have hin := hf.cells_inGrid k hf.1 (le_refl _)
    have hpl1 := hpl
    unfold playable at hpl1
    unfold inGrid BOARD_ROW_LEN BOARD_COL_LEN at hin
    by_contra hcon
    have h11 : (11 : Nat) ≤ k := by omega
    have hrd := hf.2.1 10 (by norm_num) (by omega)
    have hin10 := inGrid_of_get hrd
    have hp10 : playable (r + ((10 : Nat) : Int) * dr) (c + ((10 : Nat) : Int) * dc) :=
      wf_get_playable hwf hrd (by decide)
    unfold playable at hp10
    unfold isStep at hstep
    push_cast at hp10
    omega
  refine ⟨k, pk, hf, hk10, fun i h1 h2 => hf.cells_inGrid i h1 h2, fun pm => ?_, fun hne => ?_⟩
  · have h := scan_empty_cells_exact cb r c dr dc k pk SCAN_BUDGET (0 + 1) pm hf hk
    rw [← ray_one r dr, ← ray_one c dc] at h
    exact ⟨_, h⟩
  · have hplk : playable (r + (k : Int) * dr) (c + (k : Int) * dc) :=
      wf_get_playable hwf hf.2.2.1 hne
    obtain ⟨j, q, hf2, hj⟩ := firstNonEmpty_from_playable hwf hstep hplk
    refine ⟨j, q, hf2, fun i h1 h2 => hf2.cells_inGrid i h1 h2, fun side pm => ?_⟩
    have h := cannon_scan_capture_exact cb r c dr dc side j q SCAN_BUDGET (k + 1) pm hf2 hj
    rw [← ray_succ, ← ray_succ] at h
    exact ⟨_, h⟩

/-- Witness of C24: the starting position. -/
theorem C24_generator_stays_in_grid_witness :
    WellFormed ChessBoard.new ∧
    (∀ side, ∃ L, gen_possible_moves ChessBoard.new side = some L) ∧
    (∀ r c dr dc, playable r c → isStep dr dc →
      ∃ (k : Nat) (pk : Piece), FirstNonEmpty ChessBoard.new r c dr dc 1 k pk ∧ k ≤ 10 ∧
        (∀ i : Nat, 1 ≤ i → i ≤ k → inGrid (r + i * dr) (c + i * dc)) ∧
        (∀ pm, ∃ pm1, scan_empty_cells ChessBoard.new r c dr dc SCAN_BUDGET (r + dr) (c + dc) pm =
          some (pm1, r + k * dr, c + k * dc, pk)) ∧
        (pk ≠ P_EO → ∃ (j : Nat) (q : Piece),
          FirstNonEmpty ChessBoard.new r c dr dc (k + 1) j q ∧
          (∀ i : Nat, k + 1 ≤ i → i ≤ j → inGrid (r + i * dr) (c + i * dc)) ∧
          ∀ side pm, ∃ pm1, cannon_scan_capture ChessBoard.new r c dr dc side SCAN_BUDGET
            (r + k * dr + dr) (c + k * dc + dc) pm = some pm1)) ∧
    (∀ r c er ec, playable r c → r - 2 ≤ er → er ≤ r + 2 → c - 2 ≤ ec → ec ≤ c + 2 →
      inGrid er ec) :=
  ⟨by decide, C24_generator_stays_in_grid ChessBoard.new (by decide)⟩

/-! ## The sign of the terms of the score (C25) -/

/-- C25: for every up piece identity and every cell of the 10 x 9 board the
material value plus the positional value at that cell is negative, for every
down piece identity it is positive; and on a well-formed board
`board_calc_score` returns the sum over the playable cells of the term of the
cell, which is negative on a cell with an up piece, positive on a cell with a
down piece and zero on an empty cell. -/
theorem C25_score_terms_signed (cb : ChessBoard) (hwf : WellFormed cb) :
    (∀ (p : Piece) (i : Fin 10) (j : Fin 9), piece_get_side p = PS_UP →
      ∃ v pv, piece_get_value p = some v ∧
        piece_get_pos_value p (i.val : Int) (j.val : Int) = some pv ∧ v + pv < 0) ∧
    (∀ (p : Piece) (i : Fin 10) (j : Fin 9), piece_get_side p = PS_DOWN →
      ∃ v pv, piece_get_value p = some v ∧
        piece_get_pos_value p (i.val : Int) (j.val : Int) = some pv ∧ 0 < v + pv) ∧
    board_calc_score cb = some (sum_of_terms cb) ∧
    (∀ r c, playable r c → ∃ p, cb.get r c = some p ∧
      (piece_get_side p = PS_UP → cell_term cb r c < 0) ∧
      (piece_get_side p = PS_DOWN → 0 < cell_term cb r c) ∧
      (p = P_EE → cell_term cb r c = 0)) := by
  refine ⟨fun p i j hs => ?_, fun p i j hs => ?_, board_calc_score_eq_sum hwf,
    fun r c hpl => ?_⟩
  · obtain ⟨v, pv, hval, hup, _⟩ := piece_term_sign p i j
    obtain ⟨hv, hpv⟩ := hval (by rw [hs]; decide)
    exact ⟨v, pv, hv, hpv, hup hs⟩
  · obtain ⟨v, pv, hval, _, hdown⟩ := piece_term_sign p i j
    obtain ⟨hv, hpv⟩ := hval (by rw [hs]; decide)
    exact ⟨v, pv, hv, hpv, hdown hs⟩
  · obtain ⟨p, hp, h1, h2, h3, _⟩ := cell_term_spec hwf hpl
    exact ⟨p, hp, h1, h2, h3⟩

/-- Witness of C25: the starting position. -/
theorem C25_score_terms_signed_witness :
    WellFormed ChessBoard.new ∧
    (∀ (p : Piece) (i : Fin 10) (j : Fin 9), piece_get_side p = PS_UP →
      ∃ v pv, piece_get_value p = some v ∧
        piece_get_pos_value p (i.val : Int) (j.val : Int) = some pv ∧ v + pv < 0) ∧
    (∀ (p : Piece) (i : Fin 10) (j : Fin 9), piece_get_side p = PS_DOWN →
      ∃ v pv, piece_get_value p = some v ∧
        piece_get_pos_value p (i.val : Int) (j.val : Int) = some pv ∧ 0 < v + pv) ∧
    board_calc_score ChessBoard.new = some (sum_of_terms ChessBoard.new) ∧
    (∀ r c, playable r c → ∃ p, ChessBoard.new.get r c = some p ∧
      (piece_get_side p = PS_UP → cell_term ChessBoard.new r c < 0) ∧
      (piece_get_side p = PS_DOWN → 0 < cell_term ChessBoard.new r c) ∧
      (p = P_EE → cell_term ChessBoard.new r c = 0)) :=
  ⟨by decide, C25_score_terms_signed ChessBoard.new (by decide)⟩

/-! ## The order of the generated moves (C26) -/

/-- C26: on a well-formed board the list generated for a player is ordered by
begin cell in row-major order: for list positions `i < j` the begin cell of
move `i` is not after the begin cell of move `j`, rows compared first and
columns second.  Hence the moves that start on one cell are contiguous: a
move between two moves with the same begin cell has that begin cell too. -/
theorem C26_moves_in_row_major_order (cb : ChessBoard) (hwf : WellFormed cb)
    (side : PieceSide) (hs : isPlayer side) :
    ∃ L, gen_possible_moves cb side = some L ∧
      (∀ (i j : Nat) (m1 m2 : MoveNode), i < j → L[i]? = some m1 → L[j]? = some m2 →
        rowMajorLE m1 m2) ∧
      (∀ (i j l : Nat) (m1 m2 m3 : MoveNode), i < j → j < l → L[i]? = some m1 →
        L[j]? = some m2 → L[l]? = some m3 → sameBegin m1 m3 → sameBegin m1 m2) := by
  obtain ⟨L, hL, hpw⟩ := gen_possible_moves_sorted hwf hs
  have hord : ∀ (i j : Nat) (m1 m2 : MoveNode), i < j → L[i]? = some m1 → L[j]? = some m2 →
      rowMajorLE m1 m2 := by
    intro i j m1 m2 hij h1 h2
    obtain ⟨hi, rfl⟩ := List.getElem?_eq_some.1 h1
    obtain ⟨hj, rfl⟩ := List.getElem?_eq_some.1 h2
    exact List.pairwise_iff_getElem.1 hpw i j hi hj hij
  refine ⟨L, hL, hord, fun i j l m1 m2 m3 hij hjl h1 h2 h3 hsame => ?_⟩
  have h12 := hord i j m1 m2 hij h1 h2
  have h23 := hord j l m2 m3 hjl h2 h3
  unfold rowMajorLE at h12 h23
  unfold sameBegin at hsame ⊢
  omega

/-- Witness of C26: the starting position, down to move. -/
theorem C26_moves_in_row_major_order_witness :
    WellFormed ChessBoard.new ∧ isPlayer PS_DOWN ∧
    ∃ L, gen_possible_moves ChessBoard.new PS_DOWN = some L ∧
      (∀ (i j : Nat) (m1 m2 : MoveNode), i < j → L[i]? = some m1 → L[j]? = some m2 →
        rowMajorLE m1 m2) ∧
      (∀ (i j l : Nat) (m1 m2 m3 : MoveNode), i < j → j < l → L[i]? = some m1 →
        L[j]? = some m2 → L[l]? = some m3 → sameBegin m1 m3 → sameBegin m1 m2) :=
  ⟨by decide, by decide,
    C26_moves_in_row_major_order ChessBoard.new (by decide) PS_DOWN (by decide)⟩

/-! ## The two move generators (C29) -/

/-- C29 (evaluated on the code): on the starting position the generator of
the namespace variant returns 39 moves for down and the generator of the
single-file variant 44, so the two lists differ; the same for up.  The
namespace list is the single-file list without the moves that start on a
pawn.  On every board without a pawn of the side on the playable region the
two generators agree. -/
theorem C29_generators_differ_on_pawns :
    (∃ L1 L2, gen_possible_moves ChessBoard.new PS_DOWN = some L1 ∧
      single_file.gen_possible_moves ChessBoard.new PS_DOWN = some L2 ∧
      L1.length = 39 ∧ L2.length = 44 ∧ L1 ≠ L2 ∧
      (⟨8, 2, 7, 2⟩ : MoveNode) ∈ L2 ∧ (⟨8, 2, 7, 2⟩ : MoveNode) ∉ L1 ∧
      L1 = L2.filter fun m => decide (ChessBoard.new.get m.beginRow m.beginCol ≠ some P_DP)) ∧
    (∃ L1 L2, gen_possible_moves ChessBoard.new PS_UP = some L1 ∧
      single_file.gen_possible_moves ChessBoard.new PS_UP = some L2 ∧
      L1.length = 39 ∧ L2.length = 44 ∧ L1 ≠ L2 ∧
      (⟨5, 2, 6, 2⟩ : MoveNode) ∈ L2 ∧ (⟨5, 2, 6, 2⟩ : MoveNode) ∉ L1 ∧
      L1 = L2.filter fun m => decide (ChessBoard.new.get m.beginRow m.beginCol ≠ some P_UP)) ∧
    (∀ (cb : ChessBoard) (side : PieceSide),
      (∀ r c p, playable r c → cb.get r c = some p → piece_get_side p = side →
        piece_get_type p ≠ PT_PAWN) →
      single_file.gen_possible_moves cb side = gen_possible_moves cb side) := by
  refine ⟨⟨_, _, rfl, rfl, ?_⟩, ⟨_, _, rfl, rfl, ?_⟩, single_file_eq_of_no_pawn⟩
  · decide
  · decide

/-! # Text of moves and score changes -/

/-! ## Moves as text -/

theorem static_cast_char_of_char (c : Char) (h : c.toNat < 256) :
    static_cast_char (c.toNat : Int) = c := by
  unfold static_cast_char
  have : ((c.toNat : Int) % 256).toNat = c.toNat := by omega
  rw [this, Char.ofNat_toNat]

theorem static_cast_char_letter (x : Int) (h1 : 0 ≤ x) (h2 : x ≤ 8) :
    ((static_cast_char (x + ('a'.toNat : Int))).toNat : Int) = x + 97 := by
  interval_cases x <;> rfl

theorem static_cast_char_digit (x : Int) (h1 : 0 ≤ x) (h2 : x ≤ 9) :
    ((static_cast_char (x + ('0'.toNat : Int))).toNat : Int) = x + 48 := by
  interval_cases x <;> rfl

/-- What `check_input_is_a_move` accepts: at least four characters, a letter
`a..i`, a digit, a letter `a..i`, a digit. -/
theorem check_input_is_a_move_iff (input : List Char) :
    check_input_is_a_move input = some true ↔
      ∃ c0 c1 c2 c3 rest, input = c0 :: c1 :: c2 :: c3 :: rest ∧
        97 ≤ c0.toNat ∧ c0.toNat ≤ 105 ∧ 48 ≤ c1.toNat ∧ c1.toNat ≤ 57 ∧
        97 ≤ c2.toNat ∧ c2.toNat ≤ 105 ∧ 48 ≤ c3.toNat ∧ c3.toNat ≤ 57 := by
  have ea : 'a'.toNat = 97 := rfl
  have ei : 'i'.toNat = 105 := rfl
  have e0 : '0'.toNat = 48 := rfl
  have e9 : '9'.toNat = 57 := rfl
  rcases input with _ | ⟨c0, _ | ⟨c1, _ | ⟨c2, _ | ⟨c3, rest⟩⟩⟩⟩
  · simp [check_input_is_a_move]
  · simp [check_input_is_a_move]
  · simp [check_input_is_a_move]
  · simp [check_input_is_a_move]
  · simp only [check_input_is_a_move, ea, ei, e0, e9, List.length_cons]
    rw [if_neg (by omega)]
    simp only [List.getElem?_cons_zero, List.getElem?_cons_succ, Option.bind_eq_bind,
      Option.some_bind, Option.pure_def, Option.some.injEq, Bool.and_eq_true,
      decide_eq_true_eq, List.cons.injEq]
    constructor
    · rintro ⟨⟨⟨⟨h1, h2⟩, h3, h4⟩, h5, h6⟩, h7, h8⟩
      exact ⟨c0, c1, c2, c3, rest, ⟨rfl, rfl, rfl, rfl, rfl⟩, h1, h2, h3, h4, h5, h6, h7, h8⟩
    · rintro ⟨d0, d1, d2, d3, rest1, ⟨rfl, rfl, rfl, rfl, rfl⟩, h1, h2, h3, h4, h5, h6, h7, h8⟩
      exact ⟨⟨⟨⟨h1, h2⟩, h3, h4⟩, h5, h6⟩, h7, h8⟩

/-- An accepted input converts to a move on the playable region whose text is
the first four characters of the input. -/
theorem convert_input_to_move_of_accepted (input : List Char)
    (hacc : check_input_is_a_move input = some true) :
    ∃ m, convert_input_to_move input = some m ∧ playable m.beginRow m.beginCol ∧
      playable m.endRow m.endCol ∧ convert_move_to_str m = input.take 4 := by
  obtain ⟨c0, c1, c2, c3, rest, rfl, h1, h2, h3, h4, h5, h6, h7, h8⟩ :=
    (check_input_is_a_move_iff input).1 hacc
  have ea : ('a'.toNat : Int) = 97 := rfl
  have e0 : ('0'.toNat : Int) = 48 := rfl
  have eb : BOARD_ACTUAL_ROW_BEGIN = 2 := rfl
  have ec : BOARD_ACTUAL_COL_BEGIN = 2 := rfl
  have hconv : convert_input_to_move (c0 :: c1 :: c2 :: c3 :: rest) =
      some ⟨9 - ((c1.toNat : Int) - ('0'.toNat : Int)) + BOARD_ACTUAL_ROW_BEGIN,
        (c0.toNat : Int) - ('a'.toNat : Int) + BOARD_ACTUAL_COL_BEGIN,
        9 - ((c3.toNat : Int) - ('0'.toNat : Int)) + BOARD_ACTUAL_ROW_BEGIN,
        (c2.toNat : Int) - ('a'.toNat : Int) + BOARD_ACTUAL_COL_BEGIN⟩ := by
    simp only [convert_input_to_move, List.getElem?_cons_zero, List.getElem?_cons_succ,
      Option.bind_eq_bind, Option.some_bind, Option.pure_def]
  refine ⟨_, hconv, ?_, ?_, ?_⟩
  · simp only [ea, e0, eb, ec]
    unfold playable
    omega
  · simp only [ea, e0, eb, ec]
    unfold playable
    omega
  · simp only [convert_move_to_str, List.take_succ_cons, List.take_zero, ea, e0, eb, ec]
    have k0 : (c0.toNat : Int) - 97 + 2 - 2 + 97 = (c0.toNat : Int) := by ring
    have k1 : 9 - (9 - ((c1.toNat : Int) - 48) + 2 - 2) + 48 = (c1.toNat : Int) := by ring
    have k2 : (c2.toNat : Int) - 97 + 2 - 2 + 97 = (c2.toNat : Int) := by ring
    have k3 : 9 - (9 - ((c3.toNat : Int) - 48) + 2 - 2) + 48 = (c3.toNat : Int) := by ring
    rw [k0, k1, k2, k3, static_cast_char_of_char c0 (by omega),
      static_cast_char_of_char c1 (by omega), static_cast_char_of_char c2 (by omega),
      static_cast_char_of_char c3 (by omega)]

/-- The text of a move on the playable region is accepted and converts back
to the move. -/
theorem convert_move_to_str_roundtrip (m : MoveNode) (hb : playable m.beginRow m.beginCol)
    (he : playable m.endRow m.endCol) :
    check_input_is_a_move (convert_move_to_str m) = some true ∧
    convert_input_to_move (convert_move_to_str m) = some m := by
  unfold playable at hb he
  have eb : BOARD_ACTUAL_ROW_BEGIN = 2 := rfl
  have ec : BOARD_ACTUAL_COL_BEGIN = 2 := rfl
  have k0 := static_cast_char_letter (m.beginCol - 2) (by omega) (by omega)
  have k1 := static_cast_char_digit (9 - (m.beginRow - 2)) (by omega) (by omega)
  have k2 := static_cast_char_letter (m.endCol - 2) (by omega) (by omega)
  have k3 := static_cast_char_digit (9 - (m.endRow - 2)) (by omega) (by omega)
  constructor
  · rw [check_input_is_a_move_iff]
    refine ⟨_, _, _, _, [], rfl, ?_⟩
    simp only [eb, ec]
    omega
  · simp only [convert_input_to_move, convert_move_to_str, List.getElem?_cons_zero,
      List.getElem?_cons_succ, Option.bind_eq_bind, Option.some_bind, Option.pure_def, eb, ec]
    rw [k0, k1, k2, k3]
    have ea : ('a'.toNat : Int) = 97 := rfl
    have e0 : ('0'.toNat : Int) = 48 := rfl
    rw [ea, e0]
    congr 1
    cases m
    simp only [MoveNode.mk.injEq]
    omega

/-! ## The score after a move -/

theorem cell_term_congr {cb cb1 : ChessBoard} {r c : Int} (h : cb1.get r c = cb.get r c) :
    cell_term cb1 r c = cell_term cb r c := by
  unfold cell_term
  rw [h]

/-- The term of a cell that holds a piece of a player. -/
theorem cell_term_of_piece {cb : ChessBoard} {r c : Int} (hpl : playable r c) {p : Piece}
    (hp : cb.get r c = some p) (hs : piece_get_side p ≠ PS_EXTRA) :
    ∃ v pv, piece_get_value p = some v ∧
      piece_get_pos_value p (r - BOARD_ACTUAL_ROW_BEGIN) (c - BOARD_ACTUAL_COL_BEGIN) = some pv ∧
      cell_term cb r c = v + pv := by
  have hpl1 := hpl
  unfold playable at hpl1
  obtain ⟨v, pv, hval, _, _⟩ :=
    piece_term_sign p ⟨(r - 2).toNat, by omega⟩ ⟨(c - 2).toNat, by omega⟩
  have er : (((r - 2).toNat : Nat) : Int) = r - BOARD_ACTUAL_ROW_BEGIN := by
    unfold BOARD_ACTUAL_ROW_BEGIN; omega
  have ec : (((c - 2).toNat : Nat) : Int) = c - BOARD_ACTUAL_COL_BEGIN := by
    unfold BOARD_ACTUAL_COL_BEGIN; omega
  simp only [er, ec] at hval
  obtain ⟨hv, hpv⟩ := hval hs
  refine ⟨v, pv, hv, hpv, ?_⟩
  unfold cell_term
  simp only [hp, hs, if_false, hv, hpv, Option.getD_some]

theorem cell_term_of_empty {cb : ChessBoard} {r c : Int} (hp : cb.get r c = some P_EE) :
    cell_term cb r c = 0 := by
  unfold cell_term
  simp only [hp]
  rfl

/-- The sum over the playable region of a function that vanishes off one
playable cell is its value there. -/
theorem sum_indicator {r0 c0 : Int} (hpl : playable r0 c0) (a : Int) :
    (∑ i ∈ Finset.range 10, ∑ j ∈ Finset.range 9,
      if 2 + (i : Int) = r0 ∧ 2 + (j : Int) = c0 then a else 0) = a := by
  unfold playable at hpl
  have hi0 : (r0 - 2).toNat ∈ Finset.range 10 := by
    rw [Finset.mem_range]; omega
  have hj0 : (c0 - 2).toNat ∈ Finset.range 9 := by
    rw [Finset.mem_range]; omega
  rw [Finset.sum_eq_single_of_mem (r0 - 2).toNat hi0]
  · rw [Finset.sum_eq_single_of_mem (c0 - 2).toNat hj0]
    · rw [if_pos]
      constructor <;> omega
    · intro j _ hj
      rw [if_neg]
      rintro ⟨_, h2⟩
      exact hj (by omega)
  · intro i _ hi
    apply Finset.sum_eq_zero
    intro j _
    rw [if_neg]
    rintro ⟨h1, _⟩
    exact hi (by omega)

/-- A move between two different playable cells changes the sum of the terms
by the changes of the terms of these two cells. -/
theorem sum_of_terms_move {cb cb1 : ChessBoard} {m : MoveNode}
    (hb : playable m.beginRow m.beginCol) (he : playable m.endRow m.endCol)
    (hne : (m.endRow, m.endCol) ≠ (m.beginRow, m.beginCol))
    (hget : ∀ r c, (r, c) ≠ (m.beginRow, m.beginCol) → (r, c) ≠ (m.endRow, m.endCol) →
      cb1.get r c = cb.get r c) :
    sum_of_terms cb1 - sum_of_terms cb =
      (cell_term cb1 m.endRow m.endCol - cell_term cb m.endRow m.endCol) +
      (cell_term cb1 m.beginRow m.beginCol - cell_term cb m.beginRow m.beginCol) := by
  have hpoint : ∀ (i j : Nat),
      cell_term cb1 (2 + (i : Int)) (2 + (j : Int)) - cell_term cb (2 + (i : Int)) (2 + (j : Int)) =
        (if 2 + (i : Int) = m.endRow ∧ 2 + (j : Int) = m.endCol
          then cell_term cb1 m.endRow m.endCol - cell_term cb m.endRow m.endCol else 0) +
        (if 2 + (i : Int) = m.beginRow ∧ 2 + (j : Int) = m.beginCol
          then cell_term cb1 m.beginRow m.beginCol - cell_term cb m.beginRow m.beginCol
          else 0) := by
    intro i j
    by_cases h1 : 2 + (i : Int) = m.endRow ∧ 2 + (j : Int) = m.endCol
    · have h2 : ¬ (2 + (i : Int) = m.beginRow ∧ 2 + (j : Int) = m.beginCol) := by
        rintro ⟨h3, h4⟩
        exact hne (Prod.ext (h1.1.symm.trans h3) (h1.2.symm.trans h4))
      rw [if_pos h1, if_neg h2, h1.1, h1.2, add_zero]
    · by_cases h2 : 2 + (i : Int) = m.beginRow ∧ 2 + (j : Int) = m.beginCol
      · rw [if_neg h1, if_pos h2, h2.1, h2.2, zero_add]
      · rw [if_neg h1, if_neg h2, add_zero]
        have h3 := hget (2 + (i : Int)) (2 + (j : Int))
          (fun h => h2 ⟨congrArg Prod.fst h, congrArg Prod.snd h⟩)
          (fun h => h1 ⟨congrArg Prod.fst h, congrArg Prod.snd h⟩)
        rw [cell_term_congr h3, sub_self]
  unfold sum_of_terms
  rw [← Finset.sum_sub_distrib]
  have hrow : ∀ i ∈ Finset.range 10,
      (∑ j ∈ Finset.range 9, cell_term cb1 (2 + (i : Int)) (2 + (j : Int))) -
        (∑ j ∈ Finset.range 9, cell_term cb (2 + (i : Int)) (2 + (j : Int))) =
      (∑ j ∈ Finset.range 9,
        if 2 + (i : Int) = m.endRow ∧ 2 + (j : Int) = m.endCol
          then cell_term cb1 m.endRow m.endCol - cell_term cb m.endRow m.endCol else 0) +
      (∑ j ∈ Finset.range 9,
        if 2 + (i : Int) = m.beginRow ∧ 2 + (j : Int) = m.beginCol
          then cell_term cb1 m.beginRow m.beginCol - cell_term cb m.beginRow m.beginCol
          else 0) := by
    intro i _
    rw [← Finset.sum_sub_distrib, ← Finset.sum_add_distrib]
    exact Finset.sum_congr rfl fun j _ => hpoint i j
  rw [Finset.sum_congr rfl hrow, Finset.sum_add_distrib, sum_indicator he, sum_indicator hb]

/-- The change of the score by a good move: the moved piece changes its
positional value, a captured piece loses its term. -/
theorem board_calc_score_move {cb : ChessBoard} (hwf : WellFormed cb) {side : PieceSide}
    (hs : isPlayer side) {m : MoveNode} (hg : GoodMove cb side m) :
    ∃ cb1 p q s0 s1 posBegin posEnd,
      cb.get m.beginRow m.beginCol = some p ∧ cb.get m.endRow m.endCol = some q ∧
      cb.move m = some cb1 ∧ board_calc_score cb = some s0 ∧ board_calc_score cb1 = some s1 ∧
      piece_get_pos_value p (m.beginRow - BOARD_ACTUAL_ROW_BEGIN)
        (m.beginCol - BOARD_ACTUAL_COL_BEGIN) = some posBegin ∧
      piece_get_pos_value p (m.endRow - BOARD_ACTUAL_ROW_BEGIN)
        (m.endCol - BOARD_ACTUAL_COL_BEGIN) = some posEnd ∧
      (q = P_EE → s1 - s0 = posEnd - posBegin) ∧
      (q ≠ P_EE → ∃ vq pq, piece_get_value q = some vq ∧
        piece_get_pos_value q (m.endRow - BOARD_ACTUAL_ROW_BEGIN)
          (m.endCol - BOARD_ACTUAL_COL_BEGIN) = some pq ∧
        s1 - s0 = posEnd - posBegin - (vq + pq)) := by
  obtain ⟨hb, ⟨p0, hp0, hside⟩, hne, he, q0, hq0, hqne, hq⟩ := hg
  obtain ⟨cb1, p, q, hp, hq1, hmove, _, hget⟩ :=
    move_get cb m (inGrid_of_playable hb) (inGrid_of_playable he)
  rw [hp0] at hp
  cases hp
  rw [hq0] at hq1
  cases hq1
  obtain ⟨cb2, hmove2, hwf1, _⟩ := goodMove_move hwf hs ⟨hb, ⟨p0, hp0, hside⟩, hne, he, q0, hq0, hqne, hq⟩
  rw [hmove] at hmove2
  cases hmove2
  have hne2 : ¬ (m.beginRow = m.endRow ∧ m.beginCol = m.endCol) := by
    rintro ⟨h1, h2⟩
    exact hne (Prod.ext h1.symm h2.symm)
  have hgetE : cb1.get m.endRow m.endCol = some p0 := by
    rw [hget, if_pos ⟨rfl, rfl⟩]
  have hgetB : cb1.get m.beginRow m.beginCol = some P_EE := by
    rw [hget, if_neg hne2, if_pos ⟨rfl, rfl⟩]
  have hgetO : ∀ r c, (r, c) ≠ (m.beginRow, m.beginCol) → (r, c) ≠ (m.endRow, m.endCol) →
      cb1.get r c = cb.get r c := by
    intro r c h1 h2
    have h3 : ¬ (r = m.endRow ∧ c = m.endCol) := by
      rintro ⟨rfl, rfl⟩
      exact h2 rfl
    have h4 : ¬ (r = m.beginRow ∧ c = m.beginCol) := by
      rintro ⟨rfl, rfl⟩
      exact h1 rfl
    rw [hget, if_neg h3, if_neg h4]
  have hsum := sum_of_terms_move hb he hne hgetO
  have hpside : piece_get_side p0 ≠ PS_EXTRA := by
    rw [hside]
    exact (extra_ne hs).symm
  obtain ⟨vB, posBegin, hvB, hposB, htB⟩ := cell_term_of_piece hb hp0 hpside
  obtain ⟨vE, posEnd, hvE, hposE, htE⟩ := cell_term_of_piece he hgetE hpside
  rw [hvB] at hvE
  cases hvE
  rw [htE, htB, cell_term_of_empty hgetB] at hsum
  refine ⟨cb1, p0, q0, sum_of_terms cb, sum_of_terms cb1, posBegin, posEnd, hp0, hq0, hmove,
    board_calc_score_eq_sum hwf, board_calc_score_eq_sum hwf1, hposB, hposE, fun hqe => ?_,
    fun hqe => ?_⟩
  · subst hqe
    rw [cell_term_of_empty hq0] at hsum
    rw [hsum]
    ring
  · have hqside : piece_get_side q0 ≠ PS_EXTRA := by
      rcases hq with h | h
      · exact absurd h hqe
      · rw [h]
        exact reverse_ne_extra hs
    obtain ⟨vq, pq, hvq, hpq, htq⟩ := cell_term_of_piece he hq0 hqside
    rw [htq] at hsum
    refine ⟨vq, pq, hvq, hpq, ?_⟩
    rw [hsum]
    ring

/-! # The claims about the evaluation, the counts and the console -/

/-! ## The score after a move (C31) -/

/-- C31: on a well-formed board the generator returns a list for a player,
and for every move `m` of the list, with `p` the piece on the begin cell and
`q` the content of the end cell, the score after `ChessBoard::move` minus the
score before is the positional value of `p` at the end cell minus its
positional value at the begin cell, minus nothing when `q` is empty, and
minus the material value of `q` plus its positional value at the end cell
when `q` is a captured piece; positional values are taken at table row
`row - 2` and table column `col - 2`. -/
theorem C31_score_change_of_move (cb : ChessBoard) (hwf : WellFormed cb) (side : PieceSide)
    (hs : isPlayer side) :
    ∃ L, gen_possible_moves cb side = some L ∧ ∀ m ∈ L,
      ∃ cb1 p q s0 s1 posBegin posEnd,
        cb.get m.beginRow m.beginCol = some p ∧ cb.get m.endRow m.endCol = some q ∧
        cb.move m = some cb1 ∧ board_calc_score cb = some s0 ∧
        board_calc_score cb1 = some s1 ∧
        piece_get_pos_value p (m.beginRow - 2) (m.beginCol - 2) = some posBegin ∧
        piece_get_pos_value p (m.endRow - 2) (m.endCol - 2) = some posEnd ∧
        (q = P_EE → s1 - s0 = posEnd - posBegin) ∧
        (q ≠ P_EE → ∃ vq pq, piece_get_value q = some vq ∧
          piece_get_pos_value q (m.endRow - 2) (m.endCol - 2) = some pq ∧
          s1 - s0 = posEnd - posBegin - (vq + pq)) := by
  obtain ⟨L, hL, hgood⟩ := gen_possible_moves_spec hwf hs
  refine ⟨L, hL, fun m hm => ?_⟩
  obtain ⟨cb1, p, q, s0, s1, posBegin, posEnd, h1, h2, h3, h4, h5, h6, h7, h8, h9⟩ :=
    board_calc_score_move hwf hs (hgood m hm)
  exact ⟨cb1, p, q, s0, s1, posBegin, posEnd, h1, h2, h3, h4, h5, h6, h7, h8, h9⟩

/-- Witness of C31: the starting position, up to move (the list holds the
cannon capture (4, 3) -> (11, 3) and quiet moves). -/
theorem C31_score_change_of_move_witness :
    WellFormed ChessBoard.new ∧ isPlayer PS_UP ∧
    ∃ L, gen_possible_moves ChessBoard.new PS_UP = some L ∧ ∀ m ∈ L,
      ∃ cb1 p q s0 s1 posBegin posEnd,
        ChessBoard.new.get m.beginRow m.beginCol = some p ∧
        ChessBoard.new.get m.endRow m.endCol = some q ∧
        ChessBoard.new.move m = some cb1 ∧ board_calc_score ChessBoard.new = some s0 ∧
        board_calc_score cb1 = some s1 ∧
        piece_get_pos_value p (m.beginRow - 2) (m.beginCol - 2) = some posBegin ∧
        piece_get_pos_value p (m.endRow - 2) (m.endCol - 2) = some posEnd ∧
        (q = P_EE → s1 - s0 = posEnd - posBegin) ∧
        (q ≠ P_EE → ∃ vq pq, piece_get_value q = some vq ∧
          piece_get_pos_value q (m.endRow - 2) (m.endCol - 2) = some pq ∧
          s1 - s0 = posEnd - posBegin - (vq + pq)) :=
  ⟨by decide, by decide,
    C31_score_change_of_move ChessBoard.new (by decide) PS_UP (by decide)⟩

/-! ## Symmetry and the starting score (C32, C33) -/

/-- C32 (evaluated on the code): the material values are antisymmetric, and
the positional tables of pawn, cannon, rook, knight, bishop and general are
mirror images with opposite sign, but the advisor tables are not: the up
advisor has its `-3` on the centre of its palace, table cell (1, 4), while the
down advisor has its `+3` on table cell (7, 4) and `0` on the centre (8, 4).
On the well-formed board whose only piece is the down advisor on the centre of
its palace the score is `10`, and on the flipped board it is `-13`, not
`-10`. -/
theorem C32_advisor_tables_not_mirrored :
    (∀ p : Piece, piece_get_side p = PS_UP →
      ∃ v, piece_get_value p = some v ∧ piece_get_value (flip_piece p) = some (-v)) ∧
    (∀ (p : Piece) (i : Fin 10) (j : Fin 9), piece_get_side p = PS_UP → p ≠ P_UA →
      ∃ pv, piece_get_pos_value p (9 - (i.val : Int)) (j.val : Int) = some pv ∧
        piece_get_pos_value (flip_piece p) (i.val : Int) (j.val : Int) = some (-pv)) ∧
    piece_get_pos_value P_UA 1 4 = some (-3) ∧ piece_get_pos_value P_DA 8 4 = some 0 ∧
    piece_get_pos_value P_UA 2 4 = some 0 ∧ piece_get_pos_value P_DA 7 4 = some 3 ∧
    WellFormed LONE_DOWN_ADVISOR ∧ WellFormed (flip LONE_DOWN_ADVISOR) ∧
    LONE_DOWN_ADVISOR.get 10 6 = some P_DA ∧ (flip LONE_DOWN_ADVISOR).get 3 6 = some P_UA ∧
    board_calc_score LONE_DOWN_ADVISOR = some 10 ∧
    board_calc_score (flip LONE_DOWN_ADVISOR) = some (-13) := by
  refine ⟨?_, ?_, by decide, by decide, by decide, by decide, by decide, by decide, by decide,
    by decide, by decide, by decide⟩
  · intro p
    cases p <;> decide
  · intro p
    cases p <;> decide

/-- C33: `board_calc_score` of the starting position is 0. -/
theorem C33_starting_score_zero :
    board_calc_score ChessBoard.new = some 0 ∧ sum_of_terms ChessBoard.new = 0 := by
  have h : board_calc_score ChessBoard.new = some 0 := by decide
  refine ⟨h, ?_⟩
  have h2 := board_calc_score_eq_sum (by decide : WellFormed ChessBoard.new)
  rw [h] at h2
  exact (Option.some.inj h2).symm

/-! ## The moves of the starting position (C34) -/

/-- C34: on the starting position, which is the layout
`DEFAULT_CHESS_BOARD_DATA`, the move generator of the single-file variant
returns for up and for down a list of exactly 44 moves without repetition: 5
pawn moves, 24 cannon moves, 4 rook moves, 4 knight moves, 4 bishop moves, 2
advisor moves and 1 general move. -/
theorem C34_starting_position_has_44_moves :
    boardOfRows single_file.DEFAULT_CHESS_BOARD_DATA = ChessBoard.new ∧
    ∀ side, isPlayer side →
      ∃ L, single_file.gen_possible_moves ChessBoard.new side = some L ∧
        L.length = 44 ∧ L.Nodup ∧
        (movesOfKind ChessBoard.new PT_PAWN L).length = 5 ∧
        (movesOfKind ChessBoard.new PT_CANNON L).length = 24 ∧
        (movesOfKind ChessBoard.new PT_ROOK L).length = 4 ∧
        (movesOfKind ChessBoard.new PT_KNIGHT L).length = 4 ∧
        (movesOfKind ChessBoard.new PT_BISHOP L).length = 4 ∧
        (movesOfKind ChessBoard.new PT_ADVISOR L).length = 2 ∧
        (movesOfKind ChessBoard.new PT_GENERAL L).length = 1 := by
  refine ⟨by decide, fun side hs => ?_⟩
  rcases hs with rfl | rfl
  · exact ⟨_, rfl, by decide⟩
  · exact ⟨_, rfl, by decide⟩

/-! ## The table look-ups of the evaluation (C35) -/

/-- C35: on a well-formed board `board_calc_score` returns a score, so none of
its table look-ups leaves its table.  The tables have 14, and 14 x 10 x 9,
entries; on a playable cell the loop body makes no look-up when the cell is
empty, and otherwise the piece is one of the 14 real piece identities, the
table row `r - 2` lies in 0..9, the table column `c - 2` in 0..8, and both
look-ups return a value. -/
theorem C35_score_lookups_in_range (cb : ChessBoard) (hwf : WellFormed cb) :
    (∃ v, board_calc_score cb = some v) ∧
    pieceValueMapping.length = 14 ∧ piecePosValueMapping.length = 14 ∧
    (∀ tbl ∈ piecePosValueMapping, tbl.length = 10 ∧ ∀ row ∈ tbl, row.length = 9) ∧
    ∀ r c, playable r c → ∃ p, cb.get r c = some p ∧
      (p = P_EE → ∀ t, board_calc_score_cell cb r c t = some t) ∧
      (p ≠ P_EE → p ≠ P_EO ∧ p.toNat < 14 ∧
        0 ≤ r - BOARD_ACTUAL_ROW_BEGIN ∧ r - BOARD_ACTUAL_ROW_BEGIN ≤ 9 ∧
        0 ≤ c - BOARD_ACTUAL_COL_BEGIN ∧ c - BOARD_ACTUAL_COL_BEGIN ≤ 8 ∧
        ∃ v pv, piece_get_value p = some v ∧
          piece_get_pos_value p (r - BOARD_ACTUAL_ROW_BEGIN) (c - BOARD_ACTUAL_COL_BEGIN)
            = some pv ∧
          ∀ t, board_calc_score_cell cb r c t = some (t + v + pv)) := by
  refine ⟨⟨_, board_calc_score_eq_sum hwf⟩, by decide, by decide, by decide,
    fun r c hpl => ?_⟩
  obtain ⟨p, hp, hiff⟩ := wf_get hwf (inGrid_of_playable hpl)
  have hne : p ≠ P_EO := hiff.2 hpl
  have hpl1 := hpl
  unfold playable at hpl1
  refine ⟨p, hp, fun hpe t => ?_, fun hpe => ?_⟩
  · unfold board_calc_score_cell
    simp [hp, hpe]
  · obtain ⟨v, pv, hv, hpv, _, _⟩ :=
      piece_term_bound p ⟨(r - 2).toNat, by omega⟩ ⟨(c - 2).toNat, by omega⟩ hpe hne
    have er : (((r - 2).toNat : Nat) : Int) = r - BOARD_ACTUAL_ROW_BEGIN := by
      unfold BOARD_ACTUAL_ROW_BEGIN; omega
    have ec : (((c - 2).toNat : Nat) : Int) = c - BOARD_ACTUAL_COL_BEGIN := by
      unfold BOARD_ACTUAL_COL_BEGIN; omega
    simp only [er, ec] at hpv
    have hlt : p.toNat < 14 := by
      cases p <;> first | (exact absurd rfl hpe) | (exact absurd rfl hne) | decide
    refine ⟨hne, hlt, ?_, ?_, ?_, ?_, v, pv, hv, hpv, fun t => ?_⟩
    · unfold BOARD_ACTUAL_ROW_BEGIN; omega
    · unfold BOARD_ACTUAL_ROW_BEGIN; omega
    · unfold BOARD_ACTUAL_COL_BEGIN; omega
    · unfold BOARD_ACTUAL_COL_BEGIN; omega
    · unfold board_calc_score_cell
      simp [hp, hpe, hv, hpv]

/-- Witness of C35: the starting position. -/
theorem C35_score_lookups_in_range_witness :
    WellFormed ChessBoard.new ∧
    (∃ v, board_calc_score ChessBoard.new = some v) ∧
    pieceValueMapping.length = 14 ∧ piecePosValueMapping.length = 14 ∧
    (∀ tbl ∈ piecePosValueMapping, tbl.length = 10 ∧ ∀ row ∈ tbl, row.length = 9) ∧
    ∀ r c, playable r c → ∃ p, ChessBoard.new.get r c = some p ∧
      (p = P_EE → ∀ t, board_calc_score_cell ChessBoard.new r c t = some t) ∧
      (p ≠ P_EE → p ≠ P_EO ∧ p.toNat < 14 ∧
        0 ≤ r - BOARD_ACTUAL_ROW_BEGIN ∧ r - BOARD_ACTUAL_ROW_BEGIN ≤ 9 ∧
        0 ≤ c - BOARD_ACTUAL_COL_BEGIN ∧ c - BOARD_ACTUAL_COL_BEGIN ≤ 8 ∧
        ∃ v pv, piece_get_value p = some v ∧
          piece_get_pos_value p (r - BOARD_ACTUAL_ROW_BEGIN) (c - BOARD_ACTUAL_COL_BEGIN)
            = some pv ∧
          ∀ t, board_calc_score_cell ChessBoard.new r c t = some (t + v + pv)) :=
  ⟨by decide, C35_score_lookups_in_range ChessBoard.new (by decide)⟩

/-! ## Moves as text (C36) -/

/-- C36: for every input accepted by `check_input_is_a_move`,
`convert_input_to_move` yields a move whose begin and end cells lie in the
playable region, and `convert_move_to_str` of that move is the first four
characters of the input; and for every move with both cells in the playable
region `convert_move_to_str` gives an accepted text that
`convert_input_to_move` converts back to the move. -/
theorem C36_move_text_roundtrip (input : List Char) (m : MoveNode)
    (hacc : check_input_is_a_move input = some true)
    (hm : playable m.beginRow m.beginCol ∧ playable m.endRow m.endCol) :
    (∃ m1, convert_input_to_move input = some m1 ∧ playable m1.beginRow m1.beginCol ∧
      playable m1.endRow m1.endCol ∧ convert_move_to_str m1 = input.take 4) ∧
    check_input_is_a_move (convert_move_to_str m) = some true ∧
    convert_input_to_move (convert_move_to_str m) = some m := by
  obtain ⟨m1, h1, h2, h3, h4⟩ := convert_input_to_move_of_accepted input hacc
  obtain ⟨h5, h6⟩ := convert_move_to_str_roundtrip m hm.1 hm.2
  exact ⟨⟨m1, h1, h2, h3, h4⟩, h5, h6⟩

/-- Witness of C36: the input `b2e2` followed by more characters, and the
cannon capture (4, 3) -> (11, 3). -/
theorem C36_move_text_roundtrip_witness :
    check_input_is_a_move ['b', '2', 'e', '2', ' ', 'x'] = some true ∧
    (playable 4 3 ∧ playable 11 3) ∧
    (∃ m1, convert_input_to_move ['b', '2', 'e', '2', ' ', 'x'] = some m1 ∧
      playable m1.beginRow m1.beginCol ∧ playable m1.endRow m1.endCol ∧
      convert_move_to_str m1 = (['b', '2', 'e', '2', ' ', 'x'] : List Char).take 4) ∧
    check_input_is_a_move (convert_move_to_str ⟨4, 3, 11, 3⟩) = some true ∧
    convert_input_to_move (convert_move_to_str ⟨4, 3, 11, 3⟩) = some ⟨4, 3, 11, 3⟩ :=
  ⟨by decide, by decide,
    C36_move_text_roundtrip ['b', '2', 'e', '2', ' ', 'x'] ⟨4, 3, 11, 3⟩ (by decide)
      (by decide)⟩

/-! ## The difficulty change (C37, C38) -/

/-- C37 (evaluated on the code): in the C variant, when the change is not
declined, the entered value 5 yields difficulty 1, not 5; the entered values
1, 2, 3 and 4 yield themselves. -/
theorem C37_difficulty_five_yields_one :
    single_file_c.state_diff 4 "y" 5 = 1 ∧
    (∀ (difficulty : Nat) (answer : String), answer ≠ "n" →
      single_file_c.state_diff difficulty answer 5 = 1) ∧
    (∀ (difficulty : Nat) (answer : String) (n : Int), answer ≠ "n" → 1 ≤ n → n ≤ 4 →
      single_file_c.state_diff difficulty answer n = n.toNat) := by
  refine ⟨by decide, fun d a ha => ?_, fun d a n ha h1 h2 => ?_⟩
  · unfold single_file_c.state_diff
    rw [if_neg ha]
    decide
  · unfold single_file_c.state_diff
    rw [if_neg ha]
    have h3 : n = 1 ∨ n = 2 ∨ n = 3 ∨ n = 4 := by omega
    rcases h3 with rfl | rfl | rfl | rfl <;> decide

/-- C38 (evaluated on the code): in the single-file C++ variant, when the
change is not declined, the entered value `-1` yields the search depth 65535;
every negative entered value that is not a multiple of 6 yields a depth in
65531..65535.  Every entered value that is not negative yields a depth in
1..5. -/
theorem C38_negative_entry_wraps :
    single_file.state_diff 4 "y" (-1) = 65535 ∧
    (∀ (searchDepth : Nat) (answer : String) (n : Int), answer ≠ "n" → n < 0 →
      Int.tmod n 6 ≠ 0 →
      65531 ≤ single_file.state_diff searchDepth answer n ∧
      single_file.state_diff searchDepth answer n ≤ 65535) ∧
    (∀ (searchDepth : Nat) (answer : String) (n : Int), answer ≠ "n" → 0 ≤ n →
      1 ≤ single_file.state_diff searchDepth answer n ∧
      single_file.state_diff searchDepth answer n ≤ 5) := by
  refine ⟨by decide, fun d a n ha hn hne => ?_, fun d a n ha hn => ?_⟩
  · obtain ⟨k, rfl⟩ := Int.eq_negSucc_of_lt_zero hn
    have h1 : Int.tmod (Int.negSucc k) 6 = -(((k + 1) % 6 : Nat) : Int) := rfl
    unfold single_file.state_diff
    rw [if_neg ha]
    rw [h1] at hne
    simp only [h1]
    split <;> omega
  · have h1 : Int.tmod n 6 = n % 6 := Int.tmod_eq_emod hn (by norm_num)
    unfold single_file.state_diff
    rw [if_neg ha]
    simp only [h1]
    split <;> omega

end cnchess
